import Mathlib

/-!
Boolean function minimiser (Patrick method core).

A shallow embedding of `patrick-method-core.js`.  Strings are lists of characters,
JavaScript numbers that hold non-negative integers are natural numbers, `Set`s and
`Map`s are insertion-ordered lists, and `Infinity` as the initial minimum is `none`.
The arrays of minterms and don't-cares hold such numbers, and an object that maps names
to arrays is the list of its own entries.
-/

namespace PatrickMethod

/-! ## Records -/

/-- Generator result `{pattern, minterms}`. -/
structure Implicant where
  pattern : List Char
  minterms : List Nat
deriving DecidableEq

/-- Generator result of the all-levels mode `{pattern, minterms, level}`. -/
structure LevelImplicant where
  pattern : List Char
  minterms : List Nat
  level : Nat
deriving DecidableEq

/-- Working term of the level loops `{binary, minterms, level}`. -/
structure Term where
  binary : List Char
  minterms : List Nat
  level : Nat
deriving DecidableEq

/-- Working term copied together with its position in the level, `{...term, index}`. -/
structure IndexedTerm where
  binary : List Char
  minterms : List Nat
  level : Nat
  index : Nat
deriving DecidableEq

/-- Candidate of the cover solver: `{pattern, minterms, cost}`. -/
structure PI where
  pattern : List Char
  minterms : List Nat
  cost : Nat
deriving DecidableEq

/-- Solution object of `findAllMinimalCovers`: `{pis, cost}`. -/
structure Cover where
  pis : List PI
  cost : Nat
deriving DecidableEq

/-! ## JavaScript helpers -/

/-- `Set.prototype.add` on an insertion-ordered set. -/
def setAdd {α : Type} [DecidableEq α] (s : List α) (x : α) : List α :=
  if x ∈ s then s else s ++ [x]

/-- `[...new Set(xs)]`: the distinct elements in order of first occurrence. -/
def uniqueOf {α : Type} [DecidableEq α] (xs : List α) : List α :=
  xs.foldl setAdd []

/-- `xs.sort((a, b) => a - b)` on numbers. -/
def sortNumeric (xs : List Nat) : List Nat :=
  xs.insertionSort (fun a b => a ≤ b)

/-- `s.padStart(n, c)`. -/
def padStart (s : List Char) (n : Nat) (c : Char) : List Char :=
  List.replicate (n - s.length) c ++ s

/-- `term.toString(2).padStart(numVars, '0')`. -/
def toBinary (term numVars : Nat) : List Char :=
  padStart (Nat.toDigits 2 term) numVars '0'

/-- `(binary.match(/1/g) || []).length`. -/
def countOnes (binary : List Char) : Nat :=
  binary.count '1'

/-- Truthiness of `combination & (1 << i)`: both operands are taken as 32-bit integers and
the shift count modulo 32. -/
def bitSelected (combination i : Nat) : Bool :=
  Nat.testBit (combination % 2 ^ 32) (i % 32)

/-! ## Term combiner and cost -/

/-- The character loop of `combineBinaryTerms`; `none` is the early `return null`. -/
def combineLoop : List Char → List Char → Nat → List Char → Option (Nat × List Char)
  | [], _, differences, result => some (differences, result)
  | _ :: _, [], differences, result => some (differences, result)
  | a :: as, b :: bs, differences, result =>
    if a ≠ b then
      if differences + 1 > 1 then none
      else combineLoop as bs (differences + 1) (result ++ ['-'])
    else combineLoop as bs differences (result ++ [a])

/-- Source `combineBinaryTerms(bin1, bin2)`; `none` is `null`. -/
def combineBinaryTerms (bin1 bin2 : List Char) : Option (List Char) :=
  if bin1.length ≠ bin2.length then none
  else
    match combineLoop bin1 bin2 0 [] with
    | none => none
    | some (differences, result) => if differences = 1 then some result else none

/-- Source `calculateCost(pattern)`. -/
def calculateCost (pattern : List Char) : Nat :=
  let literalCount := pattern.foldl (fun count c => if c ≠ '-' then count + 1 else count) 0
  if literalCount = 1 then 1 else literalCount + 1

/-! ## Prime-implicant generators -/

/-- The Number nearest to a non-negative integer.  A Number holds 53 significant binary
digits: of a longer integer the leading 53 digits are kept and rounded to nearest, ties to
the even one. -/
def toNumber (value : Nat) : Nat :=
  let size := (Nat.toDigits 2 value).length
  if size ≤ 53 then value
  else
    let dropped := size - 53
    let kept := value / 2 ^ dropped
    let rest := value % 2 ^ dropped
    let half := 2 ^ (dropped - 1)
    if rest < half then kept * 2 ^ dropped
    else if half < rest then (kept + 1) * 2 ^ dropped
    else if kept % 2 = 0 then kept * 2 ^ dropped
    else (kept + 1) * 2 ^ dropped

/-- The first decimal digit of a positive integer; the first argument bounds the number of
divisions. -/
def leadingDigit : Nat → Nat → Nat
  | 0, term => term
  | fuel + 1, term => if term < 10 then term else leadingDigit fuel (term / 10)

/-- The number of decimal digits of a positive integer, less one; the first argument bounds
the number of divisions. -/
def decimalExponent : Nat → Nat → Nat
  | 0, _ => 0
  | fuel + 1, term => if term < 10 then 0 else decimalExponent fuel (term / 10) + 1

/-- The first character of `String(term)` for a Number from 1e21 on, as a digit.  The
string is the exponent notation `d.ddd…e+k` of the shortest decimal that converts back to
the Number.  Its first digit is the first digit `d` of the integer itself, unless the next
decimal with another first digit, `(d + 1)·10^k`, already converts to the Number (as 1e23
does for the Number 99999999999999991611392): then that decimal, of one digit, is the
shortest. -/
def firstDigitOfString (term : Nat) : Nat :=
  let d := leadingDigit term term
  let k := decimalExponent term term
  if toNumber ((d + 1) * 10 ^ k) = term then (if d = 9 then 1 else d + 1) else d

/-- `parseInt(term, 10)` on a Number that holds a non-negative integer.  The argument is
first converted to a string.  Below 1e21 the string is a decimal expansion that converts
back to the Number, and the result is the number itself.  From 1e21 on the string is in
exponent notation (`1e+21`, `1.5e+21`), parsing stops at the point or at the `e`, and the
result is the first digit. -/
def parseDecimal (term : Nat) : Nat :=
  if term < 10 ^ 21 then term else firstDigitOfString term

/-- Level 0 of the generators: `allTerms` is every term (targets, then don't-cares) after
`parseInt(term, 10)`, and every distinct one is written in binary. -/
def initialLevel (minterms : List Nat) (numVars : Nat) (dontCares : List Nat) : List Term :=
  let allTerms := (minterms ++ dontCares).map parseDecimal
  (uniqueOf allTerms).map (fun term => ⟨toBinary term numVars, [term], 0⟩)

/-- `groups[ones].push(t)`, creating the group when the key is new. -/
def groupsPush (groups : List (Nat × List IndexedTerm)) (ones : Nat) (t : IndexedTerm) :
    List (Nat × List IndexedTerm) :=
  match groups with
  | [] => [(ones, [t])]
  | (key, group) :: rest =>
    if key = ones then (key, group ++ [t]) :: rest
    else (key, group) :: groupsPush rest ones t

/-- The copy `{...term, index}` of a term of the level. -/
def toIndexed (e : Nat × Term) : IndexedTerm :=
  ⟨e.2.binary, e.2.minterms, e.2.level, e.1⟩

/-- The `groups` object: the level grouped by number of `1` characters. -/
def buildGroups (currentLevel : List Term) : List (Nat × List IndexedTerm) :=
  currentLevel.enum.foldl
    (fun groups e => groupsPush groups (countOnes e.2.binary) (toIndexed e))
    []

/-- `groups[key]`. -/
def groupOf (groups : List (Nat × List IndexedTerm)) (key : Nat) : List IndexedTerm :=
  (groups.lookup key).getD []

/-- `Object.keys(groups).map(k => parseInt(k)).sort((a, b) => a - b)`. -/
def groupKeys (groups : List (Nat × List IndexedTerm)) : List Nat :=
  sortNumeric (groups.map Prod.fst)

/-- The pair `nextLevel`, `usedIndices` built while one level is combined. -/
structure LevelState where
  nextLevel : List Term
  usedIndices : List Nat
deriving DecidableEq

/-- Body of the innermost loop: try to combine `term1` with `term2`. -/
def combineStep (levelNumber : Nat) (st : LevelState) (term1 term2 : IndexedTerm) :
    LevelState :=
  match combineBinaryTerms term1.binary term2.binary with
  | none => st
  | some combined =>
    { nextLevel :=
        match st.nextLevel.find? (fun t => decide (t.binary = combined)) with
        | some _ => st.nextLevel
        | none => st.nextLevel ++
            [⟨combined, sortNumeric (uniqueOf (term1.minterms ++ term2.minterms)),
              levelNumber + 1⟩]
      usedIndices := setAdd (setAdd st.usedIndices term1.index) term2.index }

/-- The two nested `forEach` loops over a pair of adjacent groups. -/
def combineGroups (levelNumber : Nat) (st : LevelState) (group1 group2 : List IndexedTerm) :
    LevelState :=
  group1.foldl
    (fun st term1 => group2.foldl (fun st term2 => combineStep levelNumber st term1 term2) st)
    st

/-- One pass over a level: group by ones, combine every pair of neighbouring groups. -/
def combineLevel (levelNumber : Nat) (currentLevel : List Term) : LevelState :=
  let groups := buildGroups currentLevel
  let keys := groupKeys groups
  (keys.zip keys.tail).foldl
    (fun st ks => combineGroups levelNumber st (groupOf groups ks.1) (groupOf groups ks.2))
    ⟨[], []⟩

/-- The terms of a level whose index is not in `usedIndices`. -/
def unusedTerms (currentLevel : List Term) (usedIndices : List Nat) : List Term :=
  (currentLevel.enum.filter (fun e => decide (e.1 ∉ usedIndices))).map Prod.snd

/-- The `while (currentLevel.length > 0)` loop of `generateOnlyTruePrimeImplicants`; the
first argument bounds the number of rounds and `none` means the bound was reached. -/
def truePILoop : Nat → List Term → Nat → List Term → Option (List Term)
  | 0, _, _, _ => none
  | fuel + 1, currentLevel, levelNumber, allImplicants =>
    if currentLevel.length > 0 then
      let st := combineLevel levelNumber currentLevel
      let allImplicants := allImplicants ++ unusedTerms currentLevel st.usedIndices
      if st.nextLevel.length = 0 then some allImplicants
      else truePILoop fuel st.nextLevel (levelNumber + 1) allImplicants
    else some allImplicants

/-- The final `forEach` of `generateOnlyTruePrimeImplicants`: restrict to the targets, drop
the terms that cover none, and keep the first occurrence of every pattern. -/
def collectTruePIs (minterms : List Nat) (allImplicants : List Term) : List Implicant :=
  (allImplicants.foldl
    (fun (acc : List Implicant × List (List Char)) implicant =>
      let coveredMinterms := implicant.minterms.filter (fun m => decide (m ∈ minterms))
      if coveredMinterms.length > 0 ∧ implicant.binary ∉ acc.2 then
        (acc.1 ++ [⟨implicant.binary, coveredMinterms⟩], setAdd acc.2 implicant.binary)
      else acc)
    ([], [])).1

/-- The longest pattern of a level. -/
def maxBinaryLength (level : List Term) : Nat :=
  level.foldl (fun n t => max n t.binary.length) 0

/-- Source `generateOnlyTruePrimeImplicants(minterms, numVars, dontCares)`.  The level loop
runs at most once per number of `-` characters, so the round bound is the pattern length
plus one. -/
def generateOnlyTruePrimeImplicants (minterms : List Nat) (numVars : Nat)
    (dontCares : List Nat) : Option (List Implicant) :=
  let currentLevel := initialLevel minterms numVars dontCares
  (truePILoop (maxBinaryLength currentLevel + 1) currentLevel 0 []).map
    (collectTruePIs minterms)

/-- The `while (currentLevel.length > 1)` loop of `generateQuineMcCluskeyPIs`. -/
def allLevelsLoop : Nat → List Term → Nat → List (List Term) → Option (List (List Term))
  | 0, _, _, _ => none
  | fuel + 1, currentLevel, levelNumber, allLevels =>
    if currentLevel.length > 1 then
      let st := combineLevel levelNumber currentLevel
      if st.nextLevel.length = 0 then some allLevels
      else allLevelsLoop fuel st.nextLevel (levelNumber + 1) (allLevels ++ [st.nextLevel])
    else some allLevels

/-- The order of `a.localeCompare(b) <= 0` on patterns: on the characters `-`, `0`, `1` the
collation order is the code-point order. -/
def localeLe : List Char → List Char → Bool
  | [], _ => true
  | _ :: _, [] => false
  | a :: as, b :: bs =>
    if a.toNat < b.toNat then true
    else if b.toNat < a.toNat then false
    else localeLe as bs

/-- The comparator of the final sort: by level, then by pattern. -/
def levelPatternLe (a b : LevelImplicant) : Bool :=
  if a.level ≠ b.level then decide (a.level < b.level) else localeLe a.pattern b.pattern

/-- Source `generateQuineMcCluskeyPIs(minterms, numVars, dontCares)`. -/
def generateQuineMcCluskeyPIs (minterms : List Nat) (numVars : Nat)
    (dontCares : List Nat) : Option (List LevelImplicant) :=
  let currentLevel := initialLevel minterms numVars dontCares
  (allLevelsLoop (maxBinaryLength currentLevel + 1) currentLevel 0 [currentLevel]).map
    (fun allLevels =>
      let allImplicants := allLevels.flatten
      let primeImplicants :=
        (allImplicants.map (fun implicant =>
          (⟨implicant.binary, implicant.minterms.filter (fun m => decide (m ∈ minterms)),
            implicant.level⟩ : LevelImplicant))).filter (fun pi => decide (pi.minterms.length > 0))
      primeImplicants.insertionSort (fun a b => levelPatternLe a b = true))

/-- Source `findTruePrimeImplicants(allImplicants, minterms)`. -/
def findTruePrimeImplicants (allImplicants : List LevelImplicant) (minterms : List Nat) :
    List Implicant :=
  allImplicants.foldl
    (fun primeImplicants implicant =>
      let coveredMinterms := implicant.minterms.filter (fun m => decide (m ∈ minterms))
      if coveredMinterms.length > 0 then
        primeImplicants ++ [⟨implicant.pattern, coveredMinterms⟩]
      else primeImplicants)
    []

/-! ## Minimal-cover solver -/

/-- State of the inner loop of `findAllMinimalCovers`. -/
structure Selection where
  selectedPIs : List PI
  totalCost : Nat
  coveredMinterms : List Nat
deriving DecidableEq

/-- One round of the inner `for (let i = 0; i < numPIs; i++)` loop. -/
def selectStep (targetMinterms : List Nat) (combination : Nat) (sel : Selection)
    (entry : Nat × PI) : Selection :=
  if bitSelected combination entry.1 then
    { selectedPIs := sel.selectedPIs ++ [entry.2]
      totalCost := sel.totalCost + entry.2.cost
      coveredMinterms := entry.2.minterms.foldl
        (fun covered m => if m ∈ targetMinterms then setAdd covered m else covered)
        sel.coveredMinterms }
  else sel

/-- The inner loop of `findAllMinimalCovers` for one `combination`. -/
def selectCombination (targetMinterms : List Nat) (availablePIs : List PI)
    (combination : Nat) : Selection :=
  availablePIs.enum.foldl (selectStep targetMinterms combination) ⟨[], 0, []⟩

/-- State of the outer loop: `minCost` (`none` is `Infinity`) and `allSolutions`. -/
structure CoverSearch where
  minCost : Option Nat
  allSolutions : List Cover
deriving DecidableEq

/-- The comparison `totalCost < minCost`. -/
def belowMin (totalCost : Nat) : Option Nat → Bool
  | none => true
  | some m => decide (totalCost < m)

/-- One round of the outer loop of `findAllMinimalCovers`. -/
def coverStep (targetMinterms : List Nat) (availablePIs : List PI) (st : CoverSearch)
    (combination : Nat) : CoverSearch :=
  let sel := selectCombination targetMinterms availablePIs combination
  let isValidCover := targetMinterms.all (fun m => decide (m ∈ sel.coveredMinterms))
  if isValidCover then
    if belowMin sel.totalCost st.minCost then
      ⟨some sel.totalCost, [⟨sel.selectedPIs, sel.totalCost⟩]⟩
    else if st.minCost = some sel.totalCost then
      ⟨st.minCost, st.allSolutions ++ [⟨sel.selectedPIs, sel.totalCost⟩]⟩
    else st
  else st

/-- Source `findAllMinimalCovers(targetMinterms, availablePIs)`. -/
def findAllMinimalCovers (targetMinterms : List Nat) (availablePIs : List PI) : List Cover :=
  let numPIs := availablePIs.length
  let maxCombinations := 2 ^ numPIs
  ((List.range' 1 (maxCombinations - 1)).foldl
    (coverStep targetMinterms availablePIs) ⟨none, []⟩).allSolutions

/-- Result object of `findMinimalCover`: `{pis, cost, allSolutions}`. -/
structure MinimalCover where
  pis : List PI
  cost : Nat
  allSolutions : List Cover
deriving DecidableEq

/-- Source `findMinimalCover(targetMinterms, availablePIs)`: the first solution of
`findAllMinimalCovers` with the list of all of them, or the empty cover of cost 0 when
there is none. -/
def findMinimalCover (targetMinterms : List Nat) (availablePIs : List PI) : MinimalCover :=
  match findAllMinimalCovers targetMinterms availablePIs with
  | [] => ⟨[], 0, []⟩
  | firstSolution :: rest => ⟨firstSolution.pis, firstSolution.cost, firstSolution :: rest⟩

/-! ## Coverage table and essential PIs -/

/-- Source `buildCoverageTable()`: for every target minterm the indices of the PIs whose
minterms list contains it. -/
def buildCoverageTable (minterms : List Nat) (primeImplicants : List PI) :
    List (Nat × List Nat) :=
  minterms.map (fun minterm =>
    (minterm,
      (primeImplicants.enum.filter (fun e => decide (minterm ∈ e.2.minterms))).map Prod.fst))

/-- The pair `essentialPIs`, `usedMinterms` of `findEssentialPIs`. -/
structure EssentialState where
  essentialPIs : List Nat
  usedMinterms : List Nat
deriving DecidableEq

/-- One round of the `forEach` of `findEssentialPIs`.  The indices of the table are
positions of the PI list, so the PI looked up always exists. -/
def essentialStep (minterms : List Nat) (primeImplicants : List PI)
    (coverageTable : List (Nat × List Nat)) (st : EssentialState) (minterm : Nat) :
    EssentialState :=
  match (coverageTable.lookup minterm).getD [] with
  | [piIndex] =>
    if piIndex ∉ st.essentialPIs then
      match primeImplicants[piIndex]? with
      | some pi =>
        { essentialPIs := st.essentialPIs ++ [piIndex]
          usedMinterms := pi.minterms.foldl
            (fun used m => if m ∈ minterms then setAdd used m else used) st.usedMinterms }
      | none => st
    else st
  | _ => st

/-- Source `findEssentialPIs()`; `usedMinterms` is returned as `coveredMinterms`. -/
def findEssentialPIs (minterms : List Nat) (primeImplicants : List PI)
    (coverageTable : List (Nat × List Nat)) : EssentialState :=
  minterms.foldl (essentialStep minterms primeImplicants coverageTable) ⟨[], []⟩

/-! ## Stage 2: redundancy removal for one function -/

/-- Step 1 of `removeRedundantPIsForStage2`: a PI is redundant when another pattern covers
all its targets at a cost that is not higher. -/
def isRedundantAmong (functionPIs : List PI) (targetMinterms : List Nat) (pi : PI) : Bool :=
  functionPIs.any (fun otherPI =>
    if pi.pattern = otherPI.pattern then false
    else
      let piMintermsInTarget := pi.minterms.filter (fun m => decide (m ∈ targetMinterms))
      let otherPIMintermsInTarget :=
        otherPI.minterms.filter (fun m => decide (m ∈ targetMinterms))
      let isIncluded := piMintermsInTarget.all (fun m => decide (m ∈ otherPIMintermsInTarget))
      let isBetterOrEqual := decide (otherPI.cost ≤ pi.cost)
      isIncluded && isBetterOrEqual)

/-- State of step 2: `essentialPIs` and the set `remainingMinterms`. -/
structure Stage2Essential where
  essentialPIs : List PI
  remainingMinterms : List Nat
deriving DecidableEq

/-- One round of the `forEach` of step 2. -/
def stage2EssentialStep (nonRedundantPIs : List PI) (targetMinterms : List Nat)
    (st : Stage2Essential) (minterm : Nat) : Stage2Essential :=
  match nonRedundantPIs.filter (fun pi => decide (minterm ∈ pi.minterms)) with
  | [essentialPI] =>
    if (st.essentialPIs.find? (fun pi => decide (pi.pattern = essentialPI.pattern))).isNone then
      { essentialPIs := st.essentialPIs ++ [essentialPI]
        remainingMinterms := essentialPI.minterms.foldl
          (fun remaining m => if m ∈ targetMinterms then remaining.erase m else remaining)
          st.remainingMinterms }
    else st
  | _ => st

/-- The best PI of one greedy round: the running `bestPI` with its efficiency kept as the
fraction `coveredCount / cost`, compared by cross-multiplication. -/
def greedyBest (remainingMinterms : List Nat) (unusedPIs : List PI) : Option PI :=
  (unusedPIs.foldl
    (fun (best : Option PI × Nat × Nat) pi =>
      let coveredCount := (pi.minterms.filter (fun m => decide (m ∈ remainingMinterms))).length
      if coveredCount > 0 then
        if coveredCount * best.2.2 > best.2.1 * pi.cost then (some pi, coveredCount, pi.cost)
        else best
      else best)
    (none, 0, 1)).1

/-- Step 3, the greedy `while` loop.  Every round that does not stop removes one element of
`unusedPIs`, so the first argument, the length of `unusedPIs`, bounds the rounds. -/
def greedyLoop : Nat → List PI → List Nat → List PI → List PI
  | 0, selectedPIs, _, _ => selectedPIs
  | rounds + 1, selectedPIs, remainingMinterms, unusedPIs =>
    if remainingMinterms.length > 0 ∧ unusedPIs.length > 0 then
      match greedyBest remainingMinterms unusedPIs with
      | some bestPI =>
        greedyLoop rounds (selectedPIs ++ [bestPI])
          (bestPI.minterms.foldl
            (fun remaining m => if m ∈ remaining then remaining.erase m else remaining)
            remainingMinterms)
          (unusedPIs.erase bestPI)
      | none => selectedPIs
    else selectedPIs

/-- Step 4: is the PI still needed when the other selected patterns are kept. -/
def isNecessaryAmong (selectedPIs : List PI) (targetMinterms : List Nat) (pi : PI) : Bool :=
  let otherPIs := selectedPIs.filter (fun p => decide (p.pattern ≠ pi.pattern))
  let coveredByOthers := otherPIs.foldl
    (fun covered otherPI => otherPI.minterms.foldl
      (fun covered m => if m ∈ targetMinterms then setAdd covered m else covered) covered)
    []
  targetMinterms.any (fun m => decide (m ∉ coveredByOthers))

/-- Source `removeRedundantPIsForStage2(functionPIs, targetMinterms)`. -/
def removeRedundantPIsForStage2 (functionPIs : List PI) (targetMinterms : List Nat) :
    List PI :=
  if functionPIs.length ≤ 1 then functionPIs
  else
    let nonRedundantPIs :=
      functionPIs.filter (fun pi => !isRedundantAmong functionPIs targetMinterms pi)
    let essential := targetMinterms.foldl
      (stage2EssentialStep nonRedundantPIs targetMinterms) ⟨[], uniqueOf targetMinterms⟩
    let unusedPIs := nonRedundantPIs.filter (fun pi =>
      (essential.essentialPIs.find? (fun e => decide (e.pattern = pi.pattern))).isNone)
    let selectedPIs := greedyLoop unusedPIs.length essential.essentialPIs
      essential.remainingMinterms unusedPIs
    selectedPIs.filter (isNecessaryAmong selectedPIs targetMinterms)

/-! ## Shared registry and joint coverage table -/

/-- Entry of `allPIsByPattern`: `{pattern, minterms, usedBy, cost}`. -/
structure RegistryEntry where
  pattern : List Char
  minterms : List Nat
  usedBy : List (List Char)
  cost : Nat
deriving DecidableEq

/-- Registration of one PI of one function: create the entry when the pattern is new, then
push the function name on `usedBy`. -/
def registerPI (funcName : List Char) (registry : List RegistryEntry) (pi : Implicant) :
    List RegistryEntry :=
  if registry.any (fun e => decide (e.pattern = pi.pattern)) then
    registry.map (fun e =>
      if e.pattern = pi.pattern then { e with usedBy := e.usedBy ++ [funcName] } else e)
  else registry ++ [⟨pi.pattern, pi.minterms, [funcName], calculateCost pi.pattern⟩]

/-- `allPIsByPattern.get(pattern)`. -/
def registryGet (registry : List RegistryEntry) (pattern : List Char) : Option RegistryEntry :=
  registry.find? (fun e => decide (e.pattern = pattern))

/-- The PIs generated for one function: true prime implicants for a single function, every
implicant otherwise. -/
def generateFor (functionCount : Nat) (mintermsArray : List Nat) (numVars : Nat)
    (dontCares : List Nat) : Option (List Implicant) :=
  if functionCount = 1 then generateOnlyTruePrimeImplicants mintermsArray numVars dontCares
  else
    (generateQuineMcCluskeyPIs mintermsArray numVars dontCares).map
      (fun allImplicants => findTruePrimeImplicants allImplicants mintermsArray)

/-- Step 1 of `executeMultipleOutput`: the PIs of every function, in entry order. -/
def generateAll (functionCount numVars : Nat) (dontCares : List Nat) :
    List (List Char × List Nat) → Option (List (List Char × List Implicant))
  | [] => some []
  | (funcName, mintermsArray) :: rest =>
    match generateFor functionCount mintermsArray numVars dontCares,
      generateAll functionCount numVars dontCares rest with
    | some pis, some others => some ((funcName, pis) :: others)
    | _, _ => none

/-- The registry after every PI of every function has been registered. -/
def buildRegistry (functionPIs : List (List Char × List Implicant)) : List RegistryEntry :=
  functionPIs.foldl (fun registry f => f.2.foldl (registerPI f.1) registry) []

/-- `table[key] = value` on an object: an existing key keeps its position. -/
def tableSet {κ ν : Type} [DecidableEq κ] (table : List (κ × ν)) (key : κ) (value : ν) :
    List (κ × ν) :=
  if table.any (fun e => decide (e.1 = key)) then
    table.map (fun e => if e.1 = key then (key, value) else e)
  else table ++ [(key, value)]

/-- Source `buildJointCoverageTable`.  The key of an entry is the pair of function name and
minterm, which the key string of the source determines. -/
def buildJointCoverageTable (normalizedMinterms : List (List Char × List Nat))
    (registry : List RegistryEntry) : List ((List Char × Nat) × List (List Char)) :=
  normalizedMinterms.foldl
    (fun table f => f.2.foldl
      (fun table minterm => tableSet table (f.1, minterm)
        ((registry.filter
          (fun piInfo => decide (f.1 ∈ piInfo.usedBy) && decide (minterm ∈ piInfo.minterms))).map
          RegistryEntry.pattern))
      table)
    []

/-! ## Three-stage cost -/

/-- The PIs of a pattern selection that belong to one function, restricted to its targets. -/
def functionPIsOf (selectedPIs : List (List Char)) (registry : List RegistryEntry)
    (funcName : List Char) (minterms : List Nat) : List PI :=
  selectedPIs.filterMap (fun pattern =>
    match registryGet registry pattern with
    | some piInfo =>
      if funcName ∈ piInfo.usedBy then
        let coveredMinterms := piInfo.minterms.filter (fun m => decide (m ∈ minterms))
        if coveredMinterms.length > 0 then some ⟨pattern, coveredMinterms, piInfo.cost⟩
        else none
      else none
    | none => none)

/-- The object `stage2Solutions`: the Stage-2 result of every function that has PIs. -/
def stage2SolutionsOf (selectedPIs : List (List Char))
    (normalizedMinterms : List (List Char × List Nat)) (registry : List RegistryEntry) :
    List (List Char × List PI) :=
  normalizedMinterms.foldl
    (fun stage2Solutions f =>
      let functionPIs := functionPIsOf selectedPIs registry f.1 f.2
      if functionPIs.length > 0 then
        tableSet stage2Solutions f.1 (removeRedundantPIsForStage2 functionPIs f.2)
      else stage2Solutions)
    []

/-- The order of the default `sort()` on strings: by code unit. -/
def stringLe : List Char → List Char → Bool
  | [], _ => true
  | _ :: _, [] => false
  | a :: as, b :: bs =>
    if a.toNat < b.toNat then true
    else if b.toNat < a.toNat then false
    else stringLe as bs

/-- The cache key `[...selectedPIs].sort().join(',')`. -/
def stage2Key (selectedPIs : List (List Char)) : List Char :=
  [','].intercalate (selectedPIs.insertionSort (fun a b => stringLe a b = true))

/-- Entry of `piUsageMap`: `{pattern, baseCost, usageCount}`. -/
structure PIUsage where
  pattern : List Char
  baseCost : Nat
  usageCount : Nat
deriving DecidableEq

/-- Counting one PI in `piUsageMap`. -/
def countUsage (piUsageMap : List PIUsage) (pi : PI) : List PIUsage :=
  if piUsageMap.any (fun u => decide (u.pattern = pi.pattern)) then
    piUsageMap.map (fun u =>
      if u.pattern = pi.pattern then { u with usageCount := u.usageCount + 1 } else u)
  else piUsageMap ++ [⟨pi.pattern, pi.cost, 1⟩]

/-- Stage 3: `baseCost + (usageCount - 1)` summed over the used patterns. -/
def stage3CostOf (stage2Solutions : List (List Char × List PI)) : Nat :=
  let piUsageMap := stage2Solutions.foldl (fun usage f => f.2.foldl countUsage usage) []
  piUsageMap.foldl (fun total piInfo => total + (piInfo.baseCost + (piInfo.usageCount - 1))) 0

/-- The memoisation table `_stage2Cache`: key string to `stage2Solutions`. -/
abbrev Stage2Cache := List (List Char × List (List Char × List PI))

/-- Source `calculateThreeStagesCost`: the Stage-3 cost, and the cache with the Stage-2
result stored under the key of the selection. -/
def calculateThreeStagesCost (cache : Stage2Cache) (selectedPIs : List (List Char))
    (normalizedMinterms : List (List Char × List Nat)) (registry : List RegistryEntry) :
    Nat × Stage2Cache :=
  let stage2Solutions := stage2SolutionsOf selectedPIs normalizedMinterms registry
  (stage3CostOf stage2Solutions, tableSet cache (stage2Key selectedPIs) stage2Solutions)

/-! ## Joint solver -/

/-- The comparison `cost > minCost` guarded by `minCost < Infinity`. -/
def aboveMin (cost : Nat) : Option Nat → Bool
  | none => false
  | some m => decide (cost > m)

/-- `allPIsByPattern.get(pattern).cost`. -/
def registryCost (registry : List RegistryEntry) (pattern : List Char) : Nat :=
  ((registryGet registry pattern).map RegistryEntry.cost).getD 0

/-- `patrickTerms.every(term => term.some(pi => solution.includes(pi)))`. -/
def isValidSolution (solution : List (List Char)) (patrickTerms : List (List (List Char))) :
    Bool :=
  patrickTerms.all (fun term => term.any (fun pi => decide (pi ∈ solution)))

/-- State of `solveWithExhaustiveSearch`, together with the Stage-2 cache. -/
structure JointSearch where
  minCost : Option Nat
  minPICount : Option Nat
  optimalSolutions : List (List (List Char))
  cache : Stage2Cache
deriving DecidableEq

/-- One round of the loop of `solveWithExhaustiveSearch`. -/
def exhaustiveStep (patrickTerms : List (List (List Char))) (allPIPatterns : List (List Char))
    (normalizedMinterms : List (List Char × List Nat)) (registry : List RegistryEntry)
    (st : JointSearch) (combination : Nat) : JointSearch :=
  let selectedPIs :=
    (allPIPatterns.enum.filter (fun e => bitSelected combination e.1)).map Prod.snd
  if !isValidSolution selectedPIs patrickTerms then st
  else
    let stage1Cost := (selectedPIs.map (registryCost registry)).foldl (fun a b => a + b) 0
    if aboveMin stage1Cost st.minCost then st
    else
      let result := calculateThreeStagesCost st.cache selectedPIs normalizedMinterms registry
      let finalCost := result.1
      if aboveMin finalCost st.minCost then { st with cache := result.2 }
      else
        let piCount := selectedPIs.length
        if belowMin finalCost st.minCost ∨
            (st.minCost = some finalCost ∧ belowMin piCount st.minPICount) then
          ⟨some finalCost, some piCount, [selectedPIs], result.2⟩
        else if st.minCost = some finalCost ∧ st.minPICount = some piCount then
          ⟨st.minCost, st.minPICount, st.optimalSolutions ++ [selectedPIs], result.2⟩
        else { st with cache := result.2 }

/-- Source `solveWithExhaustiveSearch` with the function map given, as
`executeMultipleOutput` calls it. -/
def solveWithExhaustiveSearch (cache : Stage2Cache) (patrickTerms : List (List (List Char)))
    (registry : List RegistryEntry) (normalizedMinterms : List (List Char × List Nat)) :
    List (List (List Char)) × Stage2Cache :=
  let allPIPatterns := registry.map RegistryEntry.pattern
  let numPIs := allPIPatterns.length
  let maxCombinations := 2 ^ numPIs
  let st := (List.range' 1 (maxCombinations - 1)).foldl
    (exhaustiveStep patrickTerms allPIPatterns normalizedMinterms registry)
    ⟨none, none, [], cache⟩
  (st.optimalSolutions, st.cache)

/-- Phase 1 of `backtrackSearchDirect`: the `for` loop of `findMinCost` over the patterns
from `startIndex` on; the recursive call of `findMinCost` is unfolded in place. -/
def findMinCostLoop (patrickTerms : List (List (List Char))) (registry : List RegistryEntry) :
    List (List Char) → List (List Char) → Nat → Option Nat → Option Nat
  | [], _, _, minCost => minCost
  | pattern :: rest, currentSolution, currentCost, minCost =>
    let minCost1 :=
      if pattern ∉ currentSolution then
        let newCost := currentCost + registryCost registry pattern
        if belowMin newCost minCost then
          if !belowMin newCost minCost then minCost
          else if isValidSolution (currentSolution ++ [pattern]) patrickTerms then
            (if belowMin newCost minCost then some newCost else minCost)
          else findMinCostLoop patrickTerms registry rest (currentSolution ++ [pattern])
            newCost minCost
        else minCost
      else minCost
    findMinCostLoop patrickTerms registry rest currentSolution currentCost minCost1

/-- The call `findMinCost([], 0, 0)`. -/
def findMinCost (patrickTerms : List (List (List Char))) (registry : List RegistryEntry)
    (allPIPatterns : List (List Char)) : Option Nat :=
  if isValidSolution [] patrickTerms then some 0
  else findMinCostLoop patrickTerms registry allPIPatterns [] 0 none

/-- Recording a solution of phase 2 unless one with the same sorted patterns is there. -/
def recordOptimal (optimalSolutions : List (List (List Char)))
    (currentSolution : List (List Char)) : List (List (List Char)) :=
  if optimalSolutions.any (fun sol => decide (stage2Key sol = stage2Key currentSolution)) then
    optimalSolutions
  else optimalSolutions ++ [currentSolution]

/-- Phase 2 of `backtrackSearchDirect`: the `for` loop of `findAllOptimalSolutions`. -/
def findAllOptimalLoop (patrickTerms : List (List (List Char)))
    (registry : List RegistryEntry) (minCost : Option Nat) :
    List (List Char) → List (List Char) → Nat → List (List (List Char)) →
      List (List (List Char))
  | [], _, _, optimalSolutions => optimalSolutions
  | pattern :: rest, currentSolution, currentCost, optimalSolutions =>
    let optimalSolutions1 :=
      if pattern ∉ currentSolution then
        let newCost := currentCost + registryCost registry pattern
        if !aboveMin newCost minCost then
          if aboveMin newCost minCost then optimalSolutions
          else if isValidSolution (currentSolution ++ [pattern]) patrickTerms then
            (if minCost = some newCost then
              recordOptimal optimalSolutions (currentSolution ++ [pattern])
            else optimalSolutions)
          else findAllOptimalLoop patrickTerms registry minCost rest
            (currentSolution ++ [pattern]) newCost optimalSolutions
        else optimalSolutions
      else optimalSolutions
    findAllOptimalLoop patrickTerms registry minCost rest currentSolution currentCost
      optimalSolutions1

/-- Source `backtrackSearchDirect`: the solutions found by the two phases. -/
def backtrackSearchDirect (patrickTerms : List (List (List Char)))
    (registry : List RegistryEntry) : List (List (List Char)) :=
  let allPIPatterns := registry.map RegistryEntry.pattern
  let minCost := findMinCost patrickTerms registry allPIPatterns
  if isValidSolution [] patrickTerms then
    (if minCost = some 0 then recordOptimal [] [] else [])
  else findAllOptimalLoop patrickTerms registry minCost allPIPatterns [] 0 []

/-- Source `solveJointPatrickMethod`, through `solveWithCostPruning` and
`searchPatrickSolutions`: exhaustive search up to 20 patterns, branch and bound above. -/
def solveJointPatrickMethod (cache : Stage2Cache)
    (coverageTable : List ((List Char × Nat) × List (List Char)))
    (registry : List RegistryEntry) (normalizedMinterms : List (List Char × List Nat)) :
    List (List (List Char)) × Stage2Cache :=
  let patrickTerms := coverageTable.map Prod.snd
  if registry.length ≤ 20 then
    solveWithExhaustiveSearch cache patrickTerms registry normalizedMinterms
  else (backtrackSearchDirect patrickTerms registry, cache)

/-! ## The entry point -/

/-- Solution of one function: `{pis, cost}`. -/
structure FunctionSolution where
  pis : List PI
  cost : Nat
deriving DecidableEq

/-- System solution built for one joint solution: the function entries and the internal
properties `_sharedOptimizedCost`, `_usedPIPatterns`, `_stage2OptimizedPIs`. -/
structure SystemSolution where
  functions : List (List Char × FunctionSolution)
  sharedOptimizedCost : Nat
  usedPIPatterns : List (List Char)
  stage2OptimizedPIs : List (List Char)
deriving DecidableEq

/-- The returned object, restricted to the fields the claims speak about. -/
structure MinimizationResult where
  solutions : List (List Char × FunctionSolution)
  allSolutions : List FunctionSolution
  totalIndividualCost : Nat
  sharedOptimizedCost : Nat
  savings : Int
deriving DecidableEq

/-- The non-essential PIs `availablePIs` of the single-function path. -/
def availablePIsOf (primeImplicants : List PI) (essentialPIs : List Nat) : List PI :=
  (primeImplicants.enum.filter (fun e => decide (e.1 ∉ essentialPIs))).map Prod.snd

/-- `essentialPIs.map(index => this.primeImplicants[index])`. -/
def essentialSolutionOf (primeImplicants : List PI) (essentialPIs : List Nat) : List PI :=
  essentialPIs.filterMap (fun index => primeImplicants[index]?)

/-- The PI records of the single-function path: pattern, minterms and cost. -/
def toPrimeImplicants (pis : List Implicant) : List PI :=
  pis.map (fun pi => ⟨pi.pattern, pi.minterms, calculateCost pi.pattern⟩)

/-- The single-function branch of `executeMultipleOutput`, from the generated PIs on. -/
def singleFunctionResult (funcName : List Char) (mintermsArray : List Nat)
    (pis : List Implicant) : MinimizationResult :=
  let primeImplicants := toPrimeImplicants pis
  let coverageTable := buildCoverageTable mintermsArray primeImplicants
  let essential := findEssentialPIs mintermsArray primeImplicants coverageTable
  let remainingMinterms :=
    mintermsArray.filter (fun m => decide (m ∉ essential.usedMinterms))
  let minimalCovers :=
    if remainingMinterms.length > 0 then
      findAllMinimalCovers remainingMinterms
        (availablePIsOf primeImplicants essential.essentialPIs)
    else []
  let essentialSolution := essentialSolutionOf primeImplicants essential.essentialPIs
  let finalSolutions :=
    if minimalCovers.length = 0 then [essentialSolution]
    else minimalCovers.map (fun cover => essentialSolution ++ cover.pis)
  let allSolutions := finalSolutions.map (fun solution =>
    (⟨solution.map (fun pi => ⟨pi.pattern, pi.minterms, calculateCost pi.pattern⟩),
      solution.foldl (fun sum pi => sum + calculateCost pi.pattern) 0⟩ : FunctionSolution))
  match allSolutions with
  | first :: _ =>
    { solutions := [(funcName, first)]
      allSolutions := allSolutions
      totalIndividualCost := first.cost
      sharedOptimizedCost := first.cost
      savings := 0 }
  | [] =>
    { solutions := []
      allSolutions := []
      totalIndividualCost := 0
      sharedOptimizedCost := 0
      savings := 0 }

/-- The entry `systemSolution[funcName]` for one function and one joint solution, if the
function has PIs in the joint solution: the Stage-2 result is taken from the cache when
the key of the joint solution is there. -/
def systemFunctionEntry (cache : Stage2Cache) (registry : List RegistryEntry)
    (jointSolution : List (List Char)) (funcName : List Char) (minterms : List Nat) :
    Option FunctionSolution :=
  let functionPIs := functionPIsOf jointSolution registry funcName minterms
  if functionPIs.length > 0 then
    let optimizedPIs :=
      match cache.lookup (stage2Key jointSolution) with
      | some stage2Solutions => (stage2Solutions.lookup funcName).getD functionPIs
      | none => removeRedundantPIsForStage2 functionPIs minterms
    some ⟨optimizedPIs, optimizedPIs.foldl (fun sum pi => sum + pi.cost) 0⟩
  else none

/-- The system solution of one joint solution, and the cache after its Stage-3 cost has
been computed. -/
def systemSolutionOf (cache : Stage2Cache) (registry : List RegistryEntry)
    (normalizedMinterms : List (List Char × List Nat)) (jointSolution : List (List Char)) :
    SystemSolution × Stage2Cache :=
  let functions := normalizedMinterms.foldl
    (fun functions f =>
      match systemFunctionEntry cache registry jointSolution f.1 f.2 with
      | some sol => tableSet functions f.1 sol
      | none => functions)
    []
  let usedPIs := normalizedMinterms.foldl
    (fun usedPIs f =>
      match systemFunctionEntry cache registry jointSolution f.1 f.2 with
      | some sol => (sol.pis.map PI.pattern).foldl setAdd usedPIs
      | none => usedPIs)
    []
  let stage3 := calculateThreeStagesCost cache jointSolution normalizedMinterms registry
  let stage2OptimizedPIs := normalizedMinterms.foldl
    (fun optimized f =>
      let functionPIs := functionPIsOf jointSolution registry f.1 f.2
      if functionPIs.length > 0 then
        ((removeRedundantPIsForStage2 functionPIs f.2).map PI.pattern).foldl setAdd optimized
      else optimized)
    []
  (⟨functions, stage3.1, usedPIs,
    stage2OptimizedPIs.insertionSort (fun a b => stringLe a b = true)⟩, stage3.2)

/-- State of the loop over the joint solutions: `allSystemSolutions`, `seenSolutions` and
the cache. -/
structure SystemState where
  allSystemSolutions : List SystemSolution
  seenSolutions : List (List Char)
  cache : Stage2Cache
deriving DecidableEq

/-- One round of the loop over the joint solutions. -/
def systemStep (registry : List RegistryEntry)
    (normalizedMinterms : List (List Char × List Nat)) (st : SystemState)
    (jointSolution : List (List Char)) : SystemState :=
  let result := systemSolutionOf st.cache registry normalizedMinterms jointSolution
  let stage2PIKey := [','].intercalate result.1.stage2OptimizedPIs
  if stage2PIKey ∉ st.seenSolutions then
    ⟨st.allSystemSolutions ++ [result.1], setAdd st.seenSolutions stage2PIKey, result.2⟩
  else { st with cache := result.2 }

/-- `key.startsWith('_')`. -/
def startsWithUnderscore (key : List Char) : Bool :=
  match key with
  | c :: _ => decide (c = '_')
  | [] => false

/-- The multi-function branch of `executeMultipleOutput`, from the generated PIs on. -/
def multiFunctionResult (cache : Stage2Cache)
    (normalizedMinterms : List (List Char × List Nat))
    (functionPIs : List (List Char × List Implicant)) : MinimizationResult × Stage2Cache :=
  let registry := buildRegistry functionPIs
  let jointCoverageTable := buildJointCoverageTable normalizedMinterms registry
  let joint := solveJointPatrickMethod cache jointCoverageTable registry normalizedMinterms
  let st := joint.1.foldl (systemStep registry normalizedMinterms) ⟨[], [], joint.2⟩
  match st.allSystemSolutions with
  | firstSystemSolution :: _ =>
    let solutions :=
      firstSystemSolution.functions.filter (fun e => !startsWithUnderscore e.1)
    let sharedOptimizedCost := firstSystemSolution.sharedOptimizedCost
    let totalIndividualCost := solutions.foldl (fun sum e => sum + e.2.cost) 0
    (⟨solutions, [], totalIndividualCost, sharedOptimizedCost,
      (totalIndividualCost : Int) - (sharedOptimizedCost : Int)⟩, st.cache)
  | [] => (⟨[], [], 0, 0, 0⟩, st.cache)

/-- The key `__proto__`. -/
def protoKey : List Char := ['_', '_', 'p', 'r', 'o', 't', 'o', '_', '_']

/-- The normalisation at the head of `executeMultipleOutput`, on a map from names to arrays
of Numbers: every minterm goes through `parseInt(m, 10)` (no entry is `NaN`, so the filter
keeps them all), and `normalizedMinterms[funcName] = mintermsArray` stores an own key for
every name but `__proto__`, for which the assignment sets the prototype of the object and
leaves no entry. -/
def normalizeMinterms (mintermsByFunction : List (List Char × List Nat)) :
    List (List Char × List Nat) :=
  (mintermsByFunction.filter (fun e => decide (e.1 ≠ protoKey))).map
    (fun e => (e.1, e.2.map parseDecimal))

/-- The body of `executeMultipleOutput` after the normalisation, from the count of the keys
of `normalizedMinterms` on.  The result is `none` only when a generator loop exceeds its
round bound. -/
def executeNormalized (cache : Stage2Cache)
    (normalizedMinterms : List (List Char × List Nat)) (numVars : Nat)
    (dontCares : List Nat) : Option (MinimizationResult × Stage2Cache) :=
  let functionCount := normalizedMinterms.length
  match generateAll functionCount numVars dontCares normalizedMinterms with
  | none => none
  | some functionPIs =>
    match normalizedMinterms, functionPIs with
    | [(funcName, mintermsArray)], [(_, pis)] =>
      some (singleFunctionResult funcName mintermsArray pis, cache)
    | _, _ => some (multiFunctionResult cache normalizedMinterms functionPIs)

/-- Source `executeMultipleOutput(mintermsByFunction, numVars, dontCares)` on an instance
whose Stage-2 cache is `cache`; the first argument lists `Object.entries` of the function
map, whose values are arrays of Numbers. -/
def executeMultipleOutput (cache : Stage2Cache)
    (mintermsByFunction : List (List Char × List Nat)) (numVars : Nat)
    (dontCares : List Nat) : Option (MinimizationResult × Stage2Cache) :=
  executeNormalized cache (normalizeMinterms mintermsByFunction) numVars dontCares

/-! ## Specification vocabulary for patterns -/

/-- Each character of the pattern is `-` or equals the corresponding character of the
binary expansion. -/
def matchChars : List Char → List Char → Bool
  | [], _ => true
  | p :: ps, [] => p == '-' && matchChars ps []
  | p :: ps, b :: bs => (p == '-' || p == b) && matchChars ps bs

/-- The integer `m` matches the pattern: the comparison is with the zero-padded binary
expansion of `m` on `numVars` bits. -/
def matchesPattern (pattern : List Char) (m numVars : Nat) : Bool :=
  matchChars pattern (toBinary m numVars)

/-- Every integer of `[0, 2^numVars)` that matches the pattern is a target or a don't-care. -/
def IsImplicantOf (pattern : List Char) (numVars : Nat) (M D : List Nat) : Prop :=
  ∀ m, m < 2 ^ numVars → matchesPattern pattern m numVars = true → m ∈ M ∨ m ∈ D

/-- Character-wise: `q` agrees with `p` or holds `-` where `p` holds `0` or `1`. -/
def generalisesChars : List Char → List Char → Bool
  | [], [] => true
  | a :: q, b :: p =>
    (a == b || (a == '-' && (b == '0' || b == '1'))) && generalisesChars q p
  | _, _ => false

/-- The pattern `q` is obtained from `p` by replacing one or more `0`/`1` characters
with `-`. -/
def IsGeneralisation (q p : List Char) : Prop :=
  generalisesChars q p = true ∧ q ≠ p

/-- The pattern is a prime implicant of the function that covers at least one target. -/
def IsPrimeImplicantOf (pattern : List Char) (numVars : Nat) (M D : List Nat) : Prop :=
  IsImplicantOf pattern numVars M D ∧
  (∀ q, IsGeneralisation q pattern → ¬ IsImplicantOf q numVars M D) ∧
  ∃ m ∈ M, matchesPattern pattern m numVars = true

/-- The pairs of terms that one pass over a level tries to combine, in loop order. -/
def triedPairs (currentLevel : List Term) : List (IndexedTerm × IndexedTerm) :=
  let groups := buildGroups currentLevel
  let keys := groupKeys groups
  (keys.zip keys.tail).flatMap
    (fun ks => (groupOf groups ks.1).flatMap
      (fun term1 => (groupOf groups ks.2).map (fun term2 => (term1, term2))))

/-- What the single-function path relies on: the generated list holds implicants with
distinct patterns, each with exactly the targets it matches, and every implicant that
matches a target is dominated by a generated one that costs no more. -/
structure PrimeCover (M D : List Nat) (n : Nat) (pis : List Implicant) : Prop where
  nodup : (pis.map Implicant.pattern).Nodup
  implicant : ∀ pi ∈ pis, IsImplicantOf pi.pattern n M D
  minterms_iff : ∀ pi ∈ pis, ∀ m,
    m ∈ pi.minterms ↔ (m ∈ M ∧ matchesPattern pi.pattern m n = true)
  nonempty : ∀ pi ∈ pis, pi.minterms ≠ []
  covers : ∀ m ∈ M, ∃ pi ∈ pis, m ∈ pi.minterms
  dominates : ∀ p : List Char, p.length = n → IsImplicantOf p n M D →
    (∃ m ∈ M, matchesPattern p m n = true) →
    ∃ pi ∈ pis, calculateCost pi.pattern ≤ calculateCost p ∧
      ∀ m ∈ M, matchesPattern p m n = true → m ∈ pi.minterms

/-- The indices of the PIs whose minterms list contains the minterm, in increasing order. -/
def coveringIndices (primeImplicants : List PI) (minterm : Nat) : List Nat :=
  (primeImplicants.enum.filter (fun e => decide (minterm ∈ e.2.minterms))).map Prod.fst

/-- The non-essential PIs that the single-function path hands to the cover solver. -/
def nonEssentialPIs (M : List Nat) (pis : List Implicant) : List PI :=
  availablePIsOf (toPrimeImplicants pis)
    (findEssentialPIs M (toPrimeImplicants pis)
      (buildCoverageTable M (toPrimeImplicants pis))).essentialPIs

/-- A string of `0` and `1` characters. -/
def IsBin (s : List Char) : Prop :=
  ∀ c ∈ s, c = '0' ∨ c = '1'

/-- A string of `0`, `1` and `-` characters. -/
def IsPat (p : List Char) : Prop :=
  ∀ c ∈ p, c = '0' ∨ c = '1' ∨ c = '-'

/-- Number of `-` characters. -/
def dashes (p : List Char) : Nat :=
  p.count '-'

/-- The fixed-width binary expansion, least significant bit last. -/
def bits : Nat → Nat → List Char
  | 0, _ => []
  | n + 1, m => bits n (m / 2) ++ [if m % 2 = 1 then '1' else '0']

/-- Every integer below `2^n` whose fixed-width expansion matches the pattern is in `U`. -/
def CubeIn (n : Nat) (U : List Nat) (p : List Char) : Prop :=
  ∀ m, m < 2 ^ n → matchChars p (bits n m) = true → m ∈ U

/-- Invariant of the level loops: level `k` holds, once each, exactly the patterns of
length `n` with `k` dashes whose cube lies in `U`, each with the integers of its cube. -/
structure LevelInv (n : Nat) (U : List Nat) (k : Nat) (L : List Term) : Prop where
  nodup : (L.map Term.binary).Nodup
  mem_iff : ∀ p, p ∈ L.map Term.binary ↔
    (p.length = n ∧ IsPat p ∧ dashes p = k ∧ CubeIn n U p)
  minterms_iff : ∀ t ∈ L, ∀ m, m ∈ t.minterms ↔
    (m < 2 ^ n ∧ matchChars t.binary (bits n m) = true)
  minterms_nodup : ∀ t ∈ L, t.minterms.Nodup

/-- The two strings differ in exactly one position and the third holds `-` there. -/
inductive Combines : List Char → List Char → List Char → Prop
  | here (a b : Char) (t : List Char) : a ≠ b → Combines (a :: t) (b :: t) ('-' :: t)
  | there (a : Char) (t1 t2 t : List Char) :
      Combines t1 t2 t → Combines (a :: t1) (a :: t2) (a :: t)

/-! ## Specification vocabulary for the cover solver -/

/-- The PIs together contain every target minterm. -/
def coversAll (targetMinterms : List Nat) (pis : List PI) : Prop :=
  ∀ m ∈ targetMinterms, ∃ pi ∈ pis, m ∈ pi.minterms

instance (targetMinterms : List Nat) (pis : List PI) : Decidable (coversAll targetMinterms pis) := by
  unfold coversAll; infer_instance

/-- Sum of the costs of a list of PIs. -/
def totalCostOf (pis : List PI) : Nat :=
  (pis.map PI.cost).sum

/-- The candidates whose position is selected by a combination number. -/
def chosen (availablePIs : List PI) (combination : Nat) : List PI :=
  (availablePIs.enum.filter (fun e => bitSelected combination e.1)).map Prod.snd

/-- The candidates at the positions of an index set, in list order. -/
def pickIndices (candidates : List PI) (indexSet : Finset Nat) : List PI :=
  (candidates.enum.filter (fun e => decide (e.1 ∈ indexSet))).map Prod.snd

/-- The set of positions below `k` whose bit is set in a combination number. -/
def indexSetOf (k combination : Nat) : Finset Nat :=
  (Finset.range k).filter (fun i => Nat.testBit combination i = true)

/-- An index set is a minimum-cost non-empty cover of the targets. -/
def IsMinimalCoverSet (targetMinterms : List Nat) (candidates : List PI)
    (indexSet : Finset Nat) : Prop :=
  indexSet ⊆ Finset.range candidates.length ∧ indexSet.Nonempty ∧
  coversAll targetMinterms (pickIndices candidates indexSet) ∧
  ∀ other : Finset Nat, other ⊆ Finset.range candidates.length → other.Nonempty →
    coversAll targetMinterms (pickIndices candidates other) →
    totalCostOf (pickIndices candidates indexSet) ≤ totalCostOf (pickIndices candidates other)

/-! ## Concrete inputs -/

/-- Six targets of seven variables, pairwise at Hamming distance four. -/
def wrapTargets : List Nat := [11, 22, 44, 88, 49, 98]

/-- Thirty-three don't-cares, each at Hamming distance one from exactly one target. -/
def wrapDontCares : List Nat :=
  [96, 10, 9, 3, 15, 27, 43, 75, 20, 18, 6, 23, 30, 54, 40, 36, 12, 45, 46, 60, 80, 72, 24,
    89, 90, 92, 48, 33, 17, 51, 53, 57, 99]

/-- The prime implicants generated for `wrapTargets` and `wrapDontCares`, in output order. -/
def wrapPIs : List Implicant := [
  ⟨['1', '1', '0', '0', '0', '-', '0'], [98]⟩,
  ⟨['0', '0', '0', '1', '0', '1', '-'], [11]⟩,
  ⟨['0', '0', '0', '1', '0', '-', '1'], [11]⟩,
  ⟨['0', '0', '0', '-', '0', '1', '1'], [11]⟩,
  ⟨['0', '0', '1', '0', '1', '-', '0'], [22]⟩,
  ⟨['0', '0', '1', '0', '-', '1', '0'], [22]⟩,
  ⟨['0', '0', '-', '0', '1', '1', '0'], [22]⟩,
  ⟨['0', '1', '0', '1', '-', '0', '0'], [44]⟩,
  ⟨['0', '1', '0', '-', '1', '0', '0'], [44]⟩,
  ⟨['0', '-', '0', '1', '1', '0', '0'], [44]⟩,
  ⟨['1', '0', '1', '-', '0', '0', '0'], [88]⟩,
  ⟨['1', '0', '-', '1', '0', '0', '0'], [88]⟩,
  ⟨['-', '0', '1', '1', '0', '0', '0'], [88]⟩,
  ⟨['0', '1', '1', '0', '0', '0', '-'], [49]⟩,
  ⟨['0', '1', '-', '0', '0', '0', '1'], [49]⟩,
  ⟨['0', '-', '1', '0', '0', '0', '1'], [49]⟩,
  ⟨['0', '0', '0', '1', '-', '1', '1'], [11]⟩,
  ⟨['0', '0', '-', '1', '0', '1', '1'], [11]⟩,
  ⟨['0', '-', '0', '1', '0', '1', '1'], [11]⟩,
  ⟨['-', '0', '0', '1', '0', '1', '1'], [11]⟩,
  ⟨['0', '0', '1', '0', '1', '1', '-'], [22]⟩,
  ⟨['0', '0', '1', '-', '1', '1', '0'], [22]⟩,
  ⟨['0', '-', '1', '0', '1', '1', '0'], [22]⟩,
  ⟨['0', '1', '0', '1', '1', '0', '-'], [44]⟩,
  ⟨['0', '1', '0', '1', '1', '-', '0'], [44]⟩,
  ⟨['0', '1', '-', '1', '1', '0', '0'], [44]⟩,
  ⟨['1', '0', '1', '1', '0', '0', '-'], [88]⟩,
  ⟨['1', '0', '1', '1', '0', '-', '0'], [88]⟩,
  ⟨['1', '0', '1', '1', '-', '0', '0'], [88]⟩,
  ⟨['0', '1', '1', '0', '0', '-', '1'], [49]⟩,
  ⟨['0', '1', '1', '0', '-', '0', '1'], [49]⟩,
  ⟨['0', '1', '1', '-', '0', '0', '1'], [49]⟩,
  ⟨['1', '1', '0', '0', '0', '1', '-'], [98]⟩]

/-- Two targets of a function of two variables. -/
def demoTargets : List Nat := [1, 3]

/-- Three candidates for `demoTargets`; the second one covers both targets. -/
def demoCandidates : List PI :=
  [⟨['0', '1'], [1], 3⟩, ⟨['-', '1'], [1, 3], 2⟩, ⟨['1', '1'], [3], 3⟩]

/-- Two functions with the same single target, as `Object.entries` lists them. -/
def twinFunctions : List (List Char × List Nat) :=
  [(['F', '1'], [0]), (['F', '2'], [0])]

/-- Two functions of one variable; the name of the first starts with an underscore. -/
def underscoreFunctions : List (List Char × List Nat) :=
  [(['_', 'a'], [0]), (['b'], [1])]

/-- Two functions of one variable with different targets and ordinary names. -/
def plainFunctions : List (List Char × List Nat) :=
  [(['F', '1'], [0]), (['F', '2'], [1])]

/-- Three functions of three variables: the first has the targets of the other two. -/
def tripleFunctions : List (List Char × List Nat) :=
  [(['F', '1'], [0, 1]), (['F', '2'], [0]), (['F', '3'], [1])]

/-- Two functions with the same single target and a third function without targets. -/
def emptyThirdFunctions : List (List Char × List Nat) :=
  [(['F', '1'], [0]), (['F', '2'], [0]), (['F', '3'], [])]

/-- The Number 1e21, which is below `2^70` and is the least Number that is written in
exponent notation. -/
def exponentTerm : Nat := 10 ^ 21

/-- Two functions of 70 variables with the same single target 1e21. -/
def exponentTwinFunctions : List (List Char × List Nat) :=
  [(['F', '1'], [exponentTerm]), (['F', '2'], [exponentTerm])]

/-- Two functions, the targets of the first being targets of the second. -/
def nestedFunctions : List (List Char × List Nat) :=
  [(['F', '1'], [0]), (['F', '2'], [0, 1])]

/-- Three functions of one variable as `JSON.parse` delivers them, the first one under the
own key `__proto__`. -/
def protoFunctions : List (List Char × List Nat) :=
  [(protoKey, [0]), (['b'], [1]), (['c'], [0])]

/-! ## Instance state and expressions -/

/-- The default variable names `['A', 'B', 'C', 'D', 'E', 'F', 'G', 'H']`. -/
def defaultVariables : List (List Char) :=
  [['A'], ['B'], ['C'], ['D'], ['E'], ['F'], ['G'], ['H']]

/-- The fields of a `PatrickMethod` object that a call of `executeMultipleOutput` reads
before it writes them: `this.variables` and `_stage2Cache`. -/
structure Instance where
  variableNames : List (List Char)
  stage2Cache : Stage2Cache
deriving DecidableEq

/-- The object after `new PatrickMethod()`: no variable names, no cache. -/
def freshInstance : Instance := ⟨[], []⟩

/-- The field `this.variables` after the first statement of `executeMultipleOutput`: the
default names are taken only when the field is empty. -/
def variablesAfter (variableNames : List (List Char)) (numVars : Nat) : List (List Char) :=
  if variableNames.length = 0 then defaultVariables.take numVars else variableNames

/-- The name of variable `i`: `this.variables[i]`, or `X` followed by `i` when that is
undefined or the empty string. -/
def variableName (variableNames : List (List Char)) (i : Nat) : List Char :=
  match variableNames[i]? with
  | some name => if name = [] then 'X' :: Nat.toDigits 10 i else name
  | none => 'X' :: Nat.toDigits 10 i

/-- Source `convertPatternToAlgebraic(pattern)`, with `this.variables` as first argument. -/
def convertPatternToAlgebraic (variableNames : List (List Char)) (pattern : List Char) :
    List Char :=
  let algebraic := pattern.enum.foldl
    (fun algebraic e =>
      if e.2 = '1' then algebraic ++ variableName variableNames e.1
      else if e.2 = '0' then algebraic ++ variableName variableNames e.1 ++ [Char.ofNat 39]
      else algebraic)
    []
  if algebraic = [] then ['1'] else algebraic

/-- The `expression` of a solution of the single-function path:
`solution.map(pi => this.convertPatternToAlgebraic(pi.pattern)).join(' + ')`. -/
def expressionOf (variableNames : List (List Char)) (pis : List PI) : List Char :=
  [' ', '+', ' '].intercalate (pis.map (fun pi => convertPatternToAlgebraic variableNames pi.pattern))

/-- The returned object together with the `expression` of every entry of `allSolutions`,
which the single-function path fills. -/
structure Response where
  result : MinimizationResult
  expressions : List (List Char)
deriving DecidableEq

/-- A call of `executeMultipleOutput` on an object in the given state: the response and the
state of the object after the call. -/
def executeOnInstance (inst : Instance) (mintermsByFunction : List (List Char × List Nat))
    (numVars : Nat) (dontCares : List Nat) : Option (Response × Instance) :=
  let variableNames := variablesAfter inst.variableNames numVars
  (executeMultipleOutput inst.stage2Cache mintermsByFunction numVars dontCares).map
    (fun r =>
      (⟨r.1, r.1.allSolutions.map (fun solution => expressionOf variableNames solution.pis)⟩,
        ⟨variableNames, r.2⟩))

/-! ## Vocabulary for the joint solver -/

/-- The Stage-2 result of one function for a pattern selection, as the loop of
`calculateThreeStagesCost` computes it: `removeRedundantPIsForStage2` applied to the
selected patterns that list the function in `usedBy` and cover one of its targets. -/
def stage2ResultOf (selectedPIs : List (List Char)) (registry : List RegistryEntry)
    (f : List Char × List Nat) : List PI :=
  removeRedundantPIsForStage2 (functionPIsOf selectedPIs registry f.1 f.2) f.2

/-- The Stage-1 cost of a pattern selection: the sum of the base costs of its patterns. -/
def stage1CostOf (registry : List RegistryEntry) (selectedPIs : List (List Char)) : Nat :=
  (selectedPIs.map (registryCost registry)).sum

/-! ## Further concrete inputs -/

/-- Two functions of two variableNames with one target each, at opposite corners. -/
def cornerFunctions : List (List Char × List Nat) :=
  [(['F', '1'], [3]), (['F', '2'], [0])]

/-- The implicants that step 1 generates for `cornerFunctions` with don't-cares `1`, `2`. -/
def cornerPIs : List (List Char × List Implicant) :=
  [(['F', '1'], [⟨['1', '1'], [3]⟩, ⟨['-', '1'], [3]⟩, ⟨['1', '-'], [3]⟩]),
    (['F', '2'], [⟨['0', '0'], [0]⟩, ⟨['-', '0'], [0]⟩, ⟨['0', '-'], [0]⟩])]

/-- The registry built from `cornerPIs`. -/
def cornerRegistry : List RegistryEntry :=
  [⟨['1', '1'], [3], [['F', '1']], 3⟩, ⟨['-', '1'], [3], [['F', '1']], 1⟩,
    ⟨['1', '-'], [3], [['F', '1']], 1⟩, ⟨['0', '0'], [0], [['F', '2']], 3⟩,
    ⟨['-', '0'], [0], [['F', '2']], 1⟩, ⟨['0', '-'], [0], [['F', '2']], 1⟩]

/-- The terms of the joint coverage table of `cornerFunctions`: one per function. -/
def cornerTerms : List (List (List Char)) :=
  [[['1', '1'], ['-', '1'], ['1', '-']], [['0', '0'], ['-', '0'], ['0', '-']]]

/-- A selection of three patterns of `cornerRegistry`. -/
def cornerSelection : List (List Char) :=
  [['-', '1'], ['1', '-'], ['-', '0']]

/-- Two functions of two variables with the same two targets. -/
def sharedFunctions : List (List Char × List Nat) :=
  [(['F', '1'], [0, 1]), (['F', '2'], [0, 1])]

/-- The registry built for `sharedFunctions` without don't-cares. -/
def sharedRegistry : List RegistryEntry :=
  [⟨['0', '0'], [0], [['F', '1'], ['F', '2']], 3⟩,
    ⟨['0', '1'], [1], [['F', '1'], ['F', '2']], 3⟩,
    ⟨['0', '-'], [0, 1], [['F', '1'], ['F', '2']], 1⟩]

/-- Two PIs with different patterns that cover the same target at the same cost. -/
def twinPIs : List PI :=
  [⟨['-', '0'], [0], 1⟩, ⟨['0', '-'], [0], 1⟩]

/-- Four PIs of which the first two carry the same pattern. -/
def repeatedPatternPIs : List PI :=
  [⟨['0', '-', '-'], [0, 1], 1⟩, ⟨['0', '-', '-'], [0, 1, 2, 3], 3⟩, ⟨['0', '1', '0'], [2], 2⟩,
    ⟨['0', '1', '1'], [3], 2⟩]

/-! ## Vocabulary for single-cube functions -/

/-- The patterns obtained from a pattern by keeping each `0` and `1` and putting `0`, `1`
or `-` for each `-`. -/
def specialisations : List Char → List (List Char)
  | [] => [[]]
  | a :: p =>
    if a = '-' then (specialisations p).flatMap (fun t => ['0' :: t, '1' :: t, '-' :: t])
    else (specialisations p).map (fun t => a :: t)

/-- The targets `M` are the integers below `2^n` that match the pattern `p` of length
`n ≥ 1`. -/
structure IsCubeOf (p : List Char) (n : Nat) (M : List Nat) : Prop where
  pos : 1 ≤ n
  length : p.length = n
  isPat : IsPat p
  range : ∀ m ∈ M, m < 2 ^ n ∧ matchesPattern p m n = true
  all : ∀ m, m < 2 ^ n → matchesPattern p m n = true → m ∈ M

/-- The registry of two functions `a` and `b` that both have the cube of `p` as targets:
distinct patterns, each a specialisation of `p` listed by both functions with its cost and
the targets it matches, and `p` among them. -/
structure CubeRegistry (a b p : List Char) (n : Nat) (M : List Nat)
    (registry : List RegistryEntry) : Prop where
  nodup : (registry.map RegistryEntry.pattern).Nodup
  isPat : ∀ e ∈ registry, IsPat e.pattern
  length : ∀ e ∈ registry, e.pattern.length = n
  special : ∀ e ∈ registry, generalisesChars p e.pattern = true
  usedBy : ∀ e ∈ registry, e.usedBy = [a, b]
  cost : ∀ e ∈ registry, e.cost = calculateCost e.pattern
  minterms : ∀ e ∈ registry, ∀ m,
    m ∈ e.minterms ↔ (m ∈ M ∧ matchesPattern e.pattern m n = true)
  top : p ∈ registry.map RegistryEntry.pattern

/-! ## Concrete instances and inputs for calls in sequence -/

/-- An object that has served earlier calls: two variable names, and a cache entry under
the key `0-` that gives `F1` no PI. -/
def usedInstance : Instance :=
  ⟨[['A'], ['B']], [(['0', '-'], [(['F', '1'], [])])]⟩

/-- Two functions of three variables with the targets `0` to `6`. -/
def sevenTargetFunctions : List (List Char × List Nat) :=
  [(['F', '1'], [0, 1, 2, 3, 4, 5, 6]), (['F', '2'], [0, 1, 2, 3, 4, 5, 6])]

/-- Two functions of three variables with the targets `0` to `7`. -/
def eightTargetFunctions : List (List Char × List Nat) :=
  [(['F', '1'], [0, 1, 2, 3, 4, 5, 6, 7]), (['F', '2'], [0, 1, 2, 3, 4, 5, 6, 7])]

/-! ## Pattern order and cube expansion -/

/-- The character loop of `isMoreGeneral`: the third argument is the flag `moreGeneral`,
and `false` is also the early `return false`. -/
def isMoreGeneralLoop : List Char → List Char → Bool → Bool
  | a :: as, b :: bs, moreGeneral =>
    if a = '-' ∧ b ≠ '-' then isMoreGeneralLoop as bs true
    else if a ≠ '-' ∧ b = '-' then false
    else if a ≠ b then false
    else isMoreGeneralLoop as bs moreGeneral
  | _, _, moreGeneral => moreGeneral

/-- Source `isMoreGeneral(pattern1, pattern2)`. -/
def isMoreGeneral (pattern1 pattern2 : List Char) : Bool :=
  if pattern1.length ≠ pattern2.length then false
  else isMoreGeneralLoop pattern1 pattern2 false

/-- The integer that a string of `0` and `1` characters denotes in base two. -/
def binaryValue (digits : List Char) : Nat :=
  digits.foldl (fun value c => 2 * value + (if c = '1' then 1 else 0)) 0

/-- `parseInt(s, 2)` on a non-empty string of `0` and `1` characters: the Number nearest
to the integer that the digits denote.  A Number holds 53 significant binary digits: of a
longer integer the leading 53 digits are kept and rounded to nearest, ties to the even
one. -/
def parseBinary (binaryStr : List Char) : Nat :=
  let digits := binaryStr.dropWhile (fun c => decide (c = '0'))
  let kept := binaryValue (digits.take 53)
  let dropped := digits.drop 53
  let half := 2 ^ (dropped.length - 1)
  if dropped.length = 0 then kept
  else if binaryValue dropped < half then kept * 2 ^ dropped.length
  else if half < binaryValue dropped then (kept + 1) * 2 ^ dropped.length
  else if kept % 2 = 0 then kept * 2 ^ dropped.length
  else (kept + 1) * 2 ^ dropped.length

/-- `s.substring(0, pos) + bit + s.substring(pos + 1)`. -/
def replaceAt (binaryStr : List Char) (pos : Nat) (bit : Char) : List Char :=
  binaryStr.take pos ++ [bit] ++ binaryStr.drop (pos + 1)

/-- The digit of `(combo >> i) & 1`: both operands of the shift are taken as 32-bit
integers and the shift count modulo 32. -/
def comboBit (combo i : Nat) : Char :=
  if bitSelected combo i then '1' else '0'

/-- The string built for one `combo`: every free position receives its bit. -/
def fillPattern (pattern : List Char) (dontCarePositions : List Nat) (combo : Nat) :
    List Char :=
  dontCarePositions.enum.foldl
    (fun binaryStr e => replaceAt binaryStr e.2 (comboBit combo e.1)) pattern

/-- Source `convertPatternToMinterms(pattern)` on a pattern of `0`, `1` and `-`; `none`
stands for the two outcomes that are not a list of integers.  An array holds fewer than
`2^32` elements, so with 32 or more free positions the loop cannot finish filling
`minterms`; and for the empty pattern `parseInt` yields `NaN`. -/
def convertPatternToMinterms (pattern : List Char) : Option (List Nat) :=
  let dontCarePositions :=
    (pattern.enum.filter (fun e => decide (e.2 = '-'))).map Prod.fst
  let numCombinations := 2 ^ dontCarePositions.length
  if 32 ≤ dontCarePositions.length ∨ pattern = [] then none
  else
    some (sortNumeric
      ((List.range numCombinations).map
        (fun combo => parseBinary (fillPattern pattern dontCarePositions combo))))

/-- The pattern with its free positions filled from left to right with the digits
`bit i`, `bit (i + 1)`, and so on. -/
def fillDashes (bit : Nat → Char) : Nat → List Char → List Char
  | _, [] => []
  | i, c :: t =>
    if c = '-' then bit i :: fillDashes bit (i + 1) t else c :: fillDashes bit i t

/-! ## The earlier single-function generator -/

/-- The `while (currentLevel.length > 1)` loop of
`generateTruePrimeImplicantsForSingleFunction`: every new level is appended to
`allImplicants`. -/
def singleFunctionLoop : Nat → List Term → Nat → List Term → Option (List Term)
  | 0, _, _, _ => none
  | fuel + 1, currentLevel, levelNumber, allImplicants =>
    if currentLevel.length > 1 then
      let st := combineLevel levelNumber currentLevel
      if st.nextLevel.length = 0 then some allImplicants
      else singleFunctionLoop fuel st.nextLevel (levelNumber + 1)
        (allImplicants ++ st.nextLevel)
    else some allImplicants

/-- The test inside the `for (let other of allImplicants)` loop: another object of the list
is more general, covers a target, and covers every target of the implicant.  The objects
are told apart by their position in the list. -/
def absorbedBy (minterms : List Nat) (implicant other : Nat × Term) : Bool :=
  decide (other.1 ≠ implicant.1) && isMoreGeneral other.2.binary implicant.2.binary &&
    (let implicantMintermsInOriginal :=
        implicant.2.minterms.filter (fun m => decide (m ∈ minterms))
     let otherMintermsInOriginal := other.2.minterms.filter (fun m => decide (m ∈ minterms))
     decide (otherMintermsInOriginal.length > 0) &&
       implicantMintermsInOriginal.all (fun m => decide (m ∈ otherMintermsInOriginal)))

/-- The final `forEach` of `generateTruePrimeImplicantsForSingleFunction`: keep the
implicants that no other one absorbs and that cover a target, restricted to the targets. -/
def collectPrimeAmong (minterms : List Nat) (allImplicants : List Term) : List Implicant :=
  allImplicants.enum.filterMap (fun implicant =>
    let isPrime := !(allImplicants.enum.any (absorbedBy minterms implicant))
    let coveredMinterms := implicant.2.minterms.filter (fun m => decide (m ∈ minterms))
    if isPrime ∧ coveredMinterms.length > 0 then
      some (⟨implicant.2.binary, coveredMinterms⟩ : Implicant)
    else none)

/-- Source `generateTruePrimeImplicantsForSingleFunction(minterms, numVars, dontCares)`.
The round bound is the pattern length plus one, as for the other generators. -/
def generateTruePrimeImplicantsForSingleFunction (minterms : List Nat) (numVars : Nat)
    (dontCares : List Nat) : Option (List Implicant) :=
  let currentLevel := initialLevel minterms numVars dontCares
  (singleFunctionLoop (maxBinaryLength currentLevel + 1) currentLevel 0 currentLevel).map
    (collectPrimeAmong minterms)

/-! ## The earlier single-function entry point -/

/-- One round of the outer loop of `findAllMinimalCovers` on candidates that have no `cost`
property: `totalCost += pi.cost` adds `undefined`, so the total of a selection that is not
empty is `NaN` and both comparisons with `minCost` are false; an empty selection keeps the
total `0`. -/
def coverStepWithoutCost (targetMinterms : List Nat) (availablePIs : List PI)
    (st : CoverSearch) (combination : Nat) : CoverSearch :=
  let sel := selectCombination targetMinterms availablePIs combination
  let isValidCover := targetMinterms.all (fun m => decide (m ∈ sel.coveredMinterms))
  if isValidCover then
    if sel.selectedPIs.length = 0 then
      if belowMin 0 st.minCost then ⟨some 0, [⟨sel.selectedPIs, 0⟩]⟩
      else if st.minCost = some 0 then ⟨st.minCost, st.allSolutions ++ [⟨sel.selectedPIs, 0⟩]⟩
      else st
    else st
  else st

/-- Source `findAllMinimalCovers(targetMinterms, availablePIs)` as called with PI objects
`{name, pattern, minterms}`; the `cost` field of the records is not read. -/
def findAllMinimalCoversWithoutCost (targetMinterms : List Nat) (availablePIs : List PI) :
    List Cover :=
  let numPIs := availablePIs.length
  let maxCombinations := 2 ^ numPIs
  ((List.range' 1 (maxCombinations - 1)).foldl
    (coverStepWithoutCost targetMinterms availablePIs) ⟨none, []⟩).allSolutions

/-- Source `executeSingleFunctionOptimization(normalizedMinterms, numVars, dontCares)`,
restricted to `pis` and `cost` of the entry it returns for the function.  The PI objects
are built as `{name, pattern, minterms}`: the `cost` field of the records below is a
placeholder that `buildCoverageTable`, `findEssentialPIs` and the solver never read.  With
a minimal cover at hand the spread `...cover` of a solution object throws, as does an empty
input: `none` is a thrown error. -/
def executeSingleFunctionOptimization (normalizedMinterms : List (List Char × List Nat))
    (numVars : Nat) (dontCares : List Nat) : Option (List (List Char × FunctionSolution)) :=
  match normalizedMinterms with
  | [] => none
  | (funcName, mintermsArray) :: _ =>
    match generateTruePrimeImplicantsForSingleFunction mintermsArray numVars dontCares with
    | none => none
    | some truePIs =>
      let primeImplicants := truePIs.map (fun pi => (⟨pi.pattern, pi.minterms, 0⟩ : PI))
      let coverageTable := buildCoverageTable mintermsArray primeImplicants
      let essential := findEssentialPIs mintermsArray primeImplicants coverageTable
      let remainingMinterms :=
        mintermsArray.filter (fun m => decide (m ∉ essential.usedMinterms))
      let minimalCovers :=
        if remainingMinterms.length > 0 then
          findAllMinimalCoversWithoutCost remainingMinterms
            (availablePIsOf primeImplicants essential.essentialPIs)
        else []
      if minimalCovers.length = 0 then
        let bestSolution := essentialSolutionOf primeImplicants essential.essentialPIs
        some [(funcName,
          ⟨bestSolution.map (fun pi => ⟨pi.pattern, pi.minterms, calculateCost pi.pattern⟩),
            bestSolution.foldl (fun sum pi => sum + calculateCost pi.pattern) 0⟩)]
      else none

/-! ## Vocabulary for the single-function path -/

/-- The essential PIs of the single-function path, in the order `findEssentialPIs` found
them. -/
def essentialSolution (M : List Nat) (pis : List Implicant) : List PI :=
  essentialSolutionOf (toPrimeImplicants pis)
    (findEssentialPIs M (toPrimeImplicants pis)
      (buildCoverageTable M (toPrimeImplicants pis))).essentialPIs

/-- The minterms that the single-function path hands to the cover solver. -/
def remainingMinterms (M : List Nat) (pis : List Implicant) : List Nat :=
  M.filter (fun m => decide (m ∉ (findEssentialPIs M (toPrimeImplicants pis)
    (buildCoverageTable M (toPrimeImplicants pis))).usedMinterms))

/-! ## Vocabulary for the level loops -/

/-- The level that the level loops hold in round `k`: level 0 is the initial level and
every further level is the `nextLevel` of the one before. -/
def levelAt (minterms : List Nat) (numVars : Nat) (dontCares : List Nat) : Nat → List Term
  | 0 => initialLevel minterms numVars dontCares
  | k + 1 => (combineLevel k (levelAt minterms numVars dontCares k)).nextLevel

/-- The terms of level `k` that take part in no combination. -/
def unusedAt (minterms : List Nat) (numVars : Nat) (dontCares : List Nat) (k : Nat) :
    List Term :=
  unusedTerms (levelAt minterms numVars dontCares k)
    (combineLevel k (levelAt minterms numVars dontCares k)).usedIndices

/-- The integers below `2^n` whose `n`-bit expansion matches the pattern, in ascending
order. -/
def cubeMinterms (n : Nat) (pattern : List Char) : List Nat :=
  (List.range (2 ^ n)).filter (fun m => matchChars pattern (bits n m))

/-! ## Further concrete inputs -/

/-- The pattern `1` followed by 53 characters `0`: the binary expansion of `2^53`. -/
def longPatternEven : List Char := '1' :: List.replicate 53 '0'

/-- The pattern `1`, 52 characters `0`, and `1`: the binary expansion of `2^53 + 1`. -/
def longPatternOdd : List Char := '1' :: (List.replicate 52 '0' ++ ['1'])

/-- The pattern `0` followed by 31 characters `-`. -/
def wideCubeZero : List Char := '0' :: List.replicate 31 '-'

/-- The pattern `1` followed by 31 characters `-`. -/
def wideCubeOne : List Char := '1' :: List.replicate 31 '-'

/-- Three candidates for the targets 0 and 1: one covers both at cost 2, the other two
cover one target each at cost 1. -/
def tieCandidates : List PI :=
  [⟨['0', '-'], [0, 1], 2⟩, ⟨['0', '0'], [0], 1⟩, ⟨['0', '1'], [1], 1⟩]

/-! ## Lemmas on the JavaScript helpers -/

theorem mem_setAdd {α : Type} [DecidableEq α] (s : List α) (x y : α) :
    y ∈ setAdd s x ↔ y ∈ s ∨ y = x := by
  unfold setAdd
  split
  · constructor
    · intro h; exact Or.inl h
    · rintro (h | h)
      · exact h
      · subst h; assumption
  · simp

theorem nodup_setAdd {α : Type} [DecidableEq α] (s : List α) (x : α) (h : s.Nodup) :
    (setAdd s x).Nodup := by
  unfold setAdd
  split
  · exact h
  · rename_i hx
    rw [List.nodup_append]
    refine ⟨h, List.nodup_singleton x, ?_⟩
    intro a ha hb
    simp at hb
    subst hb
    exact hx ha

theorem mem_foldl_setAdd {α : Type} [DecidableEq α] (xs : List α) (s : List α) (y : α) :
    y ∈ xs.foldl setAdd s ↔ y ∈ s ∨ y ∈ xs := by
  induction xs generalizing s with
  | nil => simp
  | cons x xs ih =>
    simp only [List.foldl_cons, ih, mem_setAdd, List.mem_cons]
    tauto

theorem nodup_foldl_setAdd {α : Type} [DecidableEq α] (xs : List α) (s : List α)
    (h : s.Nodup) : (xs.foldl setAdd s).Nodup := by
  induction xs generalizing s with
  | nil => simpa using h
  | cons x xs ih => exact ih _ (nodup_setAdd s x h)

theorem mem_uniqueOf {α : Type} [DecidableEq α] (xs : List α) (y : α) :
    y ∈ uniqueOf xs ↔ y ∈ xs := by
  unfold uniqueOf
  simp [mem_foldl_setAdd]

theorem nodup_uniqueOf {α : Type} [DecidableEq α] (xs : List α) : (uniqueOf xs).Nodup :=
  nodup_foldl_setAdd xs [] List.nodup_nil

theorem mem_sortNumeric (xs : List Nat) (y : Nat) : y ∈ sortNumeric xs ↔ y ∈ xs := by
  unfold sortNumeric
  exact (List.perm_insertionSort _ xs).mem_iff

theorem nodup_sortNumeric (xs : List Nat) (h : xs.Nodup) : (sortNumeric xs).Nodup := by
  unfold sortNumeric
  exact (List.perm_insertionSort _ xs).nodup_iff.mpr h

theorem sorted_sortNumeric (xs : List Nat) : (sortNumeric xs).Sorted (fun a b => a ≤ b) := by
  unfold sortNumeric
  exact List.sorted_insertionSort _ xs

/-! ## The inner loop of the cover solver -/

/-- Candidates selected by a combination number, read off with `bitSelected`. -/
theorem foldl_selectStep_selectedPIs (T : List Nat) (c : Nat) (l : List (Nat × PI))
    (sel : Selection) :
    (l.foldl (selectStep T c) sel).selectedPIs =
      sel.selectedPIs ++ (l.filter (fun e => bitSelected c e.1)).map Prod.snd := by
  induction l generalizing sel with
  | nil => simp
  | cons e l ih =>
    rw [List.foldl_cons, ih]
    unfold selectStep
    by_cases hb : bitSelected c e.1 = true
    · simp [hb, List.filter_cons]
    · simp [hb, List.filter_cons]

theorem foldl_selectStep_totalCost (T : List Nat) (c : Nat) (l : List (Nat × PI))
    (sel : Selection) :
    (l.foldl (selectStep T c) sel).totalCost =
      sel.totalCost + (((l.filter (fun e => bitSelected c e.1)).map Prod.snd).map PI.cost).sum := by
  induction l generalizing sel with
  | nil => simp
  | cons e l ih =>
    rw [List.foldl_cons, ih]
    unfold selectStep
    by_cases hb : bitSelected c e.1 = true
    · simp [hb, List.filter_cons, Nat.add_assoc]
    · simp [hb, List.filter_cons]

theorem mem_foldl_coveredAdd (T : List Nat) (ms : List Nat) (covered : List Nat) (y : Nat) :
    y ∈ ms.foldl (fun covered m => if m ∈ T then setAdd covered m else covered) covered ↔
      y ∈ covered ∨ (y ∈ ms ∧ y ∈ T) := by
  induction ms generalizing covered with
  | nil => simp
  | cons m ms ih =>
    rw [List.foldl_cons, ih]
    by_cases hm : m ∈ T
    · simp only [hm, if_true, mem_setAdd, List.mem_cons]
      constructor
      · rintro ((h | h) | h)
        · exact Or.inl h
        · subst h; exact Or.inr ⟨Or.inl rfl, hm⟩
        · exact Or.inr ⟨Or.inr h.1, h.2⟩
      · rintro (h | ⟨h | h, hT⟩)
        · exact Or.inl (Or.inl h)
        · exact Or.inl (Or.inr h)
        · exact Or.inr ⟨h, hT⟩
    · simp only [hm, if_false, List.mem_cons]
      constructor
      · rintro (h | h)
        · exact Or.inl h
        · exact Or.inr ⟨Or.inr h.1, h.2⟩
      · rintro (h | ⟨h | h, hT⟩)
        · exact Or.inl h
        · subst h; exact absurd hT hm
        · exact Or.inr ⟨h, hT⟩

theorem foldl_selectStep_covered (T : List Nat) (c : Nat) (l : List (Nat × PI))
    (sel : Selection) (y : Nat) :
    y ∈ (l.foldl (selectStep T c) sel).coveredMinterms ↔
      y ∈ sel.coveredMinterms ∨
        (y ∈ T ∧ ∃ pi ∈ (l.filter (fun e => bitSelected c e.1)).map Prod.snd, y ∈ pi.minterms) := by
  induction l generalizing sel with
  | nil => simp
  | cons e l ih =>
    rw [List.foldl_cons, ih]
    unfold selectStep
    by_cases hb : bitSelected c e.1 = true
    · simp only [hb, if_true, mem_foldl_coveredAdd, List.filter_cons, List.map_cons,
        List.mem_cons, exists_eq_or_imp]
      tauto
    · simp only [hb, List.filter_cons]
      simp

theorem selectCombination_selectedPIs (T : List Nat) (avail : List PI) (c : Nat) :
    (selectCombination T avail c).selectedPIs = chosen avail c := by
  unfold selectCombination chosen
  rw [foldl_selectStep_selectedPIs]
  simp

theorem selectCombination_totalCost (T : List Nat) (avail : List PI) (c : Nat) :
    (selectCombination T avail c).totalCost = totalCostOf (chosen avail c) := by
  unfold selectCombination chosen totalCostOf
  rw [foldl_selectStep_totalCost]
  simp

theorem selectCombination_valid (T : List Nat) (avail : List PI) (c : Nat) :
    (T.all (fun m => decide (m ∈ (selectCombination T avail c).coveredMinterms)) = true) ↔
      coversAll T (chosen avail c) := by
  unfold selectCombination chosen coversAll
  simp only [List.all_eq_true, decide_eq_true_eq, foldl_selectStep_covered]
  constructor
  · intro h m hm
    rcases h m hm with h1 | h1
    · simp at h1
    · exact h1.2
  · intro h m hm
    exact Or.inr ⟨hm, h m hm⟩

/-- One round of the outer loop, stated with the selection read off by `chosen`. -/
theorem coverStep_eq (T : List Nat) (avail : List PI) (st : CoverSearch) (c : Nat) :
    coverStep T avail st c =
      if coversAll T (chosen avail c) then
        if belowMin (totalCostOf (chosen avail c)) st.minCost then
          ⟨some (totalCostOf (chosen avail c)),
            [⟨chosen avail c, totalCostOf (chosen avail c)⟩]⟩
        else if st.minCost = some (totalCostOf (chosen avail c)) then
          ⟨st.minCost, st.allSolutions ++ [⟨chosen avail c, totalCostOf (chosen avail c)⟩]⟩
        else st
      else st := by
  unfold coverStep
  simp only [selectCombination_selectedPIs, selectCombination_totalCost]
  by_cases hv : coversAll T (chosen avail c)
  · rw [if_pos ((selectCombination_valid T avail c).mpr hv), if_pos hv]
  · rw [if_neg (fun h => hv ((selectCombination_valid T avail c).mp h)), if_neg hv]

/-- Invariant of the outer loop of the solver over a list of combination numbers: either
none of them covers and the state is the initial one, or the state holds the minimum cost
of the covering ones and, in loop order, the covers that reach it. -/
theorem coverSearch_invariant (T : List Nat) (avail : List PI) (cs : List Nat) :
    ((cs.foldl (coverStep T avail) ⟨none, []⟩).minCost = none →
        (∀ c ∈ cs, ¬ coversAll T (chosen avail c)) ∧
        (cs.foldl (coverStep T avail) ⟨none, []⟩).allSolutions = []) ∧
    (∀ m, (cs.foldl (coverStep T avail) ⟨none, []⟩).minCost = some m →
        (∃ c ∈ cs, coversAll T (chosen avail c) ∧ totalCostOf (chosen avail c) = m) ∧
        (∀ c ∈ cs, coversAll T (chosen avail c) → m ≤ totalCostOf (chosen avail c)) ∧
        (cs.foldl (coverStep T avail) ⟨none, []⟩).allSolutions =
          (cs.filter (fun c => decide (coversAll T (chosen avail c)) &&
              decide (totalCostOf (chosen avail c) = m))).map
            (fun c => (⟨chosen avail c, totalCostOf (chosen avail c)⟩ : Cover))) := by
  induction cs using List.reverseRecOn with
  | nil => simp
  | append_singleton cs c ih =>
    rw [List.foldl_append, List.foldl_cons, List.foldl_nil, coverStep_eq]
    obtain ⟨ihN, ihS⟩ := ih
    generalize hst : cs.foldl (coverStep T avail) ⟨none, []⟩ = st at ihN ihS ⊢
    by_cases hv : coversAll T (chosen avail c)
    · rw [if_pos hv]
      cases hmin : st.minCost with
      | none =>
        obtain ⟨hno, _⟩ := ihN hmin
        simp only [belowMin, if_true]
        refine ⟨by simp, ?_⟩
        intro m hm
        simp only [Option.some.injEq] at hm
        subst hm
        refine ⟨⟨c, by simp, hv, rfl⟩, ?_, ?_⟩
        · intro c2 hc2 hv2
          rcases List.mem_append.mp hc2 with h | h
          · exact absurd hv2 (hno c2 h)
          · simp at h; subst h; exact le_refl _
        · rw [List.filter_append, List.map_append]
          have : cs.filter (fun c2 => decide (coversAll T (chosen avail c2)) &&
              decide (totalCostOf (chosen avail c2) = totalCostOf (chosen avail c))) = [] := by
            rw [List.filter_eq_nil_iff]
            intro a ha
            simp [hno a ha]
          rw [this]
          simp [hv]
      | some m0 =>
        obtain ⟨⟨c0, hc0, hv0, hcost0⟩, hle, hsol⟩ := ihS m0 hmin
        simp only [belowMin]
        by_cases hlt : totalCostOf (chosen avail c) < m0
        · simp only [hlt, decide_True, if_true]
          refine ⟨by simp, ?_⟩
          intro m hm
          simp only [Option.some.injEq] at hm
          subst hm
          refine ⟨⟨c, by simp, hv, rfl⟩, ?_, ?_⟩
          · intro c2 hc2 hv2
            rcases List.mem_append.mp hc2 with h | h
            · exact le_trans (le_of_lt hlt) (hle c2 h hv2)
            · simp at h; subst h; exact le_refl _
          · rw [List.filter_append, List.map_append]
            have : cs.filter (fun c2 => decide (coversAll T (chosen avail c2)) &&
                decide (totalCostOf (chosen avail c2) = totalCostOf (chosen avail c))) = [] := by
              rw [List.filter_eq_nil_iff]
              intro a ha
              by_cases hva : coversAll T (chosen avail a)
              · have := hle a ha hva
                simp [hva]; omega
              · simp [hva]
            rw [this]
            simp [hv]
        · simp only [hlt, decide_False, Bool.false_eq_true, if_false]
          by_cases heq : m0 = totalCostOf (chosen avail c)
          · rw [if_pos (by rw [heq])]
            refine ⟨by simp [hmin], ?_⟩
            intro m hm
            simp only [hmin, Option.some.injEq] at hm
            subst hm
            refine ⟨⟨c0, by simp [hc0], hv0, hcost0⟩, ?_, ?_⟩
            · intro c2 hc2 hv2
              rcases List.mem_append.mp hc2 with h | h
              · exact hle c2 h hv2
              · simp at h; subst h; exact le_of_eq heq
            · rw [List.filter_append, List.map_append, hsol]
              simp [hv, heq]
          · rw [if_neg (by intro h; simp only [Option.some.injEq] at h; exact heq h)]
            refine ⟨by simp [hmin], ?_⟩
            intro m hm
            simp only [hmin, Option.some.injEq] at hm
            subst hm
            refine ⟨⟨c0, by simp [hc0], hv0, hcost0⟩, ?_, ?_⟩
            · intro c2 hc2 hv2
              rcases List.mem_append.mp hc2 with h | h
              · exact hle c2 h hv2
              · simp at h; subst h; omega
            · rw [List.filter_append, List.map_append, hsol]
              have hne : ¬ totalCostOf (chosen avail c) = m0 := fun h => heq h.symm
              simp [hv, hne]
    · rw [if_neg hv]
      refine ⟨?_, ?_⟩
      · intro hmin
        obtain ⟨hno, hsol⟩ := ihN hmin
        refine ⟨?_, hsol⟩
        intro c2 hc2
        rcases List.mem_append.mp hc2 with h | h
        · exact hno c2 h
        · simp at h; subst h; exact hv
      · intro m hm
        obtain ⟨⟨c0, hc0, hv0, hcost0⟩, hle, hsol⟩ := ihS m hm
        refine ⟨⟨c0, by simp [hc0], hv0, hcost0⟩, ?_, ?_⟩
        · intro c2 hc2 hv2
          rcases List.mem_append.mp hc2 with h | h
          · exact hle c2 h hv2
          · simp at h; subst h; exact absurd hv2 hv
        · rw [List.filter_append, List.map_append, hsol]
          simp [hv]

/-! ## Combination numbers, sub-lists and index sets -/

theorem bitSelected_eq_testBit (c i : Nat) (hc : c < 2 ^ 32) (hi : i < 32) :
    bitSelected c i = Nat.testBit c i := by
  unfold bitSelected
  rw [Nat.mod_eq_of_lt hc, Nat.mod_eq_of_lt hi]

theorem enumFrom_filter_congr {α : Type} (l : List α) (s : Nat) (p q : Nat → Bool)
    (h : ∀ i, s ≤ i → i < s + l.length → p i = q i) :
    ((l.enumFrom s).filter (fun e => p e.1)) = ((l.enumFrom s).filter (fun e => q e.1)) := by
  apply List.filter_congr
  intro x hx
  exact h x.1 (List.le_fst_of_mem_enumFrom hx) (List.fst_lt_add_of_mem_enumFrom hx)

theorem enumFrom_filter_shift {α : Type} (l : List α) (s : Nat) (p : Nat → Bool) :
    ((l.enumFrom (s + 1)).filter (fun e => p e.1)).map Prod.snd =
      ((l.enumFrom s).filter (fun e => p (e.1 + 1))).map Prod.snd := by
  induction l generalizing s with
  | nil => simp
  | cons a l ih =>
    simp only [List.enumFrom_cons, List.filter_cons]
    by_cases hp : p (s + 1) = true
    · simp only [hp, if_true, List.map_cons, ih]
    · simp only [hp, Bool.false_eq_true, if_false]
      exact ih (s + 1)

theorem chosen_eq_testBit (avail : List PI) (c : Nat) (hlen : avail.length ≤ 30)
    (hc : c < 2 ^ avail.length) :
    chosen avail c = ((avail.enum.filter (fun e => Nat.testBit c e.1)).map Prod.snd) := by
  unfold chosen List.enum
  rw [enumFrom_filter_congr avail 0 (fun i => bitSelected c i) (fun i => Nat.testBit c i)]
  intro i _ hi
  have h1 : (2:Nat) ^ avail.length ≤ 2 ^ 32 := Nat.pow_le_pow_right (by norm_num) (by omega)
  exact bitSelected_eq_testBit c i (by omega) (by omega)

theorem chosen_sublist (avail : List PI) (c : Nat) : (chosen avail c).Sublist avail := by
  unfold chosen
  have h := (List.filter_sublist (p := fun e => bitSelected c e.1) avail.enum).map Prod.snd
  rwa [List.enum_map_snd] at h

/-- Every sub-list is selected by some mask below `2 ^ length`. -/
theorem exists_mask_of_sublist (l S : List PI) (h : S.Sublist l) :
    ∃ c, c < 2 ^ l.length ∧
      ((l.enum.filter (fun e => Nat.testBit c e.1)).map Prod.snd) = S ∧ (S ≠ [] → c ≠ 0) := by
  induction h with
  | slnil => exact ⟨0, by simp, by simp, by simp⟩
  | @cons S l a _ ih =>
    obtain ⟨c, hc, hsel, hne⟩ := ih
    refine ⟨2 * c, ?_, ?_, ?_⟩
    · rw [List.length_cons, pow_succ]; omega
    · unfold List.enum at hsel ⊢
      rw [List.enumFrom_cons, List.filter_cons]
      have h0 : Nat.testBit (2 * c) 0 = false := by
        rw [Nat.testBit_zero]; simp
      simp only [h0, Bool.false_eq_true, if_false]
      have := enumFrom_filter_shift l 0 (fun i => Nat.testBit (2 * c) i)
      simp only [Nat.zero_add] at this
      rw [this, ← hsel]
      congr 1
      apply List.filter_congr
      intro x _
      rw [Nat.testBit_succ]
      simp
    · intro hS
      have := hne hS
      omega
  | @cons₂ S l a _ ih =>
    obtain ⟨c, hc, hsel, _⟩ := ih
    refine ⟨2 * c + 1, ?_, ?_, ?_⟩
    · rw [List.length_cons, pow_succ]; omega
    · unfold List.enum at hsel ⊢
      rw [List.enumFrom_cons, List.filter_cons]
      have h0 : Nat.testBit (2 * c + 1) 0 = true := by
        rw [Nat.testBit_zero]
        have : (2 * c + 1) % 2 = 1 := by omega
        simp [this]
      simp only [h0, if_true, List.map_cons]
      have := enumFrom_filter_shift l 0 (fun i => Nat.testBit (2 * c + 1) i)
      simp only [Nat.zero_add] at this
      rw [this, ← hsel]
      congr 2
      apply List.filter_congr
      intro x _
      rw [Nat.testBit_succ]
      congr 1
      omega
    · intro _; omega

theorem exists_bit_below (k c : Nat) (hc : c < 2 ^ k) (h0 : c ≠ 0) :
    ∃ i, i < k ∧ Nat.testBit c i = true := by
  obtain ⟨i, hi⟩ := Nat.ne_zero_implies_bit_true h0
  refine ⟨i, ?_, hi⟩
  by_contra hge
  have hle : (2:Nat) ^ k ≤ 2 ^ i := Nat.pow_le_pow_right (by norm_num) (by omega)
  have := Nat.testBit_lt_two_pow (lt_of_lt_of_le hc hle)
  rw [this] at hi
  exact Bool.noConfusion hi

theorem chosen_ne_nil (avail : List PI) (c : Nat) (hlen : avail.length ≤ 30)
    (hc : c < 2 ^ avail.length) (h0 : c ≠ 0) : chosen avail c ≠ [] := by
  rw [chosen_eq_testBit avail c hlen hc]
  obtain ⟨i, hik, hi⟩ := exists_bit_below avail.length c hc h0
  intro hnil
  have hmem : (i, avail[i]) ∈ avail.enum := by
    rw [List.mk_mem_enum_iff_getElem?]
    exact List.getElem?_eq_getElem hik
  have : avail[i] ∈ (avail.enum.filter (fun e => Nat.testBit c e.1)).map Prod.snd := by
    rw [List.mem_map]
    exact ⟨(i, avail[i]), List.mem_filter.mpr ⟨hmem, hi⟩, rfl⟩
  rw [hnil] at this
  exact List.not_mem_nil _ this

/-- Some mask realises any given index predicate below `k`. -/
theorem exists_mask_of_pred (p : Nat → Bool) (k : Nat) :
    ∃ c, c < 2 ^ k ∧ ∀ i, i < k → Nat.testBit c i = p i := by
  induction k with
  | zero => exact ⟨0, by simp, by intro i hi; omega⟩
  | succ k ih =>
    obtain ⟨c, hc, hbits⟩ := ih
    by_cases hp : p k = true
    · refine ⟨2 ^ k + c, by rw [pow_succ]; omega, ?_⟩
      intro i hi
      by_cases hik : i = k
      · subst hik
        rw [Nat.testBit_two_pow_add_eq, Nat.testBit_lt_two_pow hc, hp]; rfl
      · rw [Nat.testBit_two_pow_add_gt (by omega)]
        exact hbits i (by omega)
    · refine ⟨c, by rw [pow_succ]; omega, ?_⟩
      intro i hi
      by_cases hik : i = k
      · subst hik
        rw [Nat.testBit_lt_two_pow hc]
        simpa using hp
      · exact hbits i (by omega)

/-- The index set read off a combination number. -/
theorem pickIndices_indexSetOf (avail : List PI) (c : Nat) (hlen : avail.length ≤ 30)
    (hc : c < 2 ^ avail.length) :
    pickIndices avail (indexSetOf avail.length c) = chosen avail c := by
  rw [chosen_eq_testBit avail c hlen hc]
  unfold pickIndices List.enum indexSetOf
  rw [enumFrom_filter_congr avail 0
    (fun i => decide (i ∈ (Finset.range avail.length).filter (fun i => Nat.testBit c i = true)))
    (fun i => Nat.testBit c i)]
  intro i _ hi
  simp only [Finset.mem_filter, Finset.mem_range]
  have : i < avail.length := by omega
  simp [this]

theorem indexSetOf_injective (k c1 c2 : Nat) (h1 : c1 < 2 ^ k) (h2 : c2 < 2 ^ k)
    (h : indexSetOf k c1 = indexSetOf k c2) : c1 = c2 := by
  unfold indexSetOf at h
  apply Nat.eq_of_testBit_eq
  intro i
  by_cases hi : i < k
  · have := Finset.ext_iff.mp h i
    simp only [Finset.mem_filter, Finset.mem_range, hi, true_and] at this
    cases h1b : Nat.testBit c1 i <;> cases h2b : Nat.testBit c2 i <;> simp_all
  · have hle : (2:Nat) ^ k ≤ 2 ^ i := Nat.pow_le_pow_right (by norm_num) (by omega)
    rw [Nat.testBit_lt_two_pow (lt_of_lt_of_le h1 hle),
      Nat.testBit_lt_two_pow (lt_of_lt_of_le h2 hle)]

theorem exists_mask_of_indexSet (k : Nat) (I : Finset Nat) (hI : I ⊆ Finset.range k) :
    ∃ c, c < 2 ^ k ∧ indexSetOf k c = I ∧ (I.Nonempty → c ≠ 0) := by
  obtain ⟨c, hc, hbits⟩ := exists_mask_of_pred (fun i => decide (i ∈ I)) k
  refine ⟨c, hc, ?_, ?_⟩
  · unfold indexSetOf
    ext i
    simp only [Finset.mem_filter, Finset.mem_range]
    constructor
    · rintro ⟨hi, hb⟩
      have := hbits i hi
      rw [hb] at this
      simpa using this.symm
    · intro hi
      have hik : i < k := Finset.mem_range.mp (hI hi)
      refine ⟨hik, ?_⟩
      rw [hbits i hik]
      simpa using hi
  · rintro ⟨i, hi⟩ h0
    have hik : i < k := Finset.mem_range.mp (hI hi)
    have := hbits i hik
    rw [h0] at this
    simp at this
    exact this hi

/-- The combination numbers visited by the outer loop. -/
theorem mem_combinations (k c : Nat) :
    c ∈ List.range' 1 (2 ^ k - 1) ↔ c ≠ 0 ∧ c < 2 ^ k := by
  rw [List.mem_range'_1]
  have : 0 < 2 ^ k := Nat.two_pow_pos k
  omega

/-- Closed form of the solver: either no combination covers and nothing is returned, or the
result lists, in increasing combination order, the covering combinations of minimum cost. -/
theorem findAllMinimalCovers_eq (T : List Nat) (avail : List PI) :
    ((∀ c ∈ List.range' 1 (2 ^ avail.length - 1), ¬ coversAll T (chosen avail c)) ∧
        findAllMinimalCovers T avail = []) ∨
    (∃ m, (∃ c ∈ List.range' 1 (2 ^ avail.length - 1),
          coversAll T (chosen avail c) ∧ totalCostOf (chosen avail c) = m) ∧
        (∀ c ∈ List.range' 1 (2 ^ avail.length - 1),
          coversAll T (chosen avail c) → m ≤ totalCostOf (chosen avail c)) ∧
        findAllMinimalCovers T avail =
          ((List.range' 1 (2 ^ avail.length - 1)).filter
            (fun c => decide (coversAll T (chosen avail c)) &&
              decide (totalCostOf (chosen avail c) = m))).map
            (fun c => (⟨chosen avail c, totalCostOf (chosen avail c)⟩ : Cover))) := by
  have h := coverSearch_invariant T avail (List.range' 1 (2 ^ avail.length - 1))
  unfold findAllMinimalCovers
  simp only []
  cases hmin : ((List.range' 1 (2 ^ avail.length - 1)).foldl (coverStep T avail)
      ⟨none, []⟩).minCost with
  | none => exact Or.inl (h.1 hmin)
  | some m => exact Or.inr ⟨m, h.2 m hmin⟩

/-- Each returned solution comes from a covering combination number. -/
theorem mem_findAllMinimalCovers (T : List Nat) (avail : List PI) (sol : Cover)
    (h : sol ∈ findAllMinimalCovers T avail) :
    ∃ c, c ≠ 0 ∧ c < 2 ^ avail.length ∧ coversAll T (chosen avail c) ∧
      sol = ⟨chosen avail c, totalCostOf (chosen avail c)⟩ ∧
      ∀ c2, c2 ≠ 0 → c2 < 2 ^ avail.length → coversAll T (chosen avail c2) →
        totalCostOf (chosen avail c) ≤ totalCostOf (chosen avail c2) := by
  rcases findAllMinimalCovers_eq T avail with ⟨_, hnil⟩ | ⟨m, _, hle, heq⟩
  · rw [hnil] at h; exact absurd h (List.not_mem_nil _)
  · rw [heq, List.mem_map] at h
    obtain ⟨c, hc, rfl⟩ := h
    rw [List.mem_filter] at hc
    obtain ⟨hmem, hgood⟩ := hc
    simp only [Bool.and_eq_true, decide_eq_true_eq] at hgood
    obtain ⟨hc0, hclt⟩ := (mem_combinations _ _).mp hmem
    refine ⟨c, hc0, hclt, hgood.1, rfl, ?_⟩
    intro c2 h0 hlt hv
    rw [hgood.2]
    exact hle c2 ((mem_combinations _ _).mpr ⟨h0, hlt⟩) hv

/-- Soundness of the solver: with at most 30 candidates, every solution returned by
`findAllMinimalCovers` is a non-empty sub-list of the candidates, its minterms lists
together contain every target, and its cost field is the sum of the costs of its PIs. -/
theorem minimalCovers_sound (T : List Nat) (candidates : List PI)
    (hlen : candidates.length ≤ 30) :
    ∀ sol ∈ findAllMinimalCovers T candidates,
      sol.pis ≠ [] ∧ sol.pis.Sublist candidates ∧ coversAll T sol.pis ∧
      sol.cost = totalCostOf sol.pis := by
  intro sol hsol
  obtain ⟨c, hc0, hclt, hv, rfl, _⟩ := mem_findAllMinimalCovers T candidates sol hsol
  exact ⟨chosen_ne_nil candidates c hlen hclt hc0, chosen_sublist candidates c, hv, rfl⟩

/-- Optimality of the solver: with at most 30 candidates, all returned solutions have the
same cost, no non-empty covering sub-list of the candidates is cheaper than a returned
solution, and a solution is returned whenever a non-empty covering sub-list exists. -/
theorem minimalCovers_optimal (T : List Nat) (candidates : List PI)
    (hlen : candidates.length ≤ 30) :
    (∀ sol1 ∈ findAllMinimalCovers T candidates, ∀ sol2 ∈ findAllMinimalCovers T candidates,
        sol1.cost = sol2.cost) ∧
    (∀ sol ∈ findAllMinimalCovers T candidates, ∀ S : List PI, S.Sublist candidates →
        S ≠ [] → coversAll T S → sol.cost ≤ totalCostOf S) ∧
    ((∃ S : List PI, S.Sublist candidates ∧ S ≠ [] ∧ coversAll T S) →
        findAllMinimalCovers T candidates ≠ []) := by
  have hmask : ∀ S : List PI, S.Sublist candidates → S ≠ [] →
      ∃ c, c ≠ 0 ∧ c < 2 ^ candidates.length ∧ chosen candidates c = S := by
    intro S hS hne
    obtain ⟨c, hc, hsel, hc0⟩ := exists_mask_of_sublist candidates S hS
    exact ⟨c, hc0 hne, hc, by rw [chosen_eq_testBit candidates c hlen hc]; exact hsel⟩
  refine ⟨?_, ?_, ?_⟩
  · intro sol1 h1 sol2 h2
    obtain ⟨c1, hc1, hlt1, hv1, rfl, hmin1⟩ := mem_findAllMinimalCovers T candidates sol1 h1
    obtain ⟨c2, hc2, hlt2, hv2, rfl, hmin2⟩ := mem_findAllMinimalCovers T candidates sol2 h2
    exact le_antisymm (hmin1 c2 hc2 hlt2 hv2) (hmin2 c1 hc1 hlt1 hv1)
  · intro sol hsol S hS hne hcov
    obtain ⟨c, _, _, _, rfl, hmin⟩ := mem_findAllMinimalCovers T candidates sol hsol
    obtain ⟨c2, h0, hlt, rfl⟩ := hmask S hS hne
    exact hmin c2 h0 hlt hcov
  · rintro ⟨S, hS, hne, hcov⟩ hnil
    obtain ⟨c2, h0, hlt, rfl⟩ := hmask S hS hne
    rcases findAllMinimalCovers_eq T candidates with ⟨hno, _⟩ | ⟨m, ⟨c, hc, hv, hcost⟩, _, heq⟩
    · exact hno c2 ((mem_combinations _ _).mpr ⟨h0, hlt⟩) hcov
    · rw [heq] at hnil
      have : (⟨chosen candidates c, totalCostOf (chosen candidates c)⟩ : Cover) ∈
          ((List.range' 1 (2 ^ candidates.length - 1)).filter
            (fun c => decide (coversAll T (chosen candidates c)) &&
              decide (totalCostOf (chosen candidates c) = m))).map
            (fun c => (⟨chosen candidates c, totalCostOf (chosen candidates c)⟩ : Cover)) := by
        rw [List.mem_map]
        exact ⟨c, List.mem_filter.mpr ⟨hc, by simp [hv, hcost]⟩, rfl⟩
      rw [hnil] at this
      exact List.not_mem_nil _ this

/-- C7 (solver completeness): with at most 30 candidates, the returned solutions are the
selections of a duplicate-free list of index sets, and an index set is in that list
exactly when it is a non-empty covering set of minimum total cost. -/
theorem findAllMinimalCovers_complete (T : List Nat) (candidates : List PI)
    (hlen : candidates.length ≤ 30) :
    ∃ indexSets : List (Finset Nat), indexSets.Nodup ∧
      (findAllMinimalCovers T candidates).map Cover.pis =
        indexSets.map (pickIndices candidates) ∧
      ∀ I : Finset Nat, I ∈ indexSets ↔ IsMinimalCoverSet T candidates I := by
  have hpick : ∀ c, c < 2 ^ candidates.length →
      pickIndices candidates (indexSetOf candidates.length c) = chosen candidates c :=
    fun c hc => pickIndices_indexSetOf candidates c hlen hc
  have hsub : ∀ c, indexSetOf candidates.length c ⊆ Finset.range candidates.length := by
    intro c; unfold indexSetOf; exact Finset.filter_subset _ _
  have hnonempty : ∀ c, c ≠ 0 → c < 2 ^ candidates.length →
      (indexSetOf candidates.length c).Nonempty := by
    intro c h0 hlt
    obtain ⟨i, hik, hi⟩ := exists_bit_below candidates.length c hlt h0
    exact ⟨i, by unfold indexSetOf; simp [hik, hi]⟩
  rcases findAllMinimalCovers_eq T candidates with ⟨hno, hnil⟩ | ⟨m, ⟨c0, hc0, hv0, hcost0⟩, hle, heq⟩
  · refine ⟨[], List.nodup_nil, by simp [hnil], ?_⟩
    intro I
    simp only [List.not_mem_nil, false_iff]
    rintro ⟨hI, hne, hcov, _⟩
    obtain ⟨c, hc, hIc, h0⟩ := exists_mask_of_indexSet candidates.length I hI
    rw [← hIc, hpick c hc] at hcov
    exact hno c ((mem_combinations _ _).mpr ⟨h0 hne, hc⟩) hcov
  · refine ⟨((List.range' 1 (2 ^ candidates.length - 1)).filter
        (fun c => decide (coversAll T (chosen candidates c)) &&
          decide (totalCostOf (chosen candidates c) = m))).map
        (indexSetOf candidates.length), ?_, ?_, ?_⟩
    · apply List.Nodup.map_on
      · intro c1 h1 c2 h2 hEq
        have hlt1 := ((mem_combinations _ _).mp (List.mem_filter.mp h1).1).2
        have hlt2 := ((mem_combinations _ _).mp (List.mem_filter.mp h2).1).2
        exact indexSetOf_injective candidates.length c1 c2 hlt1 hlt2 hEq
      · exact (List.nodup_range' 1 _).filter _
    · rw [heq, List.map_map, List.map_map]
      apply List.map_congr_left
      intro c hc
      have hlt := ((mem_combinations _ _).mp (List.mem_filter.mp hc).1).2
      simp only [Function.comp]
      exact (hpick c hlt).symm
    · intro I
      rw [List.mem_map]
      constructor
      · rintro ⟨c, hc, rfl⟩
        obtain ⟨hmem, hgood⟩ := List.mem_filter.mp hc
        simp only [Bool.and_eq_true, decide_eq_true_eq] at hgood
        obtain ⟨h0, hlt⟩ := (mem_combinations _ _).mp hmem
        refine ⟨hsub c, hnonempty c h0 hlt, by rw [hpick c hlt]; exact hgood.1, ?_⟩
        intro J hJ hJne hJcov
        obtain ⟨cJ, hcJ, hIJ, hJ0⟩ := exists_mask_of_indexSet candidates.length J hJ
        rw [← hIJ, hpick cJ hcJ] at hJcov ⊢
        rw [hpick c hlt, hgood.2]
        exact hle cJ ((mem_combinations _ _).mpr ⟨hJ0 hJne, hcJ⟩) hJcov
      · rintro ⟨hI, hne, hcov, hminI⟩
        obtain ⟨c, hc, hIc, h0⟩ := exists_mask_of_indexSet candidates.length I hI
        refine ⟨c, ?_, hIc⟩
        have hmemc := (mem_combinations candidates.length c).mpr ⟨h0 hne, hc⟩
        have hcovc : coversAll T (chosen candidates c) := by
          rw [← hpick c hc, hIc]; exact hcov
        have hlt0 := ((mem_combinations _ _).mp hc0).2
        have h00 := ((mem_combinations _ _).mp hc0).1
        have h1 := hminI (indexSetOf candidates.length c0) (hsub c0) (hnonempty c0 h00 hlt0)
          (by rw [hpick c0 hlt0]; exact hv0)
        rw [hpick c0 hlt0, ← hIc, hpick c hc, hcost0] at h1
        have h2 := hle c hmemc hcovc
        rw [List.mem_filter]
        refine ⟨hmemc, ?_⟩
        simp only [Bool.and_eq_true, decide_eq_true_eq]
        exact ⟨hcovc, le_antisymm h1 h2⟩

/-! ## Binary expansions -/

theorem digitChar_mod_two (m : Nat) :
    Nat.digitChar (m % 2) = if m % 2 = 1 then '1' else '0' := by
  rcases Nat.mod_two_eq_zero_or_one m with h | h <;> simp [h, Nat.digitChar]

theorem length_bits (n m : Nat) : (bits n m).length = n := by
  induction n generalizing m with
  | zero => rfl
  | succ n ih => simp [bits, ih]

theorem isBin_bits (n m : Nat) : IsBin (bits n m) := by
  induction n generalizing m with
  | zero => intro c hc; simp [bits] at hc
  | succ n ih =>
    intro c hc
    simp only [bits, List.mem_append, List.mem_singleton] at hc
    rcases hc with hc | hc
    · exact ih _ c hc
    · subst hc
      by_cases h : m % 2 = 1 <;> simp [h]

theorem bits_zero_right (n : Nat) : bits n 0 = List.replicate n '0' := by
  induction n with
  | zero => rfl
  | succ n ih =>
    simp only [bits, Nat.zero_div, ih, Nat.zero_mod]
    rw [if_neg (by decide)]
    exact (List.replicate_succ' ..).symm

/-- The digit loop of `toString(2)` produces the shortest expansion, and padding it with
zeros gives the fixed-width expansion. -/
theorem toDigitsCore_two (fuel : Nat) :
    ∀ (m n : Nat) (ds : List Char), m < fuel → m < 2 ^ n → 1 ≤ n →
      ∃ k, 1 ≤ k ∧ k ≤ n ∧ Nat.toDigitsCore 2 fuel m ds = bits k m ++ ds ∧
        bits n m = List.replicate (n - k) '0' ++ bits k m := by
  induction fuel with
  | zero => intro m n ds h; omega
  | succ fuel ih =>
    intro m n ds hm hn h1
    unfold Nat.toDigitsCore
    simp only []
    by_cases hz : m / 2 = 0
    · rw [if_pos hz]
      refine ⟨1, le_refl 1, h1, ?_, ?_⟩
      · simp [bits, digitChar_mod_two]
      · obtain ⟨n, rfl⟩ : ∃ j, n = j + 1 := ⟨n - 1, by omega⟩
        simp only [bits, hz, bits_zero_right, Nat.add_sub_cancel, List.nil_append]
    · rw [if_neg hz]
      obtain ⟨n, rfl⟩ : ∃ j, n = j + 1 := ⟨n - 1, by omega⟩
      have hm2 : m / 2 < fuel := by omega
      have hn2 : m / 2 < 2 ^ n := by
        rw [pow_succ] at hn; omega
      have hn1 : 1 ≤ n := by
        rcases Nat.eq_zero_or_pos n with h0 | h0
        · subst h0; simp at hn2; omega
        · exact h0
      obtain ⟨k, hk1, hkn, hcore, hbits⟩ := ih (m / 2) n (Nat.digitChar (m % 2) :: ds) hm2 hn2 hn1
      refine ⟨k + 1, by omega, by omega, ?_, ?_⟩
      · rw [hcore]
        simp [bits, digitChar_mod_two]
      · simp only [bits]
        rw [hbits]
        have : n + 1 - (k + 1) = n - k := by omega
        rw [this, List.append_assoc]

theorem toBinary_eq_bits (m n : Nat) (hm : m < 2 ^ n) (hn : 1 ≤ n) : toBinary m n = bits n m := by
  unfold toBinary padStart Nat.toDigits
  obtain ⟨k, _, _, hcore, hbits⟩ := toDigitsCore_two (m + 1) m n [] (by omega) hm hn
  rw [hcore, hbits]
  simp [length_bits]

theorem bits_injective (n m1 m2 : Nat) (h1 : m1 < 2 ^ n) (h2 : m2 < 2 ^ n)
    (h : bits n m1 = bits n m2) : m1 = m2 := by
  induction n generalizing m1 m2 with
  | zero => simp at h1 h2; omega
  | succ n ih =>
    simp only [bits] at h
    have hlen : (bits n (m1 / 2)).length = (bits n (m2 / 2)).length := by
      rw [length_bits, length_bits]
    obtain ⟨ha, hb⟩ := List.append_inj h hlen
    rw [pow_succ] at h1 h2
    have := ih (m1 / 2) (m2 / 2) (by omega) (by omega) ha
    have hmod : m1 % 2 = m2 % 2 := by
      rcases Nat.mod_two_eq_zero_or_one m1 with e1 | e1 <;>
        rcases Nat.mod_two_eq_zero_or_one m2 with e2 | e2 <;> simp [e1, e2] at hb ⊢
    omega

theorem bits_surjective (s : List Char) (hs : IsBin s) :
    ∃ m, m < 2 ^ s.length ∧ bits s.length m = s := by
  induction s using List.reverseRecOn with
  | nil => exact ⟨0, by simp, rfl⟩
  | append_singleton s c ih =>
    have hs1 : IsBin s := fun x hx => hs x (List.mem_append_left _ hx)
    obtain ⟨m, hm, hb⟩ := ih hs1
    have hc : c = '0' ∨ c = '1' := hs c (by simp)
    rw [List.length_append, List.length_singleton]
    rcases hc with hc | hc
    · refine ⟨2 * m, by rw [pow_succ]; omega, ?_⟩
      simp only [bits]
      have h1 : 2 * m / 2 = m := by omega
      have h2 : ¬ (2 * m % 2 = 1) := by omega
      rw [h1, hb, if_neg h2, hc]
    · refine ⟨2 * m + 1, by rw [pow_succ]; omega, ?_⟩
      simp only [bits]
      have h1 : (2 * m + 1) / 2 = m := by omega
      have h2 : (2 * m + 1) % 2 = 1 := by omega
      rw [h1, hb, if_pos h2, hc]

/-! ## The term combiner -/

theorem Combines.length_left {b1 b2 c : List Char} (h : Combines b1 b2 c) :
    b1.length = c.length := by
  induction h with
  | here a b t _ => simp
  | there a t1 t2 t _ ih => simp [ih]

theorem Combines.length_right {b1 b2 c : List Char} (h : Combines b1 b2 c) :
    b2.length = c.length := by
  induction h with
  | here a b t _ => simp
  | there a t1 t2 t _ ih => simp [ih]

theorem Combines.symm {b1 b2 c : List Char} (h : Combines b1 b2 c) : Combines b2 b1 c := by
  induction h with
  | here a b t hab => exact Combines.here b a t (fun e => hab e.symm)
  | there a t1 t2 t _ ih => exact Combines.there a t2 t1 t ih

theorem Combines.unique {b1 b2 c d : List Char} (h : Combines b1 b2 c) (h2 : Combines b1 b2 d) :
    c = d := by
  induction h generalizing d with
  | here a b t hab =>
    cases h2 with
    | here _ _ _ _ => rfl
    | there _ _ _ _ _ => exact absurd rfl hab
  | there a t1 t2 t _ ih =>
    cases h2 with
    | here _ _ _ hne => exact absurd rfl hne
    | there _ _ _ t0 h0 => rw [ih h0]

theorem combineLoop_one (as : List Char) :
    ∀ (bs r : List Char), as.length = bs.length →
      combineLoop as bs 1 r = if as = bs then some (1, r ++ as) else none := by
  induction as with
  | nil =>
    intro bs r h
    cases bs with
    | nil => simp [combineLoop]
    | cons b bs => simp at h
  | cons a as ih =>
    intro bs r h
    cases bs with
    | nil => simp at h
    | cons b bs =>
      simp only [List.length_cons, Nat.add_right_cancel_iff] at h
      unfold combineLoop
      by_cases hab : a = b
      · subst hab
        simp only [ne_eq, not_true_eq_false, if_false, ih bs (r ++ [a]) h, List.cons.injEq,
          true_and, List.append_assoc, List.singleton_append]
      · simp [hab]

theorem combineLoop_zero (as : List Char) :
    ∀ (bs r x : List Char), as.length = bs.length →
      (combineLoop as bs 0 r = some (1, x) ↔ ∃ c, Combines as bs c ∧ x = r ++ c) := by
  induction as with
  | nil =>
    intro bs r x h
    cases bs with
    | nil =>
      simp only [combineLoop, Option.some.injEq, Prod.mk.injEq, zero_ne_one, false_and, false_iff]
      rintro ⟨c, hc, _⟩
      cases hc
    | cons b bs => simp at h
  | cons a as ih =>
    intro bs r x h
    cases bs with
    | nil => simp at h
    | cons b bs =>
      simp only [List.length_cons, Nat.add_right_cancel_iff] at h
      unfold combineLoop
      by_cases hab : a = b
      · subst hab
        simp only [ne_eq, not_true_eq_false, if_false]
        rw [ih bs (r ++ [a]) x h]
        constructor
        · rintro ⟨c, hc, rfl⟩
          exact ⟨a :: c, Combines.there a as bs c hc, by simp⟩
        · rintro ⟨c, hc, rfl⟩
          cases hc with
          | here _ _ _ hne => exact absurd rfl hne
          | there _ _ _ t ht => exact ⟨t, ht, by simp⟩
      · simp only [ne_eq, hab, not_false_eq_true, if_true, Nat.zero_add, gt_iff_lt,
          Nat.lt_irrefl, if_false]
        rw [combineLoop_one as bs (r ++ ['-']) h]
        constructor
        · intro hx
          by_cases he : as = bs
          · subst he
            simp only [if_true, Option.some.injEq, Prod.mk.injEq, true_and] at hx
            exact ⟨'-' :: as, Combines.here a b as hab, by rw [← hx]; simp⟩
          · simp [he] at hx
        · rintro ⟨c, hc, rfl⟩
          cases hc with
          | here _ _ _ _ => simp
          | there _ _ _ _ _ => exact absurd rfl hab

/-- The combiner succeeds exactly on two strings that differ in one position. -/
theorem combineBinaryTerms_eq_some (b1 b2 c : List Char) :
    combineBinaryTerms b1 b2 = some c ↔ Combines b1 b2 c := by
  unfold combineBinaryTerms
  by_cases hlen : b1.length = b2.length
  · simp only [ne_eq, hlen, not_true_eq_false, if_false]
    have hz := combineLoop_zero b1 b2 [] c hlen
    simp only [List.nil_append] at hz
    constructor
    · intro h
      cases hloop : combineLoop b1 b2 0 [] with
      | none => simp [hloop] at h
      | some dr =>
        obtain ⟨d, r⟩ := dr
        simp only [hloop] at h
        by_cases hd : d = 1
        · subst hd
          simp only [if_true, Option.some.injEq] at h
          subst h
          obtain ⟨c2, hc2, rfl⟩ := hz.mp hloop
          exact hc2
        · simp [hd] at h
    · intro h
      have := hz.mpr ⟨c, h, rfl⟩
      simp [this]
  · simp only [ne_eq, hlen, not_false_eq_true, if_true]
    constructor
    · intro h; exact absurd h (by simp)
    · intro h
      exact absurd (h.length_left.trans h.length_right.symm) hlen

theorem combineBinaryTerms_comm_isSome (b1 b2 : List Char) :
    (combineBinaryTerms b1 b2).isSome = (combineBinaryTerms b2 b1).isSome := by
  cases h1 : combineBinaryTerms b1 b2 with
  | some c =>
    have := (combineBinaryTerms_eq_some b2 b1 c).mpr ((combineBinaryTerms_eq_some b1 b2 c).mp h1).symm
    simp [this]
  | none =>
    cases h2 : combineBinaryTerms b2 b1 with
    | none => rfl
    | some c =>
      have := (combineBinaryTerms_eq_some b1 b2 c).mpr ((combineBinaryTerms_eq_some b2 b1 c).mp h2).symm
      rw [this] at h1
      exact absurd h1 (by simp)

/-! ## Patterns: dashes, ones and matching -/

theorem isPat_cons {a : Char} {p : List Char} :
    IsPat (a :: p) ↔ (a = '0' ∨ a = '1' ∨ a = '-') ∧ IsPat p := by
  unfold IsPat
  simp

theorem isBin_cons {a : Char} {s : List Char} :
    IsBin (a :: s) ↔ (a = '0' ∨ a = '1') ∧ IsBin s := by
  unfold IsBin
  simp

theorem dashes_cons (a : Char) (p : List Char) :
    dashes (a :: p) = dashes p + (if a = '-' then 1 else 0) := by
  unfold dashes
  rw [List.count_cons]
  by_cases h : a = '-'
  · simp [h]
  · have : ¬ (a == '-') = true := by simpa using h
    simp [h, this]

theorem countOnes_cons (a : Char) (p : List Char) :
    countOnes (a :: p) = countOnes p + (if a = '1' then 1 else 0) := by
  unfold countOnes
  rw [List.count_cons]
  by_cases h : a = '1'
  · simp [h]
  · have : ¬ (a == '1') = true := by simpa using h
    simp [h, this]

theorem dashes_le_length (p : List Char) : dashes p ≤ p.length := by
  unfold dashes
  exact List.count_le_length _ _

theorem isPat_of_isBin {s : List Char} (h : IsBin s) : IsPat s := by
  intro c hc
  rcases h c hc with h | h
  · exact Or.inl h
  · exact Or.inr (Or.inl h)

theorem dashes_of_isBin {s : List Char} (h : IsBin s) : dashes s = 0 := by
  unfold dashes
  rw [List.count_eq_zero]
  intro hmem
  rcases h _ hmem with h | h <;> exact absurd h (by decide)

theorem isBin_of_dashes_zero {p : List Char} (hp : IsPat p) (h : dashes p = 0) : IsBin p := by
  intro c hc
  rcases hp c hc with h1 | h1 | h1
  · exact Or.inl h1
  · exact Or.inr h1
  · subst h1
    unfold dashes at h
    rw [List.count_eq_zero] at h
    exact absurd hc h

theorem matchChars_cons_cons (p b : Char) (ps bs : List Char) :
    matchChars (p :: ps) (b :: bs) = true ↔ (p = '-' ∨ p = b) ∧ matchChars ps bs = true := by
  simp [matchChars]

/-- A binary string matches itself. -/
theorem matchChars_self (s : List Char) : matchChars s s = true := by
  induction s with
  | nil => rfl
  | cons a s ih => rw [matchChars_cons_cons]; exact ⟨Or.inr rfl, ih⟩

/-- A binary string is matched by a binary string only when the two are equal. -/
theorem matchChars_bin_eq (p : List Char) :
    ∀ s : List Char, IsBin p → p.length = s.length → matchChars p s = true → p = s := by
  induction p with
  | nil =>
    intro s _ hlen _
    cases s with
    | nil => rfl
    | cons b s => simp at hlen
  | cons a p ih =>
    intro s hp hlen hm
    cases s with
    | nil => simp at hlen
    | cons b s =>
      rw [matchChars_cons_cons] at hm
      rw [isBin_cons] at hp
      simp only [List.length_cons, Nat.add_right_cancel_iff] at hlen
      have hab : a = b := by
        rcases hm.1 with h | h
        · rcases hp.1 with h2 | h2 <;> rw [h] at h2 <;> exact absurd h2 (by decide)
        · exact h
      rw [hab, ih s hp.2 hlen hm.2]

theorem generalisesChars_cons_cons (a b : Char) (q p : List Char) :
    generalisesChars (a :: q) (b :: p) = true ↔
      (a = b ∨ (a = '-' ∧ (b = '0' ∨ b = '1'))) ∧ generalisesChars q p = true := by
  simp [generalisesChars]

theorem generalisesChars_refl (t : List Char) : generalisesChars t t = true := by
  induction t with
  | nil => rfl
  | cons x t ih => rw [generalisesChars_cons_cons]; exact ⟨Or.inl rfl, ih⟩

theorem char_cases_bin {a b : Char} (ha : a = '0' ∨ a = '1' ∨ a = '-')
    (hb : b = '0' ∨ b = '1' ∨ b = '-') (hab : a ≠ b)
    (hd : (if a = '-' then 1 else 0) = (if b = '-' then 1 else (0 : Nat))) :
    (a = '0' ∧ b = '1') ∨ (a = '1' ∧ b = '0') := by
  rcases ha with ha | ha | ha <;> rcases hb with hb | hb | hb <;> subst ha <;> subst hb <;>
    simp_all

/-- Combining two patterns with the same number of dashes adds one dash and unites the
two cubes. -/
theorem Combines.spec {b1 b2 c : List Char} (h : Combines b1 b2 c) (h1 : IsPat b1)
    (h2 : IsPat b2) (hd : dashes b1 = dashes b2) :
    IsPat c ∧ dashes c = dashes b1 + 1 ∧
      (countOnes b2 = countOnes b1 + 1 ∨ countOnes b1 = countOnes b2 + 1) ∧
      generalisesChars c b1 = true ∧ generalisesChars c b2 = true ∧
      (∀ s, IsBin s → s.length = c.length →
        (matchChars c s = true ↔ matchChars b1 s = true ∨ matchChars b2 s = true)) := by
  induction h with
  | here a b t hab =>
    rw [isPat_cons] at h1 h2
    rw [dashes_cons, dashes_cons] at hd
    have hd2 : (if a = '-' then 1 else 0) = (if b = '-' then 1 else (0 : Nat)) := by omega
    have hcase := char_cases_bin h1.1 h2.1 hab hd2
    refine ⟨?_, ?_, ?_, ?_, ?_, ?_⟩
    · rw [isPat_cons]; exact ⟨Or.inr (Or.inr rfl), h1.2⟩
    · rw [dashes_cons, dashes_cons]
      rcases hcase with ⟨ha, _⟩ | ⟨ha, _⟩ <;> subst ha <;> simp
    · rw [countOnes_cons, countOnes_cons]
      rcases hcase with ⟨ha, hb⟩ | ⟨ha, hb⟩ <;> subst ha <;> subst hb <;> simp
    · rw [generalisesChars_cons_cons]
      refine ⟨Or.inr ⟨rfl, ?_⟩, generalisesChars_refl t⟩
      rcases hcase with ⟨ha, _⟩ | ⟨ha, _⟩
      · exact Or.inl ha
      · exact Or.inr ha
    · rw [generalisesChars_cons_cons]
      refine ⟨Or.inr ⟨rfl, ?_⟩, generalisesChars_refl t⟩
      rcases hcase with ⟨_, hb⟩ | ⟨_, hb⟩
      · exact Or.inr hb
      · exact Or.inl hb
    · intro s hs hlen
      cases s with
      | nil => simp at hlen
      | cons x s =>
        rw [isBin_cons] at hs
        simp only [matchChars_cons_cons]
        rcases hcase with ⟨ha, hb⟩ | ⟨ha, hb⟩ <;> subst ha <;> subst hb <;>
          rcases hs.1 with hx | hx <;> subst hx <;> simp
  | there a t1 t2 t hc ih =>
    rw [isPat_cons] at h1 h2
    rw [dashes_cons, dashes_cons] at hd
    obtain ⟨ip, id, io, ig1, ig2, im⟩ := ih h1.2 h2.2 (by omega)
    refine ⟨?_, ?_, ?_, ?_, ?_, ?_⟩
    · rw [isPat_cons]; exact ⟨h1.1, ip⟩
    · rw [dashes_cons, dashes_cons]; omega
    · rw [countOnes_cons, countOnes_cons]; omega
    · rw [generalisesChars_cons_cons]; exact ⟨Or.inl rfl, ig1⟩
    · rw [generalisesChars_cons_cons]; exact ⟨Or.inl rfl, ig2⟩
    · intro s hs hlen
      cases s with
      | nil => simp at hlen
      | cons x s =>
        rw [isBin_cons] at hs
        simp only [List.length_cons, Nat.add_right_cancel_iff] at hlen
        simp only [matchChars_cons_cons]
        rw [im s hs.2 hlen]
        exact and_or_left

theorem matchChars_nil_right_cons (a : Char) (t : List Char) :
    matchChars (a :: t) [] = true ↔ a = '-' ∧ matchChars t [] = true := by
  simp [matchChars]

/-- A pattern with a dash splits into two patterns with one dash less, one holding `0`
and the other `1` at the position of its first dash. -/
theorem exists_split (c : List Char) (hc : IsPat c) (hd : 0 < dashes c) :
    ∃ c0 c1, Combines c0 c1 c ∧ IsPat c0 ∧ IsPat c1 ∧ dashes c0 + 1 = dashes c ∧
      dashes c1 + 1 = dashes c ∧ countOnes c1 = countOnes c0 + 1 ∧
      (∀ s, matchChars c0 s = true → matchChars c s = true) ∧
      (∀ s, matchChars c1 s = true → matchChars c s = true) := by
  induction c with
  | nil => simp [dashes] at hd
  | cons a t ih =>
    rw [isPat_cons] at hc
    by_cases ha : a = '-'
    · subst ha
      refine ⟨'0' :: t, '1' :: t, Combines.here '0' '1' t (by decide), ?_, ?_, ?_, ?_, ?_, ?_, ?_⟩
      · rw [isPat_cons]; exact ⟨Or.inl rfl, hc.2⟩
      · rw [isPat_cons]; exact ⟨Or.inr (Or.inl rfl), hc.2⟩
      · rw [dashes_cons, dashes_cons]; simp
      · rw [dashes_cons, dashes_cons]; simp
      · rw [countOnes_cons, countOnes_cons]; simp
      · intro s hs
        cases s with
        | nil => rw [matchChars_nil_right_cons] at hs; exact absurd hs.1 (by decide)
        | cons x s =>
          rw [matchChars_cons_cons] at hs ⊢
          exact ⟨Or.inl rfl, hs.2⟩
      · intro s hs
        cases s with
        | nil => rw [matchChars_nil_right_cons] at hs; exact absurd hs.1 (by decide)
        | cons x s =>
          rw [matchChars_cons_cons] at hs ⊢
          exact ⟨Or.inl rfl, hs.2⟩
    · rw [dashes_cons] at hd
      simp only [ha, if_false, Nat.add_zero] at hd
      obtain ⟨t0, t1, hcomb, hp0, hp1, hd0, hd1, hones, hm0, hm1⟩ := ih hc.2 hd
      refine ⟨a :: t0, a :: t1, Combines.there a t0 t1 t hcomb, ?_, ?_, ?_, ?_, ?_, ?_, ?_⟩
      · rw [isPat_cons]; exact ⟨hc.1, hp0⟩
      · rw [isPat_cons]; exact ⟨hc.1, hp1⟩
      · rw [dashes_cons, dashes_cons]; omega
      · rw [dashes_cons, dashes_cons]; omega
      · rw [countOnes_cons, countOnes_cons]; omega
      · intro s hs
        cases s with
        | nil => rw [matchChars_nil_right_cons] at hs; exact absurd hs.1 ha
        | cons x s =>
          rw [matchChars_cons_cons] at hs ⊢
          exact ⟨hs.1, hm0 s hs.2⟩
      · intro s hs
        cases s with
        | nil => rw [matchChars_nil_right_cons] at hs; exact absurd hs.1 ha
        | cons x s =>
          rw [matchChars_cons_cons] at hs ⊢
          exact ⟨hs.1, hm1 s hs.2⟩

theorem generalisesChars_length (q : List Char) :
    ∀ p, generalisesChars q p = true → q.length = p.length := by
  induction q with
  | nil =>
    intro p h
    cases p with
    | nil => rfl
    | cons b p => simp [generalisesChars] at h
  | cons a q ih =>
    intro p h
    cases p with
    | nil => simp [generalisesChars] at h
    | cons b p =>
      rw [generalisesChars_cons_cons] at h
      simp [ih p h.2]

/-- A more general pattern matches whatever the more special one matches. -/
theorem generalisesChars_match (q : List Char) :
    ∀ p s, generalisesChars q p = true → matchChars p s = true → matchChars q s = true := by
  induction q with
  | nil => intro p s _ _; rfl
  | cons a q ih =>
    intro p s hg hm
    cases p with
    | nil => simp [generalisesChars] at hg
    | cons b p =>
      rw [generalisesChars_cons_cons] at hg
      cases s with
      | nil =>
        rw [matchChars_nil_right_cons] at hm ⊢
        refine ⟨?_, ih p [] hg.2 hm.2⟩
        rcases hg.1 with h | h
        · rw [h]; exact hm.1
        · exact h.1
      | cons x s =>
        rw [matchChars_cons_cons] at hm ⊢
        refine ⟨?_, ih p s hg.2 hm.2⟩
        rcases hg.1 with h | h
        · rw [h]; exact hm.1
        · exact Or.inl h.1

/-- A proper generalisation is reached through a neighbour: some pattern differing from
`p` in one literal lies inside the generalisation. -/
theorem exists_neighbour (q : List Char) :
    ∀ p, generalisesChars q p = true → q ≠ p → IsPat p →
      ∃ p2 c, Combines p p2 c ∧ IsPat p2 ∧ dashes p2 = dashes p ∧
        (∀ s, matchChars p2 s = true → matchChars q s = true) := by
  induction q with
  | nil =>
    intro p hg hne _
    cases p with
    | nil => exact absurd rfl hne
    | cons b p => simp [generalisesChars] at hg
  | cons a q ih =>
    intro p hg hne hp
    cases p with
    | nil => simp [generalisesChars] at hg
    | cons b p =>
      rw [generalisesChars_cons_cons] at hg
      rw [isPat_cons] at hp
      rcases hg.1 with hab | ⟨ha, hb⟩
      · subst hab
        have hne2 : q ≠ p := fun e => hne (by rw [e])
        obtain ⟨p2, c, hcomb, hp2, hd2, hm2⟩ := ih p hg.2 hne2 hp.2
        refine ⟨a :: p2, a :: c, Combines.there a p p2 c hcomb, ?_, ?_, ?_⟩
        · rw [isPat_cons]; exact ⟨hp.1, hp2⟩
        · rw [dashes_cons, dashes_cons, hd2]
        · intro s hs
          cases s with
          | nil =>
            rw [matchChars_nil_right_cons] at hs ⊢
            exact ⟨hs.1, hm2 [] hs.2⟩
          | cons x s =>
            rw [matchChars_cons_cons] at hs ⊢
            exact ⟨hs.1, hm2 s hs.2⟩
      · subst ha
        have hflip : ∃ b2 : Char, b2 ≠ b ∧ (b2 = '0' ∨ b2 = '1') := by
          rcases hb with hb | hb
          · exact ⟨'1', by rw [hb]; decide, Or.inr rfl⟩
          · exact ⟨'0', by rw [hb]; decide, Or.inl rfl⟩
        obtain ⟨b2, hb2, hb2v⟩ := hflip
        refine ⟨b2 :: p, '-' :: p, Combines.here b b2 p (fun e => hb2 e.symm), ?_, ?_, ?_⟩
        · rw [isPat_cons]
          refine ⟨?_, hp.2⟩
          rcases hb2v with h | h
          · exact Or.inl h
          · exact Or.inr (Or.inl h)
        · rw [dashes_cons, dashes_cons]
          have h1 : b ≠ '-' := by rcases hb with h | h <;> rw [h] <;> decide
          have h2 : b2 ≠ '-' := by rcases hb2v with h | h <;> rw [h] <;> decide
          simp [h1, h2]
        · intro s hs
          cases s with
          | nil =>
            rw [matchChars_nil_right_cons] at hs
            have h2 : b2 ≠ '-' := by rcases hb2v with h | h <;> rw [h] <;> decide
            exact absurd hs.1 h2
          | cons x s =>
            rw [matchChars_cons_cons] at hs ⊢
            exact ⟨Or.inl rfl, generalisesChars_match q p s hg.2 hs.2⟩

/-! ## Decimal parsing of the terms -/

theorem leadingDigit_le : ∀ (fuel term : Nat), leadingDigit fuel term ≤ term := by
  intro fuel
  induction fuel with
  | zero => intro term; simp [leadingDigit]
  | succ fuel ih =>
    intro term
    unfold leadingDigit
    split
    · exact Nat.le_refl _
    · exact Nat.le_trans (ih _) (Nat.div_le_self _ _)

theorem leadingDigit_lt_ten : ∀ (fuel term : Nat), term ≤ fuel → leadingDigit fuel term < 10 := by
  intro fuel
  induction fuel with
  | zero => intro term h; simp [leadingDigit]; omega
  | succ fuel ih =>
    intro term h
    unfold leadingDigit
    split
    · assumption
    · apply ih
      omega

theorem parseDecimal_of_lt (term : Nat) (h : term < 10 ^ 21) : parseDecimal term = term := by
  unfold parseDecimal
  rw [if_pos h]

theorem firstDigitOfString_le_ten (term : Nat) : firstDigitOfString term ≤ 10 := by
  have h := leadingDigit_lt_ten term term (Nat.le_refl _)
  unfold firstDigitOfString
  simp only []
  split
  · split <;> omega
  · omega

theorem parseDecimal_le (term : Nat) : parseDecimal term ≤ term := by
  unfold parseDecimal
  split
  · exact Nat.le_refl _
  · have := firstDigitOfString_le_ten term
    have h21 : (10 : Nat) ≤ 10 ^ 21 := by norm_num
    omega

theorem parseDecimal_lt (term : Nat) : parseDecimal term < 10 ^ 21 := by
  unfold parseDecimal
  split
  · assumption
  · have := firstDigitOfString_le_ten term
    have h21 : (10 : Nat) < 10 ^ 21 := by norm_num
    omega

theorem parseDecimal_idem (term : Nat) : parseDecimal (parseDecimal term) = parseDecimal term :=
  parseDecimal_of_lt _ (parseDecimal_lt term)

theorem map_parseDecimal_of_lt (xs : List Nat) (h : ∀ m ∈ xs, m < 10 ^ 21) :
    xs.map parseDecimal = xs := by
  induction xs with
  | nil => rfl
  | cons x xs ih =>
    rw [List.map_cons, parseDecimal_of_lt x (h x (List.mem_cons_self _ _)),
      ih (fun m hm => h m (List.mem_cons_of_mem _ hm))]

theorem map_parseDecimal_idem (xs : List Nat) :
    (xs.map parseDecimal).map parseDecimal = xs.map parseDecimal :=
  map_parseDecimal_of_lt _ (by
    intro m hm
    obtain ⟨x, _, rfl⟩ := List.mem_map.1 hm
    exact parseDecimal_lt x)

/-- Level 0 on terms that `parseInt` leaves unchanged. -/
theorem initialLevel_of_lt (M D : List Nat) (n : Nat) (h : ∀ m ∈ M ++ D, m < 10 ^ 21) :
    initialLevel M n D =
      (uniqueOf (M ++ D)).map (fun term => ⟨toBinary term n, [term], 0⟩) := by
  unfold initialLevel
  simp only []
  rw [map_parseDecimal_of_lt _ h]

/-- Level 0 depends on the terms only through their parsed values. -/
theorem initialLevel_parse (M D : List Nat) (n : Nat) :
    initialLevel M n D = initialLevel (M.map parseDecimal) n (D.map parseDecimal) := by
  unfold initialLevel
  simp only []
  rw [← List.map_append, map_parseDecimal_idem]

theorem initialLevel_parse_dontCares (M D : List Nat) (n : Nat) :
    initialLevel M n D = initialLevel M n (D.map parseDecimal) := by
  rw [initialLevel_parse M D, initialLevel_parse M (D.map parseDecimal), map_parseDecimal_idem]

theorem normalizeMinterms_of_lt (fs : List (List Char × List Nat))
    (hproto : ∀ f ∈ fs, f.1 ≠ protoKey) (h : ∀ f ∈ fs, ∀ m ∈ f.2, m < 10 ^ 21) :
    normalizeMinterms fs = fs := by
  unfold normalizeMinterms
  rw [List.filter_eq_self.2 (fun f hf => by simpa using hproto f hf)]
  induction fs with
  | nil => rfl
  | cons f fs ih =>
    rw [List.map_cons, map_parseDecimal_of_lt _ (h f (List.mem_cons_self _ _)),
      ih (fun g hg => hproto g (List.mem_cons_of_mem _ hg))
        (fun g hg => h g (List.mem_cons_of_mem _ hg))]

theorem mem_normalizeMinterms (fs : List (List Char × List Nat)) (f : List Char × List Nat) :
    f ∈ normalizeMinterms fs ↔
      ∃ g ∈ fs, g.1 ≠ protoKey ∧ f = (g.1, g.2.map parseDecimal) := by
  unfold normalizeMinterms
  simp only [List.mem_map, List.mem_filter, decide_eq_true_eq]
  constructor
  · rintro ⟨g, ⟨hg, hne⟩, rfl⟩
    exact ⟨g, hg, hne, rfl⟩
  · rintro ⟨g, hg, hne, rfl⟩
    exact ⟨g, ⟨hg, hne⟩, rfl⟩

/-- The normalised targets are below 1e21, and below `2 ^ n` when the input is. -/
theorem normalizeMinterms_range (fs : List (List Char × List Nat)) (n : Nat)
    (hM : ∀ f ∈ fs, ∀ m ∈ f.2, m < 2 ^ n) :
    ∀ f ∈ normalizeMinterms fs, ∀ m ∈ f.2, m < 2 ^ n ∧ m < 10 ^ 21 := by
  intro f hf m hm
  obtain ⟨g, hg, _, rfl⟩ := (mem_normalizeMinterms fs f).1 hf
  obtain ⟨x, hx, rfl⟩ := List.mem_map.1 hm
  exact ⟨Nat.lt_of_le_of_lt (parseDecimal_le x) (hM g hg x hx), parseDecimal_lt x⟩

theorem map_parseDecimal_range (D : List Nat) (n : Nat) (hD : ∀ d ∈ D, d < 2 ^ n) :
    ∀ d ∈ D.map parseDecimal, d < 2 ^ n ∧ d < 10 ^ 21 := by
  intro d hd
  obtain ⟨x, hx, rfl⟩ := List.mem_map.1 hd
  exact ⟨Nat.lt_of_le_of_lt (parseDecimal_le x) (hD x hx), parseDecimal_lt x⟩

theorem normalizeMinterms_names_sublist (fs : List (List Char × List Nat)) :
    ((normalizeMinterms fs).map Prod.fst).Sublist (fs.map Prod.fst) := by
  unfold normalizeMinterms
  rw [List.map_map]
  have : (Prod.fst ∘ fun e : List Char × List Nat => (e.1, e.2.map parseDecimal)) = Prod.fst := by
    funext e; rfl
  rw [this]
  exact (List.filter_sublist _).map _

theorem normalizeMinterms_idem (fs : List (List Char × List Nat)) :
    normalizeMinterms (normalizeMinterms fs) = normalizeMinterms fs :=
  normalizeMinterms_of_lt _
    (fun f hf => by
      obtain ⟨g, _, hne, rfl⟩ := (mem_normalizeMinterms fs f).1 hf
      exact hne)
    (fun f hf m hm => by
      obtain ⟨g, _, _, rfl⟩ := (mem_normalizeMinterms fs f).1 hf
      obtain ⟨x, _, rfl⟩ := List.mem_map.1 hm
      exact parseDecimal_lt x)

theorem ne_protoKey_of_not_underscore (name : List Char)
    (h : startsWithUnderscore name = false) : name ≠ protoKey := by
  intro e
  rw [e] at h
  exact absurd h (by decide)

/-- Without the key `__proto__` the normalisation keeps every entry and parses its
minterms. -/
theorem normalizeMinterms_of_no_proto (fs : List (List Char × List Nat))
    (hproto : ∀ f ∈ fs, f.1 ≠ protoKey) :
    normalizeMinterms fs = fs.map (fun e => (e.1, e.2.map parseDecimal)) := by
  unfold normalizeMinterms
  rw [List.filter_eq_self.2 (fun f hf => by simpa using hproto f hf)]

theorem normalizeMinterms_length (fs : List (List Char × List Nat))
    (hproto : ∀ f ∈ fs, f.1 ≠ protoKey) : (normalizeMinterms fs).length = fs.length := by
  rw [normalizeMinterms_of_no_proto fs hproto, List.length_map]

theorem normalizeMinterms_names (fs : List (List Char × List Nat))
    (hproto : ∀ f ∈ fs, f.1 ≠ protoKey) :
    (normalizeMinterms fs).map Prod.fst = fs.map Prod.fst := by
  rw [normalizeMinterms_of_no_proto fs hproto, List.map_map]
  rfl

theorem normalizeMinterms_nodup (fs : List (List Char × List Nat))
    (hnames : (fs.map Prod.fst).Nodup) : ((normalizeMinterms fs).map Prod.fst).Nodup :=
  (normalizeMinterms_names_sublist fs).nodup hnames

/-! ## The generators read the don't-cares through `parseInt` only -/

theorem generateOnlyTruePrimeImplicants_parse_dontCares (M D : List Nat) (n : Nat) :
    generateOnlyTruePrimeImplicants M n D =
      generateOnlyTruePrimeImplicants M n (D.map parseDecimal) := by
  unfold generateOnlyTruePrimeImplicants
  rw [← initialLevel_parse_dontCares]

theorem generateQuineMcCluskeyPIs_parse_dontCares (M D : List Nat) (n : Nat) :
    generateQuineMcCluskeyPIs M n D =
      generateQuineMcCluskeyPIs M n (D.map parseDecimal) := by
  unfold generateQuineMcCluskeyPIs
  rw [← initialLevel_parse_dontCares]

theorem generateFor_parse_dontCares (count : Nat) (M D : List Nat) (n : Nat) :
    generateFor count M n D = generateFor count M n (D.map parseDecimal) := by
  unfold generateFor
  rw [← generateOnlyTruePrimeImplicants_parse_dontCares,
    ← generateQuineMcCluskeyPIs_parse_dontCares]

theorem generateAll_parse_dontCares (count n : Nat) (D : List Nat)
    (fs : List (List Char × List Nat)) :
    generateAll count n D fs = generateAll count n (D.map parseDecimal) fs := by
  induction fs with
  | nil => rfl
  | cons f fs ih =>
    obtain ⟨name, M⟩ := f
    unfold generateAll
    rw [← generateFor_parse_dontCares, ← ih]

theorem executeNormalized_parse_dontCares (cache : Stage2Cache)
    (fs : List (List Char × List Nat)) (n : Nat) (D : List Nat) :
    executeNormalized cache fs n D = executeNormalized cache fs n (D.map parseDecimal) := by
  unfold executeNormalized
  simp only []
  rw [← generateAll_parse_dontCares]

/-- The entry point is the body after the normalisation, on the normalised map and the
parsed don't-cares. -/
theorem executeMultipleOutput_eq (cache : Stage2Cache)
    (fs : List (List Char × List Nat)) (n : Nat) (D : List Nat) :
    executeMultipleOutput cache fs n D =
      executeNormalized cache (normalizeMinterms fs) n (D.map parseDecimal) := by
  unfold executeMultipleOutput
  rw [← executeNormalized_parse_dontCares]

/-! ## Grouping a level by number of ones -/

theorem groupOf_groupsPush (G : List (Nat × List IndexedTerm)) (o : Nat) (t : IndexedTerm)
    (k : Nat) :
    groupOf (groupsPush G o t) k = if k = o then groupOf G k ++ [t] else groupOf G k := by
  induction G with
  | nil =>
    unfold groupsPush groupOf
    by_cases h : k = o
    · subst h; simp [List.lookup]
    · have : (k == o) = false := by simpa using h
      simp [List.lookup, this, h]
  | cons x G ih =>
    obtain ⟨key, g⟩ := x
    unfold groupsPush
    by_cases hko : key = o
    · subst hko
      simp only [if_true]
      unfold groupOf
      by_cases h : k = key
      · subst h; simp [List.lookup]
      · have : (k == key) = false := by simpa using h
        simp [List.lookup, this, h]
    · simp only [hko, if_false]
      by_cases h : k = key
      · subst h
        have hne : ¬ k = o := hko
        unfold groupOf
        simp [List.lookup, hne]
      · have hb : (k == key) = false := by simpa using h
        have e1 : groupOf ((key, g) :: groupsPush G o t) k = groupOf (groupsPush G o t) k := by
          unfold groupOf; simp [List.lookup, hb]
        have e2 : groupOf ((key, g) :: G) k = groupOf G k := by
          unfold groupOf; simp [List.lookup, hb]
        rw [e1, e2, ih]

theorem keys_groupsPush (G : List (Nat × List IndexedTerm)) (o : Nat) (t : IndexedTerm) :
    (groupsPush G o t).map Prod.fst = setAdd (G.map Prod.fst) o := by
  induction G with
  | nil => simp [groupsPush, setAdd]
  | cons x G ih =>
    obtain ⟨key, g⟩ := x
    unfold groupsPush
    by_cases hko : key = o
    · subst hko
      simp [setAdd]
    · simp only [hko, if_false, List.map_cons, ih]
      unfold setAdd
      have hne : ¬ o = key := fun e => hko e.symm
      by_cases hmem : o ∈ G.map Prod.fst
      · simp [hmem]
      · simp [hmem, hne]

theorem groupOf_foldl_push {α : Type} (key : α → Nat) (item : α → IndexedTerm) (l : List α)
    (G : List (Nat × List IndexedTerm)) (k : Nat) :
    groupOf (l.foldl (fun g e => groupsPush g (key e) (item e)) G) k =
      groupOf G k ++ (l.filter (fun e => decide (key e = k))).map item := by
  induction l generalizing G with
  | nil => simp
  | cons e l ih =>
    rw [List.foldl_cons, ih, groupOf_groupsPush, List.filter_cons]
    by_cases h : key e = k
    · simp [h]
    · have h2 : ¬ k = key e := fun e2 => h e2.symm
      simp [h, h2]

theorem keys_foldl_push {α : Type} (key : α → Nat) (item : α → IndexedTerm) (l : List α)
    (G : List (Nat × List IndexedTerm)) :
    (l.foldl (fun g e => groupsPush g (key e) (item e)) G).map Prod.fst =
      (l.map key).foldl setAdd (G.map Prod.fst) := by
  induction l generalizing G with
  | nil => simp
  | cons e l ih => rw [List.foldl_cons, ih, keys_groupsPush, List.map_cons, List.foldl_cons]

/-- The indexed copies of the terms of a level. -/
theorem groupOf_buildGroups (L : List Term) (k : Nat) :
    groupOf (buildGroups L) k =
      (L.enum.filter (fun e => decide (countOnes e.2.binary = k))).map toIndexed := by
  unfold buildGroups
  rw [groupOf_foldl_push (fun e => countOnes e.2.binary) toIndexed]
  simp [groupOf]

theorem mem_groupOf_buildGroups (L : List Term) (k : Nat) (t : IndexedTerm) :
    t ∈ groupOf (buildGroups L) k ↔
      ∃ e ∈ L.enum, toIndexed e = t ∧ countOnes t.binary = k := by
  rw [groupOf_buildGroups, List.mem_map]
  constructor
  · rintro ⟨e, he, rfl⟩
    rw [List.mem_filter] at he
    exact ⟨e, he.1, rfl, by simpa [toIndexed] using he.2⟩
  · rintro ⟨e, he, rfl, hk⟩
    exact ⟨e, List.mem_filter.mpr ⟨he, by simpa [toIndexed] using hk⟩, rfl⟩

theorem mem_groupKeys_buildGroups (L : List Term) (k : Nat) :
    k ∈ groupKeys (buildGroups L) ↔ ∃ e ∈ L.enum, countOnes e.2.binary = k := by
  unfold groupKeys buildGroups
  rw [mem_sortNumeric, keys_foldl_push (fun e => countOnes e.2.binary) toIndexed,
    mem_foldl_setAdd]
  simp

theorem sorted_groupKeys_buildGroups (L : List Term) :
    (groupKeys (buildGroups L)).Sorted (fun a b => a < b) := by
  unfold groupKeys buildGroups
  apply List.Sorted.lt_of_le (sorted_sortNumeric _)
  apply nodup_sortNumeric
  rw [keys_foldl_push (fun e => countOnes e.2.binary) toIndexed]
  exact nodup_foldl_setAdd _ _ (by simp)

/-- In a strictly increasing list two consecutive numbers are neighbours. -/
theorem mem_zip_tail_of_succ (l : List Nat) (hs : l.Sorted (fun a b => a < b)) (a : Nat)
    (ha : a ∈ l) (ha1 : a + 1 ∈ l) : (a, a + 1) ∈ l.zip l.tail := by
  induction l with
  | nil => simp at ha
  | cons x l ih =>
    rw [List.sorted_cons] at hs
    cases l with
    | nil =>
      simp only [List.mem_singleton] at ha ha1
      omega
    | cons y l =>
      simp only [List.tail_cons, List.zip_cons_cons, List.mem_cons, Prod.mk.injEq]
      rcases List.mem_cons.mp ha with hax | hal
      · subst hax
        left
        refine ⟨rfl, ?_⟩
        have hy : a < y := hs.1 y (List.mem_cons_self _ _)
        have hs2 := hs.2
        rw [List.sorted_cons] at hs2
        rcases List.mem_cons.mp ha1 with h | h
        · omega
        · rcases List.mem_cons.mp h with h | h
          · exact h
          · have := hs2.1 _ h
            omega
      · right
        have hxa : x < a := hs.1 a hal
        have ha1l : a + 1 ∈ y :: l := by
          rcases List.mem_cons.mp ha1 with h | h
          · omega
          · exact h
        have := ih hs.2 hal ha1l
        simpa using this

theorem foldl_flatMap {α β γ : Type} (f : γ → β → γ) (g : α → List β) (l : List α) (init : γ) :
    (l.flatMap g).foldl f init = l.foldl (fun acc a => (g a).foldl f acc) init := by
  induction l generalizing init with
  | nil => rfl
  | cons a l ih => rw [List.flatMap_cons, List.foldl_append, ih, List.foldl_cons]

/-- One pass over a level is a single fold over the tried pairs. -/
theorem combineLevel_eq_foldl (lvl : Nat) (L : List Term) :
    combineLevel lvl L =
      (triedPairs L).foldl (fun st p => combineStep lvl st p.1 p.2) ⟨[], []⟩ := by
  unfold combineLevel triedPairs combineGroups
  simp only []
  rw [foldl_flatMap]
  congr 1
  funext st ks
  rw [foldl_flatMap]
  congr 1
  funext st2 t1
  rw [List.foldl_map]

theorem mem_triedPairs (L : List Term) (t1 t2 : IndexedTerm) :
    (t1, t2) ∈ triedPairs L ↔
      (∃ e ∈ L.enum, toIndexed e = t1) ∧ (∃ e ∈ L.enum, toIndexed e = t2) ∧
      (countOnes t1.binary, countOnes t2.binary) ∈
        (groupKeys (buildGroups L)).zip (groupKeys (buildGroups L)).tail := by
  unfold triedPairs
  simp only [List.mem_flatMap, List.mem_map, Prod.mk.injEq]
  constructor
  · rintro ⟨⟨k1, k2⟩, hk, x, hx, y, hy, rfl, rfl⟩
    obtain ⟨e1, he1, h1, hc1⟩ := (mem_groupOf_buildGroups L k1 x).mp hx
    obtain ⟨e2, he2, h2, hc2⟩ := (mem_groupOf_buildGroups L k2 y).mp hy
    exact ⟨⟨e1, he1, h1⟩, ⟨e2, he2, h2⟩, by rw [hc1, hc2]; exact hk⟩
  · rintro ⟨⟨e1, he1, h1⟩, ⟨e2, he2, h2⟩, hk⟩
    exact ⟨(_, _), hk, t1, (mem_groupOf_buildGroups L _ t1).mpr ⟨e1, he1, h1, rfl⟩, t2,
      (mem_groupOf_buildGroups L _ t2).mpr ⟨e2, he2, h2, rfl⟩, rfl, rfl⟩

/-- Two terms of the level whose numbers of ones differ by one are tried, lower first. -/
theorem mem_triedPairs_of_succ (L : List Term) (e1 e2 : Nat × Term) (h1 : e1 ∈ L.enum)
    (h2 : e2 ∈ L.enum) (hc : countOnes e2.2.binary = countOnes e1.2.binary + 1) :
    (toIndexed e1, toIndexed e2) ∈ triedPairs L := by
  rw [mem_triedPairs]
  refine ⟨⟨e1, h1, rfl⟩, ⟨e2, h2, rfl⟩, ?_⟩
  have hk1 : countOnes e1.2.binary ∈ groupKeys (buildGroups L) :=
    (mem_groupKeys_buildGroups L _).mpr ⟨e1, h1, rfl⟩
  have hk2 : countOnes e1.2.binary + 1 ∈ groupKeys (buildGroups L) :=
    (mem_groupKeys_buildGroups L _).mpr ⟨e2, h2, hc⟩
  have := mem_zip_tail_of_succ _ (sorted_groupKeys_buildGroups L) _ hk1 hk2
  simpa [toIndexed, hc] using this

/-! ## The fold over the tried pairs -/

theorem find_binary_eq_none (NL : List Term) (c : List Char) :
    NL.find? (fun t => decide (t.binary = c)) = none ↔ c ∉ NL.map Term.binary := by
  rw [List.find?_eq_none, List.mem_map]
  constructor
  · rintro h ⟨t, ht, rfl⟩
    exact h t ht (by simp)
  · intro h t ht hb
    exact h ⟨t, ht, by simpa using hb⟩

/-- The next level after one combination attempt. -/
theorem combineStep_nextLevel (lvl : Nat) (st : LevelState) (t1 t2 : IndexedTerm) :
    (combineStep lvl st t1 t2).nextLevel =
      match combineBinaryTerms t1.binary t2.binary with
      | none => st.nextLevel
      | some c =>
        if c ∈ st.nextLevel.map Term.binary then st.nextLevel
        else st.nextLevel ++
          [⟨c, sortNumeric (uniqueOf (t1.minterms ++ t2.minterms)), lvl + 1⟩] := by
  unfold combineStep
  cases hcomb : combineBinaryTerms t1.binary t2.binary with
  | none => rfl
  | some c =>
    simp only []
    cases hfind : st.nextLevel.find? (fun t => decide (t.binary = c)) with
    | none =>
      rw [if_neg ((find_binary_eq_none _ _).mp hfind)]
    | some t =>
      have hmem : c ∈ st.nextLevel.map Term.binary := by
        by_contra hc
        rw [(find_binary_eq_none _ _).mpr hc] at hfind
        exact Option.noConfusion hfind
      rw [if_pos hmem]

theorem combineStep_usedIndices (lvl : Nat) (st : LevelState) (t1 t2 : IndexedTerm) :
    (combineStep lvl st t1 t2).usedIndices =
      if (combineBinaryTerms t1.binary t2.binary).isSome then
        setAdd (setAdd st.usedIndices t1.index) t2.index
      else st.usedIndices := by
  unfold combineStep
  cases hcomb : combineBinaryTerms t1.binary t2.binary with
  | none => simp
  | some c => simp

theorem foldl_combineStep_binary (lvl : Nat) (pairs : List (IndexedTerm × IndexedTerm))
    (st : LevelState) (c : List Char) :
    c ∈ (pairs.foldl (fun st p => combineStep lvl st p.1 p.2) st).nextLevel.map Term.binary ↔
      c ∈ st.nextLevel.map Term.binary ∨
        ∃ p ∈ pairs, combineBinaryTerms p.1.binary p.2.binary = some c := by
  induction pairs generalizing st with
  | nil => simp
  | cons p pairs ih =>
    rw [List.foldl_cons, ih, combineStep_nextLevel]
    cases hcomb : combineBinaryTerms p.1.binary p.2.binary with
    | none =>
      simp only [List.mem_cons, exists_eq_or_imp, hcomb]
      simp
    | some d =>
      simp only [List.mem_cons, exists_eq_or_imp, hcomb, Option.some.injEq]
      by_cases hd : d ∈ st.nextLevel.map Term.binary
      · rw [if_pos hd]
        constructor
        · rintro (h | h)
          · exact Or.inl h
          · exact Or.inr (Or.inr h)
        · rintro (h | h | h)
          · exact Or.inl h
          · subst h; exact Or.inl hd
          · exact Or.inr h
      · rw [if_neg hd]
        simp only [List.map_append, List.map_cons, List.map_nil, List.mem_append,
          List.mem_singleton]
        constructor
        · rintro ((h | h) | h)
          · exact Or.inl h
          · exact Or.inr (Or.inl h.symm)
          · exact Or.inr (Or.inr h)
        · rintro (h | h | h)
          · exact Or.inl (Or.inl h)
          · exact Or.inl (Or.inr h.symm)
          · exact Or.inr h

theorem foldl_combineStep_nodup (lvl : Nat) (pairs : List (IndexedTerm × IndexedTerm))
    (st : LevelState) (h : (st.nextLevel.map Term.binary).Nodup) :
    ((pairs.foldl (fun st p => combineStep lvl st p.1 p.2) st).nextLevel.map Term.binary).Nodup := by
  induction pairs generalizing st with
  | nil => simpa using h
  | cons p pairs ih =>
    rw [List.foldl_cons]
    apply ih
    rw [combineStep_nextLevel]
    cases hcomb : combineBinaryTerms p.1.binary p.2.binary with
    | none => exact h
    | some d =>
      simp only []
      by_cases hd : d ∈ st.nextLevel.map Term.binary
      · rw [if_pos hd]; exact h
      · rw [if_neg hd, List.map_append, List.nodup_append]
        refine ⟨h, by simp, ?_⟩
        intro a ha hb
        simp only [List.map_cons, List.map_nil, List.mem_singleton] at hb
        subst hb
        exact hd ha

theorem foldl_combineStep_term (lvl : Nat) (pairs : List (IndexedTerm × IndexedTerm))
    (st : LevelState) (t : Term)
    (ht : t ∈ (pairs.foldl (fun st p => combineStep lvl st p.1 p.2) st).nextLevel) :
    t ∈ st.nextLevel ∨
      ∃ p ∈ pairs, combineBinaryTerms p.1.binary p.2.binary = some t.binary ∧
        t.minterms = sortNumeric (uniqueOf (p.1.minterms ++ p.2.minterms)) ∧
        t.level = lvl + 1 := by
  induction pairs generalizing st with
  | nil => exact Or.inl (by simpa using ht)
  | cons p pairs ih =>
    rw [List.foldl_cons] at ht
    rcases ih _ ht with h | ⟨q, hq, hrest⟩
    · rw [combineStep_nextLevel] at h
      cases hcomb : combineBinaryTerms p.1.binary p.2.binary with
      | none =>
        rw [hcomb] at h
        exact Or.inl h
      | some d =>
        rw [hcomb] at h
        simp only [] at h
        by_cases hd : d ∈ st.nextLevel.map Term.binary
        · rw [if_pos hd] at h; exact Or.inl h
        · rw [if_neg hd, List.mem_append, List.mem_singleton] at h
          rcases h with h | h
          · exact Or.inl h
          · subst h
            exact Or.inr ⟨p, List.mem_cons_self _ _, hcomb, rfl, rfl⟩
    · exact Or.inr ⟨q, List.mem_cons_of_mem _ hq, hrest⟩

theorem foldl_combineStep_used (lvl : Nat) (pairs : List (IndexedTerm × IndexedTerm))
    (st : LevelState) (i : Nat) :
    i ∈ (pairs.foldl (fun st p => combineStep lvl st p.1 p.2) st).usedIndices ↔
      i ∈ st.usedIndices ∨
        ∃ p ∈ pairs, (combineBinaryTerms p.1.binary p.2.binary).isSome = true ∧
          (i = p.1.index ∨ i = p.2.index) := by
  induction pairs generalizing st with
  | nil => simp
  | cons p pairs ih =>
    rw [List.foldl_cons, ih, combineStep_usedIndices]
    simp only [List.mem_cons, exists_eq_or_imp]
    by_cases hs : (combineBinaryTerms p.1.binary p.2.binary).isSome = true
    · rw [if_pos hs]
      simp only [mem_setAdd, hs, true_and]
      constructor
      · rintro (((h | h) | h) | h)
        · exact Or.inl h
        · exact Or.inr (Or.inl (Or.inl h))
        · exact Or.inr (Or.inl (Or.inr h))
        · exact Or.inr (Or.inr h)
      · rintro (h | (h | h) | h)
        · exact Or.inl (Or.inl (Or.inl h))
        · exact Or.inl (Or.inl (Or.inr h))
        · exact Or.inl (Or.inr h)
        · exact Or.inr h
    · rw [if_neg hs]
      simp only [hs, Bool.false_eq_true, false_and, false_or]

/-! ## One pass over a level -/

theorem combineLevel_binary (lvl : Nat) (L : List Term) (c : List Char) :
    c ∈ (combineLevel lvl L).nextLevel.map Term.binary ↔
      ∃ p ∈ triedPairs L, combineBinaryTerms p.1.binary p.2.binary = some c := by
  rw [combineLevel_eq_foldl, foldl_combineStep_binary]
  simp

theorem combineLevel_nodup (lvl : Nat) (L : List Term) :
    ((combineLevel lvl L).nextLevel.map Term.binary).Nodup := by
  rw [combineLevel_eq_foldl]
  exact foldl_combineStep_nodup lvl _ _ (by simp)

theorem combineLevel_term (lvl : Nat) (L : List Term) (t : Term)
    (ht : t ∈ (combineLevel lvl L).nextLevel) :
    ∃ p ∈ triedPairs L, combineBinaryTerms p.1.binary p.2.binary = some t.binary ∧
      t.minterms = sortNumeric (uniqueOf (p.1.minterms ++ p.2.minterms)) ∧
      t.level = lvl + 1 := by
  rw [combineLevel_eq_foldl] at ht
  rcases foldl_combineStep_term lvl _ _ t ht with h | h
  · simp at h
  · exact h

theorem combineLevel_used (lvl : Nat) (L : List Term) (i : Nat) :
    i ∈ (combineLevel lvl L).usedIndices ↔
      ∃ p ∈ triedPairs L, (combineBinaryTerms p.1.binary p.2.binary).isSome = true ∧
        (i = p.1.index ∨ i = p.2.index) := by
  rw [combineLevel_eq_foldl, foldl_combineStep_used]
  simp

/-! ## The level invariant -/

theorem mem_enum_of_mem {α : Type} (L : List α) (t : α) (h : t ∈ L) :
    ∃ e ∈ L.enum, e.2 = t := by
  have : t ∈ L.enum.map Prod.snd := by rw [List.enum_map_snd]; exact h
  rw [List.mem_map] at this
  exact this

theorem mem_of_mem_enum {α : Type} (L : List α) (e : Nat × α) (h : e ∈ L.enum) : e.2 ∈ L :=
  List.snd_mem_of_mem_enum h

theorem enum_index_unique {α : Type} (L : List α) (e1 e2 : Nat × α) (h1 : e1 ∈ L.enum)
    (h2 : e2 ∈ L.enum) (h : e1.1 = e2.1) : e1 = e2 := by
  rw [List.mem_enum_iff_getElem?] at h1 h2
  rw [h] at h1
  rw [h1] at h2
  exact Prod.ext h (Option.some.inj h2)

theorem mem_binary_iff_enum (L : List Term) (b : List Char) :
    b ∈ L.map Term.binary ↔ ∃ e ∈ L.enum, e.2.binary = b := by
  rw [List.mem_map]
  constructor
  · rintro ⟨t, ht, rfl⟩
    obtain ⟨e, he, rfl⟩ := mem_enum_of_mem L t ht
    exact ⟨e, he, rfl⟩
  · rintro ⟨e, he, rfl⟩
    exact ⟨e.2, mem_of_mem_enum L e he, rfl⟩

theorem cubeIn_mono {n : Nat} {U : List Nat} {p q : List Char} (hq : CubeIn n U q)
    (h : ∀ s, matchChars p s = true → matchChars q s = true) : CubeIn n U p :=
  fun m hm hp => hq m hm (h _ hp)

/-- A successful combination of two terms of a level, seen through the invariant. -/
theorem LevelInv.combine {n k : Nat} {U : List Nat} {L : List Term} (inv : LevelInv n U k L)
    {b1 b2 c : List Char} (h1 : b1 ∈ L.map Term.binary) (h2 : b2 ∈ L.map Term.binary)
    (hc : Combines b1 b2 c) :
    (c.length = n ∧ IsPat c ∧ dashes c = k + 1 ∧ CubeIn n U c) ∧
      IsGeneralisation c b1 ∧ IsGeneralisation c b2 ∧
      (countOnes b2 = countOnes b1 + 1 ∨ countOnes b1 = countOnes b2 + 1) ∧
      (∀ m, m < 2 ^ n → (matchChars c (bits n m) = true ↔
        matchChars b1 (bits n m) = true ∨ matchChars b2 (bits n m) = true)) := by
  obtain ⟨l1, p1, d1, c1⟩ := (inv.mem_iff b1).mp h1
  obtain ⟨l2, p2, d2, c2⟩ := (inv.mem_iff b2).mp h2
  obtain ⟨ip, id, io, ig1, ig2, im⟩ := hc.spec p1 p2 (by rw [d1, d2])
  have hlen : c.length = n := by rw [← hc.length_left, l1]
  have hmatch : ∀ m, m < 2 ^ n → (matchChars c (bits n m) = true ↔
      matchChars b1 (bits n m) = true ∨ matchChars b2 (bits n m) = true) := by
    intro m _
    exact im (bits n m) (isBin_bits n m) (by rw [length_bits, hlen])
  have hne : ∀ b, dashes b = k → c ≠ b := by
    intro b hb e
    rw [e, hb, d1] at id
    omega
  refine ⟨⟨hlen, ip, by rw [id, d1], ?_⟩, ⟨ig1, hne b1 d1⟩, ⟨ig2, hne b2 d2⟩, io, hmatch⟩
  intro m hm hcm
  rcases (hmatch m hm).mp hcm with h | h
  · exact c1 m hm h
  · exact c2 m hm h

theorem LevelInv.next {n k : Nat} {U : List Nat} {L : List Term} (inv : LevelInv n U k L) :
    LevelInv n U (k + 1) (combineLevel k L).nextLevel := by
  have htried : ∀ p ∈ triedPairs L,
      p.1.binary ∈ L.map Term.binary ∧ p.2.binary ∈ L.map Term.binary ∧
      (∀ m, m ∈ p.1.minterms ↔ (m < 2 ^ n ∧ matchChars p.1.binary (bits n m) = true)) ∧
      (∀ m, m ∈ p.2.minterms ↔ (m < 2 ^ n ∧ matchChars p.2.binary (bits n m) = true)) := by
    rintro ⟨t1, t2⟩ hp
    obtain ⟨⟨e1, he1, rfl⟩, ⟨e2, he2, rfl⟩, _⟩ := (mem_triedPairs L t1 t2).mp hp
    exact ⟨(mem_binary_iff_enum L _).mpr ⟨e1, he1, rfl⟩,
      (mem_binary_iff_enum L _).mpr ⟨e2, he2, rfl⟩,
      inv.minterms_iff e1.2 (mem_of_mem_enum L e1 he1),
      inv.minterms_iff e2.2 (mem_of_mem_enum L e2 he2)⟩
  refine ⟨combineLevel_nodup k L, ?_, ?_, ?_⟩
  · intro c
    rw [combineLevel_binary]
    constructor
    · rintro ⟨p, hp, hcomb⟩
      obtain ⟨hb1, hb2, _, _⟩ := htried p hp
      exact (inv.combine hb1 hb2 ((combineBinaryTerms_eq_some _ _ _).mp hcomb)).1
    · rintro ⟨hlen, hpat, hd, hcube⟩
      obtain ⟨c0, c1, hcomb, hp0, hp1, hd0, hd1, hones, hm0, hm1⟩ :=
        exists_split c hpat (by omega)
      have hin0 : c0 ∈ L.map Term.binary :=
        (inv.mem_iff c0).mpr ⟨by rw [hcomb.length_left, hlen], hp0, by omega,
          cubeIn_mono hcube hm0⟩
      have hin1 : c1 ∈ L.map Term.binary :=
        (inv.mem_iff c1).mpr ⟨by rw [hcomb.length_right, hlen], hp1, by omega,
          cubeIn_mono hcube hm1⟩
      obtain ⟨e0, he0, hb0⟩ := (mem_binary_iff_enum L c0).mp hin0
      obtain ⟨e1, he1, hb1⟩ := (mem_binary_iff_enum L c1).mp hin1
      refine ⟨(toIndexed e0, toIndexed e1),
        mem_triedPairs_of_succ L e0 e1 he0 he1 (by rw [hb0, hb1]; exact hones), ?_⟩
      rw [combineBinaryTerms_eq_some]
      simpa [toIndexed, hb0, hb1] using hcomb
  · intro t ht m
    obtain ⟨p, hp, hcomb, hmin, _⟩ := combineLevel_term k L t ht
    obtain ⟨hb1, hb2, hm1, hm2⟩ := htried p hp
    have hspec := inv.combine hb1 hb2 ((combineBinaryTerms_eq_some _ _ _).mp hcomb)
    rw [hmin, mem_sortNumeric, mem_uniqueOf, List.mem_append, hm1, hm2]
    constructor
    · rintro (⟨hlt, h⟩ | ⟨hlt, h⟩)
      · exact ⟨hlt, (hspec.2.2.2.2 m hlt).mpr (Or.inl h)⟩
      · exact ⟨hlt, (hspec.2.2.2.2 m hlt).mpr (Or.inr h)⟩
    · rintro ⟨hlt, h⟩
      rcases (hspec.2.2.2.2 m hlt).mp h with h | h
      · exact Or.inl ⟨hlt, h⟩
      · exact Or.inr ⟨hlt, h⟩
  · intro t ht
    obtain ⟨p, _, _, hmin, _⟩ := combineLevel_term k L t ht
    rw [hmin]
    exact nodup_sortNumeric _ (nodup_uniqueOf _)

/-- A term of the level is marked used exactly when some proper generalisation of its
pattern still lies inside the function. -/
theorem LevelInv.used_iff {n k : Nat} {U : List Nat} {L : List Term} (inv : LevelInv n U k L)
    (e : Nat × Term) (he : e ∈ L.enum) :
    e.1 ∈ (combineLevel k L).usedIndices ↔
      ∃ q, IsGeneralisation q e.2.binary ∧ CubeIn n U q := by
  rw [combineLevel_used]
  constructor
  · rintro ⟨⟨t1, t2⟩, hp, hsome, hi⟩
    obtain ⟨⟨e1, he1, rfl⟩, ⟨e2, he2, rfl⟩, _⟩ := (mem_triedPairs L t1 t2).mp hp
    obtain ⟨c, hc⟩ := Option.isSome_iff_exists.mp hsome
    have hb1 : e1.2.binary ∈ L.map Term.binary := (mem_binary_iff_enum L _).mpr ⟨e1, he1, rfl⟩
    have hb2 : e2.2.binary ∈ L.map Term.binary := (mem_binary_iff_enum L _).mpr ⟨e2, he2, rfl⟩
    have hspec := inv.combine hb1 hb2 ((combineBinaryTerms_eq_some _ _ _).mp hc)
    rcases hi with hi | hi
    · have : e = e1 := enum_index_unique L e e1 he he1 hi
      subst this
      exact ⟨c, hspec.2.1, hspec.1.2.2.2⟩
    · have : e = e2 := enum_index_unique L e e2 he he2 hi
      subst this
      exact ⟨c, hspec.2.2.1, hspec.1.2.2.2⟩
  · rintro ⟨q, ⟨hgen, hne⟩, hcube⟩
    have hb : e.2.binary ∈ L.map Term.binary := (mem_binary_iff_enum L _).mpr ⟨e, he, rfl⟩
    obtain ⟨hl, hp, hd, _⟩ := (inv.mem_iff _).mp hb
    obtain ⟨p2, c, hcomb, hp2, hd2, hm2⟩ := exists_neighbour q e.2.binary hgen hne hp
    have hin2 : p2 ∈ L.map Term.binary :=
      (inv.mem_iff p2).mpr ⟨by rw [hcomb.length_right, ← hcomb.length_left, hl], hp2,
        by rw [hd2, hd], cubeIn_mono hcube hm2⟩
    obtain ⟨e2, he2, hb2⟩ := (mem_binary_iff_enum L p2).mp hin2
    have hspec := inv.combine hb hin2 hcomb
    rcases hspec.2.2.2.1 with hones | hones
    · refine ⟨(toIndexed e, toIndexed e2),
        mem_triedPairs_of_succ L e e2 he he2 (by rw [hb2]; exact hones), ?_, Or.inl rfl⟩
      have : combineBinaryTerms e.2.binary e2.2.binary = some c := by
        rw [combineBinaryTerms_eq_some, hb2]; exact hcomb
      simp [toIndexed, this]
    · refine ⟨(toIndexed e2, toIndexed e),
        mem_triedPairs_of_succ L e2 e he2 he (by rw [hb2]; exact hones), ?_, Or.inr rfl⟩
      have : combineBinaryTerms e2.2.binary e.2.binary = some c := by
        rw [combineBinaryTerms_eq_some, hb2]; exact hcomb.symm
      simp [toIndexed, this]

/-- Level 0 satisfies the invariant. -/
theorem LevelInv.initial (M D : List Nat) (n : Nat) (hn : 1 ≤ n)
    (hU : ∀ m ∈ M ++ D, m < 2 ^ n ∧ m < 10 ^ 21) :
    LevelInv n (M ++ D) 0 (initialLevel M n D) := by
  have hs := initialLevel_of_lt M D n (fun m hm => (hU m hm).2)
  replace hU : ∀ m ∈ M ++ D, m < 2 ^ n := fun m hm => (hU m hm).1
  have hmap : (initialLevel M n D).map Term.binary = (uniqueOf (M ++ D)).map (bits n) := by
    rw [hs]
    rw [List.map_map]
    apply List.map_congr_left
    intro x hx
    exact toBinary_eq_bits x n (hU x ((mem_uniqueOf _ _).mp hx)) hn
  refine ⟨?_, ?_, ?_, ?_⟩
  · rw [hmap]
    apply List.Nodup.map_on
    · intro x hx y hy hxy
      exact bits_injective n x y (hU x ((mem_uniqueOf _ _).mp hx))
        (hU y ((mem_uniqueOf _ _).mp hy)) hxy
    · exact nodup_uniqueOf _
  · intro p
    rw [hmap, List.mem_map]
    constructor
    · rintro ⟨x, hx, rfl⟩
      have hxU := (mem_uniqueOf _ _).mp hx
      refine ⟨length_bits n x, isPat_of_isBin (isBin_bits n x), dashes_of_isBin (isBin_bits n x), ?_⟩
      intro m hm hmatch
      have := matchChars_bin_eq (bits n x) (bits n m) (isBin_bits n x)
        (by rw [length_bits, length_bits]) hmatch
      rw [← bits_injective n x m (hU x hxU) hm this]
      exact hxU
    · rintro ⟨hlen, hpat, hd, hcube⟩
      obtain ⟨m, hm, hbits⟩ := bits_surjective p (isBin_of_dashes_zero hpat hd)
      rw [hlen] at hm hbits
      have hmU : m ∈ M ++ D := hcube m hm (by rw [hbits]; exact matchChars_self p)
      exact ⟨m, (mem_uniqueOf _ _).mpr hmU, hbits⟩
  · intro t ht m
    rw [hs] at ht
    rw [List.mem_map] at ht
    obtain ⟨x, hx, rfl⟩ := ht
    have hxU := (mem_uniqueOf _ _).mp hx
    simp only [List.mem_singleton]
    rw [toBinary_eq_bits x n (hU x hxU) hn]
    constructor
    · rintro rfl
      exact ⟨hU m hxU, matchChars_self _⟩
    · rintro ⟨hm, hmatch⟩
      have := matchChars_bin_eq (bits n x) (bits n m) (isBin_bits n x)
        (by rw [length_bits, length_bits]) hmatch
      exact (bits_injective n x m (hU x hxU) hm this).symm
  · intro t ht
    rw [hs] at ht
    rw [List.mem_map] at ht
    obtain ⟨x, _, rfl⟩ := ht
    simp

/-! ## The level loop of the single-function generator -/

theorem mem_unusedTerms (L : List Term) (used : List Nat) (t : Term) :
    t ∈ unusedTerms L used ↔ ∃ e ∈ L.enum, e.1 ∉ used ∧ e.2 = t := by
  unfold unusedTerms
  rw [List.mem_map]
  constructor
  · rintro ⟨e, he, rfl⟩
    rw [List.mem_filter] at he
    exact ⟨e, he.1, by simpa using he.2, rfl⟩
  · rintro ⟨e, he, hu, rfl⟩
    exact ⟨e, List.mem_filter.mpr ⟨he, by simpa using hu⟩, rfl⟩

theorem unusedTerms_sublist (L : List Term) (used : List Nat) :
    (unusedTerms L used).Sublist L := by
  unfold unusedTerms
  have h := (List.filter_sublist (p := fun e => decide (e.1 ∉ used)) L.enum).map Prod.snd
  rwa [List.enum_map_snd] at h

/-- A pattern inside the function has a specialisation with any smaller number of dashes
inside the function. -/
theorem exists_specialisation (n : Nat) (U : List Nat) (j : Nat) :
    ∀ (p : List Char) (k : Nat), dashes p = k + j → p.length = n → IsPat p → CubeIn n U p →
      ∃ p2, p2.length = n ∧ IsPat p2 ∧ dashes p2 = k ∧ CubeIn n U p2 := by
  induction j with
  | zero => intro p k hd hl hp hc; exact ⟨p, hl, hp, by omega, hc⟩
  | succ j ih =>
    intro p k hd hl hp hc
    obtain ⟨c0, _, hcomb, hp0, _, hd0, _, _, hm0, _⟩ := exists_split p hp (by omega)
    exact ih c0 k (by omega) (by rw [hcomb.length_left, hl]) hp0 (cubeIn_mono hc hm0)

/-- Patterns that cannot be generalised inside the function. -/
theorem truePILoop_spec (n : Nat) (U : List Nat) (fuel : Nat) :
    ∀ (k : Nat) (L acc : List Term), LevelInv n U k L → 1 ≤ fuel →
      (L ≠ [] → n + 1 ≤ fuel + k) →
      ∃ out, truePILoop fuel L k acc = some (acc ++ out) ∧
        (out.map Term.binary).Nodup ∧
        (∀ t ∈ out, k ≤ dashes t.binary ∧ t.binary.length = n ∧ IsPat t.binary ∧
          CubeIn n U t.binary ∧ (∀ q, IsGeneralisation q t.binary → ¬ CubeIn n U q) ∧
          (∀ m, m ∈ t.minterms ↔ (m < 2 ^ n ∧ matchChars t.binary (bits n m) = true)) ∧
          t.minterms.Nodup) ∧
        (∀ p, p.length = n → IsPat p → k ≤ dashes p → CubeIn n U p →
          (∀ q, IsGeneralisation q p → ¬ CubeIn n U q) → p ∈ out.map Term.binary) := by
  induction fuel with
  | zero => intro k L acc _ h; omega
  | succ fuel ih =>
    intro k L acc inv _ hfuel
    unfold truePILoop
    by_cases hL : L.length > 0
    · rw [if_pos hL]
      simp only []
      have hLne : L ≠ [] := by intro e; rw [e] at hL; simp at hL
      have hf := hfuel hLne
      -- facts on the unused terms of this level
      have hunused : ∀ t ∈ unusedTerms L (combineLevel k L).usedIndices,
          k ≤ dashes t.binary ∧ t.binary.length = n ∧ IsPat t.binary ∧
          CubeIn n U t.binary ∧ (∀ q, IsGeneralisation q t.binary → ¬ CubeIn n U q) ∧
          (∀ m, m ∈ t.minterms ↔ (m < 2 ^ n ∧ matchChars t.binary (bits n m) = true)) ∧
          t.minterms.Nodup := by
        intro t ht
        obtain ⟨e, he, hu, rfl⟩ := (mem_unusedTerms _ _ _).mp ht
        have hmem := mem_of_mem_enum L e he
        obtain ⟨hl, hp, hd, hc⟩ := (inv.mem_iff _).mp (List.mem_map_of_mem Term.binary hmem)
        refine ⟨by omega, hl, hp, hc, ?_, inv.minterms_iff _ hmem, inv.minterms_nodup _ hmem⟩
        intro q hq hcq
        exact hu ((inv.used_iff e he).mpr ⟨q, hq, hcq⟩)
      have hcomplete : ∀ p, p.length = n → IsPat p → dashes p = k → CubeIn n U p →
          (∀ q, IsGeneralisation q p → ¬ CubeIn n U q) →
          p ∈ (unusedTerms L (combineLevel k L).usedIndices).map Term.binary := by
        intro p hl hp hd hc hprime
        obtain ⟨e, he, hb⟩ := (mem_binary_iff_enum L p).mp ((inv.mem_iff p).mpr ⟨hl, hp, hd, hc⟩)
        rw [List.mem_map]
        refine ⟨e.2, (mem_unusedTerms _ _ _).mpr ⟨e, he, ?_, rfl⟩, hb⟩
        intro hused
        obtain ⟨q, hq, hcq⟩ := (inv.used_iff e he).mp hused
        rw [hb] at hq
        exact hprime q hq hcq
      have hnodup : ((unusedTerms L (combineLevel k L).usedIndices).map Term.binary).Nodup :=
        ((unusedTerms_sublist L _).map Term.binary).nodup inv.nodup
      by_cases hNL : (combineLevel k L).nextLevel.length = 0
      · rw [if_pos hNL]
        refine ⟨_, rfl, hnodup, hunused, ?_⟩
        intro p hl hp hd hc hprime
        rcases Nat.eq_or_lt_of_le hd with hk | hk
        · exact hcomplete p hl hp hk.symm hc hprime
        · exfalso
          obtain ⟨p2, hl2, hp2, hd2, hc2⟩ :=
            exists_specialisation n U (dashes p - (k + 1)) p (k + 1) (by omega) hl hp hc
          have := (inv.next.mem_iff p2).mpr ⟨hl2, hp2, hd2, hc2⟩
          rw [List.length_eq_zero] at hNL
          rw [hNL] at this
          simp at this
      · rw [if_neg hNL]
        have hNLne : (combineLevel k L).nextLevel ≠ [] := by
          intro e; rw [e] at hNL; simp at hNL
        have hk1 : k + 1 ≤ n := by
          obtain ⟨t, ht⟩ := List.exists_mem_of_ne_nil _ hNLne
          obtain ⟨hl, _, hd, _⟩ :=
            (inv.next.mem_iff _).mp (List.mem_map_of_mem Term.binary ht)
          have := dashes_le_length t.binary
          omega
        obtain ⟨out, hout, hnd, hsound, hcompl⟩ :=
          ih (k + 1) (combineLevel k L).nextLevel
            (acc ++ unusedTerms L (combineLevel k L).usedIndices) inv.next (by omega)
            (fun _ => by omega)
        refine ⟨unusedTerms L (combineLevel k L).usedIndices ++ out, ?_, ?_, ?_, ?_⟩
        · rw [hout, List.append_assoc]
        · rw [List.map_append, List.nodup_append]
          refine ⟨hnodup, hnd, ?_⟩
          intro b hb1 hb2
          rw [List.mem_map] at hb1 hb2
          obtain ⟨t1, ht1, rfl⟩ := hb1
          obtain ⟨t2, ht2, hEq⟩ := hb2
          obtain ⟨e, he, _, rfl⟩ := (mem_unusedTerms _ _ _).mp ht1
          obtain ⟨_, _, hd, _⟩ :=
            (inv.mem_iff _).mp (List.mem_map_of_mem Term.binary (mem_of_mem_enum L e he))
          have := (hsound t2 ht2).1
          rw [hEq] at this
          omega
        · intro t ht
          rcases List.mem_append.mp ht with h | h
          · exact hunused t h
          · obtain ⟨h1, h2⟩ := hsound t h
            exact ⟨by omega, h2⟩
        · intro p hl hp hd hc hprime
          rw [List.map_append, List.mem_append]
          rcases Nat.eq_or_lt_of_le hd with hk | hk
          · exact Or.inl (hcomplete p hl hp hk.symm hc hprime)
          · exact Or.inr (hcompl p hl hp hk hc hprime)
    · rw [if_neg hL]
      have hLnil : L = [] := by
        cases L with
        | nil => rfl
        | cons a l => simp at hL
      refine ⟨[], by simp, by simp, by simp, ?_⟩
      intro p hl hp hd hc _
      exfalso
      obtain ⟨p2, hl2, hp2, hd2, hc2⟩ :=
        exists_specialisation n U (dashes p - k) p k (by omega) hl hp hc
      have := (inv.mem_iff p2).mpr ⟨hl2, hp2, hd2, hc2⟩
      rw [hLnil] at this
      simp at this

theorem foldl_max_length (L : List Term) (n a : Nat) (h : ∀ t ∈ L, t.binary.length = n)
    (hne : L ≠ []) : L.foldl (fun n t => max n t.binary.length) a = max a n := by
  induction L generalizing a with
  | nil => exact absurd rfl hne
  | cons t L ih =>
    rw [List.foldl_cons, h t (List.mem_cons_self _ _)]
    cases L with
    | nil => rfl
    | cons t2 L2 =>
      rw [ih (max a n) (fun x hx => h x (List.mem_cons_of_mem _ hx)) (by simp)]
      simp

theorem maxBinaryLength_eq (L : List Term) (n : Nat) (h : ∀ t ∈ L, t.binary.length = n)
    (hne : L ≠ []) : maxBinaryLength L = n := by
  unfold maxBinaryLength
  rw [foldl_max_length L n 0 h hne]
  simp

theorem maxBinaryLength_nil : maxBinaryLength [] = 0 := rfl

/-- The final filter of the single-function generator on terms with distinct patterns. -/
theorem collectTruePIs_foldl (M : List Nat) (all : List Term) :
    ∀ (res : List Implicant) (seen : List (List Char)),
      (all.map Term.binary).Nodup → (∀ t ∈ all, t.binary ∉ seen) →
      (all.foldl
        (fun (acc : List Implicant × List (List Char)) implicant =>
          let coveredMinterms := implicant.minterms.filter (fun m => decide (m ∈ M))
          if coveredMinterms.length > 0 ∧ implicant.binary ∉ acc.2 then
            (acc.1 ++ [⟨implicant.binary, coveredMinterms⟩], setAdd acc.2 implicant.binary)
          else acc)
        (res, seen)).1 =
      res ++ (all.filter
        (fun t => decide ((t.minterms.filter (fun m => decide (m ∈ M))).length > 0))).map
        (fun t => (⟨t.binary, t.minterms.filter (fun m => decide (m ∈ M))⟩ : Implicant)) := by
  induction all with
  | nil => intro res seen _ _; simp
  | cons t all ih =>
    intro res seen hnd hseen
    rw [List.map_cons, List.nodup_cons] at hnd
    rw [List.foldl_cons]
    simp only []
    have hts : t.binary ∉ seen := hseen t (List.mem_cons_self _ _)
    by_cases hcov : (t.minterms.filter (fun m => decide (m ∈ M))).length > 0
    · rw [if_pos ⟨hcov, hts⟩, ih _ _ hnd.2]
      · rw [List.filter_cons, if_pos (by simpa using hcov)]
        simp
      · intro t2 ht2 hmem
        rcases (mem_setAdd _ _ _).mp hmem with h | h
        · exact hseen t2 (List.mem_cons_of_mem _ ht2) h
        · exact hnd.1 (by rw [← h]; exact List.mem_map_of_mem Term.binary ht2)
    · rw [if_neg (fun h => hcov h.1), ih _ _ hnd.2]
      · rw [List.filter_cons, if_neg (by simpa using hcov)]
      · intro t2 ht2
        exact hseen t2 (List.mem_cons_of_mem _ ht2)

theorem collectTruePIs_eq (M : List Nat) (all : List Term) (h : (all.map Term.binary).Nodup) :
    collectTruePIs M all =
      (all.filter
        (fun t => decide ((t.minterms.filter (fun m => decide (m ∈ M))).length > 0))).map
        (fun t => (⟨t.binary, t.minterms.filter (fun m => decide (m ∈ M))⟩ : Implicant)) := by
  unfold collectTruePIs
  rw [collectTruePIs_foldl M all [] [] h (by simp)]
  simp

/-! ## The single-function generator -/

theorem matchesPattern_eq_bits (p : List Char) (m n : Nat) (hm : m < 2 ^ n) (hn : 1 ≤ n) :
    matchesPattern p m n = matchChars p (bits n m) := by
  unfold matchesPattern
  rw [toBinary_eq_bits m n hm hn]

theorem cubeIn_iff_isImplicantOf (p : List Char) (n : Nat) (M D : List Nat) (hn : 1 ≤ n) :
    CubeIn n (M ++ D) p ↔ IsImplicantOf p n M D := by
  unfold CubeIn IsImplicantOf
  constructor
  · intro h m hm hmatch
    rw [matchesPattern_eq_bits p m n hm hn] at hmatch
    exact List.mem_append.mp (h m hm hmatch)
  · intro h m hm hmatch
    rw [← matchesPattern_eq_bits p m n hm hn] at hmatch
    exact List.mem_append.mpr (h m hm hmatch)

/-- A string that matches a binary string is a pattern. -/
theorem isPat_of_matchChars (p : List Char) :
    ∀ s, IsBin s → matchChars p s = true → IsPat p := by
  induction p with
  | nil => intro s _ _ c hc; simp at hc
  | cons a p ih =>
    intro s hs hm
    cases s with
    | nil =>
      rw [matchChars_nil_right_cons] at hm
      rw [isPat_cons]
      exact ⟨Or.inr (Or.inr hm.1), ih [] (by intro c hc; simp at hc) hm.2⟩
    | cons x s =>
      rw [matchChars_cons_cons] at hm
      rw [isBin_cons] at hs
      rw [isPat_cons]
      refine ⟨?_, ih s hs.2 hm.2⟩
      rcases hm.1 with h | h
      · exact Or.inr (Or.inr h)
      · rw [h]
        rcases hs.1 with h2 | h2
        · exact Or.inl h2
        · exact Or.inr (Or.inl h2)

/-- The terms collected by the level loop on in-range input. -/
theorem truePILoop_initial (M D : List Nat) (n : Nat) (hn : 1 ≤ n)
    (hU : ∀ m ∈ M ++ D, m < 2 ^ n ∧ m < 10 ^ 21) :
    ∃ out, truePILoop (maxBinaryLength (initialLevel M n D) + 1) (initialLevel M n D) 0 [] =
        some out ∧
      (out.map Term.binary).Nodup ∧
      (∀ t ∈ out, t.binary.length = n ∧ IsPat t.binary ∧
        CubeIn n (M ++ D) t.binary ∧
        (∀ q, IsGeneralisation q t.binary → ¬ CubeIn n (M ++ D) q) ∧
        (∀ m, m ∈ t.minterms ↔ (m < 2 ^ n ∧ matchChars t.binary (bits n m) = true)) ∧
        t.minterms.Nodup) ∧
      (∀ p, p.length = n → IsPat p → CubeIn n (M ++ D) p →
        (∀ q, IsGeneralisation q p → ¬ CubeIn n (M ++ D) q) → p ∈ out.map Term.binary) := by
  have inv := LevelInv.initial M D n hn hU
  have hfuel : initialLevel M n D ≠ [] → n + 1 ≤ maxBinaryLength (initialLevel M n D) + 1 + 0 := by
    intro hne
    rw [maxBinaryLength_eq (initialLevel M n D) n ?_ hne]
    intro t ht
    exact ((inv.mem_iff _).mp (List.mem_map_of_mem Term.binary ht)).1
  obtain ⟨out, hout, hnd, hsound, hcompl⟩ :=
    truePILoop_spec n (M ++ D) (maxBinaryLength (initialLevel M n D) + 1) 0
      (initialLevel M n D) [] inv (by omega) hfuel
  refine ⟨out, by simpa using hout, hnd, ?_, ?_⟩
  · intro t ht
    exact (hsound t ht).2
  · intro p hl hp hc hprime
    exact hcompl p hl hp (Nat.zero_le _) hc hprime

/-- Exactness of the single-function generator for at least one variable: it returns, once
each, the prime implicants that match a target, each with the targets it matches. -/
theorem truePrimeImplicants_exact (M D : List Nat) (n : Nat) (hn : 1 ≤ n)
    (hM : ∀ m ∈ M, m < 2 ^ n ∧ m < 10 ^ 21) (hD : ∀ d ∈ D, d < 2 ^ n ∧ d < 10 ^ 21) :
    ∃ pis, generateOnlyTruePrimeImplicants M n D = some pis ∧
      (∀ p : List Char, p.length = n →
        (p ∈ pis.map Implicant.pattern ↔ IsPrimeImplicantOf p n M D)) ∧
      (pis.map Implicant.pattern).Nodup ∧
      (∀ pi ∈ pis, pi.pattern.length = n ∧ pi.minterms.Nodup ∧ pi.minterms ≠ [] ∧
        ∀ m, m ∈ pi.minterms ↔ (m ∈ M ∧ matchesPattern pi.pattern m n = true)) := by
  have hU : ∀ m ∈ M ++ D, m < 2 ^ n ∧ m < 10 ^ 21 := by
    intro m hm
    rcases List.mem_append.mp hm with h | h
    · exact hM m h
    · exact hD m h
  obtain ⟨out, hout, hnd, hsound, hcompl⟩ := truePILoop_initial M D n hn hU
  unfold generateOnlyTruePrimeImplicants
  simp only []
  rw [hout, Option.map_some', collectTruePIs_eq M out hnd]
  refine ⟨_, rfl, ?_, ?_, ?_⟩
  · intro p hl
    rw [List.map_map, List.mem_map]
    constructor
    · rintro ⟨t, ht, rfl⟩
      rw [List.mem_filter] at ht
      obtain ⟨htout, hcov⟩ := ht
      obtain ⟨_, _, hc, hprime, hmin, _⟩ := hsound t htout
      simp only [Function.comp]
      refine ⟨(cubeIn_iff_isImplicantOf _ n M D hn).mp hc, ?_, ?_⟩
      · intro q hq hcq
        exact hprime q hq ((cubeIn_iff_isImplicantOf _ n M D hn).mpr hcq)
      · simp only [gt_iff_lt, decide_eq_true_eq, List.length_pos] at hcov
        obtain ⟨m, hm⟩ := List.exists_mem_of_ne_nil _ hcov
        rw [List.mem_filter] at hm
        have hmM : m ∈ M := by simpa using hm.2
        obtain ⟨hlt, hmatch⟩ := (hmin m).mp hm.1
        exact ⟨m, hmM, by rw [matchesPattern_eq_bits _ m n hlt hn]; exact hmatch⟩
    · rintro ⟨himp, hprime, m, hmM, hmatch⟩
      have hlt := (hM m hmM).1
      rw [matchesPattern_eq_bits p m n hlt hn] at hmatch
      have hpat : IsPat p := isPat_of_matchChars p _ (isBin_bits n m) hmatch
      have hin := hcompl p hl hpat ((cubeIn_iff_isImplicantOf p n M D hn).mpr himp)
        (fun q hq hcq => hprime q hq ((cubeIn_iff_isImplicantOf q n M D hn).mp hcq))
      rw [List.mem_map] at hin
      obtain ⟨t, ht, rfl⟩ := hin
      refine ⟨t, List.mem_filter.mpr ⟨ht, ?_⟩, rfl⟩
      simp only [gt_iff_lt, decide_eq_true_eq, List.length_pos]
      apply List.ne_nil_of_mem (a := m)
      rw [List.mem_filter]
      exact ⟨((hsound t ht).2.2.2.2.1 m).mpr ⟨hlt, hmatch⟩, by simpa using hmM⟩
  · rw [List.map_map]
    have : (fun t : Term => (⟨t.binary, t.minterms.filter (fun m => decide (m ∈ M))⟩ :
        Implicant).pattern) = Term.binary := rfl
    show (List.map (Implicant.pattern ∘ _) _).Nodup
    exact ((List.filter_sublist _).map Term.binary).nodup hnd
  · intro pi hpi
    rw [List.mem_map] at hpi
    obtain ⟨t, ht, rfl⟩ := hpi
    rw [List.mem_filter] at ht
    obtain ⟨htout, hcov⟩ := ht
    obtain ⟨hl, _, _, _, hmin, hmnd⟩ := hsound t htout
    refine ⟨hl, hmnd.filter _, ?_, ?_⟩
    · simpa [List.length_pos] using hcov
    · intro m
      simp only [List.mem_filter, decide_eq_true_eq, hmin]
      constructor
      · rintro ⟨⟨hlt, hmatch⟩, hmM⟩
        exact ⟨hmM, by rw [matchesPattern_eq_bits _ m n hlt hn]; exact hmatch⟩
      · rintro ⟨hmM, hmatch⟩
        have hlt := (hM m hmM).1
        exact ⟨⟨hlt, by rw [← matchesPattern_eq_bits _ m n hlt hn]; exact hmatch⟩, hmM⟩

/-! ## Prime implicants above an implicant -/

theorem generalisesChars_trans (r : List Char) :
    ∀ q p, generalisesChars r q = true → generalisesChars q p = true →
      generalisesChars r p = true := by
  induction r with
  | nil =>
    intro q p h1 h2
    cases q with
    | nil => exact h2
    | cons b q => simp [generalisesChars] at h1
  | cons a r ih =>
    intro q p h1 h2
    cases q with
    | nil => simp [generalisesChars] at h1
    | cons b q =>
      cases p with
      | nil => simp [generalisesChars] at h2
      | cons c p =>
        rw [generalisesChars_cons_cons] at h1 h2 ⊢
        refine ⟨?_, ih q p h1.2 h2.2⟩
        rcases h1.1 with h | ⟨ha, hb⟩
        · rw [h]; exact h2.1
        · rcases h2.1 with h | ⟨hb2, _⟩
          · rw [← h]; exact Or.inr ⟨ha, hb⟩
          · rw [hb2] at hb
            rcases hb with hb | hb <;> exact absurd hb (by decide)

/-- A proper generalisation of a pattern is a pattern with more dashes. -/
theorem generalisesChars_dashes (q : List Char) :
    ∀ p, generalisesChars q p = true → IsPat p →
      IsPat q ∧ dashes p ≤ dashes q ∧ (dashes q = dashes p → q = p) := by
  induction q with
  | nil =>
    intro p h _
    cases p with
    | nil => exact ⟨by intro c hc; simp at hc, le_refl _, fun _ => rfl⟩
    | cons b p => simp [generalisesChars] at h
  | cons a q ih =>
    intro p h hp
    cases p with
    | nil => simp [generalisesChars] at h
    | cons b p =>
      rw [generalisesChars_cons_cons] at h
      rw [isPat_cons] at hp
      obtain ⟨iq, ile, ieq⟩ := ih p h.2 hp.2
      rw [isPat_cons, dashes_cons, dashes_cons]
      rcases h.1 with hab | ⟨ha, hb⟩
      · subst hab
        refine ⟨⟨hp.1, iq⟩, by omega, ?_⟩
        intro hd
        rw [ieq (by omega)]
      · subst ha
        have hb2 : b ≠ '-' := by rcases hb with h | h <;> rw [h] <;> decide
        rw [if_neg hb2, if_pos rfl]
        refine ⟨⟨Or.inr (Or.inr rfl), iq⟩, by omega, ?_⟩
        intro hd
        omega

/-- Every implicant lies below an implicant that cannot be generalised any further. -/
theorem exists_prime_above (n : Nat) (U : List Nat) (j : Nat) :
    ∀ p : List Char, p.length = n → IsPat p → CubeIn n U p → n ≤ dashes p + j →
      ∃ q, q.length = n ∧ IsPat q ∧ CubeIn n U q ∧
        (∀ r, IsGeneralisation r q → ¬ CubeIn n U r) ∧ generalisesChars q p = true := by
  induction j with
  | zero =>
    intro p hl hp hc hj
    refine ⟨p, hl, hp, hc, ?_, generalisesChars_refl p⟩
    rintro r ⟨hg, hne⟩ _
    obtain ⟨_, hle, heq⟩ := generalisesChars_dashes r p hg hp
    have h1 := dashes_le_length r
    rw [generalisesChars_length r p hg, hl] at h1
    exact hne (heq (by omega))
  | succ j ih =>
    intro p hl hp hc hj
    by_cases hprime : ∀ r, IsGeneralisation r p → ¬ CubeIn n U r
    · exact ⟨p, hl, hp, hc, hprime, generalisesChars_refl p⟩
    · push_neg at hprime
      obtain ⟨r, ⟨hg, hne⟩, hcr⟩ := hprime
      obtain ⟨hpr, hle, heq⟩ := generalisesChars_dashes r p hg hp
      have hlt : dashes p < dashes r := by
        rcases Nat.eq_or_lt_of_le hle with h | h
        · exact absurd (heq h.symm) hne
        · exact h
      obtain ⟨q, hlq, hpq, hcq, hprimeq, hgq⟩ :=
        ih r (by rw [generalisesChars_length r p hg, hl]) hpr hcr (by omega)
      exact ⟨q, hlq, hpq, hcq, hprimeq, generalisesChars_trans q r p hgq hg⟩

/-! ## The level loop of the all-levels generator -/

theorem allLevelsLoop_spec (n : Nat) (U : List Nat) (fuel : Nat) :
    ∀ (k : Nat) (L : List Term) (acc : List (List Term)), LevelInv n U k L → 1 ≤ fuel →
      (L ≠ [] → n + 1 ≤ fuel + k) →
      ∃ more : List (List Term), allLevelsLoop fuel L k acc = some (acc ++ more) ∧
        (more.flatten.map Term.binary).Nodup ∧
        (∀ t ∈ more.flatten, k < dashes t.binary ∧ t.binary.length = n ∧ IsPat t.binary ∧
          CubeIn n U t.binary ∧
          (∀ m, m ∈ t.minterms ↔ (m < 2 ^ n ∧ matchChars t.binary (bits n m) = true)) ∧
          t.minterms.Nodup) ∧
        (∀ p, p.length = n → IsPat p → k < dashes p → CubeIn n U p →
          p ∈ more.flatten.map Term.binary) := by
  induction fuel with
  | zero => intro k L acc _ h; omega
  | succ fuel ih =>
    intro k L acc inv _ hfuel
    unfold allLevelsLoop
    have hnone : (combineLevel k L).nextLevel = [] →
        ∀ p, p.length = n → IsPat p → k < dashes p → CubeIn n U p → False := by
      intro hNL p hl hp hd hc
      obtain ⟨p2, hl2, hp2, hd2, hc2⟩ :=
        exists_specialisation n U (dashes p - (k + 1)) p (k + 1) (by omega) hl hp hc
      have := (inv.next.mem_iff p2).mpr ⟨hl2, hp2, hd2, hc2⟩
      rw [hNL] at this
      simp at this
    by_cases hL : L.length > 1
    · rw [if_pos hL]
      simp only []
      have hLne : L ≠ [] := by intro e; rw [e] at hL; simp at hL
      have hf := hfuel hLne
      by_cases hNL : (combineLevel k L).nextLevel.length = 0
      · rw [if_pos hNL]
        refine ⟨[], by simp, by simp, by simp, ?_⟩
        intro p hl hp hd hc
        exact (hnone (List.length_eq_zero.mp hNL) p hl hp hd hc).elim
      · rw [if_neg hNL]
        have hNLne : (combineLevel k L).nextLevel ≠ [] := by
          intro e; rw [e] at hNL; simp at hNL
        have hk1 : k + 1 ≤ n := by
          obtain ⟨t, ht⟩ := List.exists_mem_of_ne_nil _ hNLne
          obtain ⟨hl, _, hd, _⟩ :=
            (inv.next.mem_iff _).mp (List.mem_map_of_mem Term.binary ht)
          have := dashes_le_length t.binary
          omega
        obtain ⟨more, hmore, hnd, hsound, hcompl⟩ :=
          ih (k + 1) (combineLevel k L).nextLevel (acc ++ [(combineLevel k L).nextLevel])
            inv.next (by omega) (fun _ => by omega)
        have hNLfacts : ∀ t ∈ (combineLevel k L).nextLevel,
            dashes t.binary = k + 1 ∧ t.binary.length = n ∧ IsPat t.binary ∧
            CubeIn n U t.binary ∧
            (∀ m, m ∈ t.minterms ↔ (m < 2 ^ n ∧ matchChars t.binary (bits n m) = true)) ∧
            t.minterms.Nodup := by
          intro t ht
          obtain ⟨hl, hp, hd, hc⟩ :=
            (inv.next.mem_iff _).mp (List.mem_map_of_mem Term.binary ht)
          exact ⟨hd, hl, hp, hc, inv.next.minterms_iff t ht, inv.next.minterms_nodup t ht⟩
        refine ⟨(combineLevel k L).nextLevel :: more, ?_, ?_, ?_, ?_⟩
        · rw [hmore, List.append_assoc, List.singleton_append]
        · rw [List.flatten_cons, List.map_append, List.nodup_append]
          refine ⟨inv.next.nodup, hnd, ?_⟩
          intro b hb1 hb2
          rw [List.mem_map] at hb1 hb2
          obtain ⟨t1, ht1, rfl⟩ := hb1
          obtain ⟨t2, ht2, hEq⟩ := hb2
          have h1 := (hNLfacts t1 ht1).1
          have h2 := (hsound t2 ht2).1
          rw [hEq] at h2
          omega
        · intro t ht
          rw [List.flatten_cons, List.mem_append] at ht
          rcases ht with h | h
          · obtain ⟨h1, h2⟩ := hNLfacts t h
            exact ⟨by omega, h2⟩
          · obtain ⟨h1, h2⟩ := hsound t h
            exact ⟨by omega, h2⟩
        · intro p hl hp hd hc
          rw [List.flatten_cons, List.map_append, List.mem_append]
          rcases Nat.eq_or_lt_of_le (Nat.succ_le_of_lt hd) with hk | hk
          · exact Or.inl ((inv.next.mem_iff p).mpr ⟨hl, hp, hk.symm, hc⟩)
          · exact Or.inr (hcompl p hl hp hk hc)
    · rw [if_neg hL]
      refine ⟨[], by simp, by simp, by simp, ?_⟩
      intro p hl hp hd hc
      exfalso
      obtain ⟨p2, hl2, hp2, hd2, hc2⟩ :=
        exists_specialisation n U (dashes p - (k + 1)) p (k + 1) (by omega) hl hp hc
      obtain ⟨c0, c1, hcomb, hp0, hp1, hd0, hd1, hones, hm0, hm1⟩ :=
        exists_split p2 hp2 (by omega)
      have hin0 : c0 ∈ L.map Term.binary :=
        (inv.mem_iff c0).mpr ⟨by rw [hcomb.length_left, hl2], hp0, by omega,
          cubeIn_mono hc2 hm0⟩
      have hin1 : c1 ∈ L.map Term.binary :=
        (inv.mem_iff c1).mpr ⟨by rw [hcomb.length_right, hl2], hp1, by omega,
          cubeIn_mono hc2 hm1⟩
      have hne : c0 ≠ c1 := by
        intro e; rw [e] at hones; omega
      have hlen : L.length ≤ 1 := by omega
      rw [List.mem_map] at hin0 hin1
      obtain ⟨t0, ht0, hb0⟩ := hin0
      obtain ⟨t1, ht1, hb1⟩ := hin1
      cases L with
      | nil => simp at ht0
      | cons a L2 =>
        cases L2 with
        | nil =>
          simp only [List.mem_singleton] at ht0 ht1
          rw [ht0] at hb0
          rw [ht1] at hb1
          exact hne (hb0.symm.trans hb1)
        | cons b L3 => simp at hlen

/-! ## The all-levels generator -/

/-- Every term held by the all-levels generator on in-range input, for one variable
or more: the levels together hold each pattern inside the function exactly once. -/
theorem allLevelsLoop_initial (M D : List Nat) (n : Nat) (hn : 1 ≤ n)
    (hU : ∀ m ∈ M ++ D, m < 2 ^ n ∧ m < 10 ^ 21) :
    ∃ levels : List (List Term),
      allLevelsLoop (maxBinaryLength (initialLevel M n D) + 1) (initialLevel M n D) 0
        [initialLevel M n D] = some levels ∧
      (levels.flatten.map Term.binary).Nodup ∧
      (∀ t ∈ levels.flatten, t.binary.length = n ∧ IsPat t.binary ∧
        CubeIn n (M ++ D) t.binary ∧
        (∀ m, m ∈ t.minterms ↔ (m < 2 ^ n ∧ matchChars t.binary (bits n m) = true)) ∧
        t.minterms.Nodup) ∧
      (∀ p, p.length = n → IsPat p → CubeIn n (M ++ D) p →
        p ∈ levels.flatten.map Term.binary) := by
  have inv := LevelInv.initial M D n hn hU
  have hfuel : initialLevel M n D ≠ [] → n + 1 ≤ maxBinaryLength (initialLevel M n D) + 1 + 0 := by
    intro hne
    rw [maxBinaryLength_eq (initialLevel M n D) n ?_ hne]
    intro t ht
    exact ((inv.mem_iff _).mp (List.mem_map_of_mem Term.binary ht)).1
  obtain ⟨more, hmore, hnd, hsound, hcompl⟩ :=
    allLevelsLoop_spec n (M ++ D) (maxBinaryLength (initialLevel M n D) + 1) 0
      (initialLevel M n D) [initialLevel M n D] inv (by omega) hfuel
  refine ⟨[initialLevel M n D] ++ more, hmore, ?_, ?_, ?_⟩
  · rw [List.singleton_append, List.flatten_cons, List.map_append, List.nodup_append]
    refine ⟨inv.nodup, hnd, ?_⟩
    intro b hb1 hb2
    rw [List.mem_map] at hb2
    obtain ⟨t2, ht2, hEq⟩ := hb2
    have h1 := ((inv.mem_iff b).mp hb1).2.2.1
    have h2 := (hsound t2 ht2).1
    rw [hEq] at h2
    omega
  · intro t ht
    rw [List.singleton_append, List.flatten_cons, List.mem_append] at ht
    rcases ht with h | h
    · obtain ⟨hl, hp, _, hc⟩ := (inv.mem_iff _).mp (List.mem_map_of_mem Term.binary h)
      exact ⟨hl, hp, hc, inv.minterms_iff t h, inv.minterms_nodup t h⟩
    · exact (hsound t h).2
  · intro p hl hp hc
    rw [List.singleton_append, List.flatten_cons, List.map_append, List.mem_append]
    rcases Nat.eq_zero_or_pos (dashes p) with h0 | h0
    · exact Or.inl ((inv.mem_iff p).mpr ⟨hl, hp, h0, hc⟩)
    · exact Or.inr (hcompl p hl hp h0 hc)

/-- Exactness of the all-levels generator for at least one variable: it returns, once each,
the implicants that match a target, each with the targets it matches. -/
theorem generateQuineMcCluskeyPIs_spec (M D : List Nat) (n : Nat) (hn : 1 ≤ n)
    (hM : ∀ m ∈ M, m < 2 ^ n ∧ m < 10 ^ 21) (hD : ∀ d ∈ D, d < 2 ^ n ∧ d < 10 ^ 21) :
    ∃ pis, generateQuineMcCluskeyPIs M n D = some pis ∧
      (∀ p : List Char, p.length = n →
        (p ∈ pis.map LevelImplicant.pattern ↔
          (IsImplicantOf p n M D ∧ ∃ m ∈ M, matchesPattern p m n = true))) ∧
      (pis.map LevelImplicant.pattern).Nodup ∧
      (∀ pi ∈ pis, pi.pattern.length = n ∧ pi.minterms.Nodup ∧ pi.minterms ≠ [] ∧
        ∀ m, m ∈ pi.minterms ↔ (m ∈ M ∧ matchesPattern pi.pattern m n = true)) := by
  have hU : ∀ m ∈ M ++ D, m < 2 ^ n ∧ m < 10 ^ 21 := by
    intro m hm
    rcases List.mem_append.mp hm with h | h
    · exact hM m h
    · exact hD m h
  obtain ⟨levels, hlev, hnd, hsound, hcompl⟩ := allLevelsLoop_initial M D n hn hU
  unfold generateQuineMcCluskeyPIs
  simp only []
  rw [hlev, Option.map_some']
  refine ⟨_, rfl, ?_⟩
  -- the sorted list is a permutation of the filtered list
  have hperm := List.perm_insertionSort (fun a b : LevelImplicant => levelPatternLe a b = true)
    ((levels.flatten.map (fun implicant =>
      (⟨implicant.binary, implicant.minterms.filter (fun m => decide (m ∈ M)),
        implicant.level⟩ : LevelImplicant))).filter
      (fun pi => decide (pi.minterms.length > 0)))
  have hmem : ∀ pi : LevelImplicant,
      pi ∈ (levels.flatten.map (fun implicant =>
        (⟨implicant.binary, implicant.minterms.filter (fun m => decide (m ∈ M)),
          implicant.level⟩ : LevelImplicant))).filter
        (fun pi => decide (pi.minterms.length > 0)) ↔
      ∃ t ∈ levels.flatten, pi = ⟨t.binary, t.minterms.filter (fun m => decide (m ∈ M)),
        t.level⟩ ∧ t.minterms.filter (fun m => decide (m ∈ M)) ≠ [] := by
    intro pi
    rw [List.mem_filter, List.mem_map]
    constructor
    · rintro ⟨⟨t, ht, rfl⟩, hcov⟩
      exact ⟨t, ht, rfl, by simpa [List.length_pos] using hcov⟩
    · rintro ⟨t, ht, rfl, hcov⟩
      exact ⟨⟨t, ht, rfl⟩, by simpa [List.length_pos] using hcov⟩
  have hcovered : ∀ t ∈ levels.flatten, ∀ m,
      m ∈ t.minterms.filter (fun m => decide (m ∈ M)) ↔
        (m ∈ M ∧ matchesPattern t.binary m n = true) := by
    intro t ht m
    obtain ⟨_, _, _, hmin, _⟩ := hsound t ht
    simp only [List.mem_filter, decide_eq_true_eq, hmin]
    constructor
    · rintro ⟨⟨hlt, hmatch⟩, hmM⟩
      exact ⟨hmM, by rw [matchesPattern_eq_bits _ m n hlt hn]; exact hmatch⟩
    · rintro ⟨hmM, hmatch⟩
      have hlt := (hM m hmM).1
      exact ⟨⟨hlt, by rw [← matchesPattern_eq_bits _ m n hlt hn]; exact hmatch⟩, hmM⟩
  refine ⟨?_, ?_, ?_⟩
  · intro p hl
    rw [List.mem_map]
    constructor
    · rintro ⟨pi, hpi, rfl⟩
      obtain ⟨t, ht, rfl, hcov⟩ := (hmem pi).mp (hperm.mem_iff.mp hpi)
      obtain ⟨_, _, hc, _, _⟩ := hsound t ht
      refine ⟨(cubeIn_iff_isImplicantOf _ n M D hn).mp hc, ?_⟩
      obtain ⟨m, hm⟩ := List.exists_mem_of_ne_nil _ hcov
      exact ⟨m, (hcovered t ht m).mp hm⟩
    · rintro ⟨himp, m, hmM, hmatch⟩
      have hlt := (hM m hmM).1
      have hmatch2 := hmatch
      rw [matchesPattern_eq_bits p m n hlt hn] at hmatch2
      have hpat : IsPat p := isPat_of_matchChars p _ (isBin_bits n m) hmatch2
      have hin := hcompl p hl hpat ((cubeIn_iff_isImplicantOf p n M D hn).mpr himp)
      rw [List.mem_map] at hin
      obtain ⟨t, ht, rfl⟩ := hin
      refine ⟨⟨t.binary, t.minterms.filter (fun m => decide (m ∈ M)), t.level⟩,
        hperm.mem_iff.mpr ((hmem _).mpr ⟨t, ht, rfl, ?_⟩), rfl⟩
      exact List.ne_nil_of_mem ((hcovered t ht m).mpr ⟨hmM, hmatch⟩)
  · apply (hperm.map LevelImplicant.pattern).nodup_iff.mpr
    have hsub : (((levels.flatten.map (fun implicant =>
        (⟨implicant.binary, implicant.minterms.filter (fun m => decide (m ∈ M)),
          implicant.level⟩ : LevelImplicant))).filter
        (fun pi => decide (pi.minterms.length > 0))).map LevelImplicant.pattern).Sublist
        ((levels.flatten.map (fun implicant =>
        (⟨implicant.binary, implicant.minterms.filter (fun m => decide (m ∈ M)),
          implicant.level⟩ : LevelImplicant))).map LevelImplicant.pattern) :=
      (List.filter_sublist _).map _
    apply hsub.nodup
    rw [List.map_map]
    exact hnd
  · intro pi hpi
    obtain ⟨t, ht, rfl, hcov⟩ := (hmem pi).mp (hperm.mem_iff.mp hpi)
    obtain ⟨hl, _, _, _, hmnd⟩ := hsound t ht
    exact ⟨hl, hmnd.filter _, hcov, hcovered t ht⟩

theorem findTruePrimeImplicants_foldl (M : List Nat) (all : List LevelImplicant) :
    ∀ res : List Implicant,
      all.foldl
        (fun primeImplicants implicant =>
          let coveredMinterms := implicant.minterms.filter (fun m => decide (m ∈ M))
          if coveredMinterms.length > 0 then
            primeImplicants ++ [⟨implicant.pattern, coveredMinterms⟩]
          else primeImplicants)
        res =
      res ++ (all.filter
        (fun t => decide ((t.minterms.filter (fun m => decide (m ∈ M))).length > 0))).map
        (fun t => (⟨t.pattern, t.minterms.filter (fun m => decide (m ∈ M))⟩ : Implicant)) := by
  induction all with
  | nil => intro res; simp
  | cons t all ih =>
    intro res
    rw [List.foldl_cons]
    simp only []
    by_cases hcov : (t.minterms.filter (fun m => decide (m ∈ M))).length > 0
    · rw [if_pos hcov, ih, List.filter_cons, if_pos (by simpa using hcov)]
      simp
    · rw [if_neg hcov, ih, List.filter_cons, if_neg (by simpa using hcov)]

/-- Closed form of `findTruePrimeImplicants`. -/
theorem findTruePrimeImplicants_eq (all : List LevelImplicant) (M : List Nat) :
    findTruePrimeImplicants all M =
      (all.filter
        (fun t => decide ((t.minterms.filter (fun m => decide (m ∈ M))).length > 0))).map
        (fun t => (⟨t.pattern, t.minterms.filter (fun m => decide (m ∈ M))⟩ : Implicant)) := by
  unfold findTruePrimeImplicants
  rw [findTruePrimeImplicants_foldl M all []]
  simp

/-- On a list whose minterms are already restricted to the targets and non-empty, the
second filter changes nothing but the record shape. -/
theorem findTruePrimeImplicants_of_restricted (all : List LevelImplicant) (M : List Nat)
    (h : ∀ pi ∈ all, pi.minterms ≠ [] ∧ ∀ m ∈ pi.minterms, m ∈ M) :
    findTruePrimeImplicants all M =
      all.map (fun t => (⟨t.pattern, t.minterms⟩ : Implicant)) := by
  rw [findTruePrimeImplicants_eq]
  have hfix : ∀ pi ∈ all, pi.minterms.filter (fun m => decide (m ∈ M)) = pi.minterms := by
    intro pi hpi
    rw [List.filter_eq_self]
    intro m hm
    simpa using (h pi hpi).2 m hm
  rw [List.filter_eq_self.mpr]
  · apply List.map_congr_left
    intro pi hpi
    rw [hfix pi hpi]
  · intro pi hpi
    rw [hfix pi hpi]
    simpa [List.length_pos] using (h pi hpi).1

/-! ## Cost of a pattern -/

theorem foldl_literalCount (p : List Char) (a : Nat) :
    p.foldl (fun count c => if c ≠ '-' then count + 1 else count) a =
      a + (p.length - dashes p) := by
  induction p generalizing a with
  | nil => simp [dashes]
  | cons c p ih =>
    rw [List.foldl_cons, ih, dashes_cons, List.length_cons]
    have := dashes_le_length p
    by_cases hc : c = '-'
    · simp only [hc, ne_eq, not_true_eq_false, if_false, if_true]; omega
    · simp only [hc, ne_eq, not_false_eq_true, if_true, if_false]; omega

/-- The cost in terms of the number of literals. -/
theorem calculateCost_eq (p : List Char) :
    calculateCost p =
      if p.length - dashes p = 1 then 1 else p.length - dashes p + 1 := by
  unfold calculateCost
  simp only [foldl_literalCount, Nat.zero_add]

theorem calculateCost_pos (p : List Char) : 1 ≤ calculateCost p := by
  rw [calculateCost_eq]
  split <;> omega

/-- Generalising a pattern does not increase its cost. -/
theorem calculateCost_mono (q p : List Char) (h : generalisesChars q p = true) (hp : IsPat p) :
    calculateCost q ≤ calculateCost p := by
  obtain ⟨_, hle, _⟩ := generalisesChars_dashes q p h hp
  have hlen := generalisesChars_length q p h
  have h1 := dashes_le_length q
  have h2 := dashes_le_length p
  rw [calculateCost_eq, calculateCost_eq, hlen]
  split <;> split <;> omega

/-! ## Zero variables -/

theorem eq_nil_or_singleton_zero (l : List Nat) (hnd : l.Nodup) (h0 : ∀ x ∈ l, x = 0) :
    l = [] ∨ l = [0] := by
  cases l with
  | nil => exact Or.inl rfl
  | cons a l =>
    right
    have ha : a = 0 := h0 a (List.mem_cons_self _ _)
    subst ha
    cases l with
    | nil => rfl
    | cons b l =>
      have hb : b = 0 := h0 b (by simp)
      subst hb
      simp at hnd

theorem uniqueOf_zeros (l : List Nat) (h0 : ∀ x ∈ l, x = 0) :
    uniqueOf l = if l = [] then [] else [0] := by
  rcases eq_nil_or_singleton_zero (uniqueOf l) (nodup_uniqueOf l)
    (fun x hx => h0 x ((mem_uniqueOf l x).mp hx)) with h | h
  · have : l = [] := by
      cases l with
      | nil => rfl
      | cons a l =>
        have : a ∈ uniqueOf (a :: l) := (mem_uniqueOf _ _).mpr (List.mem_cons_self _ _)
        rw [h] at this
        simp at this
    rw [h, if_pos this]
  · have : l ≠ [] := by
      intro e
      rw [e] at h
      simp [uniqueOf] at h
    rw [h, if_neg this]

theorem initialLevel_zero (M D : List Nat) (hM : ∀ m ∈ M, m < 2 ^ 0) (hD : ∀ d ∈ D, d < 2 ^ 0) :
    initialLevel M 0 D = if M ++ D = [] then [] else [⟨['0'], [0], 0⟩] := by
  have h1 : ∀ x ∈ M ++ D, x < 2 ^ 0 := by
    intro x hx
    rcases List.mem_append.mp hx with h | h
    · exact hM x h
    · exact hD x h
  rw [initialLevel_of_lt M D 0 (fun x hx => by have := h1 x hx; omega), uniqueOf_zeros]
  · split
    · rfl
    · rfl
  · intro x hx
    rcases List.mem_append.mp hx with h | h
    · have := hM x h; simp at this; exact this
    · have := hD x h; simp at this; exact this

theorem mem_zero_of_ne_nil (M : List Nat) (hM : ∀ m ∈ M, m < 2 ^ 0) (hne : M ≠ []) : 0 ∈ M := by
  obtain ⟨m, hm⟩ := List.exists_mem_of_ne_nil M hne
  have := hM m hm
  simp at this
  rw [← this]
  exact hm

/-- With zero variables the single-function generator returns the pattern `0` for a
non-empty target list and nothing otherwise. -/
theorem generateOnlyTruePrimeImplicants_zero (M D : List Nat) (hM : ∀ m ∈ M, m < 2 ^ 0)
    (hD : ∀ d ∈ D, d < 2 ^ 0) :
    generateOnlyTruePrimeImplicants M 0 D =
      some (if M = [] then [] else [⟨['0'], [0]⟩]) := by
  unfold generateOnlyTruePrimeImplicants
  simp only []
  rw [initialLevel_zero M D hM hD]
  by_cases hU : M ++ D = []
  · have hMnil : M = [] := (List.append_eq_nil.mp hU).1
    rw [if_pos hU, if_pos hMnil]
    rfl
  · rw [if_neg hU]
    have hloop : truePILoop (maxBinaryLength [(⟨['0'], [0], 0⟩ : Term)] + 1)
        [(⟨['0'], [0], 0⟩ : Term)] 0 [] = some [⟨['0'], [0], 0⟩] := by decide
    rw [hloop, Option.map_some']
    by_cases hMnil : M = []
    · rw [if_pos hMnil]
      subst hMnil
      rfl
    · rw [if_neg hMnil]
      have h0 := mem_zero_of_ne_nil M hM hMnil
      simp [collectTruePIs, h0, setAdd]

/-- With zero variables the all-levels generator returns the pattern `0` for a non-empty
target list and nothing otherwise. -/
theorem generateQuineMcCluskeyPIs_zero (M D : List Nat) (hM : ∀ m ∈ M, m < 2 ^ 0)
    (hD : ∀ d ∈ D, d < 2 ^ 0) :
    generateQuineMcCluskeyPIs M 0 D =
      some (if M = [] then [] else [⟨['0'], [0], 0⟩]) := by
  unfold generateQuineMcCluskeyPIs
  simp only []
  rw [initialLevel_zero M D hM hD]
  by_cases hU : M ++ D = []
  · have hMnil : M = [] := (List.append_eq_nil.mp hU).1
    rw [if_pos hU, if_pos hMnil]
    rfl
  · rw [if_neg hU]
    have hloop : allLevelsLoop (maxBinaryLength [(⟨['0'], [0], 0⟩ : Term)] + 1)
        [(⟨['0'], [0], 0⟩ : Term)] 0 [[⟨['0'], [0], 0⟩]] = some [[⟨['0'], [0], 0⟩]] := by decide
    rw [hloop, Option.map_some']
    by_cases hMnil : M = []
    · rw [if_pos hMnil]
      subst hMnil
      rfl
    · rw [if_neg hMnil]
      have h0 := mem_zero_of_ne_nil M hM hMnil
      simp [h0, List.insertionSort]

/-! ## What the generators guarantee for every number of variables -/

theorem primeCover_of_pos (M D : List Nat) (n : Nat) (hn : 1 ≤ n)
    (hM : ∀ m ∈ M, m < 2 ^ n ∧ m < 10 ^ 21) (hD : ∀ d ∈ D, d < 2 ^ n ∧ d < 10 ^ 21) :
    ∃ pis, generateOnlyTruePrimeImplicants M n D = some pis ∧ PrimeCover M D n pis := by
  obtain ⟨pis, hgen, hiff, hnd, hfacts⟩ := truePrimeImplicants_exact M D n hn hM hD
  have hdom : ∀ p : List Char, p.length = n → IsImplicantOf p n M D →
      (∃ m ∈ M, matchesPattern p m n = true) →
      ∃ pi ∈ pis, calculateCost pi.pattern ≤ calculateCost p ∧
        ∀ m ∈ M, matchesPattern p m n = true → m ∈ pi.minterms := by
    rintro p hl himp ⟨m0, hm0, hmatch0⟩
    have hlt0 := (hM m0 hm0).1
    have hmb : matchChars p (bits n m0) = true := by
      rw [← matchesPattern_eq_bits p m0 n hlt0 hn]; exact hmatch0
    have hpat : IsPat p := isPat_of_matchChars p _ (isBin_bits n m0) hmb
    obtain ⟨q, hlq, _, hcq, hprimeq, hgq⟩ :=
      exists_prime_above n (M ++ D) n p hl hpat ((cubeIn_iff_isImplicantOf p n M D hn).mpr himp)
        (by omega)
    have hqmatch : ∀ m ∈ M, matchesPattern p m n = true → matchesPattern q m n = true := by
      intro m hm hmatch
      exact generalisesChars_match q p _ hgq hmatch
    have hqprime : IsPrimeImplicantOf q n M D :=
      ⟨(cubeIn_iff_isImplicantOf q n M D hn).mp hcq,
        fun r hr hcr => hprimeq r hr ((cubeIn_iff_isImplicantOf r n M D hn).mpr hcr),
        m0, hm0, hqmatch m0 hm0 hmatch0⟩
    have hin := (hiff q hlq).mpr hqprime
    rw [List.mem_map] at hin
    obtain ⟨pi, hpi, rfl⟩ := hin
    refine ⟨pi, hpi, calculateCost_mono _ p hgq hpat, ?_⟩
    intro m hm hmatch
    exact ((hfacts pi hpi).2.2.2 m).mpr ⟨hm, hqmatch m hm hmatch⟩
  refine ⟨pis, hgen, hnd, ?_, fun pi hpi => (hfacts pi hpi).2.2.2, fun pi hpi => (hfacts pi hpi).2.2.1,
    ?_, hdom⟩
  · intro pi hpi
    exact ((hiff pi.pattern (hfacts pi hpi).1).mp (List.mem_map_of_mem _ hpi)).1
  · intro m hm
    have hlt := (hM m hm).1
    have hself : matchesPattern (toBinary m n) m n = true := by
      unfold matchesPattern; exact matchChars_self _
    have himp : IsImplicantOf (toBinary m n) n M D := by
      intro m2 hm2 hmatch
      rw [matchesPattern_eq_bits _ m2 n hm2 hn, toBinary_eq_bits m n hlt hn] at hmatch
      have := matchChars_bin_eq (bits n m) (bits n m2) (isBin_bits n m)
        (by rw [length_bits, length_bits]) hmatch
      rw [← bits_injective n m m2 hlt hm2 this]
      exact Or.inl hm
    obtain ⟨pi, hpi, _, hcov⟩ := hdom (toBinary m n)
      (by rw [toBinary_eq_bits m n hlt hn, length_bits]) himp ⟨m, hm, hself⟩
    exact ⟨pi, hpi, hcov m hm hself⟩

theorem primeCover_of_zero (M D : List Nat) (hM : ∀ m ∈ M, m < 2 ^ 0)
    (hD : ∀ d ∈ D, d < 2 ^ 0) :
    ∃ pis, generateOnlyTruePrimeImplicants M 0 D = some pis ∧ PrimeCover M D 0 pis := by
  refine ⟨_, generateOnlyTruePrimeImplicants_zero M D hM hD, ?_⟩
  have hzero : ∀ m ∈ M, m = 0 := by
    intro m hm; have := hM m hm; simp at this; exact this
  by_cases hMnil : M = []
  · rw [if_pos hMnil]
    subst hMnil
    exact ⟨by simp, by simp, by simp, by simp, by simp, by simp⟩
  · rw [if_neg hMnil]
    have h0 := mem_zero_of_ne_nil M hM hMnil
    have hmatch0 : matchesPattern ['0'] 0 0 = true := by decide
    refine ⟨by simp, ?_, ?_, by simp, ?_, ?_⟩
    · intro pi hpi m hm _
      simp at hm
      subst hm
      exact Or.inl h0
    · intro pi hpi m
      simp only [List.mem_singleton] at hpi
      subst hpi
      simp only [List.mem_singleton]
      constructor
      · rintro rfl; exact ⟨h0, hmatch0⟩
      · rintro ⟨hm, _⟩; exact hzero m hm
    · intro m hm
      exact ⟨⟨['0'], [0]⟩, by simp, by simp [hzero m hm]⟩
    · intro p hl _ _
      have hp : p = [] := List.length_eq_zero.mp hl
      subst hp
      refine ⟨⟨['0'], [0]⟩, by simp, by decide, ?_⟩
      intro m hm _
      simp [hzero m hm]

/-- The single-function generator returns, for every number of variables, a list of prime
implicants on which the rest of the single-function path can rely. -/
theorem generateOnlyTruePrimeImplicants_primeCover (M D : List Nat) (n : Nat)
    (hM : ∀ m ∈ M, m < 2 ^ n ∧ m < 10 ^ 21) (hD : ∀ d ∈ D, d < 2 ^ n ∧ d < 10 ^ 21) :
    ∃ pis, generateOnlyTruePrimeImplicants M n D = some pis ∧ PrimeCover M D n pis := by
  rcases Nat.eq_zero_or_pos n with h0 | hpos
  · subst h0
    exact primeCover_of_zero M D (fun m hm => (hM m hm).1) (fun d hd => (hD d hd).1)
  · exact primeCover_of_pos M D n hpos hM hD

/-- Coverage by the all-levels generator, for every number of variables. -/
theorem generateQuineMcCluskeyPIs_covers (M D : List Nat) (n : Nat)
    (hM : ∀ m ∈ M, m < 2 ^ n ∧ m < 10 ^ 21) (hD : ∀ d ∈ D, d < 2 ^ n ∧ d < 10 ^ 21) :
    ∃ pis, generateQuineMcCluskeyPIs M n D = some pis ∧
      (∀ pi ∈ pis, pi.minterms ≠ [] ∧ ∀ m ∈ pi.minterms, m ∈ M) ∧
      (∀ m ∈ M, ∃ pi ∈ pis, m ∈ pi.minterms) := by
  rcases Nat.eq_zero_or_pos n with h0 | hpos
  · subst h0
    replace hM : ∀ m ∈ M, m < 2 ^ 0 := fun m hm => (hM m hm).1
    replace hD : ∀ d ∈ D, d < 2 ^ 0 := fun d hd => (hD d hd).1
    refine ⟨_, generateQuineMcCluskeyPIs_zero M D hM hD, ?_⟩
    have hzero : ∀ m ∈ M, m = 0 := by
      intro m hm; have := hM m hm; simp at this; exact this
    by_cases hMnil : M = []
    · rw [if_pos hMnil]; subst hMnil; simp
    · rw [if_neg hMnil]
      have h0 := mem_zero_of_ne_nil M hM hMnil
      refine ⟨?_, ?_⟩
      · intro pi hpi
        simp only [List.mem_singleton] at hpi
        subst hpi
        simp [h0]
      · intro m hm
        exact ⟨⟨['0'], [0], 0⟩, by simp, by simp [hzero m hm]⟩
  · obtain ⟨pis, hgen, hiff, _, hfacts⟩ := generateQuineMcCluskeyPIs_spec M D n hpos hM hD
    refine ⟨pis, hgen, ?_, ?_⟩
    · intro pi hpi
      exact ⟨(hfacts pi hpi).2.2.1, fun m hm => (((hfacts pi hpi).2.2.2 m).mp hm).1⟩
    · intro m hm
      have hlt := (hM m hm).1
      have hself : matchesPattern (toBinary m n) m n = true := by
        unfold matchesPattern; exact matchChars_self _
      have himp : IsImplicantOf (toBinary m n) n M D := by
        intro m2 hm2 hmatch
        rw [matchesPattern_eq_bits _ m2 n hm2 hpos, toBinary_eq_bits m n hlt hpos] at hmatch
        have := matchChars_bin_eq (bits n m) (bits n m2) (isBin_bits n m)
          (by rw [length_bits, length_bits]) hmatch
        rw [← bits_injective n m m2 hlt hm2 this]
        exact Or.inl hm
      have hin := (hiff (toBinary m n) (by rw [toBinary_eq_bits m n hlt hpos, length_bits])).mpr
        ⟨himp, m, hm, hself⟩
      rw [List.mem_map] at hin
      obtain ⟨pi, hpi, hpat⟩ := hin
      exact ⟨pi, hpi, ((hfacts pi hpi).2.2.2 m).mpr ⟨hm, by rw [hpat]; exact hself⟩⟩

/-- Coverage by both generators on terms that `parseInt` leaves unchanged: both return a
result, every returned PI (also after `findTruePrimeImplicants`) has a non-empty minterms
list inside `M`, and every element of `M` is in the minterms list of some returned PI. -/
theorem generators_cover_of_lt (M D : List Nat) (n : Nat)
    (hM : ∀ m ∈ M, m < 2 ^ n ∧ m < 10 ^ 21) (hD : ∀ d ∈ D, d < 2 ^ n ∧ d < 10 ^ 21) :
    (∃ pis, generateOnlyTruePrimeImplicants M n D = some pis ∧
      (∀ pi ∈ pis, pi.minterms ≠ [] ∧ ∀ m ∈ pi.minterms, m ∈ M) ∧
      (∀ m ∈ M, ∃ pi ∈ pis, m ∈ pi.minterms)) ∧
    (∃ all, generateQuineMcCluskeyPIs M n D = some all ∧
      (∀ pi ∈ all, pi.minterms ≠ [] ∧ ∀ m ∈ pi.minterms, m ∈ M) ∧
      (∀ m ∈ M, ∃ pi ∈ all, m ∈ pi.minterms) ∧
      (∀ pi ∈ findTruePrimeImplicants all M, pi.minterms ≠ [] ∧ ∀ m ∈ pi.minterms, m ∈ M) ∧
      (∀ m ∈ M, ∃ pi ∈ findTruePrimeImplicants all M, m ∈ pi.minterms)) := by
  obtain ⟨pis, hgen, hpc⟩ := generateOnlyTruePrimeImplicants_primeCover M D n hM hD
  obtain ⟨all, hall, hsub, hcov⟩ := generateQuineMcCluskeyPIs_covers M D n hM hD
  refine ⟨⟨pis, hgen, ?_, hpc.covers⟩, ⟨all, hall, hsub, hcov, ?_, ?_⟩⟩
  · intro pi hpi
    exact ⟨hpc.nonempty pi hpi, fun m hm => ((hpc.minterms_iff pi hpi m).mp hm).1⟩
  · intro pi hpi
    rw [findTruePrimeImplicants_of_restricted all M hsub, List.mem_map] at hpi
    obtain ⟨t, ht, rfl⟩ := hpi
    exact hsub t ht
  · intro m hm
    obtain ⟨t, ht, hmt⟩ := hcov m hm
    rw [findTruePrimeImplicants_of_restricted all M hsub]
    exact ⟨⟨t.pattern, t.minterms⟩, List.mem_map_of_mem _ ht, hmt⟩

/-! ## Coverage table and essential PIs -/

theorem lookup_map_pair {α β : Type} [BEq α] [LawfulBEq α] (f : α → β) (l : List α) (a : α) :
    (l.map (fun x => (x, f x))).lookup a = if a ∈ l then some (f a) else none := by
  induction l with
  | nil => simp
  | cons x l ih =>
    rw [List.map_cons, List.lookup_cons]
    by_cases h : a = x
    · subst h; simp
    · have hb : (a == x) = false := by simpa using h
      simp only [hb, ih, List.mem_cons, h, false_or]

theorem lookup_buildCoverageTable (M : List Nat) (PIs : List PI) (m : Nat) :
    (buildCoverageTable M PIs).lookup m =
      if m ∈ M then some (coveringIndices PIs m) else none := by
  unfold buildCoverageTable coveringIndices
  exact lookup_map_pair _ M m

theorem mem_coveringIndices (PIs : List PI) (m i : Nat) :
    i ∈ coveringIndices PIs m ↔ ∃ pi, PIs[i]? = some pi ∧ m ∈ pi.minterms := by
  unfold coveringIndices
  rw [List.mem_map]
  constructor
  · rintro ⟨e, he, rfl⟩
    rw [List.mem_filter] at he
    exact ⟨e.2, List.mem_enum_iff_getElem?.mp he.1, by simpa using he.2⟩
  · rintro ⟨pi, hpi, hm⟩
    refine ⟨(i, pi), List.mem_filter.mpr ⟨List.mem_enum_iff_getElem?.mpr hpi, by simpa using hm⟩, rfl⟩

/-- One round of `findEssentialPIs` on a target with a single, new covering index. -/
theorem essentialStep_pos (M : List Nat) (PIs : List PI) (st : EssentialState) (m : Nat)
    (hm : m ∈ M) (i : Nat) (pi : PI) (hcov : coveringIndices PIs m = [i])
    (hi : i ∉ st.essentialPIs) (hpi : PIs[i]? = some pi) :
    essentialStep M PIs (buildCoverageTable M PIs) st m =
      { essentialPIs := st.essentialPIs ++ [i]
        usedMinterms := pi.minterms.foldl
          (fun used x => if x ∈ M then setAdd used x else used) st.usedMinterms } := by
  unfold essentialStep
  rw [lookup_buildCoverageTable, if_pos hm, Option.getD_some, hcov]
  simp [hi, hpi]

/-- One round of `findEssentialPIs` on any other target. -/
theorem essentialStep_neg (M : List Nat) (PIs : List PI) (st : EssentialState) (m : Nat)
    (hm : m ∈ M) (h : ¬ ∃ i, coveringIndices PIs m = [i] ∧ i ∉ st.essentialPIs) :
    essentialStep M PIs (buildCoverageTable M PIs) st m = st := by
  unfold essentialStep
  rw [lookup_buildCoverageTable, if_pos hm, Option.getD_some]
  cases hcov : coveringIndices PIs m with
  | nil => simp
  | cons i rest =>
    cases rest with
    | cons j rest2 => simp
    | nil =>
      have hi : i ∈ st.essentialPIs := by
        by_contra hi
        exact h ⟨i, hcov, hi⟩
      simp [hi]

theorem foldl_essentialStep (M : List Nat) (PIs : List PI) (ms : List Nat)
    (hms : ∀ m ∈ ms, m ∈ M) :
    (∀ i, i ∈ (ms.foldl (essentialStep M PIs (buildCoverageTable M PIs)) ⟨[], []⟩).essentialPIs ↔
        ∃ m ∈ ms, coveringIndices PIs m = [i]) ∧
    (ms.foldl (essentialStep M PIs (buildCoverageTable M PIs)) ⟨[], []⟩).essentialPIs.Nodup ∧
    (∀ x, x ∈ (ms.foldl (essentialStep M PIs (buildCoverageTable M PIs)) ⟨[], []⟩).usedMinterms ↔
        x ∈ M ∧ ∃ i ∈ (ms.foldl (essentialStep M PIs (buildCoverageTable M PIs))
          ⟨[], []⟩).essentialPIs, ∃ pi, PIs[i]? = some pi ∧ x ∈ pi.minterms) := by
  induction ms using List.reverseRecOn with
  | nil => simp
  | append_singleton ms m ih =>
    have hmM : m ∈ M := hms m (by simp)
    obtain ⟨ihE, ihN, ihU⟩ := ih (fun x hx => hms x (List.mem_append_left _ hx))
    rw [List.foldl_append, List.foldl_cons, List.foldl_nil]
    generalize ms.foldl (essentialStep M PIs (buildCoverageTable M PIs)) ⟨[], []⟩ = st
      at ihE ihN ihU ⊢
    by_cases hex : ∃ i, coveringIndices PIs m = [i] ∧ i ∉ st.essentialPIs
    · obtain ⟨i, hcov, hi⟩ := hex
      obtain ⟨pi, hpi, _⟩ := (mem_coveringIndices PIs m i).mp (by rw [hcov]; simp)
      rw [essentialStep_pos M PIs st m hmM i pi hcov hi hpi]
      refine ⟨?_, ?_, ?_⟩
      · intro j
        simp only [List.mem_append, List.mem_singleton, ihE]
        constructor
        · rintro (⟨m2, hm2, hc2⟩ | rfl)
          · exact ⟨m2, Or.inl hm2, hc2⟩
          · exact ⟨m, Or.inr rfl, hcov⟩
        · rintro ⟨m2, hm2 | rfl, hc2⟩
          · exact Or.inl ⟨m2, hm2, hc2⟩
          · rw [hcov] at hc2
            simp only [List.cons.injEq, and_true] at hc2
            exact Or.inr hc2.symm
      · rw [List.nodup_append]
        refine ⟨ihN, by simp, ?_⟩
        intro a ha hb
        simp only [List.mem_singleton] at hb
        subst hb
        exact hi ha
      · intro x
        rw [mem_foldl_coveredAdd, ihU]
        simp only [List.mem_append, List.mem_singleton]
        constructor
        · rintro (⟨hxM, j, hj, pj, hpj, hxj⟩ | ⟨hx, hxM⟩)
          · exact ⟨hxM, j, Or.inl hj, pj, hpj, hxj⟩
          · exact ⟨hxM, i, Or.inr rfl, pi, hpi, hx⟩
        · rintro ⟨hxM, j, hj | rfl, pj, hpj, hxj⟩
          · exact Or.inl ⟨hxM, j, hj, pj, hpj, hxj⟩
          · rw [hpi] at hpj
            cases hpj
            exact Or.inr ⟨hxj, hxM⟩
    · rw [essentialStep_neg M PIs st m hmM hex]
      refine ⟨?_, ihN, ihU⟩
      intro j
      rw [ihE]
      constructor
      · rintro ⟨m2, hm2, hc2⟩
        exact ⟨m2, List.mem_append_left _ hm2, hc2⟩
      · rintro ⟨m2, hm2, hc2⟩
        rcases List.mem_append.mp hm2 with h | h
        · exact ⟨m2, h, hc2⟩
        · simp only [List.mem_singleton] at h
          subst h
          by_contra hno
          apply hex
          refine ⟨j, hc2, ?_⟩
          intro hj
          exact hno ((ihE j).mp hj)

/-- The essential indices: the sole covering index of some target, each listed once, and
the used minterms: the targets in the minterms list of an essential PI. -/
theorem findEssentialPIs_spec (M : List Nat) (PIs : List PI) :
    (∀ i, i ∈ (findEssentialPIs M PIs (buildCoverageTable M PIs)).essentialPIs ↔
        ∃ m ∈ M, coveringIndices PIs m = [i]) ∧
    (findEssentialPIs M PIs (buildCoverageTable M PIs)).essentialPIs.Nodup ∧
    (∀ x, x ∈ (findEssentialPIs M PIs (buildCoverageTable M PIs)).usedMinterms ↔
        x ∈ M ∧ ∃ i ∈ (findEssentialPIs M PIs (buildCoverageTable M PIs)).essentialPIs,
          ∃ pi, PIs[i]? = some pi ∧ x ∈ pi.minterms) :=
  foldl_essentialStep M PIs M (fun _ h => h)

/-! ## The single-function path -/

theorem mem_toPrimeImplicants (pis : List Implicant) (P : PI) :
    P ∈ toPrimeImplicants pis ↔
      ∃ pi ∈ pis, P = ⟨pi.pattern, pi.minterms, calculateCost pi.pattern⟩ := by
  unfold toPrimeImplicants
  rw [List.mem_map]
  constructor
  · rintro ⟨pi, hpi, rfl⟩; exact ⟨pi, hpi, rfl⟩
  · rintro ⟨pi, hpi, rfl⟩; exact ⟨pi, hpi, rfl⟩

theorem toPrimeImplicants_pattern (pis : List Implicant) :
    (toPrimeImplicants pis).map PI.pattern = pis.map Implicant.pattern := by
  unfold toPrimeImplicants
  rw [List.map_map]
  rfl

theorem mem_availablePIsOf (PIs : List PI) (ess : List Nat) (P : PI) :
    P ∈ availablePIsOf PIs ess ↔ ∃ i, i ∉ ess ∧ PIs[i]? = some P := by
  unfold availablePIsOf
  rw [List.mem_map]
  constructor
  · rintro ⟨e, he, rfl⟩
    rw [List.mem_filter] at he
    exact ⟨e.1, by simpa using he.2, List.mem_enum_iff_getElem?.mp he.1⟩
  · rintro ⟨i, hi, hP⟩
    exact ⟨(i, P), List.mem_filter.mpr ⟨List.mem_enum_iff_getElem?.mpr hP, by simpa using hi⟩, rfl⟩

theorem mem_essentialSolutionOf (PIs : List PI) (ess : List Nat) (P : PI) :
    P ∈ essentialSolutionOf PIs ess ↔ ∃ i ∈ ess, PIs[i]? = some P := by
  unfold essentialSolutionOf
  rw [List.mem_filterMap]

theorem foldl_cost_eq (l : List PI) (a : Nat) :
    l.foldl (fun sum pi => sum + calculateCost pi.pattern) a =
      a + (l.map (fun pi => calculateCost pi.pattern)).sum := by
  induction l generalizing a with
  | nil => simp
  | cons x l ih => rw [List.foldl_cons, ih, List.map_cons, List.sum_cons]; omega

/-- The conversion of a final solution leaves PIs of the generated list unchanged and
records the sum of their costs. -/
theorem convert_solution (pis : List Implicant) (solution : List PI)
    (h : ∀ P ∈ solution, P ∈ toPrimeImplicants pis) :
    (⟨solution.map (fun pi => ⟨pi.pattern, pi.minterms, calculateCost pi.pattern⟩),
      solution.foldl (fun sum pi => sum + calculateCost pi.pattern) 0⟩ : FunctionSolution) =
      ⟨solution, totalCostOf solution⟩ := by
  have hcost : ∀ P ∈ solution, calculateCost P.pattern = P.cost := by
    intro P hP
    obtain ⟨pi, _, rfl⟩ := (mem_toPrimeImplicants pis P).mp (h P hP)
    rfl
  have h1 : solution.map (fun pi => (⟨pi.pattern, pi.minterms, calculateCost pi.pattern⟩ : PI)) =
      solution := by
    conv_rhs => rw [← List.map_id solution]
    apply List.map_congr_left
    intro P hP
    rw [hcost P hP]
    rfl
  have h2 : solution.map (fun pi => calculateCost pi.pattern) = solution.map PI.cost :=
    List.map_congr_left hcost
  rw [h1, foldl_cost_eq, h2]
  simp [totalCostOf]

/-- Shape of the solutions of the single-function path when at most 30 PIs are not
essential: at least one solution is returned, and each consists of the essential PIs
followed by a cheapest non-empty cover of the remaining minterms (nothing when none
remain). -/
theorem singleFunctionResult_shape (F : List Char) (M D : List Nat) (n : Nat)
    (pis : List Implicant) (hpc : PrimeCover M D n pis)
    (h30 : (nonEssentialPIs M pis).length ≤ 30) :
    (singleFunctionResult F M pis).allSolutions ≠ [] ∧
    ∀ sol ∈ (singleFunctionResult F M pis).allSolutions,
      ∃ coverPIs : List PI,
        sol = ⟨essentialSolutionOf (toPrimeImplicants pis)
            (findEssentialPIs M (toPrimeImplicants pis)
              (buildCoverageTable M (toPrimeImplicants pis))).essentialPIs ++ coverPIs,
          totalCostOf (essentialSolutionOf (toPrimeImplicants pis)
            (findEssentialPIs M (toPrimeImplicants pis)
              (buildCoverageTable M (toPrimeImplicants pis))).essentialPIs ++ coverPIs)⟩ ∧
        coverPIs.Sublist (nonEssentialPIs M pis) ∧
        coversAll (M.filter (fun m => decide (m ∉ (findEssentialPIs M (toPrimeImplicants pis)
          (buildCoverageTable M (toPrimeImplicants pis))).usedMinterms))) coverPIs ∧
        ∀ S : List PI, S.Sublist (nonEssentialPIs M pis) →
          coversAll (M.filter (fun m => decide (m ∉ (findEssentialPIs M (toPrimeImplicants pis)
            (buildCoverageTable M (toPrimeImplicants pis))).usedMinterms))) S →
          totalCostOf coverPIs ≤ totalCostOf S := by
  obtain ⟨hE, _, hU⟩ := findEssentialPIs_spec M (toPrimeImplicants pis)
  unfold nonEssentialPIs at h30 ⊢
  generalize hess : findEssentialPIs M (toPrimeImplicants pis)
    (buildCoverageTable M (toPrimeImplicants pis)) = ess at hE hU h30 ⊢
  have hessSol : ∀ P ∈ essentialSolutionOf (toPrimeImplicants pis) ess.essentialPIs,
      P ∈ toPrimeImplicants pis := by
    intro P hP
    obtain ⟨i, _, hi⟩ := (mem_essentialSolutionOf _ _ P).mp hP
    exact List.getElem?_mem hi
  have havail : ∀ P ∈ availablePIsOf (toPrimeImplicants pis) ess.essentialPIs,
      P ∈ toPrimeImplicants pis := by
    intro P hP
    obtain ⟨i, _, hi⟩ := (mem_availablePIsOf _ _ P).mp hP
    exact List.getElem?_mem hi
  -- the non-essential PIs cover what remains
  have hcovrem : coversAll (M.filter (fun m => decide (m ∉ ess.usedMinterms)))
      (availablePIsOf (toPrimeImplicants pis) ess.essentialPIs) := by
    intro m hm
    rw [List.mem_filter] at hm
    obtain ⟨hmM, hmu⟩ := hm
    have hmu2 : m ∉ ess.usedMinterms := by simpa using hmu
    obtain ⟨pi, hpi, hmpi⟩ := hpc.covers m hmM
    have hP : (⟨pi.pattern, pi.minterms, calculateCost pi.pattern⟩ : PI) ∈ toPrimeImplicants pis :=
      (mem_toPrimeImplicants pis _).mpr ⟨pi, hpi, rfl⟩
    obtain ⟨i, hi, hget⟩ := List.mem_iff_getElem.mp hP
    have hget2 : (toPrimeImplicants pis)[i]? = some ⟨pi.pattern, pi.minterms, calculateCost pi.pattern⟩ := by
      rw [List.getElem?_eq_getElem hi, hget]
    refine ⟨_, (mem_availablePIsOf _ _ _).mpr ⟨i, ?_, hget2⟩, hmpi⟩
    intro hiess
    exact hmu2 ((hU m).mpr ⟨hmM, i, hiess, _, hget2, hmpi⟩)
  unfold singleFunctionResult
  simp only []
  rw [hess]
  by_cases hrem : (M.filter (fun m => decide (m ∉ ess.usedMinterms))).length > 0
  · -- some minterms remain: the solver is called and returns covers
    have hremne : M.filter (fun m => decide (m ∉ ess.usedMinterms)) ≠ [] := by
      intro e; rw [e] at hrem; simp at hrem
    have havne : availablePIsOf (toPrimeImplicants pis) ess.essentialPIs ≠ [] := by
      obtain ⟨m, hm⟩ := List.exists_mem_of_ne_nil _ hremne
      obtain ⟨P, hP, _⟩ := hcovrem m hm
      exact List.ne_nil_of_mem hP
    obtain ⟨_, hopt, hex⟩ := minimalCovers_optimal
      (M.filter (fun m => decide (m ∉ ess.usedMinterms)))
      (availablePIsOf (toPrimeImplicants pis) ess.essentialPIs) h30
    have hsound := minimalCovers_sound
      (M.filter (fun m => decide (m ∉ ess.usedMinterms)))
      (availablePIsOf (toPrimeImplicants pis) ess.essentialPIs) h30
    have hne := hex ⟨_, List.Sublist.refl _, havne, hcovrem⟩
    rw [if_pos hrem]
    have hlen : ¬ (findAllMinimalCovers (M.filter (fun m => decide (m ∉ ess.usedMinterms)))
        (availablePIsOf (toPrimeImplicants pis) ess.essentialPIs)).length = 0 := by
      rw [List.length_eq_zero]; exact hne
    rw [if_neg hlen]
    generalize hcovers : findAllMinimalCovers (M.filter (fun m => decide (m ∉ ess.usedMinterms)))
      (availablePIsOf (toPrimeImplicants pis) ess.essentialPIs) = covers at hopt hsound hne hlen ⊢
    have hall : ∀ sol : FunctionSolution,
        sol ∈ (covers.map (fun cover => essentialSolutionOf (toPrimeImplicants pis)
          ess.essentialPIs ++ cover.pis)).map (fun solution =>
          (⟨solution.map (fun pi => ⟨pi.pattern, pi.minterms, calculateCost pi.pattern⟩),
            solution.foldl (fun sum pi => sum + calculateCost pi.pattern) 0⟩ : FunctionSolution)) ↔
        ∃ cover ∈ covers, sol = ⟨essentialSolutionOf (toPrimeImplicants pis)
            ess.essentialPIs ++ cover.pis,
          totalCostOf (essentialSolutionOf (toPrimeImplicants pis) ess.essentialPIs ++ cover.pis)⟩ := by
      intro sol
      rw [List.map_map, List.mem_map]
      constructor
      · rintro ⟨cover, hc, rfl⟩
        refine ⟨cover, hc, ?_⟩
        simp only [Function.comp]
        apply convert_solution pis
        intro P hP
        rcases List.mem_append.mp hP with h | h
        · exact hessSol P h
        · exact havail P ((hsound cover hc).2.1.subset h)
      · rintro ⟨cover, hc, rfl⟩
        refine ⟨cover, hc, ?_⟩
        simp only [Function.comp]
        apply convert_solution pis
        intro P hP
        rcases List.mem_append.mp hP with h | h
        · exact hessSol P h
        · exact havail P ((hsound cover hc).2.1.subset h)
    cases hmapped : (covers.map (fun cover => essentialSolutionOf (toPrimeImplicants pis)
          ess.essentialPIs ++ cover.pis)).map (fun solution =>
          (⟨solution.map (fun pi => ⟨pi.pattern, pi.minterms, calculateCost pi.pattern⟩),
            solution.foldl (fun sum pi => sum + calculateCost pi.pattern) 0⟩ : FunctionSolution)) with
    | nil =>
      exfalso
      rw [List.map_eq_nil_iff, List.map_eq_nil_iff] at hmapped
      exact hne hmapped
    | cons first others =>
      simp only []
      refine ⟨by simp, ?_⟩
      intro sol hsol
      rw [← hmapped] at hsol
      obtain ⟨cover, hc, rfl⟩ := (hall sol).mp hsol
      obtain ⟨hcne, hsub, hcov, hcost⟩ := hsound cover hc
      refine ⟨cover.pis, rfl, hsub, hcov, ?_⟩
      intro S hS hScov
      have hSne : S ≠ [] := by
        intro e
        obtain ⟨m, hm⟩ := List.exists_mem_of_ne_nil _ hremne
        obtain ⟨P, hP, _⟩ := hScov m hm
        rw [e] at hP
        exact List.not_mem_nil _ hP
      rw [← hcost]
      exact hopt cover hc S hS hSne hScov
  · -- nothing remains: the essential PIs are the solution
    rw [if_neg hrem]
    have hremnil : M.filter (fun m => decide (m ∉ ess.usedMinterms)) = [] := by
      rw [← List.length_eq_zero]; omega
    simp only [List.length_nil, if_true, List.map_cons, List.map_nil]
    refine ⟨by simp, ?_⟩
    intro sol hsol
    simp only [List.mem_singleton] at hsol
    refine ⟨[], ?_, List.nil_sublist _, ?_, ?_⟩
    · rw [hsol, List.append_nil]
      exact convert_solution pis _ hessSol
    · rw [hremnil]; intro m hm; exact absurd hm (List.not_mem_nil _)
    · intro S _ _
      simp [totalCostOf]

/-- With one function the entry point runs the single-function path on the prime
implicants of that function and leaves the cache alone. -/
theorem executeNormalized_single (cache : Stage2Cache) (F : List Char) (M D : List Nat)
    (n : Nat) (pis : List Implicant)
    (h : generateOnlyTruePrimeImplicants M n D = some pis) :
    executeNormalized cache [(F, M)] n D = some (singleFunctionResult F M pis, cache) := by
  unfold executeNormalized
  simp [generateAll, generateFor, h]

/-- The normalisation of a map with one function whose name is not `__proto__`. -/
theorem normalizeMinterms_single (F : List Char) (M : List Nat) (hF : F ≠ protoKey) :
    normalizeMinterms [(F, M)] = [(F, M.map parseDecimal)] := by
  unfold normalizeMinterms
  simp [hF]

/-- The entry point on one function whose name is not `__proto__` and whose targets are
below 1e21: the normalisation changes nothing. -/
theorem executeMultipleOutput_single (cache : Stage2Cache) (F : List Char) (M D : List Nat)
    (n : Nat) (pis : List Implicant) (hF : F ≠ protoKey) (hM : ∀ m ∈ M, m < 10 ^ 21)
    (h : generateOnlyTruePrimeImplicants M n D = some pis) :
    executeMultipleOutput cache [(F, M)] n D = some (singleFunctionResult F M pis, cache) := by
  unfold executeMultipleOutput
  rw [normalizeMinterms_single F M hF, map_parseDecimal_of_lt M hM]
  exact executeNormalized_single cache F M D n pis h

/-- The PIs of a solution of the single-function path are generated PIs. -/
theorem mem_solution_generated (M : List Nat) (pis : List Implicant) (coverPIs : List PI)
    (hsub : coverPIs.Sublist (nonEssentialPIs M pis)) (P : PI)
    (hP : P ∈ essentialSolutionOf (toPrimeImplicants pis)
      (findEssentialPIs M (toPrimeImplicants pis)
        (buildCoverageTable M (toPrimeImplicants pis))).essentialPIs ++ coverPIs) :
    ∃ pi ∈ pis, P = ⟨pi.pattern, pi.minterms, calculateCost pi.pattern⟩ := by
  rw [← mem_toPrimeImplicants]
  rcases List.mem_append.mp hP with h | h
  · obtain ⟨i, _, hi⟩ := (mem_essentialSolutionOf _ _ P).mp h
    exact List.getElem?_mem hi
  · have := hsub.subset h
    unfold nonEssentialPIs at this
    obtain ⟨i, _, hi⟩ := (mem_availablePIsOf _ _ P).mp this
    exact List.getElem?_mem hi

/-- The essential PIs and a cover of the remaining minterms together cover every target. -/
theorem solution_covers (M : List Nat) (pis : List Implicant)
    (coverPIs : List PI)
    (hcov : coversAll (M.filter (fun m => decide (m ∉ (findEssentialPIs M (toPrimeImplicants pis)
      (buildCoverageTable M (toPrimeImplicants pis))).usedMinterms))) coverPIs) :
    coversAll M (essentialSolutionOf (toPrimeImplicants pis)
      (findEssentialPIs M (toPrimeImplicants pis)
        (buildCoverageTable M (toPrimeImplicants pis))).essentialPIs ++ coverPIs) := by
  obtain ⟨_, _, hU⟩ := findEssentialPIs_spec M (toPrimeImplicants pis)
  intro m hm
  by_cases hused : m ∈ (findEssentialPIs M (toPrimeImplicants pis)
      (buildCoverageTable M (toPrimeImplicants pis))).usedMinterms
  · obtain ⟨_, i, hi, P, hP, hmP⟩ := (hU m).mp hused
    exact ⟨P, List.mem_append_left _ ((mem_essentialSolutionOf _ _ P).mpr ⟨i, hi, hP⟩), hmP⟩
  · obtain ⟨P, hP, hmP⟩ := hcov m (List.mem_filter.mpr ⟨hm, by simpa using hused⟩)
    exact ⟨P, List.mem_append_right _ hP, hmP⟩

/-- C1 (single-function minimisation is correct) for terms below 1e21: for one function
whose name is not `__proto__`, targets and don't-cares below `2^n` and below `10^21`, and at
most 30 non-essential prime implicants, `executeMultipleOutput` returns at least one
solution, every target matches a pattern of every solution, and every integer below `2^n`
that matches a pattern of a solution is a target or a don't-care. -/
theorem executeMultipleOutput_single_correct (cache : Stage2Cache) (F : List Char)
    (M D : List Nat) (n : Nat) (hF : F ≠ protoKey)
    (hM : ∀ m ∈ M, m < 2 ^ n ∧ m < 10 ^ 21) (hD : ∀ d ∈ D, d < 2 ^ n ∧ d < 10 ^ 21)
    (h30 : ∀ pis, generateOnlyTruePrimeImplicants M n D = some pis →
      (nonEssentialPIs M pis).length ≤ 30) :
    ∃ res, executeMultipleOutput cache [(F, M)] n D = some res ∧
      res.1.allSolutions ≠ [] ∧
      ∀ sol ∈ res.1.allSolutions,
        (∀ m ∈ M, ∃ pi ∈ sol.pis, matchesPattern pi.pattern m n = true) ∧
        (∀ m, m < 2 ^ n → (∃ pi ∈ sol.pis, matchesPattern pi.pattern m n = true) →
          m ∈ M ∨ m ∈ D) := by
  obtain ⟨pis, hgen, hpc⟩ := generateOnlyTruePrimeImplicants_primeCover M D n hM hD
  obtain ⟨hne, hshape⟩ := singleFunctionResult_shape F M D n pis hpc (h30 pis hgen)
  refine ⟨_, executeMultipleOutput_single cache F M D n pis hF (fun m hm => (hM m hm).2) hgen,
    hne, ?_⟩
  intro sol hsol
  obtain ⟨coverPIs, rfl, hsub, hcov, _⟩ := hshape sol hsol
  refine ⟨?_, ?_⟩
  · intro m hm
    obtain ⟨P, hP, hmP⟩ := solution_covers M pis coverPIs hcov m hm
    obtain ⟨pi, hpi, rfl⟩ := mem_solution_generated M pis coverPIs hsub P hP
    exact ⟨_, hP, ((hpc.minterms_iff pi hpi m).mp hmP).2⟩
  · rintro m hm ⟨P, hP, hmatch⟩
    obtain ⟨pi, hpi, rfl⟩ := mem_solution_generated M pis coverPIs hsub P hP
    exact hpc.implicant pi hpi m hm hmatch

/-! ## Cost minimality of the single-function path -/

/-- A duplicate-free list whose elements each have a distinct-by-image source in another
list costs no more than that list. -/
theorem sum_le_of_sources {α β : Type} [DecidableEq β] (cα : α → Nat) (cβ : β → Nat)
    (g : β → Option α) (Q : List α) :
    ∀ P : List β, Q.Nodup → (∀ q ∈ Q, ∃ p ∈ P, g p = some q ∧ cα q ≤ cβ p) →
      (Q.map cα).sum ≤ (P.map cβ).sum := by
  induction Q with
  | nil => intro P _ _; simp
  | cons q Q ih =>
    intro P hnd h
    rw [List.nodup_cons] at hnd
    obtain ⟨p, hp, hgp, hle⟩ := h q (List.mem_cons_self _ _)
    have hperm := List.perm_cons_erase hp
    have hsum : (P.map cβ).sum = cβ p + ((P.erase p).map cβ).sum := by
      rw [(hperm.map cβ).sum_eq, List.map_cons, List.sum_cons]
    have hrest : ∀ q2 ∈ Q, ∃ p2 ∈ P.erase p, g p2 = some q2 ∧ cα q2 ≤ cβ p2 := by
      intro q2 hq2
      obtain ⟨p2, hp2, hgp2, hle2⟩ := h q2 (List.mem_cons_of_mem _ hq2)
      have hne : p2 ≠ p := by
        intro e
        rw [e, hgp] at hgp2
        have : q = q2 := Option.some.inj hgp2
        rw [this] at hnd
        exact hnd.1 hq2
      exact ⟨p2, (List.mem_erase_of_ne hne).mpr hp2, hgp2, hle2⟩
    have := ih (P.erase p) hnd.2 hrest
    rw [List.map_cons, List.sum_cons, hsum]
    omega

theorem sum_filter_add_sum_filter_not {α : Type} (c : α → Nat) (p : α → Bool) (l : List α) :
    ((l.filter p).map c).sum + ((l.filter (fun a => !p a)).map c).sum = (l.map c).sum := by
  induction l with
  | nil => simp
  | cons a l ih =>
    rw [List.filter_cons, List.filter_cons]
    by_cases h : p a = true
    · simp only [h, if_true, Bool.not_true, Bool.false_eq_true, if_false, List.map_cons,
        List.sum_cons]
      omega
    · have h2 : p a = false := by simpa using h
      simp only [h2, Bool.false_eq_true, if_false, Bool.not_false, if_true, List.map_cons,
        List.sum_cons]
      omega

theorem getElem?_inj_of_nodup {α : Type} (l : List α) (hnd : l.Nodup) (i j : Nat) (x : α)
    (hi : l[i]? = some x) (hj : l[j]? = some x) : i = j := by
  have h := List.nodup_iff_getElem?_ne_getElem?.mp hnd
  have hil : i < l.length := by
    by_contra hge
    rw [List.getElem?_eq_none (by omega)] at hi
    exact Option.noConfusion hi
  have hjl : j < l.length := by
    by_contra hge
    rw [List.getElem?_eq_none (by omega)] at hj
    exact Option.noConfusion hj
  rcases Nat.lt_trichotomy i j with hlt | heq | hgt
  · exact absurd (hi.trans hj.symm) (h i j hlt hjl)
  · exact heq
  · exact absurd (hj.trans hi.symm) (h j i hgt hil)

theorem enumFrom_filter_map_snd {α : Type} (l : List α) (s : Nat) (p : Nat × α → Bool)
    (q : α → Bool) (h : ∀ e ∈ l.enumFrom s, p e = q e.2) :
    ((l.enumFrom s).filter p).map Prod.snd = l.filter q := by
  induction l generalizing s with
  | nil => simp
  | cons a l ih =>
    rw [List.enumFrom_cons] at h ⊢
    have ha := h (s, a) (List.mem_cons_self _ _)
    have hrest := ih (s + 1) (fun e he => h e (List.mem_cons_of_mem _ he))
    rw [List.filter_cons, List.filter_cons, ha]
    by_cases hq : q a = true
    · simp only [hq, if_true, List.map_cons, hrest]
    · simp only [hq, Bool.false_eq_true, if_false, hrest]

/-- On a duplicate-free PI list the non-essential PIs are the PIs outside the essential
solution. -/
theorem availablePIsOf_eq_filter (PIs : List PI) (ess : List Nat) (hnd : PIs.Nodup) :
    availablePIsOf PIs ess =
      PIs.filter (fun X => decide (X ∉ essentialSolutionOf PIs ess)) := by
  unfold availablePIsOf List.enum
  apply enumFrom_filter_map_snd
  intro e he
  have hget : PIs[e.1]? = some e.2 := List.mem_enum_iff_getElem?.mp he
  have : e.1 ∉ ess ↔ e.2 ∉ essentialSolutionOf PIs ess := by
    rw [mem_essentialSolutionOf]
    constructor
    · rintro hno ⟨j, hj, hgj⟩
      rw [getElem?_inj_of_nodup PIs hnd e.1 j e.2 hget hgj] at hno
      exact hno hj
    · intro hno hmem
      exact hno ⟨e.1, hmem, hget⟩
  simp only [this]

theorem totalCostOf_append (a b : List PI) :
    totalCostOf (a ++ b) = totalCostOf a + totalCostOf b := by
  simp [totalCostOf]

/-- Cost minimality of the single-function path over all sum-of-products covers, when at
most 30 generated PIs are not essential. -/
theorem singleFunctionResult_cost_minimal (F : List Char) (M D : List Nat) (n : Nat)
    (pis : List Implicant) (hpc : PrimeCover M D n pis)
    (h30 : (nonEssentialPIs M pis).length ≤ 30) :
    (∀ s1 ∈ (singleFunctionResult F M pis).allSolutions,
      ∀ s2 ∈ (singleFunctionResult F M pis).allSolutions, s1.cost = s2.cost) ∧
    ∀ sol ∈ (singleFunctionResult F M pis).allSolutions, ∀ P : List (List Char),
      (∀ p ∈ P, p.length = n ∧ IsImplicantOf p n M D) →
      (∀ m ∈ M, ∃ p ∈ P, matchesPattern p m n = true) →
      sol.cost ≤ (P.map calculateCost).sum := by
  obtain ⟨_, hshape⟩ := singleFunctionResult_shape F M D n pis hpc h30
  obtain ⟨hE, hN, hU⟩ := findEssentialPIs_spec M (toPrimeImplicants pis)
  have hndPI : (toPrimeImplicants pis).Nodup := by
    apply List.Nodup.of_map PI.pattern
    rw [toPrimeImplicants_pattern]
    exact hpc.nodup
  refine ⟨?_, ?_⟩
  · intro s1 h1 s2 h2
    obtain ⟨c1, rfl, hsub1, hcov1, hmin1⟩ := hshape s1 h1
    obtain ⟨c2, rfl, hsub2, hcov2, hmin2⟩ := hshape s2 h2
    simp only [totalCostOf_append]
    have := hmin1 c2 hsub2 hcov2
    have := hmin2 c1 hsub1 hcov1
    omega
  · intro sol hsol P hP hPcov
    obtain ⟨coverPIs, rfl, hsub, hcov, hmin⟩ := hshape sol hsol
    unfold nonEssentialPIs at hsub hmin
    generalize hess : (findEssentialPIs M (toPrimeImplicants pis)
      (buildCoverageTable M (toPrimeImplicants pis))) = ess at hE hN hU hsub hcov hmin ⊢
    generalize hPIs : toPrimeImplicants pis = PIs at hE hU hsub hcov hmin hndPI ⊢
    -- every useful pattern of `P` is dominated by a generated PI
    have hdom : ∀ p ∈ P, (∃ m ∈ M, matchesPattern p m n = true) →
        ∃ X ∈ PIs, X.cost ≤ calculateCost p ∧
          ∀ m ∈ M, matchesPattern p m n = true → m ∈ X.minterms := by
      intro p hp hm
      obtain ⟨pi, hpi, hcost, hmin⟩ := hpc.dominates p (hP p hp).1 (hP p hp).2 hm
      refine ⟨⟨pi.pattern, pi.minterms, calculateCost pi.pattern⟩, ?_, hcost, hmin⟩
      rw [← hPIs]
      exact (mem_toPrimeImplicants pis _).mpr ⟨pi, hpi, rfl⟩
    -- the first dominating PI of a pattern
    obtain ⟨f, hf⟩ : ∃ f : List Char → Option PI, ∀ p, f p = PIs.find?
        (fun X => decide (X.cost ≤ calculateCost p ∧
          ∀ m ∈ M, matchesPattern p m n = true → m ∈ X.minterms)) := ⟨_, fun _ => rfl⟩
    have hfsome : ∀ p X, f p = some X → X ∈ PIs ∧ X.cost ≤ calculateCost p ∧
        ∀ m ∈ M, matchesPattern p m n = true → m ∈ X.minterms := by
      intro p X h
      rw [hf] at h
      have h1 := List.mem_of_find?_eq_some h
      have h2 := List.find?_some h
      simp only [decide_eq_true_eq] at h2
      exact ⟨h1, h2⟩
    have hfex : ∀ p ∈ P, (∃ m ∈ M, matchesPattern p m n = true) → ∃ X, f p = some X := by
      intro p hp hm
      obtain ⟨X, hX, hXd⟩ := hdom p hp hm
      rw [hf]
      cases hfind : PIs.find? (fun X => decide (X.cost ≤ calculateCost p ∧
          ∀ m ∈ M, matchesPattern p m n = true → m ∈ X.minterms)) with
      | some Y => exact ⟨Y, rfl⟩
      | none =>
        rw [List.find?_eq_none] at hfind
        exact absurd (by simpa using hXd) (hfind X hX)
    -- the generated PIs that dominate some pattern of `P`
    obtain ⟨Q, hQ⟩ : ∃ Q : List PI, Q = PIs.filter (fun X => decide (∃ p ∈ P, f p = some X)) :=
      ⟨_, rfl⟩
    have hQmem : ∀ X, X ∈ Q ↔ X ∈ PIs ∧ ∃ p ∈ P, f p = some X := by
      intro X; rw [hQ, List.mem_filter]; simp
    have hQnd : Q.Nodup := by rw [hQ]; exact hndPI.filter _
    have hQcost : totalCostOf Q ≤ (P.map calculateCost).sum := by
      unfold totalCostOf
      apply sum_le_of_sources PI.cost calculateCost f Q P hQnd
      intro X hX
      obtain ⟨_, p, hp, hfp⟩ := (hQmem X).mp hX
      exact ⟨p, hp, hfp, (hfsome p X hfp).2.1⟩
    have hQcov : coversAll M Q := by
      intro m hm
      obtain ⟨p, hp, hmatch⟩ := hPcov m hm
      obtain ⟨X, hX⟩ := hfex p hp ⟨m, hm, hmatch⟩
      obtain ⟨hXin, _, hXm⟩ := hfsome p X hX
      exact ⟨X, (hQmem X).mpr ⟨hXin, p, hp, hX⟩, hXm m hm hmatch⟩
    -- every essential PI is among them
    have hessQ : ∀ X ∈ essentialSolutionOf PIs ess.essentialPIs, X ∈ Q := by
      intro X hX
      obtain ⟨i, hi, hget⟩ := (mem_essentialSolutionOf _ _ X).mp hX
      obtain ⟨m, hm, hcovi⟩ := (hE i).mp hi
      obtain ⟨Y, hY, hmY⟩ := hQcov m hm
      obtain ⟨j, hj⟩ := List.getElem?_of_mem ((hQmem Y).mp hY).1
      have hjmem : j ∈ coveringIndices PIs m := (mem_coveringIndices PIs m j).mpr ⟨Y, hj, hmY⟩
      rw [hcovi, List.mem_singleton] at hjmem
      rw [hjmem, hget] at hj
      rw [Option.some.inj hj]
      exact hY
    have hessnd : (essentialSolutionOf PIs ess.essentialPIs).Nodup := by
      unfold essentialSolutionOf
      apply List.Nodup.filterMap
      · intro a a2 b hb hb2
        exact getElem?_inj_of_nodup PIs hndPI a a2 b (by simpa using hb) (by simpa using hb2)
      · exact hN
    -- split `Q` into its essential part and the rest
    have hsplit := sum_filter_add_sum_filter_not PI.cost
      (fun X => decide (X ∈ essentialSolutionOf PIs ess.essentialPIs)) Q
    have hpart1 : totalCostOf (essentialSolutionOf PIs ess.essentialPIs) ≤
        ((Q.filter (fun X => decide (X ∈ essentialSolutionOf PIs ess.essentialPIs))).map
          PI.cost).sum := by
      unfold totalCostOf
      apply sum_le_of_sources PI.cost PI.cost (fun X => some X) _ _ hessnd
      intro X hX
      exact ⟨X, List.mem_filter.mpr ⟨hessQ X hX, by simpa using hX⟩, rfl, le_refl _⟩
    have hrestsub : (Q.filter (fun X => !decide (X ∈ essentialSolutionOf PIs
        ess.essentialPIs))).Sublist (availablePIsOf PIs ess.essentialPIs) := by
      rw [availablePIsOf_eq_filter PIs ess.essentialPIs hndPI, hQ, List.filter_filter]
      have : (fun a => (!decide (a ∈ essentialSolutionOf PIs ess.essentialPIs)) &&
          decide (∃ p ∈ P, f p = some a)) =
          (fun a => decide (∃ p ∈ P, f p = some a) &&
            decide (a ∉ essentialSolutionOf PIs ess.essentialPIs)) := by
        funext a
        rw [Bool.and_comm]
        simp
      rw [this, ← List.filter_filter]
      exact List.filter_sublist _
    have hrestcov : coversAll (M.filter (fun m => decide (m ∉ ess.usedMinterms)))
        (Q.filter (fun X => !decide (X ∈ essentialSolutionOf PIs ess.essentialPIs))) := by
      intro m hm
      rw [List.mem_filter] at hm
      obtain ⟨hmM, hmu⟩ := hm
      have hmu2 : m ∉ ess.usedMinterms := by simpa using hmu
      obtain ⟨Y, hY, hmY⟩ := hQcov m hmM
      refine ⟨Y, List.mem_filter.mpr ⟨hY, ?_⟩, hmY⟩
      simp only [Bool.not_eq_true', decide_eq_false_iff_not]
      intro hYess
      obtain ⟨i, hi, hget⟩ := (mem_essentialSolutionOf _ _ Y).mp hYess
      exact hmu2 ((hU m).mpr ⟨hmM, i, hi, Y, hget, hmY⟩)
    have hpart2 := hmin _ hrestsub hrestcov
    simp only [totalCostOf_append]
    unfold totalCostOf at hpart1 hpart2 hQcost ⊢
    omega

/-- The bounded form of cost minimality at the entry point: for targets and don't-cares
below `2^n` and at most 30 non-essential prime implicants, all solutions returned for one
function have the same cost, which no sum-of-products cover of the function undercuts. -/
theorem executeNormalized_single_cost_minimal (cache : Stage2Cache) (F : List Char)
    (M D : List Nat) (n : Nat) (hM : ∀ m ∈ M, m < 2 ^ n ∧ m < 10 ^ 21)
    (hD : ∀ d ∈ D, d < 2 ^ n ∧ d < 10 ^ 21)
    (h30 : ∀ pis, generateOnlyTruePrimeImplicants M n D = some pis →
      (nonEssentialPIs M pis).length ≤ 30) :
    ∃ res, executeNormalized cache [(F, M)] n D = some res ∧
      res.1.allSolutions ≠ [] ∧
      (∀ s1 ∈ res.1.allSolutions, ∀ s2 ∈ res.1.allSolutions, s1.cost = s2.cost) ∧
      ∀ sol ∈ res.1.allSolutions, ∀ P : List (List Char),
        (∀ p ∈ P, p.length = n ∧ IsImplicantOf p n M D) →
        (∀ m ∈ M, ∃ p ∈ P, matchesPattern p m n = true) →
        sol.cost ≤ (P.map calculateCost).sum := by
  obtain ⟨pis, hgen, hpc⟩ := generateOnlyTruePrimeImplicants_primeCover M D n hM hD
  obtain ⟨hne, _⟩ := singleFunctionResult_shape F M D n pis hpc (h30 pis hgen)
  obtain ⟨hsame, hmin⟩ := singleFunctionResult_cost_minimal F M D n pis hpc (h30 pis hgen)
  exact ⟨_, executeNormalized_single cache F M D n pis hgen, hne, hsame, hmin⟩

set_option maxRecDepth 1000000 in
theorem wrapPIs_generated :
    generateOnlyTruePrimeImplicants wrapTargets 7 wrapDontCares = some wrapPIs := by
  decide

set_option maxRecDepth 1000000 in
theorem wrap_covering : coveringIndices (toPrimeImplicants wrapPIs) 98 = [0, 32] := by
  decide

set_option maxRecDepth 1000000 in
theorem wrap_all_cover :
    coversAll wrapTargets (chosen (toPrimeImplicants wrapPIs) (2 ^ 33 - 1)) := by
  decide

set_option maxRecDepth 1000000 in
theorem wrap_lengths : ∀ pi ∈ wrapPIs, pi.pattern.length = 7 := by
  decide

/-- Membership in the sub-list selected by a combination number. -/
theorem mem_chosen (avail : List PI) (c : Nat) (P : PI) :
    P ∈ chosen avail c ↔ ∃ i, bitSelected c i = true ∧ avail[i]? = some P := by
  unfold chosen
  rw [List.mem_map]
  constructor
  · rintro ⟨e, he, rfl⟩
    rw [List.mem_filter] at he
    exact ⟨e.1, he.2, List.mem_enum_iff_getElem?.mp he.1⟩
  · rintro ⟨i, hi, hP⟩
    exact ⟨(i, P), List.mem_filter.mpr ⟨List.mem_enum_iff_getElem?.mpr hP, hi⟩, rfl⟩

/-- The bit test of the solver cannot tell position `i + 32` from position `i`. -/
theorem bitSelected_wrap (c i : Nat) : bitSelected c (i + 32) = bitSelected c i := by
  unfold bitSelected
  rw [Nat.add_mod_right]

theorem totalCostOf_erase (S : List PI) (a : PI) (h : a ∈ S) :
    totalCostOf S = a.cost + totalCostOf (S.erase a) := by
  unfold totalCostOf
  rw [((List.perm_cons_erase h).map PI.cost).sum_eq]
  simp

/-- The solver returns something as soon as one combination number covers. -/
theorem findAllMinimalCovers_ne_nil (T : List Nat) (avail : List PI) (c : Nat) (hc0 : c ≠ 0)
    (hlt : c < 2 ^ avail.length) (hcov : coversAll T (chosen avail c)) :
    findAllMinimalCovers T avail ≠ [] := by
  rcases findAllMinimalCovers_eq T avail with ⟨hno, _⟩ | ⟨m, ⟨c2, hc2, hcov2, hcost2⟩, _, heq⟩
  · exact absurd hcov (hno c ((mem_combinations _ _).mpr ⟨hc0, hlt⟩))
  · rw [heq]
    intro hnil
    rw [List.map_eq_nil_iff] at hnil
    have : c2 ∈ (List.range' 1 (2 ^ avail.length - 1)).filter
        (fun c => decide (coversAll T (chosen avail c)) &&
          decide (totalCostOf (chosen avail c) = m)) := by
      rw [List.mem_filter]
      exact ⟨hc2, by simp [hcov2, hcost2]⟩
    rw [hnil] at this
    exact List.not_mem_nil _ this

/-- On the 33-candidate input every covering selection of the solver contains both the
first and the last candidate, and the selection without the last one is a cheaper cover. -/
theorem wrap_cover_not_minimal (c : Nat)
    (hcov : coversAll wrapTargets (chosen (toPrimeImplicants wrapPIs) c)) :
    ∃ P : List (List Char),
      (∀ p ∈ P, p.length = 7 ∧ IsImplicantOf p 7 wrapTargets wrapDontCares) ∧
      (∀ m ∈ wrapTargets, ∃ p ∈ P, matchesPattern p m 7 = true) ∧
      (P.map calculateCost).sum < totalCostOf (chosen (toPrimeImplicants wrapPIs) c) := by
  obtain ⟨pis, hgen, hpc⟩ := generateOnlyTruePrimeImplicants_primeCover wrapTargets
    wrapDontCares 7 (by decide) (by decide)
  rw [wrapPIs_generated] at hgen
  cases hgen
  have h0 : (toPrimeImplicants wrapPIs)[0]? =
      some ⟨['1', '1', '0', '0', '0', '-', '0'], [98], 7⟩ := by decide
  have h32 : (toPrimeImplicants wrapPIs)[32]? =
      some ⟨['1', '1', '0', '0', '0', '1', '-'], [98], 7⟩ := by decide
  obtain ⟨X, hX, h98⟩ := hcov 98 (by decide)
  obtain ⟨i, hbit, hget⟩ := (mem_chosen _ _ _).mp hX
  have hi : i ∈ coveringIndices (toPrimeImplicants wrapPIs) 98 :=
    (mem_coveringIndices _ _ _).mpr ⟨X, hget, h98⟩
  rw [wrap_covering] at hi
  have hb0 : bitSelected c 0 = true := by
    simp only [List.mem_cons, List.mem_singleton, List.not_mem_nil, or_false] at hi
    rcases hi with rfl | rfl
    · exact hbit
    · rw [← bitSelected_wrap c 0]; exact hbit
  have hb32 : bitSelected c 32 = true := by
    rw [← hb0]; exact bitSelected_wrap c 0
  have ha0 := (mem_chosen (toPrimeImplicants wrapPIs) c _).mpr ⟨0, hb0, h0⟩
  have ha32 := (mem_chosen (toPrimeImplicants wrapPIs) c _).mpr ⟨32, hb32, h32⟩
  have hmem : ∀ Y ∈ chosen (toPrimeImplicants wrapPIs) c,
      ∃ pi ∈ wrapPIs, Y = ⟨pi.pattern, pi.minterms, calculateCost pi.pattern⟩ := by
    intro Y hY
    exact (mem_toPrimeImplicants wrapPIs Y).mp ((chosen_sublist _ c).subset hY)
  generalize chosen (toPrimeImplicants wrapPIs) c = S at ha0 ha32 hmem hcov
  refine ⟨(S.erase ⟨['1', '1', '0', '0', '0', '1', '-'], [98], 7⟩).map PI.pattern, ?_, ?_, ?_⟩
  · intro p hp
    obtain ⟨Y, hY, rfl⟩ := List.mem_map.mp hp
    obtain ⟨pi, hpi, rfl⟩ := hmem Y (List.mem_of_mem_erase hY)
    exact ⟨wrap_lengths pi hpi, hpc.implicant pi hpi⟩
  · intro m hm
    obtain ⟨Y, hY, hmY⟩ := hcov m hm
    by_cases hYe : Y = ⟨['1', '1', '0', '0', '0', '1', '-'], [98], 7⟩
    · subst hYe
      have hm98 : m = 98 := by simpa using hmY
      subst hm98
      exact ⟨_, List.mem_map.mpr ⟨_, (List.mem_erase_of_ne (by decide)).mpr ha0, rfl⟩,
        by decide⟩
    · obtain ⟨pi, hpi, rfl⟩ := hmem Y hY
      exact ⟨_, List.mem_map.mpr ⟨_, (List.mem_erase_of_ne hYe).mpr hY, rfl⟩,
        ((hpc.minterms_iff pi hpi m).mp hmY).2⟩
  · rw [totalCostOf_erase S _ ha32, List.map_map]
    have hcong : (S.erase ⟨['1', '1', '0', '0', '0', '1', '-'], [98], 7⟩).map
        (calculateCost ∘ PI.pattern) =
        (S.erase ⟨['1', '1', '0', '0', '0', '1', '-'], [98], 7⟩).map PI.cost := by
      apply List.map_congr_left
      intro Y hY
      obtain ⟨pi, _, rfl⟩ := hmem Y (List.mem_of_mem_erase hY)
      rfl
    rw [hcong]
    exact Nat.lt_add_of_pos_left (by decide)

/-- Shape of the solutions of the single-function path, whatever the number of
candidates: when some minterm remains and some combination number covers what remains,
at least one solution is returned and each is the essential PIs followed by the selection
of a covering combination number. -/
theorem singleFunctionResult_of_cover (F : List Char) (M : List Nat) (pis : List Implicant)
    (c0 : Nat) (hc0 : c0 ≠ 0) (hlt : c0 < 2 ^ (nonEssentialPIs M pis).length)
    (hrem : M.filter (fun m => decide (m ∉ (findEssentialPIs M (toPrimeImplicants pis)
      (buildCoverageTable M (toPrimeImplicants pis))).usedMinterms)) ≠ [])
    (hcov0 : coversAll (M.filter (fun m => decide (m ∉ (findEssentialPIs M
      (toPrimeImplicants pis) (buildCoverageTable M (toPrimeImplicants pis))).usedMinterms)))
      (chosen (nonEssentialPIs M pis) c0)) :
    (singleFunctionResult F M pis).allSolutions ≠ [] ∧
    ∀ sol ∈ (singleFunctionResult F M pis).allSolutions, ∃ c,
      coversAll (M.filter (fun m => decide (m ∉ (findEssentialPIs M (toPrimeImplicants pis)
        (buildCoverageTable M (toPrimeImplicants pis))).usedMinterms)))
        (chosen (nonEssentialPIs M pis) c) ∧
      sol.cost = totalCostOf (essentialSolutionOf (toPrimeImplicants pis)
        (findEssentialPIs M (toPrimeImplicants pis)
          (buildCoverageTable M (toPrimeImplicants pis))).essentialPIs ++
        chosen (nonEssentialPIs M pis) c) := by
  unfold nonEssentialPIs at hlt hcov0 ⊢
  generalize hess : findEssentialPIs M (toPrimeImplicants pis)
    (buildCoverageTable M (toPrimeImplicants pis)) = ess at hlt hrem hcov0 ⊢
  have hne := findAllMinimalCovers_ne_nil _ _ c0 hc0 hlt hcov0
  have hpos : (M.filter (fun m => decide (m ∉ ess.usedMinterms))).length > 0 :=
    List.length_pos.mpr hrem
  have hlen : ¬ (findAllMinimalCovers (M.filter (fun m => decide (m ∉ ess.usedMinterms)))
      (availablePIsOf (toPrimeImplicants pis) ess.essentialPIs)).length = 0 := by
    rw [List.length_eq_zero]; exact hne
  have hmem := mem_findAllMinimalCovers (M.filter (fun m => decide (m ∉ ess.usedMinterms)))
    (availablePIsOf (toPrimeImplicants pis) ess.essentialPIs)
  unfold singleFunctionResult
  simp only []
  rw [hess, if_pos hpos, if_neg hlen]
  generalize findAllMinimalCovers (M.filter (fun m => decide (m ∉ ess.usedMinterms)))
    (availablePIsOf (toPrimeImplicants pis) ess.essentialPIs) = covers at hne hmem ⊢
  cases hmapped : (covers.map (fun cover => essentialSolutionOf (toPrimeImplicants pis)
        ess.essentialPIs ++ cover.pis)).map (fun solution =>
        (⟨solution.map (fun pi => ⟨pi.pattern, pi.minterms, calculateCost pi.pattern⟩),
          solution.foldl (fun sum pi => sum + calculateCost pi.pattern) 0⟩ :
            FunctionSolution)) with
  | nil =>
    exfalso
    rw [List.map_eq_nil_iff, List.map_eq_nil_iff] at hmapped
    exact hne hmapped
  | cons first others =>
    simp only []
    refine ⟨by simp, ?_⟩
    intro sol hsol
    rw [← hmapped, List.map_map, List.mem_map] at hsol
    obtain ⟨cover, hc, rfl⟩ := hsol
    obtain ⟨c, _, _, hcov, rfl, _⟩ := hmem cover hc
    refine ⟨c, hcov, ?_⟩
    simp only [Function.comp]
    have hconv := convert_solution pis (essentialSolutionOf (toPrimeImplicants pis)
      ess.essentialPIs ++ chosen (availablePIsOf (toPrimeImplicants pis) ess.essentialPIs) c) (by
        intro P hP
        rcases List.mem_append.mp hP with h | h
        · obtain ⟨i, _, hi⟩ := (mem_essentialSolutionOf _ _ P).mp h
          exact List.getElem?_mem hi
        · obtain ⟨i, _, hi⟩ := (mem_availablePIsOf _ _ P).mp ((chosen_sublist _ c).subset h)
          exact List.getElem?_mem hi)
    exact congrArg FunctionSolution.cost hconv

set_option maxRecDepth 1000000 in
theorem wrap_remaining :
    wrapTargets.filter (fun m => decide (m ∉ (findEssentialPIs wrapTargets
      (toPrimeImplicants wrapPIs)
      (buildCoverageTable wrapTargets (toPrimeImplicants wrapPIs))).usedMinterms)) =
      wrapTargets := by
  decide

set_option maxRecDepth 1000000 in
theorem wrap_nonEssential :
    nonEssentialPIs wrapTargets wrapPIs = toPrimeImplicants wrapPIs := by
  decide

set_option maxRecDepth 1000000 in
theorem wrap_essentialSolution :
    essentialSolutionOf (toPrimeImplicants wrapPIs)
      (findEssentialPIs wrapTargets (toPrimeImplicants wrapPIs)
        (buildCoverageTable wrapTargets (toPrimeImplicants wrapPIs))).essentialPIs = [] := by
  decide

/-- C2 at a function of seven variables with six targets and 33 non-essential prime
implicants: `executeMultipleOutput` returns solutions, and for each of them there is a
list of implicant patterns of length 7 that matches every target and has a strictly
smaller total cost than the solution. -/
theorem executeMultipleOutput_single_not_minimal :
    ∃ res, executeMultipleOutput [] [(['F'], wrapTargets)] 7 wrapDontCares = some res ∧
      res.1.allSolutions ≠ [] ∧
      ∀ sol ∈ res.1.allSolutions, ∃ P : List (List Char),
        (∀ p ∈ P, p.length = 7 ∧ IsImplicantOf p 7 wrapTargets wrapDontCares) ∧
        (∀ m ∈ wrapTargets, ∃ p ∈ P, matchesPattern p m 7 = true) ∧
        (P.map calculateCost).sum < sol.cost := by
  have hlen33 : (toPrimeImplicants wrapPIs).length = 33 := by decide
  have hlt : (2 ^ 33 - 1 : Nat) < 2 ^ (nonEssentialPIs wrapTargets wrapPIs).length := by
    rw [wrap_nonEssential, hlen33]; decide
  have hrem : wrapTargets.filter (fun m => decide (m ∉ (findEssentialPIs wrapTargets
      (toPrimeImplicants wrapPIs)
      (buildCoverageTable wrapTargets (toPrimeImplicants wrapPIs))).usedMinterms)) ≠ [] := by
    rw [wrap_remaining]; decide
  obtain ⟨hne, hall⟩ := singleFunctionResult_of_cover ['F'] wrapTargets wrapPIs (2 ^ 33 - 1)
    (by decide) hlt hrem (by rw [wrap_remaining, wrap_nonEssential]; exact wrap_all_cover)
  refine ⟨_, executeMultipleOutput_single [] ['F'] wrapTargets wrapDontCares 7 wrapPIs
    (by decide) (by decide) wrapPIs_generated, hne, ?_⟩
  intro sol hsol
  obtain ⟨c, hcov, hcost⟩ := hall sol hsol
  rw [wrap_remaining, wrap_nonEssential] at hcov
  rw [wrap_essentialSolution, wrap_nonEssential, List.nil_append] at hcost
  rw [hcost]
  exact wrap_cover_not_minimal c hcov

/-- C3, with at least one variable and terms below 1e21: for `1 ≤ n` and targets and
don't-cares below `2^n` and below `10^21`, `generateOnlyTruePrimeImplicants` returns a list
in which a pattern of length `n` occurs exactly when it is a prime implicant that matches a
target; no pattern occurs twice; and the minterms list of each returned implicant is
duplicate-free, non-empty and holds exactly the targets that match its pattern. -/
theorem generateOnlyTruePrimeImplicants_exact (M D : List Nat) (n : Nat) (hn : 1 ≤ n)
    (hM : ∀ m ∈ M, m < 2 ^ n ∧ m < 10 ^ 21) (hD : ∀ d ∈ D, d < 2 ^ n ∧ d < 10 ^ 21) :
    ∃ pis, generateOnlyTruePrimeImplicants M n D = some pis ∧
      (∀ p : List Char, p.length = n →
        (p ∈ pis.map Implicant.pattern ↔ IsPrimeImplicantOf p n M D)) ∧
      (pis.map Implicant.pattern).Nodup ∧
      (∀ pi ∈ pis, pi.pattern.length = n ∧ pi.minterms.Nodup ∧ pi.minterms ≠ [] ∧
        ∀ m, m ∈ pi.minterms ↔ (m ∈ M ∧ matchesPattern pi.pattern m n = true)) :=
  truePrimeImplicants_exact M D n hn hM hD

/-- Instance of C3 for two variables: targets `1` and `3`, no don't-care. -/
theorem generateOnlyTruePrimeImplicants_exact_witness :
    1 ≤ 2 ∧ (∀ m ∈ demoTargets, m < 2 ^ 2 ∧ m < 10 ^ 21) ∧
    (∀ d ∈ ([] : List Nat), d < 2 ^ 2 ∧ d < 10 ^ 21) ∧
    ∃ pis, generateOnlyTruePrimeImplicants demoTargets 2 [] = some pis ∧
      (∀ p : List Char, p.length = 2 →
        (p ∈ pis.map Implicant.pattern ↔ IsPrimeImplicantOf p 2 demoTargets [])) ∧
      (pis.map Implicant.pattern).Nodup ∧
      (∀ pi ∈ pis, pi.pattern.length = 2 ∧ pi.minterms.Nodup ∧ pi.minterms ≠ [] ∧
        ∀ m, m ∈ pi.minterms ↔ (m ∈ demoTargets ∧ matchesPattern pi.pattern m 2 = true)) :=
  ⟨by decide, by decide, by decide,
    generateOnlyTruePrimeImplicants_exact demoTargets [] 2 (by decide) (by decide)
      (by decide)⟩

/-- Without variables: for the constant function with target `0` and `n = 0` the
single-function generator returns the single pattern `0` of length one, so the empty
pattern, which has length `n` and is a prime implicant that matches the target, does not
occur in the output. -/
theorem generateOnlyTruePrimeImplicants_at_zero :
    generateOnlyTruePrimeImplicants [0] 0 [] = some [⟨['0'], [0]⟩] ∧
    ([] : List Char).length = 0 ∧
    IsPrimeImplicantOf [] 0 [0] [] ∧
    ([] : List Char) ∉ ([⟨['0'], [0]⟩] : List Implicant).map Implicant.pattern := by
  refine ⟨by decide, rfl, ⟨?_, ?_, ?_⟩, by decide⟩
  · intro m hm _
    have : m = 0 := by omega
    subst this
    exact Or.inl (List.mem_singleton.mpr rfl)
  · rintro q ⟨hq, hne⟩ _
    cases q with
    | nil => exact hne rfl
    | cons a q => simp [generalisesChars] at hq
  · exact ⟨0, List.mem_singleton.mpr rfl, rfl⟩

/-- C4 (generator coverage, both modes) for targets below 1e21: for targets below `2^n`
and below `10^21` and don't-cares below `2^n`, both generators return a result, every
returned PI (also after `findTruePrimeImplicants`) has a non-empty minterms list inside
`M`, and every element of `M` is in the minterms list of some returned PI. -/
theorem generators_cover_targets (M D : List Nat) (n : Nat)
    (hM : ∀ m ∈ M, m < 2 ^ n ∧ m < 10 ^ 21) (hD : ∀ d ∈ D, d < 2 ^ n) :
    (∃ pis, generateOnlyTruePrimeImplicants M n D = some pis ∧
      (∀ pi ∈ pis, pi.minterms ≠ [] ∧ ∀ m ∈ pi.minterms, m ∈ M) ∧
      (∀ m ∈ M, ∃ pi ∈ pis, m ∈ pi.minterms)) ∧
    (∃ all, generateQuineMcCluskeyPIs M n D = some all ∧
      (∀ pi ∈ all, pi.minterms ≠ [] ∧ ∀ m ∈ pi.minterms, m ∈ M) ∧
      (∀ m ∈ M, ∃ pi ∈ all, m ∈ pi.minterms) ∧
      (∀ pi ∈ findTruePrimeImplicants all M, pi.minterms ≠ [] ∧ ∀ m ∈ pi.minterms, m ∈ M) ∧
      (∀ m ∈ M, ∃ pi ∈ findTruePrimeImplicants all M, m ∈ pi.minterms)) := by
  rw [generateOnlyTruePrimeImplicants_parse_dontCares,
    generateQuineMcCluskeyPIs_parse_dontCares]
  exact generators_cover_of_lt M (D.map parseDecimal) n hM (map_parseDecimal_range D n hD)

/-- Instance of C4 for two variables: targets `1` and `3`, don't-care `0`. -/
theorem generators_cover_targets_witness :
    (∀ m ∈ demoTargets, m < 2 ^ 2 ∧ m < 10 ^ 21) ∧ (∀ d ∈ [0], d < 2 ^ 2) ∧
    ((∃ pis, generateOnlyTruePrimeImplicants demoTargets 2 [0] = some pis ∧
        (∀ pi ∈ pis, pi.minterms ≠ [] ∧ ∀ m ∈ pi.minterms, m ∈ demoTargets) ∧
        (∀ m ∈ demoTargets, ∃ pi ∈ pis, m ∈ pi.minterms)) ∧
      (∃ all, generateQuineMcCluskeyPIs demoTargets 2 [0] = some all ∧
        (∀ pi ∈ all, pi.minterms ≠ [] ∧ ∀ m ∈ pi.minterms, m ∈ demoTargets) ∧
        (∀ m ∈ demoTargets, ∃ pi ∈ all, m ∈ pi.minterms) ∧
        (∀ pi ∈ findTruePrimeImplicants all demoTargets,
          pi.minterms ≠ [] ∧ ∀ m ∈ pi.minterms, m ∈ demoTargets) ∧
        (∀ m ∈ demoTargets, ∃ pi ∈ findTruePrimeImplicants all demoTargets,
          m ∈ pi.minterms))) :=
  ⟨by decide, by decide, generators_cover_targets demoTargets [0] 2 (by decide) (by decide)⟩

/-- Instance of C1 for two variables: targets `1` and `3`, don't-care `0`. -/
theorem executeMultipleOutput_single_correct_witness :
    ['F'] ≠ protoKey ∧ (∀ m ∈ demoTargets, m < 2 ^ 2 ∧ m < 10 ^ 21) ∧
    (∀ d ∈ [0], d < 2 ^ 2 ∧ d < 10 ^ 21) ∧
    ∃ res, executeMultipleOutput [] [(['F'], demoTargets)] 2 [0] = some res ∧
      res.1.allSolutions ≠ [] ∧
      ∀ sol ∈ res.1.allSolutions,
        (∀ m ∈ demoTargets, ∃ pi ∈ sol.pis, matchesPattern pi.pattern m 2 = true) ∧
        (∀ m, m < 2 ^ 2 → (∃ pi ∈ sol.pis, matchesPattern pi.pattern m 2 = true) →
          m ∈ demoTargets ∨ m ∈ [0]) :=
  ⟨by decide, by decide, by decide,
    executeMultipleOutput_single_correct [] ['F'] demoTargets [0] 2 (by decide) (by decide)
      (by decide) (fun pis h => by
        have hall : (generateOnlyTruePrimeImplicants demoTargets 2 [0]).all
            (fun l => decide ((nonEssentialPIs demoTargets l).length ≤ 30)) = true := by
          decide
        rw [h] at hall
        simpa using hall)⟩

/-- C5 (solver soundness): with at most 30 candidates, every solution returned by
`findAllMinimalCovers` is a non-empty sub-list of the candidates, its minterms lists
together contain every target, and its cost field is the sum of the costs of its PIs. -/
theorem findAllMinimalCovers_sound (T : List Nat) (candidates : List PI)
    (hlen : candidates.length ≤ 30) :
    ∀ sol ∈ findAllMinimalCovers T candidates,
      sol.pis ≠ [] ∧ sol.pis.Sublist candidates ∧ coversAll T sol.pis ∧
      sol.cost = totalCostOf sol.pis :=
  minimalCovers_sound T candidates hlen

/-- Instance of C5 for the three candidates of `demoCandidates`. -/
theorem findAllMinimalCovers_sound_witness :
    demoCandidates.length ≤ 30 ∧
    ∀ sol ∈ findAllMinimalCovers demoTargets demoCandidates,
      sol.pis ≠ [] ∧ sol.pis.Sublist demoCandidates ∧ coversAll demoTargets sol.pis ∧
      sol.cost = totalCostOf sol.pis :=
  ⟨by decide, findAllMinimalCovers_sound demoTargets demoCandidates (by decide)⟩

/-- C6 (solver optimality): with at most 30 candidates, all solutions returned by
`findAllMinimalCovers` have the same cost, no non-empty covering sub-list of the
candidates costs less than a returned solution, and a solution is returned whenever a
non-empty covering sub-list exists. -/
theorem findAllMinimalCovers_optimal (T : List Nat) (candidates : List PI)
    (hlen : candidates.length ≤ 30) :
    (∀ sol1 ∈ findAllMinimalCovers T candidates, ∀ sol2 ∈ findAllMinimalCovers T candidates,
        sol1.cost = sol2.cost) ∧
    (∀ sol ∈ findAllMinimalCovers T candidates, ∀ S : List PI, S.Sublist candidates →
        S ≠ [] → coversAll T S → sol.cost ≤ totalCostOf S) ∧
    ((∃ S : List PI, S.Sublist candidates ∧ S ≠ [] ∧ coversAll T S) →
        findAllMinimalCovers T candidates ≠ []) :=
  minimalCovers_optimal T candidates hlen

/-- Instance of C6 for the three candidates of `demoCandidates`. -/
theorem findAllMinimalCovers_optimal_witness :
    demoCandidates.length ≤ 30 ∧
    (∀ sol1 ∈ findAllMinimalCovers demoTargets demoCandidates,
      ∀ sol2 ∈ findAllMinimalCovers demoTargets demoCandidates, sol1.cost = sol2.cost) ∧
    (∀ sol ∈ findAllMinimalCovers demoTargets demoCandidates, ∀ S : List PI,
      S.Sublist demoCandidates → S ≠ [] → coversAll demoTargets S →
        sol.cost ≤ totalCostOf S) ∧
    ((∃ S : List PI, S.Sublist demoCandidates ∧ S ≠ [] ∧ coversAll demoTargets S) →
      findAllMinimalCovers demoTargets demoCandidates ≠ []) :=
  ⟨by decide, findAllMinimalCovers_optimal demoTargets demoCandidates (by decide)⟩

/-- Instance of C7 for the three candidates of `demoCandidates`. -/
theorem findAllMinimalCovers_complete_witness :
    demoCandidates.length ≤ 30 ∧
    ∃ indexSets : List (Finset Nat), indexSets.Nodup ∧
      (findAllMinimalCovers demoTargets demoCandidates).map Cover.pis =
        indexSets.map (pickIndices demoCandidates) ∧
      ∀ I : Finset Nat, I ∈ indexSets ↔ IsMinimalCoverSet demoTargets demoCandidates I :=
  ⟨by decide, findAllMinimalCovers_complete demoTargets demoCandidates (by decide)⟩

set_option maxRecDepth 100000 in
/-- C8 at two functions with the same target `0`, two variables and don't-cares `1` and
`2`: the registry holds three patterns, and `executeMultipleOutput` returns for both
functions an entry without any PI, so that the target `0` matches no pattern of
`solutions[f].pis`. -/
theorem executeMultipleOutput_twin_uncovered :
    (generateAll 2 2 [1, 2] twinFunctions).map (fun g => (buildRegistry g).length) = some 3 ∧
    (executeMultipleOutput [] twinFunctions 2 [1, 2]).map (fun r => r.1.solutions) =
      some [(['F', '1'], ⟨[], 0⟩), (['F', '2'], ⟨[], 0⟩)] := by
  decide

set_option maxRecDepth 100000 in
/-- C9 at two functions of one variable, the first of which has a name that starts with
an underscore: the registry holds two patterns, `solutions` holds the second function
only, and `executeMultipleOutput` returns `totalIndividualCost = 1`,
`sharedOptimizedCost = 2` and `savings = -1`. -/
theorem executeMultipleOutput_negative_savings :
    (generateAll 2 1 [] underscoreFunctions).map (fun g => (buildRegistry g).length) =
      some 2 ∧
    (executeMultipleOutput [] underscoreFunctions 1 []).map
      (fun r => (r.1.solutions.map Prod.fst, r.1.totalIndividualCost,
        r.1.sharedOptimizedCost, r.1.savings)) = some ([['b']], 1, 2, -1) := by
  decide

set_option maxRecDepth 100000 in
/-- C10 at two functions of one variable, the first of which has a name that starts with
an underscore: every registry pattern has a `usedBy` list of size one, and the result of
`executeMultipleOutput` has `savings = -1`. -/
theorem executeMultipleOutput_unshared_savings :
    (generateAll 2 1 [] underscoreFunctions).map
      (fun g => (buildRegistry g).map (fun e => e.usedBy.length)) = some [1, 1] ∧
    (executeMultipleOutput [] underscoreFunctions 1 []).map (fun r => r.1.savings) =
      some (-1) := by
  decide

/-! ## Tables and the Stage-3 cost -/

theorem lookup_map_replace {κ ν : Type} [DecidableEq κ] [BEq κ] [LawfulBEq κ] (table : List (κ × ν)) (key k : κ)
    (value : ν) :
    (table.map (fun e => if e.1 = key then (key, value) else e)).lookup k =
      if k = key then (table.lookup key).map (fun _ => value) else table.lookup k := by
  induction table with
  | nil => simp
  | cons e table ih =>
    obtain ⟨a, b⟩ := e
    rw [List.map_cons]
    by_cases ha : a = key
    · subst ha
      by_cases hk : k = a
      · subst hk; simp [List.lookup_cons]
      · have hb : (k == a) = false := by simpa using hk
        rw [if_neg hk] at ih ⊢
        simp only [if_true, List.lookup_cons, hb]
        exact ih
    · rw [if_neg ha]
      by_cases hka : k = a
      · subst hka
        rw [if_neg ha]
        simp [List.lookup_cons]
      · have hb : (k == a) = false := by simpa using hka
        have hb2 : (key == a) = false := by simpa using fun h : key = a => ha h.symm
        simp only [List.lookup_cons, hb, hb2]
        exact ih

theorem lookup_isSome_iff {κ ν : Type} [DecidableEq κ] [BEq κ] [LawfulBEq κ] (table : List (κ × ν)) (key : κ) :
    (table.lookup key).isSome = table.any (fun e => decide (e.1 = key)) := by
  induction table with
  | nil => simp
  | cons e table ih =>
    obtain ⟨a, b⟩ := e
    by_cases ha : key = a
    · subst ha; simp [List.lookup_cons]
    · have hb : (key == a) = false := by simpa using ha
      have : ¬ a = key := fun h => ha h.symm
      simp only [List.lookup_cons, hb, List.any_cons, this, decide_False, Bool.false_or]
      exact ih

/-- Reading a table after `tableSet`. -/
theorem lookup_tableSet {κ ν : Type} [DecidableEq κ] [BEq κ] [LawfulBEq κ] (table : List (κ × ν)) (key k : κ)
    (value : ν) :
    (tableSet table key value).lookup k = if k = key then some value else table.lookup k := by
  unfold tableSet
  have hs := lookup_isSome_iff table key
  by_cases hany : table.any (fun e => decide (e.1 = key)) = true
  · rw [if_pos hany, lookup_map_replace]
    by_cases hk : k = key
    · rw [if_pos hk, if_pos hk]
      rw [hany] at hs
      obtain ⟨x, hx⟩ := Option.isSome_iff_exists.mp hs
      rw [hx]; rfl
    · rw [if_neg hk, if_neg hk]
  · rw [if_neg hany, List.lookup_append]
    have hnone : table.lookup key = none := by
      rw [← Option.not_isSome_iff_eq_none, hs]; exact hany
    by_cases hk : k = key
    · subst hk
      rw [if_pos rfl, hnone]
      simp [List.lookup_cons]
    · have hb : (k == key) = false := by simpa using hk
      rw [if_neg hk]
      simp [List.lookup_cons, hb]

/-- A key that is not in the table is appended by `tableSet`. -/
theorem tableSet_of_not_mem {κ ν : Type} [DecidableEq κ] (table : List (κ × ν)) (key : κ)
    (value : ν) (h : ∀ e ∈ table, e.1 ≠ key) :
    tableSet table key value = table ++ [(key, value)] := by
  unfold tableSet
  rw [if_neg]
  intro hany
  rw [List.any_eq_true] at hany
  obtain ⟨e, he, hk⟩ := hany
  exact h e he (by simpa using hk)

/-- Filling a table from entries with distinct keys lists the kept entries in order. -/
theorem foldl_tableSet_filter {α κ ν : Type} [DecidableEq κ] (key : α → κ) (p : α → Bool)
    (v : α → ν) (l : List α) (acc : List (κ × ν)) (hnd : (l.map key).Nodup)
    (hacc : ∀ a ∈ l, ∀ e ∈ acc, e.1 ≠ key a) :
    l.foldl (fun table a => if p a = true then tableSet table (key a) (v a) else table) acc =
      acc ++ (l.filter p).map (fun a => (key a, v a)) := by
  induction l generalizing acc with
  | nil => simp
  | cons a l ih =>
    rw [List.map_cons, List.nodup_cons] at hnd
    rw [List.foldl_cons]
    by_cases hp : p a = true
    · rw [if_pos hp, tableSet_of_not_mem _ _ _ (hacc a (List.mem_cons_self _ _)),
        ih _ hnd.2, List.filter_cons_of_pos hp, List.map_cons, List.append_assoc]
      · rfl
      · intro b hb e he
        rcases List.mem_append.mp he with h | h
        · exact hacc b (List.mem_cons_of_mem _ hb) e h
        · rw [List.mem_singleton] at h
          rw [h]
          intro hk
          have hk2 : key a = key b := hk
          exact hnd.1 (by rw [hk2]; exact List.mem_map_of_mem key hb)
    · rw [if_neg hp, ih _ hnd.2 (fun b hb => hacc b (List.mem_cons_of_mem _ hb)),
        List.filter_cons_of_neg hp]

/-- Reading a table listed from entries with distinct keys. -/
theorem lookup_filter_map {α κ ν : Type} [BEq κ] [LawfulBEq κ] (key : α → κ) (p : α → Bool)
    (v : α → ν) (l : List α) (hnd : (l.map key).Nodup) (a : α) (ha : a ∈ l)
    (hp : p a = true) :
    ((l.filter p).map (fun a => (key a, v a))).lookup (key a) = some (v a) := by
  induction l with
  | nil => exact absurd ha (List.not_mem_nil _)
  | cons x l ih =>
    rw [List.map_cons, List.nodup_cons] at hnd
    rcases List.mem_cons.mp ha with rfl | hal
    · rw [List.filter_cons_of_pos hp, List.map_cons]
      simp [List.lookup]
    · have hne : key a ≠ key x := by
        intro h
        exact hnd.1 (by rw [← h]; exact List.mem_map_of_mem key hal)
      by_cases hpx : p x = true
      · rw [List.filter_cons_of_pos hpx, List.map_cons]
        have hb : (key a == key x) = false := by simpa using hne
        simp only [List.lookup, hb]
        exact ih hnd.2 hal
      · rw [List.filter_cons_of_neg hpx]
        exact ih hnd.2 hal

/-- The final sum of Stage 3 as a sum over the usage map. -/
theorem foldl_usage_total (U : List PIUsage) (a : Nat) :
    U.foldl (fun total piInfo => total + (piInfo.baseCost + (piInfo.usageCount - 1))) a =
      a + (U.map (fun u => u.baseCost + (u.usageCount - 1))).sum := by
  induction U generalizing a with
  | nil => simp
  | cons u U ih => rw [List.foldl_cons, ih, List.map_cons, List.sum_cons]; omega

/-- Raising the count of the entry of a pattern adds the base cost of that entry once. -/
theorem sum_bump_usage (c : List Char → Nat) (U : List PIUsage) (p : List Char)
    (hnd : (U.map PIUsage.pattern).Nodup) (hmem : p ∈ U.map PIUsage.pattern)
    (hc : ∀ u ∈ U, u.baseCost = c u.pattern) :
    ((U.map (fun u => if u.pattern = p then { u with usageCount := u.usageCount + 1 } else u)).map
      (fun u => u.baseCost * u.usageCount)).sum =
      (U.map (fun u => u.baseCost * u.usageCount)).sum + c p := by
  induction U with
  | nil => exact absurd hmem (List.not_mem_nil _)
  | cons u U ih =>
    rw [List.map_cons, List.nodup_cons] at hnd
    by_cases hu : u.pattern = p
    · have hid : U.map (fun u => if u.pattern = p then
          { u with usageCount := u.usageCount + 1 } else u) = U := by
        conv_rhs => rw [← List.map_id U]
        apply List.map_congr_left
        intro x hx
        have : ¬ x.pattern = p := by
          intro hxp
          exact hnd.1 (by rw [hu, ← hxp]; exact List.mem_map_of_mem _ hx)
        rw [if_neg this]; rfl
      rw [List.map_cons, if_pos hu, hid, List.map_cons, List.map_cons, List.sum_cons,
        List.sum_cons]
      have := hc u (List.mem_cons_self _ _)
      rw [hu] at this
      simp only
      rw [Nat.mul_add, Nat.mul_one, this]
      omega
    · have hmem2 : p ∈ U.map PIUsage.pattern := by
        rw [List.map_cons, List.mem_cons] at hmem
        rcases hmem with h | h
        · exact absurd h.symm hu
        · exact h
      rw [List.map_cons, if_neg hu, List.map_cons, List.map_cons, List.sum_cons, List.sum_cons,
        ih hnd.2 hmem2 (fun x hx => hc x (List.mem_cons_of_mem _ hx))]
      omega

/-- One step of the usage count keeps the usage map well formed and adds the cost of the
counted PI to the weighted sum. -/
theorem countUsage_spec (c : List Char → Nat) (U : List PIUsage) (pi : PI)
    (hnd : (U.map PIUsage.pattern).Nodup)
    (hU : ∀ u ∈ U, u.baseCost = c u.pattern ∧ 1 ≤ u.baseCost ∧ 1 ≤ u.usageCount)
    (hpi : pi.cost = c pi.pattern) (hpos : 1 ≤ pi.cost) :
    ((countUsage U pi).map PIUsage.pattern).Nodup ∧
    (∀ u ∈ countUsage U pi, u.baseCost = c u.pattern ∧ 1 ≤ u.baseCost ∧ 1 ≤ u.usageCount) ∧
    ((countUsage U pi).map (fun u => u.baseCost * u.usageCount)).sum =
      (U.map (fun u => u.baseCost * u.usageCount)).sum + pi.cost := by
  unfold countUsage
  by_cases hany : U.any (fun u => decide (u.pattern = pi.pattern)) = true
  · rw [if_pos hany]
    have hmem : pi.pattern ∈ U.map PIUsage.pattern := by
      rw [List.any_eq_true] at hany
      obtain ⟨u, hu, hp⟩ := hany
      rw [List.mem_map]
      exact ⟨u, hu, by simpa using hp⟩
    have hpat : (U.map (fun u => if u.pattern = pi.pattern then
        { u with usageCount := u.usageCount + 1 } else u)).map PIUsage.pattern =
        U.map PIUsage.pattern := by
      rw [List.map_map]
      apply List.map_congr_left
      intro u _
      simp only [Function.comp]
      split <;> rfl
    refine ⟨by rw [hpat]; exact hnd, ?_, ?_⟩
    · intro u hu
      rw [List.mem_map] at hu
      obtain ⟨u0, hu0, rfl⟩ := hu
      obtain ⟨h1, h2, h3⟩ := hU u0 hu0
      split
      · exact ⟨h1, h2, Nat.le_succ_of_le h3⟩
      · exact ⟨h1, h2, h3⟩
    · rw [sum_bump_usage c U pi.pattern hnd hmem (fun u hu => (hU u hu).1), hpi]
  · rw [if_neg hany]
    have hnot : pi.pattern ∉ U.map PIUsage.pattern := by
      intro hmem
      apply hany
      rw [List.mem_map] at hmem
      obtain ⟨u, hu, hp⟩ := hmem
      rw [List.any_eq_true]
      exact ⟨u, hu, by simpa using hp⟩
    refine ⟨?_, ?_, ?_⟩
    · rw [List.map_append, List.map_singleton]
      exact List.Nodup.append hnd (List.nodup_singleton _)
        (by
          intro x hx hx2
          rw [List.mem_singleton] at hx2
          have hx3 : x = pi.pattern := hx2
          exact hnot (by rw [← hx3]; exact hx))
    · intro u hu
      rcases List.mem_append.mp hu with h | h
      · exact hU u h
      · rw [List.mem_singleton] at h
        subst h
        exact ⟨hpi, hpos, Nat.le_refl 1⟩
    · rw [List.map_append, List.sum_append]
      simp

/-- The usage map after counting a list of PIs whose costs are given by their patterns. -/
theorem foldl_countUsage_spec (c : List Char → Nat) (L : List PI) (U : List PIUsage)
    (hnd : (U.map PIUsage.pattern).Nodup)
    (hU : ∀ u ∈ U, u.baseCost = c u.pattern ∧ 1 ≤ u.baseCost ∧ 1 ≤ u.usageCount)
    (hL : ∀ pi ∈ L, pi.cost = c pi.pattern ∧ 1 ≤ pi.cost) :
    (∀ u ∈ L.foldl countUsage U, 1 ≤ u.baseCost ∧ 1 ≤ u.usageCount) ∧
    ((L.foldl countUsage U).map (fun u => u.baseCost * u.usageCount)).sum =
      (U.map (fun u => u.baseCost * u.usageCount)).sum + (L.map PI.cost).sum := by
  induction L generalizing U with
  | nil => exact ⟨fun u hu => (hU u hu).2, by simp⟩
  | cons pi L ih =>
    obtain ⟨h1, h2, h3⟩ := countUsage_spec c U pi hnd hU (hL pi (List.mem_cons_self _ _)).1
      (hL pi (List.mem_cons_self _ _)).2
    obtain ⟨i1, i2⟩ := ih (countUsage U pi) h1 h2 (fun x hx => hL x (List.mem_cons_of_mem _ hx))
    refine ⟨i1, ?_⟩
    rw [List.foldl_cons, i2, h3, List.map_cons, List.sum_cons]
    omega

/-- A shared PI costs no more in Stage 3 than the sum of its costs over its users. -/
theorem usage_sum_le (U : List PIUsage) (hU : ∀ u ∈ U, 1 ≤ u.baseCost ∧ 1 ≤ u.usageCount) :
    (U.map (fun u => u.baseCost + (u.usageCount - 1))).sum ≤
      (U.map (fun u => u.baseCost * u.usageCount)).sum := by
  induction U with
  | nil => simp
  | cons u U ih =>
    rw [List.map_cons, List.map_cons, List.sum_cons, List.sum_cons]
    have := ih (fun x hx => hU x (List.mem_cons_of_mem _ hx))
    obtain ⟨hb, hk⟩ := hU u (List.mem_cons_self _ _)
    have hmul : u.baseCost + (u.usageCount - 1) ≤ u.baseCost * u.usageCount := by
      obtain ⟨k, hk2⟩ : ∃ k, u.usageCount = k + 1 := ⟨u.usageCount - 1, by omega⟩
      rw [hk2, Nat.mul_add, Nat.mul_one]
      have : k ≤ u.baseCost * k := Nat.le_mul_of_pos_left k hb
      omega
    omega

/-- Stage 3 is bounded by the summed costs of the Stage-2 PIs of all functions when the
cost of a PI is given by its pattern and is positive. -/
theorem stage3CostOf_le (c : List Char → Nat) (S : List (List Char × List PI))
    (hS : ∀ pi ∈ S.flatMap Prod.snd, pi.cost = c pi.pattern ∧ 1 ≤ pi.cost) :
    stage3CostOf S ≤ ((S.flatMap Prod.snd).map PI.cost).sum := by
  unfold stage3CostOf
  simp only []
  rw [foldl_usage_total, Nat.zero_add,
    ← foldl_flatMap countUsage Prod.snd S []]
  obtain ⟨h1, h2⟩ := foldl_countUsage_spec c (S.flatMap Prod.snd) [] (by simp)
    (fun u hu => absurd hu (List.not_mem_nil _)) hS
  have := usage_sum_le _ h1
  rw [h2] at this
  simpa using this

/-- Counting PIs with pairwise distinct patterns lists them with usage count one. -/
theorem foldl_countUsage_of_nodup (L : List PI) (U : List PIUsage)
    (hnd : (U.map PIUsage.pattern ++ L.map PI.pattern).Nodup) :
    L.foldl countUsage U = U ++ L.map (fun pi => (⟨pi.pattern, pi.cost, 1⟩ : PIUsage)) := by
  induction L generalizing U with
  | nil => simp
  | cons pi L ih =>
    have hnot : ¬ U.any (fun u => decide (u.pattern = pi.pattern)) = true := by
      intro hany
      rw [List.any_eq_true] at hany
      obtain ⟨u, hu, hp⟩ := hany
      have hp2 : u.pattern = pi.pattern := by simpa using hp
      rw [List.nodup_append] at hnd
      exact hnd.2.2 (List.mem_map_of_mem PIUsage.pattern hu)
        (by rw [hp2, List.map_cons]; exact List.mem_cons_self _ _)
    have hstep : countUsage U pi = U ++ [⟨pi.pattern, pi.cost, 1⟩] := by
      unfold countUsage
      rw [if_neg hnot]
    rw [List.foldl_cons, hstep, ih, List.map_cons, List.append_assoc]
    · rfl
    · rw [List.map_append, List.map_singleton, List.append_assoc]
      simpa using hnd

/-- Without a pattern used twice Stage 3 is the summed cost of the Stage-2 PIs. -/
theorem stage3CostOf_of_nodup (S : List (List Char × List PI))
    (hnd : ((S.flatMap Prod.snd).map PI.pattern).Nodup) :
    stage3CostOf S = ((S.flatMap Prod.snd).map PI.cost).sum := by
  unfold stage3CostOf
  simp only []
  rw [foldl_usage_total, Nat.zero_add, ← foldl_flatMap countUsage Prod.snd S [],
    foldl_countUsage_of_nodup _ [] (by simpa using hnd), List.nil_append, List.map_map]
  congr 1

/-! ## Stage 2 returns PIs it was given, each at most once -/

theorem find_isNone_iff (l : List PI) (p : List Char) :
    (l.find? (fun e => decide (e.pattern = p))).isNone = true ↔ ∀ e ∈ l, e.pattern ≠ p := by
  rw [Option.isNone_iff_eq_none, List.find?_eq_none]
  constructor
  · intro h e he; simpa using h e he
  · intro h e he; simpa using h e he

/-- The essential PIs of step 2 are non-redundant PIs, each listed once. -/
theorem foldl_stage2EssentialStep (NR : List PI) (T ms : List Nat) (st : Stage2Essential)
    (hsub : ∀ e ∈ st.essentialPIs, e ∈ NR) (hnd : st.essentialPIs.Nodup) :
    (∀ e ∈ (ms.foldl (stage2EssentialStep NR T) st).essentialPIs, e ∈ NR) ∧
    (ms.foldl (stage2EssentialStep NR T) st).essentialPIs.Nodup := by
  induction ms generalizing st with
  | nil => exact ⟨hsub, hnd⟩
  | cons m ms ih =>
    rw [List.foldl_cons]
    apply ih
    · unfold stage2EssentialStep
      split
      · rename_i e heq
        split
        · intro x hx
          rcases List.mem_append.mp hx with h | h
          · exact hsub x h
          · rw [List.mem_singleton] at h
            subst h
            have : x ∈ NR.filter (fun pi => decide (m ∈ pi.minterms)) := by
              rw [heq]; exact List.mem_singleton.mpr rfl
            exact (List.mem_filter.mp this).1
        · exact hsub
      · exact hsub
    · unfold stage2EssentialStep
      split
      · rename_i e heq
        split
        · rename_i hnone
          rw [find_isNone_iff] at hnone
          apply List.Nodup.append hnd (List.nodup_singleton _)
          intro x hx hx2
          rw [List.mem_singleton] at hx2
          subst hx2
          exact hnone x hx rfl
        · exact hnd
      · exact hnd

/-- The best PI of a greedy round is one of the unused PIs. -/
theorem greedyBest_mem (rem : List Nat) (unused : List PI) (b : PI)
    (h : greedyBest rem unused = some b) : b ∈ unused := by
  unfold greedyBest at h
  have key : ∀ (l : List PI) (init : Option PI × Nat × Nat),
      (∀ x, init.1 = some x → x ∈ unused) → (∀ x ∈ l, x ∈ unused) →
      ∀ x, (l.foldl
        (fun (best : Option PI × Nat × Nat) pi =>
          if (pi.minterms.filter (fun m => decide (m ∈ rem))).length > 0 then
            if (pi.minterms.filter (fun m => decide (m ∈ rem))).length * best.2.2 >
                best.2.1 * pi.cost then
              (some pi, (pi.minterms.filter (fun m => decide (m ∈ rem))).length, pi.cost)
            else best
          else best) init).1 = some x → x ∈ unused := by
    intro l
    induction l with
    | nil => intro init hinit _ x hx; exact hinit x hx
    | cons a l ih =>
      intro init hinit hl x hx
      rw [List.foldl_cons] at hx
      refine ih _ ?_ (fun y hy => hl y (List.mem_cons_of_mem _ hy)) x hx
      intro y hy
      split at hy
      · split at hy
        · simp only [Option.some.injEq] at hy
          subst hy
          exact hl _ (List.mem_cons_self _ _)
        · exact hinit y hy
      · exact hinit y hy
  exact key unused (none, 0, 1) (fun x hx => by simp at hx) (fun x hx => hx) b h

/-- The greedy loop selects PIs among the selected and the unused ones. -/
theorem greedyLoop_mem (rounds : Nat) (sel : List PI) (rem : List Nat) (unused : List PI) :
    ∀ x ∈ greedyLoop rounds sel rem unused, x ∈ sel ∨ x ∈ unused := by
  induction rounds generalizing sel rem unused with
  | zero => intro y hy; unfold greedyLoop at hy; exact Or.inl hy
  | succ rounds ih =>
    intro y hy
    unfold greedyLoop at hy
    split at hy
    · split at hy
      · rename_i b hb
        have hbm := greedyBest_mem rem unused b hb
        rcases ih _ _ _ y hy with h | h
        · rcases List.mem_append.mp h with h | h
          · exact Or.inl h
          · rw [List.mem_singleton] at h; subst h; exact Or.inr hbm
        · exact Or.inr (List.mem_of_mem_erase h)
      · exact Or.inl hy
    · exact Or.inl hy

/-- The greedy loop selects no PI twice. -/
theorem greedyLoop_nodup (rounds : Nat) (sel : List PI) (rem : List Nat) (unused : List PI)
    (hnd : (sel ++ unused).Nodup) : (greedyLoop rounds sel rem unused).Nodup := by
  induction rounds generalizing sel rem unused with
  | zero =>
    unfold greedyLoop
    exact (List.nodup_append.mp hnd).1
  | succ rounds ih =>
    unfold greedyLoop
    split
    · split
      · rename_i b hb
        have hbm := greedyBest_mem rem unused b hb
        have hperm : ((sel ++ [b]) ++ unused.erase b).Perm (sel ++ unused) := by
          rw [List.append_assoc]
          exact List.Perm.append_left sel (List.perm_cons_erase hbm).symm
        exact ih _ _ _ (hperm.nodup_iff.mpr hnd)
      · exact (List.nodup_append.mp hnd).1
    · exact (List.nodup_append.mp hnd).1

/-- Stage 2 returns PIs of its input, and no PI twice when the input has none twice. -/
theorem removeRedundantPIsForStage2_spec (X : List PI) (T : List Nat) :
    (∀ x ∈ removeRedundantPIsForStage2 X T, x ∈ X) ∧
    (X.Nodup → (removeRedundantPIsForStage2 X T).Nodup) := by
  unfold removeRedundantPIsForStage2
  split
  · exact ⟨fun x hx => hx, fun h => h⟩
  · simp only []
    obtain ⟨he1, he2⟩ := foldl_stage2EssentialStep
      (X.filter (fun pi => !isRedundantAmong X T pi)) T T ⟨[], uniqueOf T⟩
      (fun e he => absurd he (List.not_mem_nil _)) List.nodup_nil
    generalize (T.foldl (stage2EssentialStep (X.filter (fun pi => !isRedundantAmong X T pi)) T)
      ⟨[], uniqueOf T⟩) = ess at he1 he2
    have hdisj : ∀ x ∈ ess.essentialPIs, x ∉ (X.filter (fun pi => !isRedundantAmong X T pi)).filter
        (fun pi => (ess.essentialPIs.find? (fun e => decide (e.pattern = pi.pattern))).isNone) := by
      intro x hx hx2
      have := (List.mem_filter.mp hx2).2
      rw [find_isNone_iff] at this
      exact this x hx rfl
    refine ⟨?_, ?_⟩
    · intro x hx
      rcases greedyLoop_mem _ _ _ _ x (List.mem_filter.mp hx).1 with h | h
      · exact (List.mem_filter.mp (he1 x h)).1
      · exact (List.mem_filter.mp (List.mem_filter.mp h).1).1
    · intro hXnd
      apply List.Nodup.filter
      apply greedyLoop_nodup
      apply List.Nodup.append he2 ((hXnd.filter _).filter _)
      intro x hx hx2
      exact hdisj x hx hx2

/-! ## The registry -/

theorem registryGet_some (registry : List RegistryEntry) (p : List Char) (e : RegistryEntry)
    (h : registryGet registry p = some e) : e ∈ registry ∧ e.pattern = p := by
  unfold registryGet at h
  exact ⟨List.mem_of_find?_eq_some h, by simpa using List.find?_some h⟩

/-- Registering a PI keeps the patterns distinct, the costs those of the patterns, and
every property of the registered patterns. -/
theorem registerPI_spec (Q : List Char → Prop) (funcName : List Char)
    (registry : List RegistryEntry) (pi : Implicant)
    (hnd : (registry.map RegistryEntry.pattern).Nodup)
    (hreg : ∀ e ∈ registry, e.cost = calculateCost e.pattern ∧ Q e.pattern)
    (hQ : Q pi.pattern) :
    ((registerPI funcName registry pi).map RegistryEntry.pattern).Nodup ∧
    ∀ e ∈ registerPI funcName registry pi, e.cost = calculateCost e.pattern ∧ Q e.pattern := by
  unfold registerPI
  by_cases hany : registry.any (fun e => decide (e.pattern = pi.pattern)) = true
  · rw [if_pos hany]
    have hpat : (registry.map (fun e => if e.pattern = pi.pattern then
        { e with usedBy := e.usedBy ++ [funcName] } else e)).map RegistryEntry.pattern =
        registry.map RegistryEntry.pattern := by
      rw [List.map_map]
      apply List.map_congr_left
      intro e _
      simp only [Function.comp]
      split <;> rfl
    refine ⟨by rw [hpat]; exact hnd, ?_⟩
    intro e he
    rw [List.mem_map] at he
    obtain ⟨e0, he0, rfl⟩ := he
    split
    · exact hreg e0 he0
    · exact hreg e0 he0
  · rw [if_neg hany]
    have hnot : pi.pattern ∉ registry.map RegistryEntry.pattern := by
      intro hmem
      apply hany
      rw [List.mem_map] at hmem
      obtain ⟨e, he, hp⟩ := hmem
      rw [List.any_eq_true]
      exact ⟨e, he, by simpa using hp⟩
    refine ⟨?_, ?_⟩
    · rw [List.map_append, List.map_singleton]
      apply List.Nodup.append hnd (List.nodup_singleton _)
      intro x hx hx2
      rw [List.mem_singleton] at hx2
      have hx3 : x = pi.pattern := hx2
      exact hnot (by rw [← hx3]; exact hx)
    · intro e he
      rcases List.mem_append.mp he with h | h
      · exact hreg e h
      · rw [List.mem_singleton] at h
        subst h
        exact ⟨rfl, hQ⟩

/-- The registry holds every pattern once, with the cost of the pattern, and its patterns
have every property that all generated patterns have. -/
theorem buildRegistry_spec (Q : List Char → Prop)
    (functionPIs : List (List Char × List Implicant))
    (hQ : ∀ f ∈ functionPIs, ∀ pi ∈ f.2, Q pi.pattern) :
    ((buildRegistry functionPIs).map RegistryEntry.pattern).Nodup ∧
    ∀ e ∈ buildRegistry functionPIs, e.cost = calculateCost e.pattern ∧ Q e.pattern := by
  unfold buildRegistry
  have inner : ∀ (name : List Char) (pis : List Implicant) (registry : List RegistryEntry),
      (registry.map RegistryEntry.pattern).Nodup →
      (∀ e ∈ registry, e.cost = calculateCost e.pattern ∧ Q e.pattern) →
      (∀ pi ∈ pis, Q pi.pattern) →
      ((pis.foldl (registerPI name) registry).map RegistryEntry.pattern).Nodup ∧
      ∀ e ∈ pis.foldl (registerPI name) registry,
        e.cost = calculateCost e.pattern ∧ Q e.pattern := by
    intro name pis
    induction pis with
    | nil => intro registry h1 h2 _; exact ⟨h1, h2⟩
    | cons pi pis ih =>
      intro registry h1 h2 h3
      obtain ⟨g1, g2⟩ := registerPI_spec Q name registry pi h1 h2 (h3 pi (List.mem_cons_self _ _))
      exact ih _ g1 g2 (fun x hx => h3 x (List.mem_cons_of_mem _ hx))
  have outer : ∀ (l : List (List Char × List Implicant)) (registry : List RegistryEntry),
      (registry.map RegistryEntry.pattern).Nodup →
      (∀ e ∈ registry, e.cost = calculateCost e.pattern ∧ Q e.pattern) →
      (∀ f ∈ l, ∀ pi ∈ f.2, Q pi.pattern) →
      ((l.foldl (fun registry f => f.2.foldl (registerPI f.1) registry) registry).map
        RegistryEntry.pattern).Nodup ∧
      ∀ e ∈ l.foldl (fun registry f => f.2.foldl (registerPI f.1) registry) registry,
        e.cost = calculateCost e.pattern ∧ Q e.pattern := by
    intro l
    induction l with
    | nil => intro registry h1 h2 _; exact ⟨h1, h2⟩
    | cons f l ih =>
      intro registry h1 h2 h3
      obtain ⟨g1, g2⟩ := inner f.1 f.2 registry h1 h2 (h3 f (List.mem_cons_self _ _))
      exact ih _ g1 g2 (fun x hx => h3 x (List.mem_cons_of_mem _ hx))
  exact outer functionPIs [] List.nodup_nil (fun e he => absurd he (List.not_mem_nil _)) hQ

/-- A PI that a function takes from a selection has a selected pattern that the registry
lists for the function, and carries the registry cost of its pattern. -/
theorem mem_functionPIsOf (sel : List (List Char)) (registry : List RegistryEntry)
    (funcName : List Char) (minterms : List Nat) (pi : PI)
    (h : pi ∈ functionPIsOf sel registry funcName minterms) :
    pi.pattern ∈ sel ∧ ∃ e, registryGet registry pi.pattern = some e ∧
      funcName ∈ e.usedBy ∧ pi.cost = e.cost := by
  unfold functionPIsOf at h
  rw [List.mem_filterMap] at h
  obtain ⟨p, hp, hsome⟩ := h
  cases hget : registryGet registry p with
  | none => rw [hget] at hsome; simp at hsome
  | some e =>
    rw [hget] at hsome
    simp only at hsome
    split at hsome
    · rename_i hmem
      split at hsome
      · simp only [Option.some.injEq] at hsome
        subst hsome
        exact ⟨hp, e, hget, hmem, rfl⟩
      · simp at hsome
    · simp at hsome

/-- The patterns of the PIs that a function takes from a selection, in selection order. -/
theorem functionPIsOf_patterns_sublist (sel : List (List Char)) (registry : List RegistryEntry)
    (funcName : List Char) (minterms : List Nat) :
    ((functionPIsOf sel registry funcName minterms).map PI.pattern).Sublist sel := by
  unfold functionPIsOf
  induction sel with
  | nil => simp
  | cons p sel ih =>
    rw [List.filterMap_cons]
    split
    · exact List.Sublist.cons _ ih
    · rename_i b hb
      have hpat : b.pattern = p := by
        cases hget : registryGet registry p with
        | none => rw [hget] at hb; simp at hb
        | some e =>
          rw [hget] at hb
          simp only at hb
          split at hb
          · split at hb
            · simp only [Option.some.injEq] at hb
              subst hb; rfl
            · simp at hb
          · simp at hb
      rw [List.map_cons, hpat]
      exact List.Sublist.cons₂ _ ih

/-- The registry cost of a registered pattern is positive. -/
theorem registryCost_of_get (registry : List RegistryEntry) (p : List Char) (e : RegistryEntry)
    (h : registryGet registry p = some e) : registryCost registry p = e.cost := by
  unfold registryCost
  rw [h]; rfl

/-! ## Cache keys of selections -/

theorem selected_sublist {α : Type} (l : List α) (c : Nat) :
    ((l.enum.filter (fun e => bitSelected c e.1)).map Prod.snd).Sublist l := by
  have h := (List.filter_sublist (p := fun e => bitSelected c e.1) l.enum).map Prod.snd
  rwa [List.enum_map_snd] at h

theorem selected_ne_nil {α : Type} (l : List α) (c : Nat) (hlen : l.length ≤ 30)
    (hc : c < 2 ^ l.length) (h0 : c ≠ 0) :
    (l.enum.filter (fun e => bitSelected c e.1)).map Prod.snd ≠ [] := by
  obtain ⟨i, hik, hi⟩ := exists_bit_below l.length c hc h0
  have h1 : (2:Nat) ^ l.length ≤ 2 ^ 32 := Nat.pow_le_pow_right (by norm_num) (by omega)
  have hbit : bitSelected c i = true := by
    rw [bitSelected_eq_testBit c i (by omega) (by omega)]; exact hi
  intro hnil
  have hmem : (i, l[i]) ∈ l.enum := by
    rw [List.mk_mem_enum_iff_getElem?]
    exact List.getElem?_eq_getElem hik
  have : l[i] ∈ (l.enum.filter (fun e => bitSelected c e.1)).map Prod.snd := by
    rw [List.mem_map]
    exact ⟨(i, l[i]), List.mem_filter.mpr ⟨hmem, hbit⟩, rfl⟩
  rw [hnil] at this
  exact List.not_mem_nil _ this

/-- Two sub-lists of a duplicate-free list with the same elements are equal. -/
theorem sublist_eq_of_perm {α : Type} (l s1 s2 : List α) (hnd : l.Nodup)
    (h1 : s1.Sublist l) (h2 : s2.Sublist l) (hp : s1.Perm s2) : s1 = s2 := by
  induction l generalizing s1 s2 with
  | nil => rw [List.sublist_nil.mp h1, List.sublist_nil.mp h2]
  | cons x l ih =>
    rw [List.nodup_cons] at hnd
    cases h1 with
    | cons _ h1 =>
      cases h2 with
      | cons _ h2 => exact ih s1 s2 hnd.2 h1 h2 hp
      | cons₂ _ h2 =>
        exact absurd (h1.subset (hp.symm.subset (List.mem_cons_self _ _))) hnd.1
    | cons₂ _ h1 =>
      cases h2 with
      | cons _ h2 =>
        exact absurd (h2.subset (hp.subset (List.mem_cons_self _ _))) hnd.1
      | cons₂ _ h2 =>
        rw [ih _ _ hnd.2 h1 h2 (List.Perm.cons_inv hp)]

/-- The cache key tells apart the non-empty selections from a list of distinct patterns
without commas. -/
theorem stage2Key_injective (P s1 s2 : List (List Char)) (hnd : P.Nodup)
    (hcomma : ∀ p ∈ P, ',' ∉ p) (h1 : s1.Sublist P) (h2 : s2.Sublist P)
    (hne1 : s1 ≠ []) (hne2 : s2 ≠ []) (hkey : stage2Key s1 = stage2Key s2) : s1 = s2 := by
  unfold stage2Key at hkey
  have hperm1 := List.perm_insertionSort (fun a b : List Char => stringLe a b = true) s1
  have hperm2 := List.perm_insertionSort (fun a b : List Char => stringLe a b = true) s2
  have hc1 : ∀ l ∈ s1.insertionSort (fun a b => stringLe a b = true), ',' ∉ l :=
    fun l hl => hcomma l (h1.subset (hperm1.subset hl))
  have hc2 : ∀ l ∈ s2.insertionSort (fun a b => stringLe a b = true), ',' ∉ l :=
    fun l hl => hcomma l (h2.subset (hperm2.subset hl))
  have hn1 : s1.insertionSort (fun a b => stringLe a b = true) ≠ [] := by
    intro h; rw [h] at hperm1; exact hne1 (List.Perm.eq_nil hperm1.symm)
  have hn2 : s2.insertionSort (fun a b => stringLe a b = true) ≠ [] := by
    intro h; rw [h] at hperm2; exact hne2 (List.Perm.eq_nil hperm2.symm)
  have hs1 := List.splitOn_intercalate _ ',' hc1 hn1
  have hs2 := List.splitOn_intercalate _ ',' hc2 hn2
  rw [hkey, hs2] at hs1
  exact sublist_eq_of_perm P s1 s2 hnd h1 h2
    (hperm1.symm.trans ((List.Perm.of_eq hs1.symm).trans hperm2))

/-! ## The exhaustive joint search keeps the cache in step with its solutions -/

/-- One round of the exhaustive search: every optimal solution stays a non-empty selection
of registry patterns whose Stage-2 result is in the cache under its key. -/
theorem exhaustiveStep_cache (patrickTerms : List (List (List Char)))
    (P : List (List Char)) (nm : List (List Char × List Nat)) (registry : List RegistryEntry)
    (hnd : P.Nodup) (hcomma : ∀ p ∈ P, ',' ∉ p) (hlen : P.length ≤ 30)
    (st : JointSearch) (c : Nat) (hc0 : c ≠ 0) (hc : c < 2 ^ P.length)
    (hinv : ∀ sol ∈ st.optimalSolutions, sol.Sublist P ∧ sol ≠ [] ∧
      st.cache.lookup (stage2Key sol) = some (stage2SolutionsOf sol nm registry)) :
    ∀ sol ∈ (exhaustiveStep patrickTerms P nm registry st c).optimalSolutions,
      sol.Sublist P ∧ sol ≠ [] ∧
      (exhaustiveStep patrickTerms P nm registry st c).cache.lookup (stage2Key sol) =
        some (stage2SolutionsOf sol nm registry) := by
  have hsub := selected_sublist P c
  have hne := selected_ne_nil P c hlen hc hc0
  have hnew : ∀ sol : List (List Char), sol.Sublist P → sol ≠ [] →
      (st.cache.lookup (stage2Key sol) = some (stage2SolutionsOf sol nm registry) ∨
        sol = (P.enum.filter (fun e => bitSelected c e.1)).map Prod.snd) →
      (calculateThreeStagesCost st.cache
        ((P.enum.filter (fun e => bitSelected c e.1)).map Prod.snd) nm registry).2.lookup
          (stage2Key sol) = some (stage2SolutionsOf sol nm registry) := by
    intro sol hs hn hor
    unfold calculateThreeStagesCost
    simp only []
    rw [lookup_tableSet]
    by_cases hk : stage2Key sol =
        stage2Key ((P.enum.filter (fun e => bitSelected c e.1)).map Prod.snd)
    · rw [if_pos hk, stage2Key_injective P _ _ hnd hcomma hs hsub hn hne hk]
    · rw [if_neg hk]
      rcases hor with h | h
      · exact h
      · exact absurd (by rw [h]) hk
  unfold exhaustiveStep
  simp only []
  generalize (P.enum.filter (fun e => bitSelected c e.1)).map Prod.snd = sel at hsub hne hnew
  split
  · exact hinv
  · split
    · exact hinv
    · split
      · intro sol hsol
        obtain ⟨h1, h2, h3⟩ := hinv sol hsol
        exact ⟨h1, h2, hnew sol h1 h2 (Or.inl h3)⟩
      · split
        · intro sol hsol
          simp only [List.mem_singleton] at hsol
          subst hsol
          exact ⟨hsub, hne, hnew sol hsub hne (Or.inr rfl)⟩
        · split
          · intro sol hsol
            simp only at hsol
            rcases List.mem_append.mp hsol with h | h
            · obtain ⟨h1, h2, h3⟩ := hinv sol h
              exact ⟨h1, h2, hnew sol h1 h2 (Or.inl h3)⟩
            · rw [List.mem_singleton] at h
              subst h
              exact ⟨hsub, hne, hnew sol hsub hne (Or.inr rfl)⟩
          · intro sol hsol
            obtain ⟨h1, h2, h3⟩ := hinv sol hsol
            exact ⟨h1, h2, hnew sol h1 h2 (Or.inl h3)⟩

/-- After the exhaustive search every returned solution is a non-empty duplicate-free
selection of registry patterns, and the cache holds its Stage-2 result under its key. -/
theorem solveWithExhaustiveSearch_cache (cache : Stage2Cache)
    (patrickTerms : List (List (List Char))) (registry : List RegistryEntry)
    (nm : List (List Char × List Nat))
    (hnd : (registry.map RegistryEntry.pattern).Nodup)
    (hcomma : ∀ p ∈ registry.map RegistryEntry.pattern, ',' ∉ p)
    (hlen : registry.length ≤ 30) :
    ∀ sol ∈ (solveWithExhaustiveSearch cache patrickTerms registry nm).1,
      sol.Sublist (registry.map RegistryEntry.pattern) ∧ sol ≠ [] ∧
      (solveWithExhaustiveSearch cache patrickTerms registry nm).2.lookup (stage2Key sol) =
        some (stage2SolutionsOf sol nm registry) := by
  unfold solveWithExhaustiveSearch
  simp only []
  have hlen2 : (registry.map RegistryEntry.pattern).length ≤ 30 := by
    rw [List.length_map]; exact hlen
  have key : ∀ (cs : List Nat) (st : JointSearch),
      (∀ c ∈ cs, c ≠ 0 ∧ c < 2 ^ (registry.map RegistryEntry.pattern).length) →
      (∀ sol ∈ st.optimalSolutions, sol.Sublist (registry.map RegistryEntry.pattern) ∧
        sol ≠ [] ∧
        st.cache.lookup (stage2Key sol) = some (stage2SolutionsOf sol nm registry)) →
      ∀ sol ∈ (cs.foldl (exhaustiveStep patrickTerms (registry.map RegistryEntry.pattern)
          nm registry) st).optimalSolutions,
        sol.Sublist (registry.map RegistryEntry.pattern) ∧ sol ≠ [] ∧
        (cs.foldl (exhaustiveStep patrickTerms (registry.map RegistryEntry.pattern)
          nm registry) st).cache.lookup (stage2Key sol) =
            some (stage2SolutionsOf sol nm registry) := by
    intro cs
    induction cs with
    | nil => intro st _ h; exact h
    | cons c cs ih =>
      intro st hcs h
      rw [List.foldl_cons]
      apply ih
      · exact fun x hx => hcs x (List.mem_cons_of_mem _ hx)
      · exact exhaustiveStep_cache patrickTerms _ nm registry hnd hcomma hlen2 st c
          (hcs c (List.mem_cons_self _ _)).1 (hcs c (List.mem_cons_self _ _)).2 h
  apply key
  · intro c hc
    exact (mem_combinations _ c).mp hc
  · intro sol hsol
    exact absurd hsol (List.not_mem_nil _)

/-! ## The system solution of a joint solution -/

/-- With distinct function names the Stage-2 object lists, in entry order, the functions
that have PIs in the selection, each with its Stage-2 result. -/
theorem stage2SolutionsOf_eq (sel : List (List Char)) (nm : List (List Char × List Nat))
    (registry : List RegistryEntry) (hnames : (nm.map Prod.fst).Nodup) :
    stage2SolutionsOf sel nm registry =
      (nm.filter (fun f => decide ((functionPIsOf sel registry f.1 f.2).length > 0))).map
        (fun f => (f.1, removeRedundantPIsForStage2 (functionPIsOf sel registry f.1 f.2) f.2)) := by
  unfold stage2SolutionsOf
  have hstep : (fun (stage2Solutions : List (List Char × List PI))
      (f : List Char × List Nat) =>
        let functionPIs := functionPIsOf sel registry f.1 f.2
        if functionPIs.length > 0 then
          tableSet stage2Solutions f.1 (removeRedundantPIsForStage2 functionPIs f.2)
        else stage2Solutions) =
      (fun table f =>
        if (fun f : List Char × List Nat =>
            decide ((functionPIsOf sel registry f.1 f.2).length > 0)) f = true then
          tableSet table (Prod.fst f)
            ((fun f : List Char × List Nat =>
              removeRedundantPIsForStage2 (functionPIsOf sel registry f.1 f.2) f.2) f)
        else table) := by
    funext table f
    simp only [decide_eq_true_eq]
  rw [hstep, foldl_tableSet_filter Prod.fst _ _ nm [] hnames
    (fun _ _ e he => absurd he (List.not_mem_nil _)), List.nil_append]

/-- The entry of a function in the system solution, when the cache holds the Stage-2 result
of the joint solution under its key or nothing under that key. -/
theorem systemFunctionEntry_eq (cache : Stage2Cache) (registry : List RegistryEntry)
    (sol : List (List Char)) (nm : List (List Char × List Nat))
    (hnames : (nm.map Prod.fst).Nodup)
    (hcache : cache.lookup (stage2Key sol) = some (stage2SolutionsOf sol nm registry) ∨
      cache.lookup (stage2Key sol) = none)
    (f : List Char × List Nat) (hf : f ∈ nm) :
    systemFunctionEntry cache registry sol f.1 f.2 =
      if (functionPIsOf sol registry f.1 f.2).length > 0 then
        some ⟨removeRedundantPIsForStage2 (functionPIsOf sol registry f.1 f.2) f.2,
          (removeRedundantPIsForStage2 (functionPIsOf sol registry f.1 f.2) f.2).foldl
            (fun sum pi => sum + pi.cost) 0⟩
      else none := by
  unfold systemFunctionEntry
  simp only []
  by_cases hpos : (functionPIsOf sol registry f.1 f.2).length > 0
  · rw [if_pos hpos, if_pos hpos]
    rcases hcache with h | h
    · rw [h]
      simp only []
      rw [stage2SolutionsOf_eq sol nm registry hnames,
        lookup_filter_map Prod.fst _ _ nm hnames f hf (by simpa using hpos)]
      rfl
    · rw [h]
  · rw [if_neg hpos, if_neg hpos]

/-- The function entries of the system solution: the functions with PIs in the joint
solution, each with its Stage-2 result and the summed cost of that result. -/
theorem systemSolutionOf_functions (cache : Stage2Cache) (registry : List RegistryEntry)
    (sol : List (List Char)) (nm : List (List Char × List Nat))
    (hnames : (nm.map Prod.fst).Nodup)
    (hcache : cache.lookup (stage2Key sol) = some (stage2SolutionsOf sol nm registry) ∨
      cache.lookup (stage2Key sol) = none) :
    (systemSolutionOf cache registry nm sol).1.functions =
      (nm.filter (fun f => decide ((functionPIsOf sol registry f.1 f.2).length > 0))).map
        (fun f => (f.1, (⟨removeRedundantPIsForStage2 (functionPIsOf sol registry f.1 f.2) f.2,
          (removeRedundantPIsForStage2 (functionPIsOf sol registry f.1 f.2) f.2).foldl
            (fun sum pi => sum + pi.cost) 0⟩ : FunctionSolution))) := by
  unfold systemSolutionOf
  simp only []
  rw [List.foldl_ext _
    (fun table f =>
      if (fun f : List Char × List Nat =>
          decide ((functionPIsOf sol registry f.1 f.2).length > 0)) f = true then
        tableSet table (Prod.fst f)
          ((fun f : List Char × List Nat =>
            (⟨removeRedundantPIsForStage2 (functionPIsOf sol registry f.1 f.2) f.2,
              (removeRedundantPIsForStage2 (functionPIsOf sol registry f.1 f.2) f.2).foldl
                (fun sum pi => sum + pi.cost) 0⟩ : FunctionSolution)) f)
      else table) []]
  · rw [foldl_tableSet_filter Prod.fst _ _ nm [] hnames
      (fun _ _ e he => absurd he (List.not_mem_nil _)), List.nil_append]
  · intro table f hf
    rw [systemFunctionEntry_eq cache registry sol nm hnames hcache f hf]
    by_cases hpos : (functionPIsOf sol registry f.1 f.2).length > 0
    · rw [if_pos hpos, if_pos (by simpa using hpos)]
    · rw [if_neg hpos, if_neg (by simpa using hpos)]

/-- The Stage-3 cost recorded in the system solution. -/
theorem systemSolutionOf_sharedCost (cache : Stage2Cache) (registry : List RegistryEntry)
    (sol : List (List Char)) (nm : List (List Char × List Nat)) :
    (systemSolutionOf cache registry nm sol).1.sharedOptimizedCost =
      stage3CostOf (stage2SolutionsOf sol nm registry) := rfl

/-- The loop over the joint solutions never changes the first system solution. -/
theorem foldl_systemStep_head (registry : List RegistryEntry)
    (nm : List (List Char × List Nat)) (sols : List (List (List Char))) (st : SystemState)
    (first : SystemSolution) (others : List SystemSolution)
    (h : st.allSystemSolutions = first :: others) :
    ∃ more, (sols.foldl (systemStep registry nm) st).allSystemSolutions = first :: more := by
  induction sols generalizing st others with
  | nil => exact ⟨others, h⟩
  | cons sol sols ih =>
    rw [List.foldl_cons]
    unfold systemStep
    simp only []
    split
    · exact ih _ (others ++ [(systemSolutionOf st.cache registry nm sol).1])
        (by simp only []; rw [h]; rfl)
    · exact ih _ others (by simp only []; exact h)

/-- The first system solution is the one of the first joint solution, built with the cache
that the solver left. -/
theorem foldl_systemStep_first (registry : List RegistryEntry)
    (nm : List (List Char × List Nat)) (sol : List (List Char))
    (sols : List (List (List Char))) (cache : Stage2Cache) :
    ∃ more, ((sol :: sols).foldl (systemStep registry nm) ⟨[], [], cache⟩).allSystemSolutions =
      (systemSolutionOf cache registry nm sol).1 :: more := by
  rw [List.foldl_cons]
  apply foldl_systemStep_head registry nm sols _ _ []
  unfold systemStep
  simp only []
  rw [if_pos (List.not_mem_nil _)]
  rfl

theorem foldl_systemStep_nil (registry : List RegistryEntry)
    (nm : List (List Char × List Nat)) (cache : Stage2Cache) :
    (([] : List (List (List Char))).foldl (systemStep registry nm)
      ⟨[], [], cache⟩).allSystemSolutions = [] := rfl

/-! ## Generated patterns and the result of the multi-function path -/

/-- The patterns of the all-levels generator are strings over `0`, `1` and `-`. -/
theorem generateQuineMcCluskeyPIs_isPat (M D : List Nat) (n : Nat)
    (hM : ∀ m ∈ M, m < 2 ^ n ∧ m < 10 ^ 21) (hD : ∀ d ∈ D, d < 2 ^ n ∧ d < 10 ^ 21) :
    ∃ all, generateQuineMcCluskeyPIs M n D = some all ∧ ∀ pi ∈ all, IsPat pi.pattern := by
  rcases Nat.eq_zero_or_pos n with h0 | hpos
  · subst h0
    refine ⟨_, generateQuineMcCluskeyPIs_zero M D (fun m hm => (hM m hm).1)
      (fun d hd => (hD d hd).1), ?_⟩
    intro pi hpi
    split at hpi
    · exact absurd hpi (List.not_mem_nil _)
    · rw [List.mem_singleton] at hpi
      subst hpi
      intro c hc
      rw [List.mem_singleton] at hc
      exact Or.inl hc
  · obtain ⟨all, hall, _, _, hfacts⟩ := generateQuineMcCluskeyPIs_spec M D n hpos hM hD
    refine ⟨all, hall, ?_⟩
    intro pi hpi
    obtain ⟨_, _, hne, hiff⟩ := hfacts pi hpi
    obtain ⟨m, hm⟩ := List.exists_mem_of_ne_nil _ hne
    obtain ⟨hmM, hmatch⟩ := (hiff m).mp hm
    rw [matchesPattern_eq_bits pi.pattern m n (hM m hmM).1 hpos] at hmatch
    exact isPat_of_matchChars pi.pattern _ (isBin_bits n m) hmatch

/-- Step 1 of the multi-function path succeeds on in-range input, keeps the function
names, and yields patterns over `0`, `1` and `-`. -/
theorem generateAll_spec (count n : Nat) (D : List Nat) (hcount : count ≠ 1)
    (hD : ∀ d ∈ D, d < 2 ^ n ∧ d < 10 ^ 21) (fs : List (List Char × List Nat))
    (hM : ∀ f ∈ fs, ∀ m ∈ f.2, m < 2 ^ n ∧ m < 10 ^ 21) :
    ∃ g, generateAll count n D fs = some g ∧ ∀ f ∈ g, ∀ pi ∈ f.2, IsPat pi.pattern := by
  induction fs with
  | nil => exact ⟨[], rfl, fun f hf => absurd hf (List.not_mem_nil _)⟩
  | cons f fs ih =>
    obtain ⟨g, hg, hpat⟩ := ih (fun x hx => hM x (List.mem_cons_of_mem _ hx))
    obtain ⟨all, hall, hallpat⟩ := generateQuineMcCluskeyPIs_isPat f.2 D n
      (hM f (List.mem_cons_self _ _)) hD
    obtain ⟨name, M⟩ := f
    refine ⟨(name, findTruePrimeImplicants all M) :: g, ?_, ?_⟩
    · unfold generateAll generateFor
      rw [if_neg hcount, hg]
      simp only at hall
      rw [hall]
      rfl
    · intro x hx pi hpi
      rcases List.mem_cons.mp hx with h | h
      · subst h
        simp only at hpi
        rw [findTruePrimeImplicants_eq, List.mem_map] at hpi
        obtain ⟨t, ht, rfl⟩ := hpi
        exact hallpat t (List.mem_filter.mp ht).1
      · exact hpat x h pi hpi

theorem not_comma_of_isPat (p : List Char) (h : IsPat p) : ',' ∉ p := by
  intro hc
  rcases h ',' hc with h | h | h <;> exact absurd h (by decide)

theorem foldl_cost_sum (l : List PI) (a : Nat) :
    l.foldl (fun sum pi => sum + pi.cost) a = a + (l.map PI.cost).sum := by
  induction l generalizing a with
  | nil => simp
  | cons x l ih => rw [List.foldl_cons, ih, List.map_cons, List.sum_cons]; omega

/-- The sum of the costs of the function entries is the summed cost of all their PIs. -/
theorem foldl_entry_costs {α : Type} (name : α → List Char) (R : α → List PI) (l : List α)
    (a : Nat) :
    (l.map (fun f => (name f,
        (⟨R f, (R f).foldl (fun sum pi => sum + pi.cost) 0⟩ : FunctionSolution)))).foldl
      (fun sum e => sum + e.2.cost) a =
      a + (((l.map (fun f => (name f, R f))).flatMap Prod.snd).map PI.cost).sum := by
  induction l generalizing a with
  | nil => simp
  | cons f l ih =>
    rw [List.map_cons, List.foldl_cons, ih, List.map_cons, List.flatMap_cons, List.map_append,
      List.sum_append]
    simp only
    rw [foldl_cost_sum, Nat.zero_add]
    omega

/-- Without a joint solution the multi-function path returns zeros. -/
theorem multiFunctionResult_of_nil (cache : Stage2Cache) (nm : List (List Char × List Nat))
    (functionPIs : List (List Char × List Implicant))
    (hjoint : (solveJointPatrickMethod cache
      (buildJointCoverageTable nm (buildRegistry functionPIs)) (buildRegistry functionPIs)
      nm).1 = []) :
    (multiFunctionResult cache nm functionPIs).1 = ⟨[], [], 0, 0, 0⟩ := by
  unfold multiFunctionResult
  simp only []
  rw [hjoint]
  rfl

/-- The costs in the result of the multi-function path, read off the first joint solution:
the total is the summed cost of the Stage-2 PIs of all functions, the shared cost is the
Stage-3 cost, and the savings are their difference. -/
theorem multiFunctionResult_of_cons (cache : Stage2Cache) (nm : List (List Char × List Nat))
    (functionPIs : List (List Char × List Implicant)) (sol : List (List Char))
    (rest : List (List (List Char)))
    (hnames : (nm.map Prod.fst).Nodup)
    (hunder : ∀ f ∈ nm, startsWithUnderscore f.1 = false)
    (hjoint : (solveJointPatrickMethod cache
      (buildJointCoverageTable nm (buildRegistry functionPIs)) (buildRegistry functionPIs)
      nm).1 = sol :: rest)
    (hcache : (solveJointPatrickMethod cache
        (buildJointCoverageTable nm (buildRegistry functionPIs)) (buildRegistry functionPIs)
        nm).2.lookup (stage2Key sol) =
          some (stage2SolutionsOf sol nm (buildRegistry functionPIs)) ∨
      (solveJointPatrickMethod cache
        (buildJointCoverageTable nm (buildRegistry functionPIs)) (buildRegistry functionPIs)
        nm).2.lookup (stage2Key sol) = none) :
    (multiFunctionResult cache nm functionPIs).1.totalIndividualCost =
      (((stage2SolutionsOf sol nm (buildRegistry functionPIs)).flatMap Prod.snd).map
        PI.cost).sum ∧
    (multiFunctionResult cache nm functionPIs).1.sharedOptimizedCost =
      stage3CostOf (stage2SolutionsOf sol nm (buildRegistry functionPIs)) ∧
    (multiFunctionResult cache nm functionPIs).1.savings =
      ((multiFunctionResult cache nm functionPIs).1.totalIndividualCost : Int) -
        ((multiFunctionResult cache nm functionPIs).1.sharedOptimizedCost : Int) := by
  have hfun := systemSolutionOf_functions _ (buildRegistry functionPIs) sol nm hnames hcache
  have hshared := systemSolutionOf_sharedCost (solveJointPatrickMethod cache
    (buildJointCoverageTable nm (buildRegistry functionPIs)) (buildRegistry functionPIs)
    nm).2 (buildRegistry functionPIs) sol nm
  unfold multiFunctionResult
  simp only []
  rw [hjoint]
  obtain ⟨more, hmore⟩ := foldl_systemStep_first (buildRegistry functionPIs) nm sol rest
    (solveJointPatrickMethod cache
      (buildJointCoverageTable nm (buildRegistry functionPIs)) (buildRegistry functionPIs)
      nm).2
  rw [hmore]
  simp only []
  refine ⟨?_, hshared, trivial⟩
  rw [hfun, List.filter_eq_self.mpr, foldl_entry_costs, Nat.zero_add,
    stage2SolutionsOf_eq sol nm _ hnames]
  intro e he
  rw [List.mem_map] at he
  obtain ⟨f, hf, rfl⟩ := he
  simp only
  rw [hunder f (List.mem_filter.mp hf).1]
  rfl

/-! ## Savings of the multi-function path -/

/-- With two or more functions whose PIs are generated, the entry point returns the result
of the multi-function path. -/
theorem executeNormalized_multi (cache : Stage2Cache) (fs : List (List Char × List Nat))
    (n : Nat) (D : List Nat) (g : List (List Char × List Implicant)) (h2 : 2 ≤ fs.length)
    (hg : generateAll fs.length n D fs = some g) :
    executeNormalized cache fs n D = some (multiFunctionResult cache fs g) := by
  unfold executeNormalized
  simp only []
  rw [hg]
  match fs, h2 with
  | _ :: _ :: _, _ => rfl

/-- Every Stage-2 PI carries the registry cost of its pattern, which is positive, and its
pattern is listed in the registry for the function that holds the PI. -/
theorem stage2_pi_facts (sol : List (List Char)) (nm : List (List Char × List Nat))
    (registry : List RegistryEntry) (hnames : (nm.map Prod.fst).Nodup)
    (hreg : ∀ e ∈ registry, e.cost = calculateCost e.pattern) :
    ∀ pi ∈ (stage2SolutionsOf sol nm registry).flatMap Prod.snd,
      pi.cost = registryCost registry pi.pattern ∧ 1 ≤ pi.cost := by
  intro pi hpi
  rw [stage2SolutionsOf_eq sol nm registry hnames, List.mem_flatMap] at hpi
  obtain ⟨e, he, hpie⟩ := hpi
  rw [List.mem_map] at he
  obtain ⟨f, _, rfl⟩ := he
  have hmem := (removeRedundantPIsForStage2_spec _ _).1 pi hpie
  obtain ⟨_, e, hget, _, hcost⟩ := mem_functionPIsOf sol registry f.1 f.2 pi hmem
  refine ⟨by rw [registryCost_of_get registry _ e hget, hcost], ?_⟩
  rw [hcost, hreg e (registryGet_some registry _ e hget).1]
  exact calculateCost_pos _

/-- The joint solver on at most 20 registry patterns: every returned solution has its
Stage-2 result in the cache under its key and lists no pattern twice. -/
theorem solveJointPatrickMethod_small (cache : Stage2Cache)
    (table : List ((List Char × Nat) × List (List Char))) (registry : List RegistryEntry)
    (nm : List (List Char × List Nat))
    (hnd : (registry.map RegistryEntry.pattern).Nodup)
    (hpat : ∀ e ∈ registry, IsPat e.pattern) (h20 : registry.length ≤ 20) :
    ∀ sol ∈ (solveJointPatrickMethod cache table registry nm).1,
      sol.Nodup ∧
      (solveJointPatrickMethod cache table registry nm).2.lookup (stage2Key sol) =
        some (stage2SolutionsOf sol nm registry) := by
  unfold solveJointPatrickMethod
  simp only []
  rw [if_pos h20]
  intro sol hsol
  obtain ⟨hsub, _, hlook⟩ := solveWithExhaustiveSearch_cache cache (table.map Prod.snd)
    registry nm hnd
    (by
      intro p hp
      rw [List.mem_map] at hp
      obtain ⟨e, he, rfl⟩ := hp
      exact not_comma_of_isPat _ (hpat e he))
    (by omega) sol hsol
  exact ⟨hsub.nodup hnd, hlook⟩

/-- Savings after the normalisation: for two or more functions with distinct names, none
of which starts with `_`, terms that `parseInt` leaves unchanged and a registry of at most
20 patterns, `savings` is `totalIndividualCost - sharedOptimizedCost` and is not negative. -/
theorem executeNormalized_savings_nonneg (cache : Stage2Cache)
    (fs : List (List Char × List Nat)) (n : Nat) (D : List Nat)
    (h2 : 2 ≤ fs.length) (hnames : (fs.map Prod.fst).Nodup)
    (hunder : ∀ f ∈ fs, startsWithUnderscore f.1 = false)
    (hM : ∀ f ∈ fs, ∀ m ∈ f.2, m < 2 ^ n ∧ m < 10 ^ 21) (hD : ∀ d ∈ D, d < 2 ^ n ∧ d < 10 ^ 21)
    (h20 : ∀ g, generateAll fs.length n D fs = some g → (buildRegistry g).length ≤ 20) :
    ∃ res, executeNormalized cache fs n D = some res ∧
      res.1.savings =
        (res.1.totalIndividualCost : Int) - (res.1.sharedOptimizedCost : Int) ∧
      0 ≤ res.1.savings := by
  obtain ⟨g, hg, hpat⟩ := generateAll_spec fs.length n D (by omega) hD fs hM
  obtain ⟨hnd, hreg⟩ := buildRegistry_spec IsPat g hpat
  refine ⟨_, executeNormalized_multi cache fs n D g h2 hg, ?_⟩
  cases hjoint : (solveJointPatrickMethod cache
      (buildJointCoverageTable fs (buildRegistry g)) (buildRegistry g) fs).1 with
  | nil =>
    rw [multiFunctionResult_of_nil cache fs g hjoint]
    exact ⟨rfl, le_refl _⟩
  | cons sol rest =>
    have hsol := solveJointPatrickMethod_small cache
      (buildJointCoverageTable fs (buildRegistry g)) (buildRegistry g) fs hnd
      (fun e he => (hreg e he).2) (h20 g hg) sol (by rw [hjoint]; exact List.mem_cons_self _ _)
    obtain ⟨htotal, hshared, hsav⟩ := multiFunctionResult_of_cons cache fs g sol rest hnames
      hunder hjoint (Or.inl hsol.2)
    refine ⟨hsav, ?_⟩
    rw [hsav, htotal, hshared]
    have hle := stage3CostOf_le (registryCost (buildRegistry g))
      (stage2SolutionsOf sol fs (buildRegistry g))
      (stage2_pi_facts sol fs (buildRegistry g) hnames (fun e he => (hreg e he).1))
    omega

/-! ## No sharing, no savings -/

theorem recordOptimal_nodup (opt : List (List (List Char))) (cur : List (List Char))
    (hopt : ∀ s ∈ opt, s.Nodup) (hcur : cur.Nodup) : ∀ s ∈ recordOptimal opt cur, s.Nodup := by
  unfold recordOptimal
  split
  · exact hopt
  · intro s hs
    rcases List.mem_append.mp hs with h | h
    · exact hopt s h
    · rw [List.mem_singleton] at h; subst h; exact hcur

/-- Phase 2 of the branch-and-bound search records solutions that list no pattern twice. -/
theorem findAllOptimalLoop_nodup (patrickTerms : List (List (List Char)))
    (registry : List RegistryEntry) (minCost : Option Nat) (rest : List (List Char)) :
    ∀ (cur : List (List Char)) (cost : Nat) (opt : List (List (List Char))),
      cur.Nodup → (∀ s ∈ opt, s.Nodup) →
      ∀ s ∈ findAllOptimalLoop patrickTerms registry minCost rest cur cost opt, s.Nodup := by
  induction rest with
  | nil => intro cur cost opt _ hopt; unfold findAllOptimalLoop; exact hopt
  | cons pattern rest ih =>
    intro cur cost opt hcur hopt
    unfold findAllOptimalLoop
    simp only []
    apply ih cur cost _ hcur
    split
    · rename_i hnot
      have hcur2 : (cur ++ [pattern]).Nodup := by
        apply List.Nodup.append hcur (List.nodup_singleton _)
        intro x hx hx2
        rw [List.mem_singleton] at hx2
        subst hx2
        exact hnot hx
      split
      · split
        · exact hopt
        · split
          · split
            · exact recordOptimal_nodup opt _ hopt hcur2
            · exact hopt
          · exact ih _ _ _ hcur2 hopt
      · exact hopt
    · exact hopt

/-- The branch-and-bound search returns solutions that list no pattern twice. -/
theorem backtrackSearchDirect_nodup (patrickTerms : List (List (List Char)))
    (registry : List RegistryEntry) :
    ∀ s ∈ backtrackSearchDirect patrickTerms registry, s.Nodup := by
  unfold backtrackSearchDirect
  simp only []
  split
  · split
    · exact recordOptimal_nodup [] [] (fun s hs => absurd hs (List.not_mem_nil _))
        List.nodup_nil
    · intro s hs; exact absurd hs (List.not_mem_nil _)
  · exact findAllOptimalLoop_nodup _ _ _ _ [] 0 [] List.nodup_nil
      (fun s hs => absurd hs (List.not_mem_nil _))

/-- On a fresh cache every solution of the joint solver lists no pattern twice, and the
cache that the solver leaves holds the Stage-2 result of the solution under its key or
nothing under that key. -/
theorem solveJointPatrickMethod_fresh
    (table : List ((List Char × Nat) × List (List Char))) (registry : List RegistryEntry)
    (nm : List (List Char × List Nat))
    (hnd : (registry.map RegistryEntry.pattern).Nodup)
    (hpat : ∀ e ∈ registry, IsPat e.pattern) :
    ∀ sol ∈ (solveJointPatrickMethod [] table registry nm).1,
      sol.Nodup ∧
      ((solveJointPatrickMethod [] table registry nm).2.lookup (stage2Key sol) =
          some (stage2SolutionsOf sol nm registry) ∨
        (solveJointPatrickMethod [] table registry nm).2.lookup (stage2Key sol) = none) := by
  by_cases h20 : registry.length ≤ 20
  · intro sol hsol
    obtain ⟨h1, h2⟩ := solveJointPatrickMethod_small [] table registry nm hnd hpat h20 sol hsol
    exact ⟨h1, Or.inl h2⟩
  · unfold solveJointPatrickMethod
    simp only []
    rw [if_neg h20]
    intro sol hsol
    exact ⟨backtrackSearchDirect_nodup _ _ sol hsol, Or.inr rfl⟩

/-- Without a registry pattern used by two functions, the Stage-2 PIs of all functions of
a duplicate-free selection have pairwise distinct patterns. -/
theorem stage2_patterns_nodup (sol : List (List Char)) (nm : List (List Char × List Nat))
    (registry : List RegistryEntry) (hnames : (nm.map Prod.fst).Nodup) (hsol : sol.Nodup)
    (hunshared : ∀ e ∈ registry, e.usedBy.length ≤ 1) :
    (((stage2SolutionsOf sol nm registry).flatMap Prod.snd).map PI.pattern).Nodup := by
  rw [stage2SolutionsOf_eq sol nm registry hnames, List.map_flatMap, List.flatMap_map,
    List.nodup_flatMap]
  refine ⟨?_, ?_⟩
  · intro f _
    simp only
    have hpatnd : ((functionPIsOf sol registry f.1 f.2).map PI.pattern).Nodup :=
      (functionPIsOf_patterns_sublist sol registry f.1 f.2).nodup hsol
    have hRnd := (removeRedundantPIsForStage2_spec (functionPIsOf sol registry f.1 f.2) f.2).2
      (List.Nodup.of_map _ hpatnd)
    apply List.Nodup.map_on _ hRnd
    intro x hx y hy hxy
    exact List.inj_on_of_nodup_map hpatnd
      ((removeRedundantPIsForStage2_spec _ _).1 x hx)
      ((removeRedundantPIsForStage2_spec _ _).1 y hy) hxy
  · have hpw : List.Pairwise (fun a b : List Char × List Nat => a.1 ≠ b.1) nm := by
      rw [List.Nodup, List.pairwise_map] at hnames
      exact hnames
    refine (hpw.sublist (List.filter_sublist _)).imp ?_
    intro a b hab
    simp only [Function.onFun]
    intro p hpa hpb
    rw [List.mem_map] at hpa hpb
    obtain ⟨x, hx, rfl⟩ := hpa
    obtain ⟨y, hy, hyx⟩ := hpb
    obtain ⟨_, e1, hget1, hin1, _⟩ := mem_functionPIsOf sol registry a.1 a.2 x
      ((removeRedundantPIsForStage2_spec _ _).1 x hx)
    obtain ⟨_, e2, hget2, hin2, _⟩ := mem_functionPIsOf sol registry b.1 b.2 y
      ((removeRedundantPIsForStage2_spec _ _).1 y hy)
    rw [hyx, hget1] at hget2
    cases hget2
    have hlen := hunshared e1 (registryGet_some registry _ e1 hget1).1
    apply hab
    match hu : e1.usedBy, hlen with
    | [], _ => rw [hu] at hin1; exact absurd hin1 (List.not_mem_nil _)
    | [u], _ =>
      rw [hu, List.mem_singleton] at hin1 hin2
      rw [hin1, hin2]
    | _ :: _ :: _, h => simp at h

/-- No sharing after the normalisation, on a fresh instance: for two or more functions with
distinct names, none of which starts with `_`, and terms that `parseInt` leaves unchanged,
when every registry pattern has a `usedBy` list of size at most 1 the result has
`savings = 0`. -/
theorem executeNormalized_unshared_zero_savings
    (fs : List (List Char × List Nat)) (n : Nat) (D : List Nat)
    (h2 : 2 ≤ fs.length) (hnames : (fs.map Prod.fst).Nodup)
    (hunder : ∀ f ∈ fs, startsWithUnderscore f.1 = false)
    (hM : ∀ f ∈ fs, ∀ m ∈ f.2, m < 2 ^ n ∧ m < 10 ^ 21) (hD : ∀ d ∈ D, d < 2 ^ n ∧ d < 10 ^ 21)
    (hunshared : ∀ g, generateAll fs.length n D fs = some g →
      ∀ e ∈ buildRegistry g, e.usedBy.length ≤ 1) :
    ∃ res, executeNormalized [] fs n D = some res ∧ res.1.savings = 0 := by
  obtain ⟨g, hg, hpat⟩ := generateAll_spec fs.length n D (by omega) hD fs hM
  obtain ⟨hnd, hreg⟩ := buildRegistry_spec IsPat g hpat
  refine ⟨_, executeNormalized_multi [] fs n D g h2 hg, ?_⟩
  cases hjoint : (solveJointPatrickMethod []
      (buildJointCoverageTable fs (buildRegistry g)) (buildRegistry g) fs).1 with
  | nil =>
    rw [multiFunctionResult_of_nil [] fs g hjoint]
  | cons sol rest =>
    have hsol := solveJointPatrickMethod_fresh
      (buildJointCoverageTable fs (buildRegistry g)) (buildRegistry g) fs hnd
      (fun e he => (hreg e he).2) sol (by rw [hjoint]; exact List.mem_cons_self _ _)
    obtain ⟨htotal, hshared, hsav⟩ := multiFunctionResult_of_cons [] fs g sol rest hnames
      hunder hjoint hsol.2
    rw [hsav, htotal, hshared, stage3CostOf_of_nodup _
      (stage2_patterns_nodup sol fs (buildRegistry g) hnames hsol.1 (hunshared g hg))]
    omega

/-- The hypotheses on the input map pass to the normalised map when no name starts with an
underscore. -/
theorem normalizeMinterms_not_underscore (fs : List (List Char × List Nat))
    (hunder : ∀ f ∈ fs, startsWithUnderscore f.1 = false) :
    ∀ f ∈ normalizeMinterms fs, startsWithUnderscore f.1 = false := by
  intro f hf
  obtain ⟨g, hg, _, rfl⟩ := (mem_normalizeMinterms fs f).1 hf
  exact hunder g hg

/-- C9 for function names that do not start with an underscore: for two or more functions
with distinct names, none of which starts with `_`, targets and don't-cares below `2^n`
and a registry (built from the normalised map) of at most 20 patterns,
`executeMultipleOutput` returns a result whose `savings` is
`totalIndividualCost - sharedOptimizedCost` and is not negative. -/
theorem executeMultipleOutput_savings_nonneg (cache : Stage2Cache)
    (fs : List (List Char × List Nat)) (n : Nat) (D : List Nat)
    (h2 : 2 ≤ fs.length) (hnames : (fs.map Prod.fst).Nodup)
    (hunder : ∀ f ∈ fs, startsWithUnderscore f.1 = false)
    (hM : ∀ f ∈ fs, ∀ m ∈ f.2, m < 2 ^ n) (hD : ∀ d ∈ D, d < 2 ^ n)
    (h20 : ∀ g, generateAll fs.length n D (normalizeMinterms fs) = some g →
      (buildRegistry g).length ≤ 20) :
    ∃ res, executeMultipleOutput cache fs n D = some res ∧
      res.1.savings =
        (res.1.totalIndividualCost : Int) - (res.1.sharedOptimizedCost : Int) ∧
      0 ≤ res.1.savings := by
  have hproto : ∀ f ∈ fs, f.1 ≠ protoKey :=
    fun f hf => ne_protoKey_of_not_underscore f.1 (hunder f hf)
  have hlen := normalizeMinterms_length fs hproto
  rw [executeMultipleOutput_eq]
  refine executeNormalized_savings_nonneg cache (normalizeMinterms fs) n (D.map parseDecimal)
    (by omega) (normalizeMinterms_nodup fs hnames) (normalizeMinterms_not_underscore fs hunder)
    (normalizeMinterms_range fs n hM) (map_parseDecimal_range D n hD) ?_
  intro g hg
  rw [hlen, ← generateAll_parse_dontCares] at hg
  exact h20 g hg

set_option maxRecDepth 100000 in
/-- Instance of C9 for the functions `F1` and `F2` that share the target `0`. -/
theorem executeMultipleOutput_savings_nonneg_witness :
    2 ≤ twinFunctions.length ∧ (twinFunctions.map Prod.fst).Nodup ∧
    (∀ f ∈ twinFunctions, startsWithUnderscore f.1 = false) ∧
    ∃ res, executeMultipleOutput [] twinFunctions 2 [1, 2] = some res ∧
      res.1.savings =
        (res.1.totalIndividualCost : Int) - (res.1.sharedOptimizedCost : Int) ∧
      0 ≤ res.1.savings :=
  ⟨by decide, by decide, by decide,
    executeMultipleOutput_savings_nonneg [] twinFunctions 2 [1, 2] (by decide) (by decide)
      (by decide) (by decide) (by decide)
      (fun g h => by
        have hall : (generateAll twinFunctions.length 2 [1, 2]
            (normalizeMinterms twinFunctions)).all
            (fun l => decide ((buildRegistry l).length ≤ 20)) = true := by
          decide
        rw [h] at hall
        simpa using hall)⟩

/-- C10 for function names that do not start with an underscore, on a fresh instance: for
two or more functions with distinct names, none of which starts with `_`, targets and
don't-cares below `2^n`, when every pattern of the registry (built from the normalised map)
has a `usedBy` list of size at most 1, `executeMultipleOutput` returns a result with
`savings = 0`. -/
theorem executeMultipleOutput_unshared_zero_savings
    (fs : List (List Char × List Nat)) (n : Nat) (D : List Nat)
    (h2 : 2 ≤ fs.length) (hnames : (fs.map Prod.fst).Nodup)
    (hunder : ∀ f ∈ fs, startsWithUnderscore f.1 = false)
    (hM : ∀ f ∈ fs, ∀ m ∈ f.2, m < 2 ^ n) (hD : ∀ d ∈ D, d < 2 ^ n)
    (hunshared : ∀ g, generateAll fs.length n D (normalizeMinterms fs) = some g →
      ∀ e ∈ buildRegistry g, e.usedBy.length ≤ 1) :
    ∃ res, executeMultipleOutput [] fs n D = some res ∧ res.1.savings = 0 := by
  have hproto : ∀ f ∈ fs, f.1 ≠ protoKey :=
    fun f hf => ne_protoKey_of_not_underscore f.1 (hunder f hf)
  have hlen := normalizeMinterms_length fs hproto
  rw [executeMultipleOutput_eq]
  refine executeNormalized_unshared_zero_savings (normalizeMinterms fs) n (D.map parseDecimal)
    (by omega) (normalizeMinterms_nodup fs hnames) (normalizeMinterms_not_underscore fs hunder)
    (normalizeMinterms_range fs n hM) (map_parseDecimal_range D n hD) ?_
  intro g hg
  rw [hlen, ← generateAll_parse_dontCares] at hg
  exact hunshared g hg

set_option maxRecDepth 100000 in
/-- Instance of C10 for the functions `F1` and `F2` of one variable that share no pattern. -/
theorem executeMultipleOutput_unshared_zero_savings_witness :
    2 ≤ plainFunctions.length ∧ (plainFunctions.map Prod.fst).Nodup ∧
    (∀ f ∈ plainFunctions, startsWithUnderscore f.1 = false) ∧
    ∃ res, executeMultipleOutput [] plainFunctions 1 [] = some res ∧ res.1.savings = 0 :=
  ⟨by decide, by decide, by decide,
    executeMultipleOutput_unshared_zero_savings plainFunctions 1 [] (by decide) (by decide)
      (by decide) (by decide) (by decide)
      (fun g h => by
        have hall : (generateAll plainFunctions.length 1 []
            (normalizeMinterms plainFunctions)).all
            (fun l => (buildRegistry l).all (fun e => decide (e.usedBy.length ≤ 1))) = true := by
          decide
        rw [h] at hall
        simpa using hall)⟩

/-! ## The term combiner, position by position -/

/-- Combination by positions: the strings have one length, they differ at one position,
where the result holds `-`, and all three agree at every other position. -/
theorem combines_iff_positions (b1 b2 r : List Char) :
    Combines b1 b2 r ↔
      (b1.length = b2.length ∧ r.length = b1.length ∧
        ∃ i, i < b1.length ∧ b1[i]? ≠ b2[i]? ∧ r[i]? = some '-' ∧
          ∀ j, j ≠ i → b1[j]? = b2[j]? ∧ r[j]? = b1[j]?) := by
  constructor
  · intro h
    induction h with
    | here a b t hab =>
      refine ⟨rfl, rfl, 0, by simp, by simpa using hab, by simp, ?_⟩
      intro j hj
      cases j with
      | zero => exact absurd rfl hj
      | succ k => exact ⟨by simp, by simp⟩
    | there a t1 t2 t _ ih =>
      obtain ⟨h1, h2, i, hi, hne, hc, hrest⟩ := ih
      refine ⟨by simp [h1], by simp [h2], i + 1, by simpa using hi, by simpa using hne,
        by simpa using hc, ?_⟩
      intro j hj
      cases j with
      | zero => exact ⟨by simp, by simp⟩
      | succ k =>
        have hk : k ≠ i := fun h => hj (by rw [h])
        simpa using hrest k hk
  · induction b1 generalizing b2 r with
    | nil => rintro ⟨_, _, i, hi, _⟩; simp at hi
    | cons a t1 ih =>
      rintro ⟨h1, h2, i, hi, hne, hc, hrest⟩
      cases b2 with
      | nil => simp at h1
      | cons b t2 =>
        cases r with
        | nil => simp at h2
        | cons x t =>
          cases i with
          | zero =>
            have hab : a ≠ b := by simpa using hne
            have hx : x = '-' := by simpa using hc
            have ht2 : t1 = t2 := by
              apply List.ext_getElem?
              intro k
              have := (hrest (k + 1) (by omega)).1
              simpa using this
            have ht : t = t1 := by
              apply List.ext_getElem?
              intro k
              have := (hrest (k + 1) (by omega)).2
              simpa using this
            subst hx ht2 ht
            exact Combines.here a b t hab
          | succ i =>
            have h0 := hrest 0 (by omega)
            have hab : a = b := by simpa using h0.1
            have hxa : x = a := by simpa using h0.2
            subst hab hxa
            refine Combines.there x t1 t2 t (ih t2 t ⟨by simpa using h1, by simpa using h2, i,
              by simpa using hi, by simpa using hne, by simpa using hc, ?_⟩)
            intro j hj
            have := hrest (j + 1) (by omega)
            simpa using this

/-- Two strings of one length that differ at exactly one position combine. -/
theorem exists_combines (b1 b2 : List Char) (hlen : b1.length = b2.length) (i : Nat)
    (hi : i < b1.length) (hne : b1[i]? ≠ b2[i]?) (hrest : ∀ j, j ≠ i → b1[j]? = b2[j]?) :
    Combines b1 b2 (b1.set i '-') := by
  rw [combines_iff_positions]
  refine ⟨hlen, by simp, i, hi, hne, by simp [List.getElem?_set, hi], ?_⟩
  intro j hj
  refine ⟨hrest j hj, ?_⟩
  rw [List.getElem?_set_ne (fun h => hj h.symm)]

/-- C12 (specification of `combineBinaryTerms`): the call returns a pattern `r` exactly when
the two strings have the same length and differ at exactly one position `i`; then `r` has
that length, holds `-` at position `i` and equals the first string at every other position.
It returns `null` exactly when the lengths differ or the number of differing positions is
not one. -/
theorem combineBinaryTerms_spec (p1 p2 : List Char) :
    (∀ r, combineBinaryTerms p1 p2 = some r ↔
      (p1.length = p2.length ∧ r.length = p1.length ∧
        ∃ i, i < p1.length ∧ p1[i]? ≠ p2[i]? ∧ r[i]? = some '-' ∧
          ∀ j, j ≠ i → p1[j]? = p2[j]? ∧ r[j]? = p1[j]?)) ∧
    (combineBinaryTerms p1 p2 = none ↔
      ¬ (p1.length = p2.length ∧
        ∃ i, i < p1.length ∧ p1[i]? ≠ p2[i]? ∧ ∀ j, j ≠ i → p1[j]? = p2[j]?)) := by
  have hsome : ∀ r, combineBinaryTerms p1 p2 = some r ↔
      (p1.length = p2.length ∧ r.length = p1.length ∧
        ∃ i, i < p1.length ∧ p1[i]? ≠ p2[i]? ∧ r[i]? = some '-' ∧
          ∀ j, j ≠ i → p1[j]? = p2[j]? ∧ r[j]? = p1[j]?) := by
    intro r
    rw [combineBinaryTerms_eq_some, combines_iff_positions]
  refine ⟨hsome, ?_⟩
  constructor
  · rintro hnone ⟨hlen, i, hi, hne, hrest⟩
    have := (combineBinaryTerms_eq_some p1 p2 _).mpr (exists_combines p1 p2 hlen i hi hne hrest)
    rw [hnone] at this
    exact Option.noConfusion this
  · intro hno
    cases h : combineBinaryTerms p1 p2 with
    | none => rfl
    | some r =>
      obtain ⟨hlen, _, i, hi, hne, _, hrest⟩ := (hsome r).mp h
      exact absurd ⟨hlen, i, hi, hne, fun j hj => (hrest j hj).1⟩ hno

/-- C13 (`combineBinaryTerms` is symmetric): for all strings the two call orders return
the same value, `null` or the same pattern. -/
theorem combineBinaryTerms_symmetric (a b : List Char) :
    combineBinaryTerms a b = combineBinaryTerms b a := by
  cases h1 : combineBinaryTerms a b with
  | some c =>
    exact ((combineBinaryTerms_eq_some b a c).mpr
      ((combineBinaryTerms_eq_some a b c).mp h1).symm).symm
  | none =>
    cases h2 : combineBinaryTerms b a with
    | none => rfl
    | some c =>
      have := (combineBinaryTerms_eq_some a b c).mpr
        ((combineBinaryTerms_eq_some b a c).mp h2).symm
      rw [h1] at this
      exact Option.noConfusion this

/-! ## Cost and essential PIs in the words of the specification -/

theorem length_filter_literals (p : List Char) :
    (p.filter (fun c => decide (c ≠ '-'))).length = p.length - dashes p := by
  induction p with
  | nil => simp [dashes]
  | cons c p ih =>
    have := dashes_le_length p
    rw [dashes_cons, List.length_cons]
    by_cases hc : c = '-'
    · rw [List.filter_cons_of_neg (by simpa using hc), ih, if_pos hc]; omega
    · rw [List.filter_cons_of_pos (by simpa using hc), List.length_cons, ih, if_neg hc]; omega

/-- C14 (cost function): with `L` the number of characters other than `-`, `calculateCost`
returns 1 when `L = 1` and `L + 1` otherwise; the pattern `---` costs 1; and the cost of
every pattern is at least 1. -/
theorem calculateCost_spec (p : List Char) :
    calculateCost p =
      (if (p.filter (fun c => decide (c ≠ '-'))).length = 1 then 1
        else (p.filter (fun c => decide (c ≠ '-'))).length + 1) ∧
    calculateCost ['-', '-', '-'] = 1 ∧
    1 ≤ calculateCost p := by
  refine ⟨?_, by decide, calculateCost_pos p⟩
  rw [length_filter_literals, calculateCost_eq]

theorem coveringIndices_nodup (PIs : List PI) (m : Nat) : (coveringIndices PIs m).Nodup := by
  unfold coveringIndices
  have hsub := (List.filter_sublist (p := fun e : Nat × PI => decide (m ∈ e.2.minterms))
    PIs.enum).map Prod.fst
  rw [List.enum_map_fst] at hsub
  exact hsub.nodup (List.nodup_range _)

theorem eq_singleton_iff_of_nodup {α : Type} (l : List α) (i : α) (hnd : l.Nodup) :
    l = [i] ↔ ∀ j, j ∈ l ↔ j = i := by
  constructor
  · intro h j; rw [h, List.mem_singleton]
  · intro h
    have hperm : l.Perm [i] :=
      (List.perm_ext_iff_of_nodup hnd (List.nodup_singleton i)).mpr
        (fun j => by rw [h j, List.mem_singleton])
    exact List.perm_singleton.mp hperm

/-- C15 (essential PIs): after `buildCoverageTable`, `findEssentialPIs` returns an index
list without duplicates, and an index `i` is in it exactly when some target minterm `m`
has `i` as the only index `j` with `m` in the minterms list of `primeImplicants[j]`. -/
theorem findEssentialPIs_exact (M : List Nat) (PIs : List PI) :
    (findEssentialPIs M PIs (buildCoverageTable M PIs)).essentialPIs.Nodup ∧
    ∀ i, i ∈ (findEssentialPIs M PIs (buildCoverageTable M PIs)).essentialPIs ↔
      ∃ m ∈ M, ∀ j, (∃ pi, PIs[j]? = some pi ∧ m ∈ pi.minterms) ↔ j = i := by
  obtain ⟨hE, hN, _⟩ := findEssentialPIs_spec M PIs
  refine ⟨hN, ?_⟩
  intro i
  rw [hE i]
  constructor
  · rintro ⟨m, hm, hcov⟩
    refine ⟨m, hm, ?_⟩
    intro j
    rw [← mem_coveringIndices]
    exact (eq_singleton_iff_of_nodup _ i (coveringIndices_nodup PIs m)).mp hcov j
  · rintro ⟨m, hm, hall⟩
    refine ⟨m, hm, ?_⟩
    rw [eq_singleton_iff_of_nodup _ i (coveringIndices_nodup PIs m)]
    intro j
    rw [mem_coveringIndices]
    exact hall j

/-! ## Multi-function mode keeps every implicant -/

/-- C16 with at least one variable and terms below 1e21: for `1 ≤ n` and targets and
don't-cares below `2^n` and below `10^21`, a pattern of length `n` occurs in
`findTruePrimeImplicants(generateQuineMcCluskeyPIs(M, n, D), M)` exactly when every integer
below `2^n` that matches it is a target or a don't-care and it matches at least one target;
no pattern occurs twice; and the minterms list of each returned implicant is duplicate-free
and holds exactly the targets that match its pattern. -/
theorem findTruePrimeImplicants_all_implicants (M D : List Nat) (n : Nat) (hn : 1 ≤ n)
    (hM : ∀ m ∈ M, m < 2 ^ n ∧ m < 10 ^ 21) (hD : ∀ d ∈ D, d < 2 ^ n ∧ d < 10 ^ 21) :
    ∃ all, generateQuineMcCluskeyPIs M n D = some all ∧
      (∀ p : List Char, p.length = n →
        (p ∈ (findTruePrimeImplicants all M).map Implicant.pattern ↔
          (IsImplicantOf p n M D ∧ ∃ m ∈ M, matchesPattern p m n = true))) ∧
      ((findTruePrimeImplicants all M).map Implicant.pattern).Nodup ∧
      (∀ pi ∈ findTruePrimeImplicants all M, pi.pattern.length = n ∧ pi.minterms.Nodup ∧
        ∀ m, m ∈ pi.minterms ↔ (m ∈ M ∧ matchesPattern pi.pattern m n = true)) := by
  obtain ⟨all, hall, hiff, hnd, hfacts⟩ := generateQuineMcCluskeyPIs_spec M D n hn hM hD
  have hres : findTruePrimeImplicants all M =
      all.map (fun t => (⟨t.pattern, t.minterms⟩ : Implicant)) :=
    findTruePrimeImplicants_of_restricted all M
      (fun pi hpi => ⟨(hfacts pi hpi).2.2.1,
        fun m hm => (((hfacts pi hpi).2.2.2 m).mp hm).1⟩)
  have hpat : (findTruePrimeImplicants all M).map Implicant.pattern =
      all.map LevelImplicant.pattern := by
    rw [hres, List.map_map]; rfl
  refine ⟨all, hall, ?_, by rw [hpat]; exact hnd, ?_⟩
  · intro p hp
    rw [hpat]
    exact hiff p hp
  · intro pi hpi
    rw [hres, List.mem_map] at hpi
    obtain ⟨t, ht, rfl⟩ := hpi
    obtain ⟨h1, h2, _, h4⟩ := hfacts t ht
    exact ⟨h1, h2, h4⟩

/-- Instance of C16 for two variables: targets `1` and `3`, don't-care `0`. -/
theorem findTruePrimeImplicants_all_implicants_witness :
    1 ≤ 2 ∧ (∀ m ∈ demoTargets, m < 2 ^ 2 ∧ m < 10 ^ 21) ∧
    (∀ d ∈ [0], d < 2 ^ 2 ∧ d < 10 ^ 21) ∧
    ∃ all, generateQuineMcCluskeyPIs demoTargets 2 [0] = some all ∧
      (∀ p : List Char, p.length = 2 →
        (p ∈ (findTruePrimeImplicants all demoTargets).map Implicant.pattern ↔
          (IsImplicantOf p 2 demoTargets [0] ∧
            ∃ m ∈ demoTargets, matchesPattern p m 2 = true))) ∧
      ((findTruePrimeImplicants all demoTargets).map Implicant.pattern).Nodup ∧
      (∀ pi ∈ findTruePrimeImplicants all demoTargets,
        pi.pattern.length = 2 ∧ pi.minterms.Nodup ∧
        ∀ m, m ∈ pi.minterms ↔ (m ∈ demoTargets ∧ matchesPattern pi.pattern m 2 = true)) :=
  ⟨by decide, by decide, by decide,
    findTruePrimeImplicants_all_implicants demoTargets [0] 2 (by decide) (by decide)
      (by decide)⟩

/-- Without variables: for the constant function with target `0` and `n = 0` the
all-levels generator followed by `findTruePrimeImplicants` returns the single pattern `0`
of length one, so the empty pattern, which has length `n`, is matched only by the target
`0` and matches it, does not occur in the output. -/
theorem findTruePrimeImplicants_at_zero :
    (generateQuineMcCluskeyPIs [0] 0 []).map (fun all => findTruePrimeImplicants all [0]) =
      some [⟨['0'], [0]⟩] ∧
    ([] : List Char).length = 0 ∧
    IsImplicantOf [] 0 [0] [] ∧ (∃ m ∈ [0], matchesPattern [] m 0 = true) ∧
    ([] : List Char) ∉ ([⟨['0'], [0]⟩] : List Implicant).map Implicant.pattern := by
  refine ⟨by decide, rfl, ?_, ⟨0, List.mem_singleton.mpr rfl, rfl⟩, by decide⟩
  intro m hm _
  have : m = 0 := by omega
  subst this
  exact Or.inl (List.mem_singleton.mpr rfl)

/-! ## The solver without a cover -/

/-- Without a covering sub-list of the candidates the solver returns the empty list. -/
theorem findAllMinimalCovers_eq_nil (T : List Nat) (avail : List PI)
    (hno : ∀ S : List PI, S.Sublist avail → ¬ coversAll T S) :
    findAllMinimalCovers T avail = [] := by
  rcases findAllMinimalCovers_eq T avail with ⟨_, hnil⟩ | ⟨m, ⟨c, _, hcov, _⟩, _, _⟩
  · exact hnil
  · exact absurd hcov (hno _ (chosen_sublist avail c))

/-- C18 as the solver behaves: when no sub-list of the candidates covers the targets (so
the target list is not empty), `findAllMinimalCovers` returns the empty list and
`findMinimalCover` returns the empty cover of cost 0 with an empty `allSolutions`. -/
theorem findMinimalCover_without_cover (T : List Nat) (avail : List PI)
    (hno : ∀ S : List PI, S.Sublist avail → ¬ coversAll T S) :
    T ≠ [] ∧ findAllMinimalCovers T avail = [] ∧ findMinimalCover T avail = ⟨[], 0, []⟩ := by
  have hnil := findAllMinimalCovers_eq_nil T avail hno
  refine ⟨?_, hnil, ?_⟩
  · intro hT
    apply hno [] (List.nil_sublist _)
    rw [hT]
    intro m hm
    exact absurd hm (List.not_mem_nil _)
  · unfold findMinimalCover
    rw [hnil]

/-- Instance of C18 for the target `3` and the candidates of `demoCandidates` without the
last two. -/
theorem findMinimalCover_without_cover_witness :
    (∀ S : List PI, S.Sublist (demoCandidates.take 1) → ¬ coversAll [3] S) ∧
    [3] ≠ [] ∧ findAllMinimalCovers [3] (demoCandidates.take 1) = [] ∧
    findMinimalCover [3] (demoCandidates.take 1) = ⟨[], 0, []⟩ := by
  have hno : ∀ S : List PI, S.Sublist (demoCandidates.take 1) → ¬ coversAll [3] S := by
    intro S hS hcov
    obtain ⟨pi, hpi, h3⟩ := hcov 3 (List.mem_singleton.mpr rfl)
    have hmem := hS.subset hpi
    have hall : ∀ x ∈ demoCandidates.take 1, 3 ∉ x.minterms := by decide
    exact hall pi hmem h3
  exact ⟨hno, findMinimalCover_without_cover [3] (demoCandidates.take 1) hno⟩

/-- C18 at the target `0` without candidates: `findAllMinimalCovers` returns the empty
list and `findMinimalCover` returns the cover `{pis: [], cost: 0}`; neither call ends in an
error, which the model has no value for because these functions have no `throw`. -/
theorem findMinimalCover_returns_empty_cover :
    findAllMinimalCovers [0] [] = [] ∧ findMinimalCover [0] [] = ⟨[], 0, []⟩ := by
  decide

/-! ## Evaluations at concrete inputs -/

set_option maxRecDepth 100000 in
/-- C11 at three functions of three variables, `F1 = Σm(0,1)`, `F2 = Σm(0)`,
`F3 = Σm(1)`: the joint result has `totalIndividualCost = 16`, the sum of the costs that the
first joint solution gives the three functions, while the three functions minimised on
their own cost 3, 4 and 4, which is the total that the comment above the computation
names. -/
theorem executeMultipleOutput_baseline_not_independent :
    (executeMultipleOutput [] tripleFunctions 3 []).map
      (fun r => r.1.totalIndividualCost) = some 16 ∧
    (executeMultipleOutput [] [(['F', '1'], [0, 1])] 3 []).map
      (fun r => r.1.allSolutions.map FunctionSolution.cost) = some [3] ∧
    (executeMultipleOutput [] [(['F', '2'], [0])] 3 []).map
      (fun r => r.1.allSolutions.map FunctionSolution.cost) = some [4] ∧
    (executeMultipleOutput [] [(['F', '3'], [1])] 3 []).map
      (fun r => r.1.allSolutions.map FunctionSolution.cost) = some [4] := by
  decide

/-- C19, as the normalisation works: it has no comparison with `2^numVars`.  For a map
whose names are not `__proto__` and whose minterms are integers below `10^21`, inside
`[0, 2^n)` or not, the normalised map is the map itself; and for one such function
`executeMultipleOutput` is the single-function path on the PIs generated for the whole
minterm list, which stays the list of targets to cover. -/
theorem executeMultipleOutput_keeps_every_minterm (cache : Stage2Cache)
    (fs : List (List Char × List Nat)) (F : List Char) (M D : List Nat) (n : Nat)
    (hproto : ∀ f ∈ fs, f.1 ≠ protoKey) (hfs : ∀ f ∈ fs, ∀ m ∈ f.2, m < 10 ^ 21)
    (hF : F ≠ protoKey) (hM : ∀ m ∈ M, m < 10 ^ 21) :
    normalizeMinterms fs = fs ∧
    executeMultipleOutput cache [(F, M)] n D =
      (generateOnlyTruePrimeImplicants M n D).map
        (fun pis => (singleFunctionResult F M pis, cache)) := by
  refine ⟨normalizeMinterms_of_lt fs hproto hfs, ?_⟩
  cases hgen : generateOnlyTruePrimeImplicants M n D with
  | none =>
    unfold executeMultipleOutput
    rw [normalizeMinterms_single F M hF, map_parseDecimal_of_lt M hM]
    unfold executeNormalized
    simp [generateAll, generateFor, hgen]
  | some pis =>
    rw [executeMultipleOutput_single cache F M D n pis hF hM hgen]
    rfl

set_option maxRecDepth 100000 in
/-- Instance of the amended C19 for the minterm list `[0, 2]` and one variable. -/
theorem executeMultipleOutput_keeps_every_minterm_witness :
    (∀ f ∈ [((['F'] : List Char), [0, 2])], f.1 ≠ protoKey) ∧
    (∀ f ∈ [((['F'] : List Char), [0, 2])], ∀ m ∈ f.2, m < 10 ^ 21) ∧
    ['F'] ≠ protoKey ∧ (∀ m ∈ [0, 2], m < 10 ^ 21) ∧
    normalizeMinterms [(['F'], [0, 2])] = [(['F'], [0, 2])] ∧
    executeMultipleOutput [] [(['F'], [0, 2])] 1 [] =
      (generateOnlyTruePrimeImplicants [0, 2] 1 []).map
        (fun pis => (singleFunctionResult ['F'] [0, 2] pis, [])) :=
  ⟨by decide, by decide, by decide, by decide,
    executeMultipleOutput_keeps_every_minterm [] [(['F'], [0, 2])] ['F'] [0, 2] [] 1
      (by decide) (by decide) (by decide) (by decide)⟩

set_option maxRecDepth 100000 in
/-- C19 at one variable and the minterm list `[0, 2]`: the minterm `2` is outside
`[0, 2^1)` and is kept; the returned solution holds the PI with pattern `10` and minterms
`[2]`, and differs from the solution for the minterm list `[0]`. -/
theorem executeMultipleOutput_keeps_out_of_range :
    ¬ (2 < 2 ^ 1) ∧
    (executeMultipleOutput [] [(['F'], [0, 2])] 1 []).map (fun r => r.1.allSolutions) =
      some [⟨[⟨['0'], [0], 1⟩, ⟨['1', '0'], [2], 3⟩], 4⟩] ∧
    (executeMultipleOutput [] [(['F'], [0])] 1 []).map (fun r => r.1.allSolutions) =
      some [⟨[⟨['0'], [0], 1⟩], 1⟩] := by
  decide

set_option maxRecDepth 100000 in
/-- C20 at two functions with the target `0`, a third function without targets, two
variables and don't-cares `1` and `2`: the third function is in no `usedBy` list, has no
entry in the joint coverage table and none in `solutions`; the two functions with a target
get an entry without any PI, so their target matches no pattern of their solution. -/
theorem executeMultipleOutput_empty_function_uncovered :
    (generateAll 3 2 [1, 2] emptyThirdFunctions).map
      (fun g => ((buildRegistry g).map RegistryEntry.usedBy,
        (buildJointCoverageTable emptyThirdFunctions (buildRegistry g)).map
          (fun e => e.1))) =
      some ([[['F', '1'], ['F', '2']], [['F', '1'], ['F', '2']], [['F', '1'], ['F', '2']]],
        [(['F', '1'], 0), (['F', '2'], 0)]) ∧
    (executeMultipleOutput [] emptyThirdFunctions 2 [1, 2]).map (fun r => r.1.solutions) =
      some [(['F', '1'], ⟨[], 0⟩), (['F', '2'], ⟨[], 0⟩)] := by
  decide

/-! ## The shared registry and its `usedBy` lists -/

/-- The registry is built by one pass over the registrations, function by function. -/
theorem buildRegistry_eq_foldl (g : List (List Char × List Implicant)) :
    buildRegistry g =
      (g.flatMap (fun f => f.2.map (fun pi => (f.1, pi)))).foldl
        (fun registry x => registerPI x.1 registry x.2) [] := by
  unfold buildRegistry
  rw [foldl_flatMap]
  congr 1
  funext registry f
  rw [List.foldl_map]

/-- One registration: the patterns stay distinct, they are the registered patterns, and
the `usedBy` list of an entry lists, in order, the names registered with its pattern. -/
theorem registerPI_usedBy (S : List (List Char × Implicant)) (registry : List RegistryEntry)
    (name : List Char) (pi : Implicant)
    (hnd : (registry.map RegistryEntry.pattern).Nodup)
    (hmem : ∀ p, p ∈ registry.map RegistryEntry.pattern ↔ ∃ x ∈ S, x.2.pattern = p)
    (hused : ∀ e ∈ registry, e.usedBy =
      (S.filter (fun x => decide (x.2.pattern = e.pattern))).map Prod.fst) :
    ((registerPI name registry pi).map RegistryEntry.pattern).Nodup ∧
    (∀ p, p ∈ (registerPI name registry pi).map RegistryEntry.pattern ↔
      ∃ x ∈ S ++ [(name, pi)], x.2.pattern = p) ∧
    (∀ e ∈ registerPI name registry pi, e.usedBy =
      ((S ++ [(name, pi)]).filter (fun x => decide (x.2.pattern = e.pattern))).map
        Prod.fst) := by
  unfold registerPI
  by_cases hany : registry.any (fun e => decide (e.pattern = pi.pattern)) = true
  · rw [if_pos hany]
    have hin : pi.pattern ∈ registry.map RegistryEntry.pattern := by
      rw [List.any_eq_true] at hany
      obtain ⟨e, he, hp⟩ := hany
      rw [List.mem_map]
      exact ⟨e, he, by simpa using hp⟩
    have hpat : (registry.map (fun e => if e.pattern = pi.pattern then
        { e with usedBy := e.usedBy ++ [name] } else e)).map RegistryEntry.pattern =
        registry.map RegistryEntry.pattern := by
      rw [List.map_map]
      apply List.map_congr_left
      intro e _
      simp only [Function.comp]
      split <;> rfl
    refine ⟨by rw [hpat]; exact hnd, ?_, ?_⟩
    · intro p
      rw [hpat, hmem p]
      constructor
      · rintro ⟨x, hx, hxp⟩
        exact ⟨x, List.mem_append_left _ hx, hxp⟩
      · rintro ⟨x, hx, hxp⟩
        rcases List.mem_append.mp hx with h | h
        · exact ⟨x, h, hxp⟩
        · rw [List.mem_singleton] at h
          subst h
          rw [← hxp]
          exact (hmem _).mp hin
    · intro e he
      rw [List.mem_map] at he
      obtain ⟨e0, he0, rfl⟩ := he
      rw [List.filter_append, List.map_append]
      by_cases hp : e0.pattern = pi.pattern
      · rw [if_pos hp]
        simp only
        rw [hused e0 he0]
        simp [hp]
      · rw [if_neg hp, hused e0 he0]
        have : ¬ pi.pattern = e0.pattern := fun h => hp h.symm
        simp [this]
  · rw [if_neg hany]
    have hnot : pi.pattern ∉ registry.map RegistryEntry.pattern := by
      intro hin
      apply hany
      rw [List.mem_map] at hin
      obtain ⟨e, he, hp⟩ := hin
      rw [List.any_eq_true]
      exact ⟨e, he, by simpa using hp⟩
    refine ⟨?_, ?_, ?_⟩
    · rw [List.map_append, List.map_singleton]
      apply List.Nodup.append hnd (List.nodup_singleton _)
      intro x hx hx2
      rw [List.mem_singleton] at hx2
      have hx3 : x = pi.pattern := hx2
      exact hnot (by rw [← hx3]; exact hx)
    · intro p
      rw [List.map_append, List.mem_append, hmem p]
      constructor
      · rintro (⟨x, hx, hxp⟩ | h)
        · exact ⟨x, List.mem_append_left _ hx, hxp⟩
        · rw [List.map_singleton, List.mem_singleton] at h
          exact ⟨(name, pi), List.mem_append_right _ (List.mem_singleton.mpr rfl), h.symm⟩
      · rintro ⟨x, hx, hxp⟩
        rcases List.mem_append.mp hx with h | h
        · exact Or.inl ⟨x, h, hxp⟩
        · rw [List.mem_singleton] at h
          subst h
          right
          rw [List.map_singleton, List.mem_singleton]
          exact hxp.symm
    · intro e he
      rw [List.filter_append, List.map_append]
      rcases List.mem_append.mp he with h | h
      · have hp : ¬ pi.pattern = e.pattern := by
          intro hpe
          exact hnot (by rw [hpe]; exact List.mem_map_of_mem _ h)
        rw [hused e h]
        simp [hp]
      · rw [List.mem_singleton] at h
        subst h
        have hnone : S.filter (fun x => decide (x.2.pattern = pi.pattern)) = [] := by
          rw [List.filter_eq_nil_iff]
          intro x hx hxp
          exact hnot ((hmem _).mpr ⟨x, hx, by simpa using hxp⟩)
        simp [hnone]

/-- The registry after a sequence of registrations. -/
theorem foldl_registerPI_usedBy (S2 : List (List Char × Implicant)) :
    ∀ (S1 : List (List Char × Implicant)) (registry : List RegistryEntry),
      (registry.map RegistryEntry.pattern).Nodup →
      (∀ p, p ∈ registry.map RegistryEntry.pattern ↔ ∃ x ∈ S1, x.2.pattern = p) →
      (∀ e ∈ registry, e.usedBy =
        (S1.filter (fun x => decide (x.2.pattern = e.pattern))).map Prod.fst) →
      ((S2.foldl (fun registry x => registerPI x.1 registry x.2) registry).map
        RegistryEntry.pattern).Nodup ∧
      (∀ p, p ∈ (S2.foldl (fun registry x => registerPI x.1 registry x.2) registry).map
          RegistryEntry.pattern ↔ ∃ x ∈ S1 ++ S2, x.2.pattern = p) ∧
      (∀ e ∈ S2.foldl (fun registry x => registerPI x.1 registry x.2) registry, e.usedBy =
        ((S1 ++ S2).filter (fun x => decide (x.2.pattern = e.pattern))).map Prod.fst) := by
  induction S2 with
  | nil =>
    intro S1 registry h1 h2 h3
    simp only [List.foldl_nil, List.append_nil]
    exact ⟨h1, h2, h3⟩
  | cons x S2 ih =>
    intro S1 registry h1 h2 h3
    obtain ⟨g1, g2, g3⟩ := registerPI_usedBy S1 registry x.1 x.2 h1 h2 h3
    have := ih (S1 ++ [x]) (registerPI x.1 registry x.2) g1 g2 g3
    rw [List.append_assoc, List.singleton_append] at this
    exact this

/-- The names registered with a pattern, when function names are distinct and no function
returns a pattern twice: each name at most once. -/
theorem registrations_nodup (g : List (List Char × List Implicant)) (p : List Char)
    (hnames : (g.map Prod.fst).Nodup)
    (hpat : ∀ f ∈ g, (f.2.map Implicant.pattern).Nodup) :
    (((g.flatMap (fun f => f.2.map (fun pi => (f.1, pi)))).filter
      (fun x => decide (x.2.pattern = p))).map Prod.fst).Sublist (g.map Prod.fst) := by
  induction g with
  | nil => simp
  | cons f g ih =>
    rw [List.flatMap_cons, List.filter_append, List.map_append, List.map_cons]
    rw [List.map_cons, List.nodup_cons] at hnames
    have hrest := ih hnames.2 (fun x hx => hpat x (List.mem_cons_of_mem _ hx))
    have hhead : (((f.2.map (fun pi => (f.1, pi))).filter
        (fun x => decide (x.2.pattern = p))).map Prod.fst).Sublist [f.1] := by
      have hf := hpat f (List.mem_cons_self _ _)
      generalize f.2 = pis at hf
      induction pis with
      | nil => simp
      | cons pi pis ihp =>
        rw [List.map_cons, List.nodup_cons] at hf
        rw [List.map_cons]
        by_cases hp : pi.pattern = p
        · rw [List.filter_cons_of_pos (by simpa using hp), List.map_cons]
          have hnone : (pis.map (fun pi => (f.1, pi))).filter
              (fun x => decide (x.2.pattern = p)) = [] := by
            rw [List.filter_eq_nil_iff]
            intro x hx hxp
            rw [List.mem_map] at hx
            obtain ⟨q, hq, rfl⟩ := hx
            have hqp : q.pattern = p := by simpa using hxp
            exact hf.1 (by rw [hp, ← hqp]; exact List.mem_map_of_mem _ hq)
          rw [hnone]
          exact List.Sublist.refl _
        · rw [List.filter_cons_of_neg (by simpa using hp)]
          exact ihp hf.2
    have := List.Sublist.append hhead hrest
    simpa using this

/-- The second filter keeps the patterns distinct. -/
theorem findTruePrimeImplicants_nodup (all : List LevelImplicant) (M : List Nat)
    (h : (all.map LevelImplicant.pattern).Nodup) :
    ((findTruePrimeImplicants all M).map Implicant.pattern).Nodup := by
  rw [findTruePrimeImplicants_eq, List.map_map]
  have hsub := (List.filter_sublist
    (p := fun t : LevelImplicant =>
      decide ((t.minterms.filter (fun m => decide (m ∈ M))).length > 0)) all).map
    LevelImplicant.pattern
  exact hsub.nodup h

/-- The all-levels generator returns no pattern twice. -/
theorem generateQuineMcCluskeyPIs_nodup (M D : List Nat) (n : Nat)
    (hM : ∀ m ∈ M, m < 2 ^ n ∧ m < 10 ^ 21) (hD : ∀ d ∈ D, d < 2 ^ n ∧ d < 10 ^ 21) :
    ∃ all, generateQuineMcCluskeyPIs M n D = some all ∧
      (all.map LevelImplicant.pattern).Nodup := by
  rcases Nat.eq_zero_or_pos n with h0 | hpos
  · subst h0
    refine ⟨_, generateQuineMcCluskeyPIs_zero M D (fun m hm => (hM m hm).1)
      (fun d hd => (hD d hd).1), ?_⟩
    split
    · exact List.nodup_nil
    · exact List.nodup_singleton _
  · obtain ⟨all, hall, _, hnd, _⟩ := generateQuineMcCluskeyPIs_spec M D n hpos hM hD
    exact ⟨all, hall, hnd⟩

/-- Step 1 of the multi-function path pairs every function name, in entry order, with the
result of the function's own generation run, which holds no pattern twice. -/
theorem generateAll_runs (count n : Nat) (D : List Nat) (hcount : count ≠ 1)
    (hD : ∀ d ∈ D, d < 2 ^ n ∧ d < 10 ^ 21) (fs : List (List Char × List Nat))
    (hM : ∀ f ∈ fs, ∀ m ∈ f.2, m < 2 ^ n ∧ m < 10 ^ 21) :
    ∃ g, generateAll count n D fs = some g ∧ g.map Prod.fst = fs.map Prod.fst ∧
      (∀ f ∈ fs, ∃ pis, generateFor count f.2 n D = some pis ∧ (f.1, pis) ∈ g) ∧
      (∀ r ∈ g, (r.2.map Implicant.pattern).Nodup) := by
  induction fs with
  | nil =>
    exact ⟨[], rfl, rfl, fun f hf => absurd hf (List.not_mem_nil _),
      fun r hr => absurd hr (List.not_mem_nil _)⟩
  | cons f fs ih =>
    obtain ⟨g, hg, hnames, hruns, hnd⟩ := ih (fun x hx => hM x (List.mem_cons_of_mem _ hx))
    obtain ⟨all, hall, hallnd⟩ := generateQuineMcCluskeyPIs_nodup f.2 D n
      (hM f (List.mem_cons_self _ _)) hD
    obtain ⟨name, M⟩ := f
    simp only at hall
    have hfor : generateFor count M n D = some (findTruePrimeImplicants all M) := by
      unfold generateFor
      rw [if_neg hcount, hall]
      rfl
    refine ⟨(name, findTruePrimeImplicants all M) :: g, ?_, ?_, ?_, ?_⟩
    · unfold generateAll
      rw [hfor, hg]
    · rw [List.map_cons, List.map_cons, hnames]
    · intro x hx
      rcases List.mem_cons.mp hx with h | h
      · subst h
        exact ⟨_, hfor, List.mem_cons_self _ _⟩
      · obtain ⟨pis, h1, h2⟩ := hruns x h
        exact ⟨pis, h1, List.mem_cons_of_mem _ h2⟩
    · intro r hr
      rcases List.mem_cons.mp hr with h | h
      · subst h
        exact findTruePrimeImplicants_nodup all M hallnd
      · exact hnd r h

/-- Two entries of a list with distinct first components that agree there are equal. -/
theorem eq_of_fst_eq_of_nodup {α β : Type} (l : List (α × β)) (hnd : (l.map Prod.fst).Nodup)
    (x y : α × β) (hx : x ∈ l) (hy : y ∈ l) (h : x.1 = y.1) : x = y :=
  List.inj_on_of_nodup_map hnd hx hy h

/-- The `usedBy` lists after the registration step, for two or more functions with distinct
names and terms that `parseInt` leaves unchanged: step 1 succeeds, and for every function
`f`, with `pis` the result of its own generation run, and every registry entry `e`: `f` is
in `usedBy` of `e` exactly when the pattern of `e` is a pattern of `pis`, and every pattern
of `pis` is a registry key; no `usedBy` list holds a name twice, and the registry holds no
key twice. -/
theorem registry_usedBy_of_lt (fs : List (List Char × List Nat)) (n : Nat) (D : List Nat)
    (h2 : 2 ≤ fs.length) (hnames : (fs.map Prod.fst).Nodup)
    (hM : ∀ f ∈ fs, ∀ m ∈ f.2, m < 2 ^ n ∧ m < 10 ^ 21) (hD : ∀ d ∈ D, d < 2 ^ n ∧ d < 10 ^ 21) :
    ∃ g, generateAll fs.length n D fs = some g ∧
      ((buildRegistry g).map RegistryEntry.pattern).Nodup ∧
      (∀ e ∈ buildRegistry g, e.usedBy.Nodup) ∧
      ∀ f ∈ fs, ∃ pis, generateFor fs.length f.2 n D = some pis ∧
        (∀ e ∈ buildRegistry g, (f.1 ∈ e.usedBy ↔ e.pattern ∈ pis.map Implicant.pattern)) ∧
        (∀ pi ∈ pis, pi.pattern ∈ (buildRegistry g).map RegistryEntry.pattern) := by
  obtain ⟨g, hg, hgn, hruns, hnd⟩ := generateAll_runs fs.length n D (by omega) hD fs hM
  have hgnd : (g.map Prod.fst).Nodup := by rw [hgn]; exact hnames
  obtain ⟨r1, r2, r3⟩ := foldl_registerPI_usedBy
    (g.flatMap (fun f => f.2.map (fun pi => (f.1, pi)))) [] [] List.nodup_nil
    (fun p => ⟨fun h => absurd h (List.not_mem_nil _),
      fun h => by obtain ⟨x, hx, _⟩ := h; exact absurd hx (List.not_mem_nil _)⟩)
    (fun e he => absurd he (List.not_mem_nil _))
  rw [← buildRegistry_eq_foldl] at r1 r2 r3
  simp only [List.nil_append] at r2 r3
  refine ⟨g, hg, r1, ?_, ?_⟩
  · intro e he
    rw [r3 e he]
    exact (registrations_nodup g e.pattern hgnd hnd).nodup hgnd
  intro f hf
  obtain ⟨pis, hfor, hin⟩ := hruns f hf
  refine ⟨pis, hfor, ?_, ?_⟩
  · intro e he
    rw [r3 e he, List.mem_map]
    constructor
    · rintro ⟨x, hx, hx1⟩
      rw [List.mem_filter, List.mem_flatMap] at hx
      obtain ⟨⟨r, hr, hxr⟩, hxp⟩ := hx
      rw [List.mem_map] at hxr
      obtain ⟨pi, hpi, rfl⟩ := hxr
      have hrf : r = (f.1, pis) :=
        eq_of_fst_eq_of_nodup g hgnd r (f.1, pis) hr hin hx1
      subst hrf
      rw [List.mem_map]
      exact ⟨pi, hpi, by simpa using hxp⟩
    · intro hp
      rw [List.mem_map] at hp
      obtain ⟨pi, hpi, hpe⟩ := hp
      refine ⟨(f.1, pi), ?_, rfl⟩
      rw [List.mem_filter, List.mem_flatMap]
      exact ⟨⟨(f.1, pis), hin, List.mem_map_of_mem _ hpi⟩, by simpa using hpe⟩
  · intro pi hpi
    rw [r2]
    refine ⟨(f.1, pi), ?_, rfl⟩
    rw [List.mem_flatMap]
    exact ⟨(f.1, pis), hin, List.mem_map_of_mem _ hpi⟩

/-- C17 for function names other than `__proto__`: for two or more functions with distinct
names, none of them `__proto__`, and targets and don't-cares below `2^n`, the normalised
map holds every function name, step 1 succeeds on it, and for every function `f` of the
normalised map, with `pis` the result of its own generation run, and every registry entry
`e`: `f` is in `usedBy` of `e` exactly when the pattern of `e` is a pattern of `pis`, and
every pattern of `pis` is a registry key; no `usedBy` list holds a name twice, and the
registry holds no key twice. -/
theorem registry_usedBy_exact (fs : List (List Char × List Nat)) (n : Nat) (D : List Nat)
    (h2 : 2 ≤ fs.length) (hnames : (fs.map Prod.fst).Nodup)
    (hproto : ∀ f ∈ fs, f.1 ≠ protoKey)
    (hM : ∀ f ∈ fs, ∀ m ∈ f.2, m < 2 ^ n) (hD : ∀ d ∈ D, d < 2 ^ n) :
    (normalizeMinterms fs).map Prod.fst = fs.map Prod.fst ∧
    ∃ g, generateAll (normalizeMinterms fs).length n D (normalizeMinterms fs) = some g ∧
      ((buildRegistry g).map RegistryEntry.pattern).Nodup ∧
      (∀ e ∈ buildRegistry g, e.usedBy.Nodup) ∧
      ∀ f ∈ normalizeMinterms fs,
        ∃ pis, generateFor (normalizeMinterms fs).length f.2 n D = some pis ∧
          (∀ e ∈ buildRegistry g,
            (f.1 ∈ e.usedBy ↔ e.pattern ∈ pis.map Implicant.pattern)) ∧
          (∀ pi ∈ pis, pi.pattern ∈ (buildRegistry g).map RegistryEntry.pattern) := by
  refine ⟨normalizeMinterms_names fs hproto, ?_⟩
  have hlen := normalizeMinterms_length fs hproto
  obtain ⟨g, hg, h1, h2, h3⟩ := registry_usedBy_of_lt (normalizeMinterms fs) n
    (D.map parseDecimal) (by omega) (normalizeMinterms_nodup fs hnames)
    (normalizeMinterms_range fs n hM) (map_parseDecimal_range D n hD)
  rw [← generateAll_parse_dontCares] at hg
  refine ⟨g, hg, h1, h2, ?_⟩
  intro f hf
  obtain ⟨pis, hpis, h4⟩ := h3 f hf
  rw [← generateFor_parse_dontCares] at hpis
  exact ⟨pis, hpis, h4⟩

set_option maxRecDepth 100000 in
/-- Instance of C17 for the functions `F1` and `F2` with the shared target `0`. -/
theorem registry_usedBy_exact_witness :
    2 ≤ twinFunctions.length ∧ (twinFunctions.map Prod.fst).Nodup ∧
    (∀ f ∈ twinFunctions, f.1 ≠ protoKey) ∧
    (∀ f ∈ twinFunctions, ∀ m ∈ f.2, m < 2 ^ 2) ∧ (∀ d ∈ [1, 2], d < 2 ^ 2) ∧
    (normalizeMinterms twinFunctions).map Prod.fst = twinFunctions.map Prod.fst ∧
    ∃ g, generateAll (normalizeMinterms twinFunctions).length 2 [1, 2]
        (normalizeMinterms twinFunctions) = some g ∧
      ((buildRegistry g).map RegistryEntry.pattern).Nodup ∧
      (∀ e ∈ buildRegistry g, e.usedBy.Nodup) ∧
      ∀ f ∈ normalizeMinterms twinFunctions,
        ∃ pis, generateFor (normalizeMinterms twinFunctions).length f.2 2 [1, 2] = some pis ∧
          (∀ e ∈ buildRegistry g,
            (f.1 ∈ e.usedBy ↔ e.pattern ∈ pis.map Implicant.pattern)) ∧
          (∀ pi ∈ pis, pi.pattern ∈ (buildRegistry g).map RegistryEntry.pattern) :=
  ⟨by decide, by decide, by decide, by decide, by decide,
    registry_usedBy_exact twinFunctions 2 [1, 2] (by decide) (by decide) (by decide)
      (by decide) (by decide)⟩

set_option maxRecDepth 100000 in
/-- C17 at three functions of one variable of which the first is stored under the key
`__proto__`, with the targets `0`, `1` and `0`: the normalised map holds the other two
functions only, so the generation runs in the all-implicants mode for `b` and `c`; the
registry holds the patterns `1` and `0` with `usedBy` lists `[b]` and `[c]`, although the
generation run on the targets of the first function returns the pattern `0`. -/
theorem registry_usedBy_proto_key :
    (protoFunctions.map Prod.fst).Nodup ∧
    (∀ f ∈ protoFunctions, ∀ m ∈ f.2, m < 2 ^ 1) ∧
    (normalizeMinterms protoFunctions).map Prod.fst = [['b'], ['c']] ∧
    (generateAll (normalizeMinterms protoFunctions).length 1 []
        (normalizeMinterms protoFunctions)).map
      (fun g => (buildRegistry g).map (fun e => (e.pattern, e.usedBy))) =
      some [(['1'], [['b']]), (['0'], [['c']])] ∧
    (protoKey, [0]) ∈ protoFunctions ∧
    (generateFor (normalizeMinterms protoFunctions).length [0] 1 []).map
      (fun pis => pis.map Implicant.pattern) = some [['0']] := by
  decide

/-! ## The individual-cost baseline -/

/-- Every entry of a table after `tableSet` is an old entry or the new one. -/
theorem mem_tableSet {κ ν : Type} [DecidableEq κ] (table : List (κ × ν)) (key : κ) (value : ν)
    (e : κ × ν) (he : e ∈ tableSet table key value) : e ∈ table ∨ e = (key, value) := by
  unfold tableSet at he
  split at he
  · rw [List.mem_map] at he
    obtain ⟨x, hx, hxe⟩ := he
    by_cases hk : x.1 = key
    · rw [if_pos hk] at hxe
      exact Or.inr hxe.symm
    · rw [if_neg hk] at hxe
      exact Or.inl (hxe ▸ hx)
  · rcases List.mem_append.mp he with h | h
    · exact Or.inl h
    · exact Or.inr (List.mem_singleton.mp h)

/-- The cost of a function entry is the summed cost of its PIs. -/
theorem systemFunctionEntry_cost (cache : Stage2Cache) (registry : List RegistryEntry)
    (sol : List (List Char)) (name : List Char) (M : List Nat) (s : FunctionSolution)
    (h : systemFunctionEntry cache registry sol name M = some s) :
    s.cost = (s.pis.map PI.cost).sum := by
  unfold systemFunctionEntry at h
  simp only [] at h
  split at h
  · cases h
    simp only []
    rw [foldl_cost_sum, Nat.zero_add]
  · cases h

/-- Every function entry of a system solution carries the summed cost of its PIs. -/
theorem systemSolutionOf_costs (cache : Stage2Cache) (registry : List RegistryEntry)
    (nm : List (List Char × List Nat)) (sol : List (List Char)) :
    ∀ e ∈ (systemSolutionOf cache registry nm sol).1.functions,
      e.2.cost = (e.2.pis.map PI.cost).sum := by
  have key : ∀ (l : List (List Char × List Nat)) (table : List (List Char × FunctionSolution)),
      (∀ e ∈ table, e.2.cost = (e.2.pis.map PI.cost).sum) →
      ∀ e ∈ l.foldl
        (fun functions f =>
          match systemFunctionEntry cache registry sol f.1 f.2 with
          | some s => tableSet functions f.1 s
          | none => functions) table,
        e.2.cost = (e.2.pis.map PI.cost).sum := by
    intro l
    induction l with
    | nil => intro table h; exact h
    | cons f l ih =>
      intro table h
      rw [List.foldl_cons]
      apply ih
      intro e he
      cases hs : systemFunctionEntry cache registry sol f.1 f.2 with
      | none =>
        rw [hs] at he
        exact h e he
      | some s =>
        rw [hs] at he
        rcases mem_tableSet _ _ _ _ he with h1 | h1
        · exact h e h1
        · rw [h1]
          exact systemFunctionEntry_cost cache registry sol f.1 f.2 s hs
  exact key nm [] (fun e he => absurd he (List.not_mem_nil _))

/-- The loop over the joint solutions keeps the cost property of all system solutions. -/
theorem foldl_systemStep_costs (registry : List RegistryEntry)
    (nm : List (List Char × List Nat)) (sols : List (List (List Char))) :
    ∀ st : SystemState,
      (∀ s ∈ st.allSystemSolutions, ∀ e ∈ s.functions,
        e.2.cost = (e.2.pis.map PI.cost).sum) →
      ∀ s ∈ (sols.foldl (systemStep registry nm) st).allSystemSolutions, ∀ e ∈ s.functions,
        e.2.cost = (e.2.pis.map PI.cost).sum := by
  induction sols with
  | nil => intro st h; exact h
  | cons sol sols ih =>
    intro st h
    rw [List.foldl_cons]
    apply ih
    unfold systemStep
    simp only []
    split
    · intro s hs
      rcases List.mem_append.mp hs with h1 | h1
      · exact h s h1
      · rw [List.mem_singleton.mp h1]
        exact systemSolutionOf_costs st.cache registry nm sol
    · exact h

/-- Summing a field with `reduce` from zero gives the sum of the field. -/
theorem foldl_solution_costs (l : List (List Char × FunctionSolution)) (a : Nat) :
    l.foldl (fun sum e => sum + e.2.cost) a = a + (l.map (fun e => e.2.cost)).sum := by
  induction l generalizing a with
  | nil => simp
  | cons x l ih => rw [List.foldl_cons, ih, List.map_cons, List.sum_cons]; omega

/-- The baseline of the multi-function path is the summed cost of the returned function
entries, each of which carries the summed cost of its own PIs. -/
theorem multiFunctionResult_baseline (cache : Stage2Cache)
    (nm : List (List Char × List Nat)) (functionPIs : List (List Char × List Implicant)) :
    (multiFunctionResult cache nm functionPIs).1.totalIndividualCost =
        ((multiFunctionResult cache nm functionPIs).1.solutions.map
          (fun e => e.2.cost)).sum ∧
      ∀ e ∈ (multiFunctionResult cache nm functionPIs).1.solutions,
        e.2.cost = (e.2.pis.map PI.cost).sum := by
  have hinv := foldl_systemStep_costs (buildRegistry functionPIs) nm
    (solveJointPatrickMethod cache
      (buildJointCoverageTable nm (buildRegistry functionPIs)) (buildRegistry functionPIs)
      nm).1
    ⟨[], [], (solveJointPatrickMethod cache
      (buildJointCoverageTable nm (buildRegistry functionPIs)) (buildRegistry functionPIs)
      nm).2⟩
    (fun s hs => absurd hs (List.not_mem_nil _))
  unfold multiFunctionResult
  simp only []
  split
  · next first others heq =>
    simp only []
    refine ⟨?_, ?_⟩
    · rw [foldl_solution_costs, Nat.zero_add]
    · intro e he
      exact hinv first (by rw [heq]; exact List.mem_cons_self _ _) e
        (List.mem_filter.mp he).1
  · simp

/-- The baseline as the code computes it: for two or more functions and terms that
`parseInt` leaves unchanged, the body after the normalisation returns a result whose
`totalIndividualCost` is the sum of the `cost` fields of the returned `solutions` entries,
that is of the per-function parts of the first joint solution, and the `cost` of each entry
is the summed cost of the PIs of that entry. -/
theorem executeNormalized_baseline_joint (cache : Stage2Cache)
    (fs : List (List Char × List Nat)) (n : Nat) (D : List Nat) (h2 : 2 ≤ fs.length)
    (hM : ∀ f ∈ fs, ∀ m ∈ f.2, m < 2 ^ n ∧ m < 10 ^ 21) (hD : ∀ d ∈ D, d < 2 ^ n ∧ d < 10 ^ 21) :
    ∃ res, executeNormalized cache fs n D = some res ∧
      res.1.totalIndividualCost = (res.1.solutions.map (fun e => e.2.cost)).sum ∧
      ∀ e ∈ res.1.solutions, e.2.cost = (e.2.pis.map PI.cost).sum := by
  obtain ⟨g, hg, _⟩ := generateAll_spec fs.length n D (by omega) hD fs hM
  exact ⟨multiFunctionResult cache fs g, executeNormalized_multi cache fs n D g h2 hg,
    multiFunctionResult_baseline cache fs g⟩

/-! ## Soundness of the exhaustive joint search -/

/-- One round of the exhaustive search keeps every recorded solution valid, with the
running minimum as its Stage-3 cost and the running count as its number of patterns. -/
theorem exhaustiveStep_sound (patrickTerms : List (List (List Char)))
    (P : List (List Char)) (nm : List (List Char × List Nat)) (registry : List RegistryEntry)
    (st : JointSearch) (combination : Nat)
    (hinv : ∀ sol ∈ st.optimalSolutions, isValidSolution sol patrickTerms = true ∧
      st.minCost = some (stage3CostOf (stage2SolutionsOf sol nm registry)) ∧
      st.minPICount = some sol.length) :
    ∀ sol ∈ (exhaustiveStep patrickTerms P nm registry st combination).optimalSolutions,
      isValidSolution sol patrickTerms = true ∧
      (exhaustiveStep patrickTerms P nm registry st combination).minCost =
        some (stage3CostOf (stage2SolutionsOf sol nm registry)) ∧
      (exhaustiveStep patrickTerms P nm registry st combination).minPICount =
        some sol.length := by
  unfold exhaustiveStep
  simp only []
  generalize (P.enum.filter (fun e => bitSelected combination e.1)).map Prod.snd = sel
  by_cases hvalid : isValidSolution sel patrickTerms = true
  · rw [if_neg (by simp [hvalid])]
    split
    · exact hinv
    · split
      · exact hinv
      · split
        · intro sol hsol
          simp only [List.mem_singleton] at hsol
          subst hsol
          exact ⟨hvalid, rfl, rfl⟩
        · split
          · next htie =>
            intro sol hsol
            simp only at hsol
            rcases List.mem_append.mp hsol with h | h
            · exact hinv sol h
            · rw [List.mem_singleton] at h
              subst h
              exact ⟨hvalid, htie.1, htie.2⟩
          · exact hinv
  · rw [if_pos (by simp [hvalid])]
    exact hinv

/-- The loop of the exhaustive search keeps the recorded solutions valid and level. -/
theorem foldl_exhaustiveStep_sound (patrickTerms : List (List (List Char)))
    (P : List (List Char)) (nm : List (List Char × List Nat)) (registry : List RegistryEntry)
    (cs : List Nat) :
    ∀ st : JointSearch,
      (∀ sol ∈ st.optimalSolutions, isValidSolution sol patrickTerms = true ∧
        st.minCost = some (stage3CostOf (stage2SolutionsOf sol nm registry)) ∧
        st.minPICount = some sol.length) →
      ∀ sol ∈ (cs.foldl (exhaustiveStep patrickTerms P nm registry) st).optimalSolutions,
        isValidSolution sol patrickTerms = true ∧
        (cs.foldl (exhaustiveStep patrickTerms P nm registry) st).minCost =
          some (stage3CostOf (stage2SolutionsOf sol nm registry)) ∧
        (cs.foldl (exhaustiveStep patrickTerms P nm registry) st).minPICount =
          some sol.length := by
  induction cs with
  | nil => intro st h; exact h
  | cons c cs ih =>
    intro st h
    rw [List.foldl_cons]
    exact ih _ (exhaustiveStep_sound patrickTerms P nm registry st c h)

/-- A valid selection holds a pattern of every term. -/
theorem isValidSolution_iff (solution : List (List Char))
    (patrickTerms : List (List (List Char))) :
    isValidSolution solution patrickTerms = true ↔
      ∀ term ∈ patrickTerms, ∃ p ∈ term, p ∈ solution := by
  unfold isValidSolution
  simp [List.all_eq_true, List.any_eq_true]

/-- C24 (joint solver soundness): for every joint coverage table, registry and function
map, every pattern set returned by `solveWithExhaustiveSearch` holds, for each entry of
the coverage table, at least one of the patterns listed in that entry, and any two
returned pattern sets have the same Stage-3 cost (`calculateThreeStagesCost`, whatever the
cache) and the same number of patterns. -/
theorem solveWithExhaustiveSearch_sound (cache : Stage2Cache)
    (coverageTable : List ((List Char × Nat) × List (List Char)))
    (registry : List RegistryEntry) (nm : List (List Char × List Nat)) :
    (∀ sol ∈ (solveWithExhaustiveSearch cache (coverageTable.map Prod.snd) registry nm).1,
      ∀ entry ∈ coverageTable, ∃ p ∈ entry.2, p ∈ sol) ∧
    (∀ s1 ∈ (solveWithExhaustiveSearch cache (coverageTable.map Prod.snd) registry nm).1,
      ∀ s2 ∈ (solveWithExhaustiveSearch cache (coverageTable.map Prod.snd) registry nm).1,
      ∀ c1 c2 : Stage2Cache,
        (calculateThreeStagesCost c1 s1 nm registry).1 =
          (calculateThreeStagesCost c2 s2 nm registry).1 ∧
        s1.length = s2.length) := by
  have key := foldl_exhaustiveStep_sound (coverageTable.map Prod.snd)
    (registry.map RegistryEntry.pattern) nm registry
    (List.range' 1 (2 ^ (registry.map RegistryEntry.pattern).length - 1))
    ⟨none, none, [], cache⟩ (fun sol hsol => absurd hsol (List.not_mem_nil _))
  refine ⟨?_, ?_⟩
  · intro sol hsol entry hentry
    have h := (key sol hsol).1
    rw [isValidSolution_iff] at h
    exact h entry.2 (List.mem_map_of_mem _ hentry)
  · intro s1 h1 s2 h2 c1 c2
    have k1 := key s1 h1
    have k2 := key s2 h2
    refine ⟨?_, ?_⟩
    · have := k1.2.1.symm.trans k2.2.1
      exact Option.some.inj this
    · have := k1.2.2.symm.trans k2.2.2
      exact Option.some.inj this

/-! ## Single rounds of the exhaustive search -/

/-- A round whose selection is not valid, or has a Stage-1 cost above `minCost`, leaves the
state as it is. -/
theorem exhaustiveStep_skip (patrickTerms : List (List (List Char)))
    (P : List (List Char)) (nm : List (List Char × List Nat)) (registry : List RegistryEntry)
    (st : JointSearch) (c : Nat)
    (h : (!isValidSolution ((P.enum.filter (fun e => bitSelected c e.1)).map Prod.snd)
        patrickTerms ||
      aboveMin (List.foldl (fun a b => a + b) 0
        (((P.enum.filter (fun e => bitSelected c e.1)).map Prod.snd).map
          (registryCost registry))) st.minCost) = true) :
    exhaustiveStep patrickTerms P nm registry st c = st := by
  unfold exhaustiveStep
  simp only []
  rw [Bool.or_eq_true] at h
  rcases h with h | h
  · rw [if_pos h]
  · by_cases hv : (!isValidSolution ((P.enum.filter (fun e => bitSelected c e.1)).map Prod.snd)
        patrickTerms) = true
    · rw [if_pos hv]
    · rw [if_neg hv, if_pos h]

/-- Rounds that are all skipped at the value `m` of `minCost` leave the state as it is. -/
theorem foldl_exhaustiveStep_skip (patrickTerms : List (List (List Char)))
    (P : List (List Char)) (nm : List (List Char × List Nat)) (registry : List RegistryEntry)
    (m : Option Nat) (cs : List Nat)
    (h : cs.all (fun c =>
      !isValidSolution ((P.enum.filter (fun e => bitSelected c e.1)).map Prod.snd)
        patrickTerms ||
      aboveMin (List.foldl (fun a b => a + b) 0
        (((P.enum.filter (fun e => bitSelected c e.1)).map Prod.snd).map
          (registryCost registry))) m) = true)
    (st : JointSearch) (hst : st.minCost = m) :
    cs.foldl (exhaustiveStep patrickTerms P nm registry) st = st := by
  induction cs with
  | nil => rfl
  | cons c cs ih =>
    rw [List.all_cons, Bool.and_eq_true] at h
    rw [List.foldl_cons, exhaustiveStep_skip patrickTerms P nm registry st c (by
      rw [hst]; exact h.1)]
    exact ih h.2

/-- The values of `minCost`, `minPICount` and the solution list after a round that computes
the Stage-3 cost `F` of its selection `S`. -/
theorem exhaustiveStep_evaluated (patrickTerms : List (List (List Char)))
    (P : List (List Char)) (nm : List (List Char × List Nat)) (registry : List RegistryEntry)
    (st : JointSearch) (c : Nat) (S : List (List Char)) (F : Nat) (a b : Option Nat)
    (sols : List (List (List Char)))
    (hst : (st.minCost, st.minPICount, st.optimalSolutions) = (a, b, sols))
    (hsel : (P.enum.filter (fun e => bitSelected c e.1)).map Prod.snd = S)
    (hv : isValidSolution S patrickTerms = true)
    (hnp : aboveMin (List.foldl (fun a b => a + b) 0 (S.map (registryCost registry))) a = false)
    (hF : stage3CostOf (stage2SolutionsOf S nm registry) = F) :
    ((exhaustiveStep patrickTerms P nm registry st c).minCost,
      (exhaustiveStep patrickTerms P nm registry st c).minPICount,
      (exhaustiveStep patrickTerms P nm registry st c).optimalSolutions) =
      if aboveMin F a = true then (a, b, sols)
      else if belowMin F a = true ∨ (a = some F ∧ belowMin S.length b = true) then
        (some F, some S.length, [S])
      else if a = some F ∧ b = some S.length then (a, b, sols ++ [S])
      else (a, b, sols) := by
  obtain ⟨a1, b1, o1, d1⟩ := st
  simp only [Prod.mk.injEq] at hst
  obtain ⟨h1, h2, h3⟩ := hst
  subst h1 h2 h3
  unfold exhaustiveStep
  simp only []
  rw [hsel, if_neg (by simp [hv])]
  simp only [List.foldl_map] at hnp ⊢
  rw [if_neg (by simp [hnp])]
  have hfin : (calculateThreeStagesCost d1 S nm registry).1 = F := hF
  rw [hfin]
  split_ifs <;> rfl

/-! ## The exhaustive search as a sequence of skipped and computed rounds -/

/-- Rounds `cs` that are skipped, then a round `c` that computes a Stage-3 cost: the
solution list at the end of the search is the one the remaining rounds produce from the
values after round `c`. -/
theorem exhaustiveSearch_segment (patrickTerms : List (List (List Char)))
    (P : List (List Char)) (nm : List (List Char × List Nat)) (registry : List RegistryEntry)
    (st : JointSearch) (a b : Option Nat) (sols : List (List (List Char)))
    (hst : (st.minCost, st.minPICount, st.optimalSolutions) = (a, b, sols))
    (cs : List Nat) (c : Nat) (rest : List Nat) (S : List (List Char)) (F : Nat)
    (a2 b2 : Option Nat) (sols2 R : List (List (List Char)))
    (hskip : cs.all (fun c =>
      !isValidSolution ((P.enum.filter (fun e => bitSelected c e.1)).map Prod.snd)
        patrickTerms ||
      aboveMin (List.foldl (fun a b => a + b) 0
        (((P.enum.filter (fun e => bitSelected c e.1)).map Prod.snd).map
          (registryCost registry))) a) = true)
    (hsel : (P.enum.filter (fun e => bitSelected c e.1)).map Prod.snd = S)
    (hv : isValidSolution S patrickTerms = true)
    (hnp : aboveMin (List.foldl (fun a b => a + b) 0 (S.map (registryCost registry))) a = false)
    (hF : stage3CostOf (stage2SolutionsOf S nm registry) = F)
    (hnew : (if aboveMin F a = true then (a, b, sols)
      else if belowMin F a = true ∨ (a = some F ∧ belowMin S.length b = true) then
        (some F, some S.length, [S])
      else if a = some F ∧ b = some S.length then (a, b, sols ++ [S])
      else (a, b, sols)) = (a2, b2, sols2))
    (hrest : ∀ st2 : JointSearch,
      (st2.minCost, st2.minPICount, st2.optimalSolutions) = (a2, b2, sols2) →
      (rest.foldl (exhaustiveStep patrickTerms P nm registry) st2).optimalSolutions = R) :
    ((cs ++ c :: rest).foldl (exhaustiveStep patrickTerms P nm registry)
      st).optimalSolutions = R := by
  rw [List.foldl_append, List.foldl_cons,
    foldl_exhaustiveStep_skip patrickTerms P nm registry a cs hskip st
      (congrArg Prod.fst hst)]
  apply hrest
  rw [exhaustiveStep_evaluated patrickTerms P nm registry st c S F a b sols hst hsel hv hnp hF,
    hnew]

/-- Rounds that are all skipped end the search with the solution list reached so far. -/
theorem exhaustiveSearch_end (patrickTerms : List (List (List Char)))
    (P : List (List Char)) (nm : List (List Char × List Nat)) (registry : List RegistryEntry)
    (st : JointSearch) (a b : Option Nat) (sols : List (List (List Char)))
    (hst : (st.minCost, st.minPICount, st.optimalSolutions) = (a, b, sols))
    (cs : List Nat)
    (hskip : cs.all (fun c =>
      !isValidSolution ((P.enum.filter (fun e => bitSelected c e.1)).map Prod.snd)
        patrickTerms ||
      aboveMin (List.foldl (fun a b => a + b) 0
        (((P.enum.filter (fun e => bitSelected c e.1)).map Prod.snd).map
          (registryCost registry))) a) = true) :
    (cs.foldl (exhaustiveStep patrickTerms P nm registry) st).optimalSolutions = sols := by
  rw [foldl_exhaustiveStep_skip patrickTerms P nm registry a cs hskip st
    (congrArg Prod.fst hst)]
  exact congrArg (fun t => t.2.2) hst

/-! ## The Stage-1 bound of the exhaustive search at a concrete input -/

set_option maxRecDepth 1000000 in
theorem corner_generated : generateAll 2 2 [1, 2] cornerFunctions = some cornerPIs := by
  decide!

set_option maxRecDepth 1000000 in
theorem corner_registry : buildRegistry cornerPIs = cornerRegistry := by
  decide!

set_option maxRecDepth 1000000 in
theorem corner_terms :
    (buildJointCoverageTable cornerFunctions cornerRegistry).map Prod.snd = cornerTerms := by
  decide!

set_option maxRecDepth 1000000 in
/-- The Stage-2 results of the selections whose Stage-3 cost the search computes, and of
`cornerSelection`. -/
theorem corner_stage2 :
    [[['1', '1'], ['0', '0']], [['-', '1'], ['0', '0']], [['1', '-'], ['0', '0']],
      [['1', '1'], ['-', '0']], [['-', '1'], ['-', '0']], [['1', '-'], ['-', '0']],
      [['-', '1'], ['0', '-']], [['1', '-'], ['0', '-']], cornerSelection].map
      (fun S => stage2SolutionsOf S cornerFunctions cornerRegistry) =
    [[(['F', '1'], [⟨['1', '1'], [3], 3⟩]), (['F', '2'], [⟨['0', '0'], [0], 3⟩])],
      [(['F', '1'], [⟨['-', '1'], [3], 1⟩]), (['F', '2'], [⟨['0', '0'], [0], 3⟩])],
      [(['F', '1'], [⟨['1', '-'], [3], 1⟩]), (['F', '2'], [⟨['0', '0'], [0], 3⟩])],
      [(['F', '1'], [⟨['1', '1'], [3], 3⟩]), (['F', '2'], [⟨['-', '0'], [0], 1⟩])],
      [(['F', '1'], [⟨['-', '1'], [3], 1⟩]), (['F', '2'], [⟨['-', '0'], [0], 1⟩])],
      [(['F', '1'], [⟨['1', '-'], [3], 1⟩]), (['F', '2'], [⟨['-', '0'], [0], 1⟩])],
      [(['F', '1'], [⟨['-', '1'], [3], 1⟩]), (['F', '2'], [⟨['0', '-'], [0], 1⟩])],
      [(['F', '1'], [⟨['1', '-'], [3], 1⟩]), (['F', '2'], [⟨['0', '-'], [0], 1⟩])],
      [(['F', '1'], []), (['F', '2'], [⟨['-', '0'], [0], 1⟩])]] := by
  decide!

set_option maxRecDepth 1000000 in
/-- The Stage-3 costs of the selections whose Stage-3 cost the search computes, and of
`cornerSelection`. -/
theorem corner_stage3 :
    [[['1', '1'], ['0', '0']], [['-', '1'], ['0', '0']], [['1', '-'], ['0', '0']],
      [['1', '1'], ['-', '0']], [['-', '1'], ['-', '0']], [['1', '-'], ['-', '0']],
      [['-', '1'], ['0', '-']], [['1', '-'], ['0', '-']], cornerSelection].map
      (fun S => stage3CostOf (stage2SolutionsOf S cornerFunctions cornerRegistry)) =
    [6, 4, 4, 4, 2, 2, 2, 2, 1] := by
  rw [show (fun S => stage3CostOf (stage2SolutionsOf S cornerFunctions cornerRegistry)) =
    stage3CostOf ∘ (fun S => stage2SolutionsOf S cornerFunctions cornerRegistry) from rfl,
    ← List.map_map, corner_stage2]
  decide

/-- The solution list that `solveWithExhaustiveSearch` returns is the one of the state
after the last round. -/
theorem solveWithExhaustiveSearch_fst (cache : Stage2Cache)
    (patrickTerms : List (List (List Char))) (registry : List RegistryEntry)
    (nm : List (List Char × List Nat)) :
    (solveWithExhaustiveSearch cache patrickTerms registry nm).1 =
      ((List.range' 1 (2 ^ (registry.map RegistryEntry.pattern).length - 1)).foldl
        (exhaustiveStep patrickTerms (registry.map RegistryEntry.pattern) nm registry)
        ⟨none, none, [], cache⟩).optimalSolutions := rfl

set_option maxRecDepth 1000000 in
theorem corner_solutions :
    (solveWithExhaustiveSearch [] cornerTerms cornerRegistry cornerFunctions).1 =
      [[['-', '1'], ['-', '0']], [['1', '-'], ['-', '0']], [['-', '1'], ['0', '-']],
        [['1', '-'], ['0', '-']]] := by
  have h3 := corner_stage3
  simp only [List.map_cons, List.map_nil, List.cons.injEq, and_true] at h3
  obtain ⟨f1, f2, f3, f4, f5, f6, f7, f8, _⟩ := h3
  rw [solveWithExhaustiveSearch_fst]
  have hr : List.range' 1 (2 ^ (cornerRegistry.map RegistryEntry.pattern).length - 1) =
      [1, 2, 3, 4, 5, 6, 7, 8] ++ 9 :: ([] ++ 10 :: ([11] ++ 12 :: ([13, 14, 15, 16] ++ 17 ::
        ([] ++ 18 :: ([19] ++ 20 ::
          ([21, 22, 23, 24, 25, 26, 27, 28, 29, 30, 31, 32, 33] ++ 34 :: ([35] ++ 36 ::
            [37, 38, 39, 40, 41, 42, 43, 44, 45, 46, 47, 48, 49, 50, 51, 52, 53, 54, 55, 56,
              57, 58, 59, 60, 61, 62, 63]))))))) := by
    decide
  rw [hr]
  refine exhaustiveSearch_segment _ _ _ _ _ none none [] rfl _ 9 _
    [['1', '1'], ['0', '0']] 6 (some 6) (some 2) [[['1', '1'], ['0', '0']]] _
    (by decide) (by decide) (by decide) (by decide) f1 (by decide) (fun st1 h1 => ?_)
  refine exhaustiveSearch_segment _ _ _ _ st1 _ _ _ h1 _ 10 _
    [['-', '1'], ['0', '0']] 4 (some 4) (some 2) [[['-', '1'], ['0', '0']]] _
    (by decide) (by decide) (by decide) (by decide) f2 (by decide) (fun st2 h2 => ?_)
  refine exhaustiveSearch_segment _ _ _ _ st2 _ _ _ h2 _ 12 _
    [['1', '-'], ['0', '0']] 4 (some 4) (some 2)
    [[['-', '1'], ['0', '0']], [['1', '-'], ['0', '0']]] _
    (by decide) (by decide) (by decide) (by decide) f3 (by decide) (fun st3 h3 => ?_)
  refine exhaustiveSearch_segment _ _ _ _ st3 _ _ _ h3 _ 17 _
    [['1', '1'], ['-', '0']] 4 (some 4) (some 2)
    [[['-', '1'], ['0', '0']], [['1', '-'], ['0', '0']], [['1', '1'], ['-', '0']]] _
    (by decide) (by decide) (by decide) (by decide) f4 (by decide) (fun st4 h4 => ?_)
  refine exhaustiveSearch_segment _ _ _ _ st4 _ _ _ h4 _ 18 _
    [['-', '1'], ['-', '0']] 2 (some 2) (some 2) [[['-', '1'], ['-', '0']]] _
    (by decide) (by decide) (by decide) (by decide) f5 (by decide) (fun st5 h5 => ?_)
  refine exhaustiveSearch_segment _ _ _ _ st5 _ _ _ h5 _ 20 _
    [['1', '-'], ['-', '0']] 2 (some 2) (some 2)
    [[['-', '1'], ['-', '0']], [['1', '-'], ['-', '0']]] _
    (by decide) (by decide) (by decide) (by decide) f6 (by decide) (fun st6 h6 => ?_)
  refine exhaustiveSearch_segment _ _ _ _ st6 _ _ _ h6 _ 34 _
    [['-', '1'], ['0', '-']] 2 (some 2) (some 2)
    [[['-', '1'], ['-', '0']], [['1', '-'], ['-', '0']], [['-', '1'], ['0', '-']]] _
    (by decide) (by decide) (by decide) (by decide) f7 (by decide) (fun st7 h7 => ?_)
  refine exhaustiveSearch_segment _ _ _ _ st7 _ _ _ h7 _ 36 _
    [['1', '-'], ['0', '-']] 2 (some 2) (some 2)
    [[['-', '1'], ['-', '0']], [['1', '-'], ['-', '0']], [['-', '1'], ['0', '-']],
      [['1', '-'], ['0', '-']]] _
    (by decide) (by decide) (by decide) (by decide) f8 (by decide) (fun st8 h8 => ?_)
  exact exhaustiveSearch_end _ _ _ _ st8 _ _ _ h8 _ (by decide)

set_option maxRecDepth 1000000 in
/-- C25 at the functions `F1 = Σm(3)` and `F2 = Σm(0)` of two variables with don't-cares `1`
and `2`: the registry holds six patterns, the exhaustive search returns four selections of
Stage-3 cost 2, and the selection of the registry patterns `-1`, `1-` and `-0` satisfies
every coverage entry and has Stage-3 cost 1; its Stage-1 cost is 3. -/
theorem solveWithExhaustiveSearch_misses_optimum :
    generateAll 2 2 [1, 2] cornerFunctions = some cornerPIs ∧
    buildRegistry cornerPIs = cornerRegistry ∧
    (buildJointCoverageTable cornerFunctions cornerRegistry).map Prod.snd = cornerTerms ∧
    (solveWithExhaustiveSearch [] cornerTerms cornerRegistry cornerFunctions).1 =
      [[['-', '1'], ['-', '0']], [['1', '-'], ['-', '0']], [['-', '1'], ['0', '-']],
        [['1', '-'], ['0', '-']]] ∧
    (∀ sol ∈ (solveWithExhaustiveSearch [] cornerTerms cornerRegistry cornerFunctions).1,
      (calculateThreeStagesCost [] sol cornerFunctions cornerRegistry).1 = 2) ∧
    cornerSelection.Sublist (cornerRegistry.map RegistryEntry.pattern) ∧
    isValidSolution cornerSelection cornerTerms = true ∧
    (calculateThreeStagesCost [] cornerSelection cornerFunctions cornerRegistry).1 = 1 ∧
    (cornerSelection.map (registryCost cornerRegistry)).sum = 3 := by
  have h3 := corner_stage3
  simp only [List.map_cons, List.map_nil, List.cons.injEq, and_true] at h3
  obtain ⟨_, _, _, _, f5, f6, f7, f8, f9⟩ := h3
  refine ⟨corner_generated, corner_registry, corner_terms, corner_solutions, ?_, ?_, ?_, f9,
    ?_⟩
  · rw [corner_solutions]
    intro sol hsol
    simp only [List.mem_cons, List.mem_singleton, List.not_mem_nil, or_false] at hsol
    rcases hsol with h | h | h | h
    · rw [h]; exact f5
    · rw [h]; exact f6
    · rw [h]; exact f7
    · rw [h]; exact f8
  · decide
  · decide
  · decide

/-! ## The Stage-3 cost as a sum over the used patterns -/

/-- Number of PIs of a list that carry the pattern. -/
theorem length_filter_append_singleton (pre : List PI) (pi : PI) (p : List Char) :
    ((pre ++ [pi]).filter (fun x => decide (x.pattern = p))).length =
      (pre.filter (fun x => decide (x.pattern = p))).length +
        (if pi.pattern = p then 1 else 0) := by
  rw [List.filter_append, List.length_append]
  by_cases h : pi.pattern = p
  · simp [h]
  · simp [h]

/-- Counting one more PI keeps the usage map in step with the PIs counted so far: one entry
per pattern, with the cost of the pattern and the number of PIs that carry it. -/
theorem countUsage_counts (c : List Char → Nat) (U : List PIUsage) (pre : List PI) (pi : PI)
    (hnd : (U.map PIUsage.pattern).Nodup)
    (hU : ∀ u ∈ U, u.baseCost = c u.pattern ∧
      u.usageCount = (pre.filter (fun x => decide (x.pattern = u.pattern))).length)
    (hmem : ∀ p, p ∈ U.map PIUsage.pattern ↔ p ∈ pre.map PI.pattern)
    (hpi : pi.cost = c pi.pattern) :
    ((countUsage U pi).map PIUsage.pattern).Nodup ∧
    (∀ u ∈ countUsage U pi, u.baseCost = c u.pattern ∧
      u.usageCount = ((pre ++ [pi]).filter (fun x => decide (x.pattern = u.pattern))).length) ∧
    (∀ p, p ∈ (countUsage U pi).map PIUsage.pattern ↔ p ∈ (pre ++ [pi]).map PI.pattern) := by
  unfold countUsage
  by_cases hany : U.any (fun u => decide (u.pattern = pi.pattern)) = true
  · rw [if_pos hany]
    have hin : pi.pattern ∈ U.map PIUsage.pattern := by
      rw [List.any_eq_true] at hany
      obtain ⟨u, hu, hup⟩ := hany
      exact List.mem_map.mpr ⟨u, hu, by simpa using hup⟩
    have hpat : (U.map (fun u => if u.pattern = pi.pattern then
        { u with usageCount := u.usageCount + 1 } else u)).map PIUsage.pattern =
        U.map PIUsage.pattern := by
      rw [List.map_map]
      apply List.map_congr_left
      intro u _
      simp only [Function.comp]
      split <;> rfl
    refine ⟨by rw [hpat]; exact hnd, ?_, ?_⟩
    · intro u hu
      rw [List.mem_map] at hu
      obtain ⟨v, hv, rfl⟩ := hu
      obtain ⟨h1, h2⟩ := hU v hv
      by_cases hvp : v.pattern = pi.pattern
      · rw [if_pos hvp]
        simp only []
        rw [length_filter_append_singleton, if_pos hvp.symm, ← h2]
        exact ⟨h1, rfl⟩
      · rw [if_neg hvp, length_filter_append_singleton, if_neg (fun h => hvp h.symm),
          Nat.add_zero]
        exact ⟨h1, h2⟩
    · intro p
      rw [hpat, hmem p, List.map_append, List.mem_append]
      constructor
      · exact Or.inl
      · rintro (h | h)
        · exact h
        · rw [List.map_singleton, List.mem_singleton] at h
          rw [h, ← hmem]
          exact hin
  · rw [if_neg hany]
    have hnot : pi.pattern ∉ U.map PIUsage.pattern := by
      intro hin
      apply hany
      rw [List.any_eq_true]
      obtain ⟨u, hu, hup⟩ := List.mem_map.mp hin
      exact ⟨u, hu, by simpa using hup⟩
    have hzero : (pre.filter (fun x => decide (x.pattern = pi.pattern))).length = 0 := by
      rw [List.length_eq_zero, List.filter_eq_nil_iff]
      intro x hx hxp
      apply hnot
      rw [hmem]
      exact List.mem_map.mpr ⟨x, hx, by simpa using hxp⟩
    refine ⟨?_, ?_, ?_⟩
    · rw [List.map_append, List.map_singleton]
      exact List.Nodup.append hnd (List.nodup_singleton _)
        (by
          intro a ha hb
          rw [List.mem_singleton] at hb
          have hb2 : a = pi.pattern := hb
          rw [hb2] at ha
          exact hnot ha)
    · intro u hu
      rcases List.mem_append.mp hu with h | h
      · obtain ⟨h1, h2⟩ := hU u h
        have hne : pi.pattern ≠ u.pattern := by
          intro heq
          exact hnot (heq ▸ List.mem_map_of_mem _ h)
        rw [length_filter_append_singleton, if_neg hne, Nat.add_zero]
        exact ⟨h1, h2⟩
      · rw [List.mem_singleton] at h
        subst h
        simp only []
        rw [length_filter_append_singleton, if_pos rfl, hzero]
        exact ⟨hpi, rfl⟩
    · intro p
      rw [List.map_append, List.mem_append, List.map_append, List.mem_append, hmem p]
      simp

/-- The usage map after a list of PIs has been counted. -/
theorem foldl_countUsage_counts (c : List Char → Nat) (L : List PI) :
    ∀ (U : List PIUsage) (pre : List PI),
      (U.map PIUsage.pattern).Nodup →
      (∀ u ∈ U, u.baseCost = c u.pattern ∧
        u.usageCount = (pre.filter (fun x => decide (x.pattern = u.pattern))).length) →
      (∀ p, p ∈ U.map PIUsage.pattern ↔ p ∈ pre.map PI.pattern) →
      (∀ pi ∈ L, pi.cost = c pi.pattern) →
      ((L.foldl countUsage U).map PIUsage.pattern).Nodup ∧
      (∀ u ∈ L.foldl countUsage U, u.baseCost = c u.pattern ∧
        u.usageCount =
          ((pre ++ L).filter (fun x => decide (x.pattern = u.pattern))).length) ∧
      (∀ p, p ∈ (L.foldl countUsage U).map PIUsage.pattern ↔
        p ∈ (pre ++ L).map PI.pattern) := by
  induction L with
  | nil =>
    intro U pre hnd hU hmem _
    rw [List.append_nil]
    exact ⟨hnd, hU, hmem⟩
  | cons pi L ih =>
    intro U pre hnd hU hmem hL
    obtain ⟨h1, h2, h3⟩ := countUsage_counts c U pre pi hnd hU hmem
      (hL pi (List.mem_cons_self _ _))
    have := ih (countUsage U pi) (pre ++ [pi]) h1 h2 h3
      (fun x hx => hL x (List.mem_cons_of_mem _ hx))
    rw [List.append_assoc, List.singleton_append] at this
    exact this

/-- In lists without a repeated pattern, the PIs that carry a pattern are as many as the
lists that hold it. -/
theorem length_filter_flatMap {α : Type} (R : α → List PI) (p : List Char) (l : List α)
    (hnd : ∀ f ∈ l, ((R f).map PI.pattern).Nodup) :
    ((l.flatMap R).filter (fun x => decide (x.pattern = p))).length =
      (l.filter (fun f => decide (p ∈ (R f).map PI.pattern))).length := by
  induction l with
  | nil => rfl
  | cons f l ih =>
    rw [List.flatMap_cons, List.filter_append, List.length_append,
      ih (fun x hx => hnd x (List.mem_cons_of_mem _ hx))]
    have hf := hnd f (List.mem_cons_self _ _)
    have hone : ((R f).filter (fun x => decide (x.pattern = p))).length =
        if p ∈ (R f).map PI.pattern then 1 else 0 := by
      generalize R f = X at hf
      induction X with
      | nil => simp
      | cons x X ihX =>
        rw [List.map_cons, List.nodup_cons] at hf
        rw [List.filter_cons]
        by_cases hx : x.pattern = p
        · have hnot : p ∉ X.map PI.pattern := hx ▸ hf.1
          rw [if_pos (by simpa using hx), List.length_cons, ihX hf.2, if_neg hnot,
            if_pos (by rw [List.map_cons, hx]; exact List.mem_cons_self _ _)]
        · rw [if_neg (by simpa using hx), ihX hf.2]
          have hiff : p ∈ (x :: X).map PI.pattern ↔ p ∈ X.map PI.pattern := by
            rw [List.map_cons, List.mem_cons]
            constructor
            · rintro (h | h)
              · exact absurd h.symm hx
              · exact h
            · exact Or.inr
          by_cases hp : p ∈ X.map PI.pattern
          · rw [if_pos hp, if_pos (hiff.mpr hp)]
          · rw [if_neg hp, if_neg (fun h => hp (hiff.mp h))]
    rw [hone, List.filter_cons]
    by_cases hp : p ∈ (R f).map PI.pattern
    · rw [if_pos hp, if_pos (by simpa using hp), List.length_cons]
      omega
    · rw [if_neg hp, if_neg (by simpa using hp)]
      omega

/-- Functions without PIs in the selection have an empty Stage-2 result. -/
theorem flatMap_filter_of_nil {α β : Type} (q : α → Bool) (R : α → List β) (l : List α)
    (h : ∀ f ∈ l, q f = false → R f = []) : (l.filter q).flatMap R = l.flatMap R := by
  induction l with
  | nil => rfl
  | cons f l ih =>
    have ih2 := ih (fun x hx => h x (List.mem_cons_of_mem _ hx))
    rw [List.filter_cons]
    cases hq : q f with
    | true => rw [if_pos rfl, List.flatMap_cons, List.flatMap_cons, ih2]
    | false =>
      rw [if_neg (by simp), List.flatMap_cons, h f (List.mem_cons_self _ _) hq,
        List.nil_append, ih2]

/-- The PIs of all Stage-2 results of a selection, function by function. -/
theorem stage2SolutionsOf_flatMap (S : List (List Char)) (nm : List (List Char × List Nat))
    (registry : List RegistryEntry) (hnames : (nm.map Prod.fst).Nodup) :
    (stage2SolutionsOf S nm registry).flatMap Prod.snd =
      nm.flatMap (stage2ResultOf S registry) := by
  rw [stage2SolutionsOf_eq S nm registry hnames, List.flatMap_map]
  exact flatMap_filter_of_nil _ (stage2ResultOf S registry) nm (by
    intro f _ hq
    have hlen : (functionPIsOf S registry f.1 f.2).length = 0 := by
      simpa using hq
    unfold stage2ResultOf
    rw [List.length_eq_zero.mp hlen]
    rfl)

/-- The Stage-2 result of a function holds PIs of the selection with their registry cost,
and no pattern twice when the selection holds no pattern twice. -/
theorem stage2ResultOf_facts (S : List (List Char)) (registry : List RegistryEntry)
    (f : List Char × List Nat) (hS : S.Nodup) :
    ((stage2ResultOf S registry f).map PI.pattern).Nodup ∧
    ∀ pi ∈ stage2ResultOf S registry f,
      pi.pattern ∈ S ∧ pi.cost = registryCost registry pi.pattern := by
  have hspec := removeRedundantPIsForStage2_spec (functionPIsOf S registry f.1 f.2) f.2
  have hpnd : ((functionPIsOf S registry f.1 f.2).map PI.pattern).Nodup :=
    (functionPIsOf_patterns_sublist S registry f.1 f.2).nodup hS
  refine ⟨?_, ?_⟩
  · unfold stage2ResultOf
    apply List.Nodup.map_on
    · intro x hx y hy hxy
      exact List.inj_on_of_nodup_map hpnd (hspec.1 x hx) (hspec.1 y hy) hxy
    · exact hspec.2 (List.Nodup.of_map _ hpnd)
  · intro pi hpi
    obtain ⟨h1, e, he, _, hcost⟩ := mem_functionPIsOf S registry f.1 f.2 pi (hspec.1 pi hpi)
    exact ⟨h1, by rw [hcost, registryCost_of_get registry pi.pattern e he]⟩

/-- C26 (Stage-3 cost formula): for every selection `S` without a repeated pattern, every
function map with distinct names and every registry, `calculateThreeStagesCost` returns
the sum, over the patterns `p` of `S` that occur in the Stage-2 result of at least one
function, of the registry cost of `p` plus `U_p - 1`, where `U_p` is the number of
functions whose Stage-2 result holds `p`. -/
theorem calculateThreeStagesCost_formula (cache : Stage2Cache) (S : List (List Char))
    (nm : List (List Char × List Nat)) (registry : List RegistryEntry)
    (hS : S.Nodup) (hnames : (nm.map Prod.fst).Nodup) :
    (calculateThreeStagesCost cache S nm registry).1 =
      ((S.filter (fun p =>
          nm.any (fun f => decide (p ∈ (stage2ResultOf S registry f).map PI.pattern)))).map
        (fun p => registryCost registry p +
          ((nm.filter
            (fun f => decide (p ∈ (stage2ResultOf S registry f).map PI.pattern))).length
            - 1))).sum := by
  have hfacts := fun f => stage2ResultOf_facts S registry f hS
  obtain ⟨h1, h2, h3⟩ := foldl_countUsage_counts (registryCost registry)
    (nm.flatMap (stage2ResultOf S registry)) [] [] List.nodup_nil
    (fun u hu => absurd hu (List.not_mem_nil _)) (fun p => by simp)
    (by
      intro pi hpi
      obtain ⟨f, _, hf⟩ := List.mem_flatMap.mp hpi
      exact ((hfacts f).2 pi hf).2)
  rw [List.nil_append] at h2 h3
  unfold calculateThreeStagesCost
  simp only []
  unfold stage3CostOf
  simp only []
  rw [← foldl_flatMap countUsage Prod.snd, stage2SolutionsOf_flatMap S nm registry hnames,
    foldl_usage_total, Nat.zero_add]
  have hval : ∀ u ∈ (nm.flatMap (stage2ResultOf S registry)).foldl countUsage [],
      u.baseCost + (u.usageCount - 1) =
        (fun p => registryCost registry p +
          ((nm.filter
            (fun f => decide (p ∈ (stage2ResultOf S registry f).map PI.pattern))).length
            - 1)) u.pattern := by
    intro u hu
    obtain ⟨hb, hc⟩ := h2 u hu
    simp only []
    rw [hb, hc, length_filter_flatMap (stage2ResultOf S registry) u.pattern nm
      (fun f _ => (hfacts f).1)]
  rw [List.map_congr_left hval]
  have hcomp : ∀ (g : List Char → Nat) (U : List PIUsage),
      U.map (fun a => g a.pattern) = (U.map PIUsage.pattern).map g := by
    intro g U
    rw [List.map_map]
    rfl
  generalize (fun p => registryCost registry p +
    ((nm.filter
      (fun f => decide (p ∈ (stage2ResultOf S registry f).map PI.pattern))).length - 1)) = g
  rw [hcomp g]
  apply List.Perm.sum_eq
  apply List.Perm.map
  rw [List.perm_ext_iff_of_nodup h1 (hS.filter _)]
  intro p
  rw [h3 p, List.mem_filter, List.mem_map]
  constructor
  · rintro ⟨pi, hpi, rfl⟩
    obtain ⟨f, hf, hfp⟩ := List.mem_flatMap.mp hpi
    refine ⟨((hfacts f).2 pi hfp).1, ?_⟩
    rw [List.any_eq_true]
    exact ⟨f, hf, by simpa using List.mem_map_of_mem PI.pattern hfp⟩
  · rintro ⟨_, hany⟩
    rw [List.any_eq_true] at hany
    obtain ⟨f, hf, hfp⟩ := hany
    have hfp2 : p ∈ (stage2ResultOf S registry f).map PI.pattern := by simpa using hfp
    obtain ⟨pi, hpi, rfl⟩ := List.mem_map.mp hfp2
    exact ⟨pi, List.mem_flatMap.mpr ⟨f, hf, hpi⟩, rfl⟩

/-- Instance of C26 for the three patterns of `sharedRegistry`, all selected: only `0-`
is left by Stage 2, in both functions, so the cost is `1 + (2 - 1)`. -/
theorem calculateThreeStagesCost_formula_witness :
    (sharedRegistry.map RegistryEntry.pattern).Nodup ∧
    (sharedFunctions.map Prod.fst).Nodup ∧
    (calculateThreeStagesCost [] (sharedRegistry.map RegistryEntry.pattern) sharedFunctions
      sharedRegistry).1 =
      (((sharedRegistry.map RegistryEntry.pattern).filter (fun p =>
          sharedFunctions.any (fun f => decide (p ∈
            (stage2ResultOf (sharedRegistry.map RegistryEntry.pattern) sharedRegistry f).map
              PI.pattern)))).map
        (fun p => registryCost sharedRegistry p +
          ((sharedFunctions.filter
            (fun f => decide (p ∈
              (stage2ResultOf (sharedRegistry.map RegistryEntry.pattern) sharedRegistry f).map
                PI.pattern))).length
            - 1))).sum ∧
    (calculateThreeStagesCost [] (sharedRegistry.map RegistryEntry.pattern) sharedFunctions
      sharedRegistry).1 = 2 :=
  ⟨by decide, by decide,
    calculateThreeStagesCost_formula [] (sharedRegistry.map RegistryEntry.pattern)
      sharedFunctions sharedRegistry (by decide) (by decide),
    by decide⟩

/-! ## Stage 2: what the final check guarantees -/

/-- The set `coveredByOthers` of the final check holds the targets found in the minterms
lists of the other PIs. -/
theorem mem_coveredByOthers (T : List Nat) (others : List PI) (covered : List Nat) (y : Nat) :
    y ∈ others.foldl
      (fun covered otherPI => otherPI.minterms.foldl
        (fun covered m => if m ∈ T then setAdd covered m else covered) covered)
      covered ↔ y ∈ covered ∨ (y ∈ T ∧ ∃ o ∈ others, y ∈ o.minterms) := by
  induction others generalizing covered with
  | nil => simp
  | cons o others ih =>
    rw [List.foldl_cons, ih, mem_foldl_coveredAdd]
    constructor
    · rintro ((h | ⟨h1, h2⟩) | ⟨h1, o2, ho2, h2⟩)
      · exact Or.inl h
      · exact Or.inr ⟨h2, o, List.mem_cons_self _ _, h1⟩
      · exact Or.inr ⟨h1, o2, List.mem_cons_of_mem _ ho2, h2⟩
    · rintro (h | ⟨h1, o2, ho2, h2⟩)
      · exact Or.inl (Or.inl h)
      · rcases List.mem_cons.mp ho2 with h | h
        · subst h
          exact Or.inl (Or.inr ⟨h2, h1⟩)
        · exact Or.inr ⟨h1, o2, h, h2⟩

/-- A PI passes the final check exactly when some target is in no minterms list of a
selected PI with another pattern. -/
theorem isNecessaryAmong_iff (sel : List PI) (T : List Nat) (q : PI) :
    isNecessaryAmong sel T q = true ↔
      ∃ m ∈ T, ∀ o ∈ sel, o.pattern ≠ q.pattern → m ∉ o.minterms := by
  unfold isNecessaryAmong
  simp only [List.any_eq_true, decide_eq_true_eq]
  constructor
  · rintro ⟨m, hm, hnot⟩
    refine ⟨m, hm, ?_⟩
    intro o ho hne hin
    apply hnot
    rw [mem_coveredByOthers]
    exact Or.inr ⟨hm, o, List.mem_filter.mpr ⟨ho, by simpa using hne⟩, hin⟩
  · rintro ⟨m, hm, hall⟩
    refine ⟨m, hm, ?_⟩
    rw [mem_coveredByOthers]
    rintro (h | ⟨_, o, ho, hin⟩)
    · exact absurd h (List.not_mem_nil _)
    · obtain ⟨h1, h2⟩ := List.mem_filter.mp ho
      exact hall o h1 (by simpa using h2) hin

/-- For two or more PIs the result of Stage 2 is the selection of steps 1 to 3, which is
drawn from the input, filtered by the final check. -/
theorem removeRedundantPIsForStage2_eq_filter (X : List PI) (T : List Nat)
    (hlen : ¬ X.length ≤ 1) :
    ∃ sel : List PI, (∀ x ∈ sel, x ∈ X) ∧
      removeRedundantPIsForStage2 X T = sel.filter (isNecessaryAmong sel T) := by
  unfold removeRedundantPIsForStage2
  rw [if_neg hlen]
  simp only []
  obtain ⟨he1, _⟩ := foldl_stage2EssentialStep
    (X.filter (fun pi => !isRedundantAmong X T pi)) T T ⟨[], uniqueOf T⟩
    (fun e he => absurd he (List.not_mem_nil _)) List.nodup_nil
  refine ⟨_, ?_, rfl⟩
  intro x hx
  rcases greedyLoop_mem _ _ _ _ x hx with h | h
  · exact (List.mem_filter.mp (he1 x h)).1
  · exact (List.mem_filter.mp (List.mem_filter.mp h).1).1

/-- C28 (Stage 2 output is irredundant and drawn from the input), for PIs with pairwise
distinct patterns and, when there is exactly one PI, a non-empty target list: the result
of `removeRedundantPIsForStage2` holds PIs of its input, each at most once (in an order
that may differ from the input), it is the input itself when that has at most one PI, and
for every PI `q` of the result the other PIs of the result do not together contain every
target. -/
theorem removeRedundantPIsForStage2_irredundant (X : List PI) (T : List Nat)
    (hnd : (X.map PI.pattern).Nodup) (hT : X.length = 1 → T ≠ []) :
    (removeRedundantPIsForStage2 X T).Subperm X ∧
    (X.length ≤ 1 → removeRedundantPIsForStage2 X T = X) ∧
    ∀ q ∈ removeRedundantPIsForStage2 X T,
      ¬ coversAll T ((removeRedundantPIsForStage2 X T).erase q) := by
  have hXnd : X.Nodup := List.Nodup.of_map _ hnd
  obtain ⟨hmem, hnodup⟩ := removeRedundantPIsForStage2_spec X T
  refine ⟨List.subperm_of_subset (hnodup hXnd) hmem, ?_, ?_⟩
  · intro hlen
    unfold removeRedundantPIsForStage2
    rw [if_pos hlen]
  · intro q hq hcov
    by_cases hlen : X.length ≤ 1
    · have hout : removeRedundantPIsForStage2 X T = X := by
        unfold removeRedundantPIsForStage2
        rw [if_pos hlen]
      rw [hout] at hq hcov
      match X, hlen, hq, hT with
      | [x], _, hq, hT =>
        obtain ⟨m, hm⟩ := List.exists_mem_of_ne_nil T (hT rfl)
        rw [List.mem_singleton] at hq
        subst hq
        obtain ⟨pi, hpi, _⟩ := hcov m hm
        rw [List.erase_cons_head] at hpi
        exact absurd hpi (List.not_mem_nil _)
    · obtain ⟨sel, hsel, heq⟩ := removeRedundantPIsForStage2_eq_filter X T hlen
      have hres := hnodup hXnd
      rw [heq] at hq hcov hres
      obtain ⟨hqsel, hnec⟩ := List.mem_filter.mp hq
      obtain ⟨m, hm, hall⟩ := (isNecessaryAmong_iff sel T q).mp hnec
      obtain ⟨pi, hpi, hin⟩ := hcov m hm
      obtain ⟨hne, hpi2⟩ := (List.Nodup.mem_erase_iff hres).mp hpi
      have hpisel := (List.mem_filter.mp hpi2).1
      refine hall pi hpisel ?_ hin
      intro hpat
      exact hne (List.inj_on_of_nodup_map hnd (hsel pi hpisel) (hsel q hqsel) hpat)

/-- Instance of C28 for the three candidates of `demoCandidates` and the targets `1`, `3`. -/
theorem removeRedundantPIsForStage2_irredundant_witness :
    (demoCandidates.map PI.pattern).Nodup ∧
    (removeRedundantPIsForStage2 demoCandidates demoTargets).Subperm demoCandidates ∧
    (demoCandidates.length ≤ 1 →
      removeRedundantPIsForStage2 demoCandidates demoTargets = demoCandidates) ∧
    ∀ q ∈ removeRedundantPIsForStage2 demoCandidates demoTargets,
      ¬ coversAll demoTargets ((removeRedundantPIsForStage2 demoCandidates demoTargets).erase q) :=
  ⟨by decide,
    removeRedundantPIsForStage2_irredundant demoCandidates demoTargets (by decide)
      (by decide)⟩

/-- C28 for a PI list that repeats a pattern, for one PI without targets, and for the
order of the result.  For `repeatedPatternPIs` and the targets `0` to `3` the result holds
both PIs with pattern `0--`, and without the first of them the second still contains every
target; for the single PI `0` and no target the result is that PI, and without it nothing
is left uncovered; for the PIs `-1`, `0-` and the targets `0`, `1`, `3` the result lists
`0-` before `-1`, so it is not a sub-list of the input in the order of the input. -/
theorem removeRedundantPIsForStage2_redundant_output :
    removeRedundantPIsForStage2 repeatedPatternPIs [0, 1, 2, 3] =
      [⟨['0', '-', '-'], [0, 1], 1⟩, ⟨['0', '-', '-'], [0, 1, 2, 3], 3⟩] ∧
    coversAll [0, 1, 2, 3]
      ((removeRedundantPIsForStage2 repeatedPatternPIs [0, 1, 2, 3]).erase
        ⟨['0', '-', '-'], [0, 1], 1⟩) ∧
    removeRedundantPIsForStage2 [⟨['0'], [0], 1⟩] [] = [⟨['0'], [0], 1⟩] ∧
    coversAll [] ((removeRedundantPIsForStage2 [⟨['0'], [0], 1⟩] []).erase ⟨['0'], [0], 1⟩) ∧
    removeRedundantPIsForStage2 [⟨['-', '1'], [1, 3], 1⟩, ⟨['0', '-'], [0, 1], 1⟩] [0, 1, 3] =
      [⟨['0', '-'], [0, 1], 1⟩, ⟨['-', '1'], [1, 3], 1⟩] ∧
    ¬ (removeRedundantPIsForStage2 [⟨['-', '1'], [1, 3], 1⟩, ⟨['0', '-'], [0, 1], 1⟩]
      [0, 1, 3]).Sublist [⟨['-', '1'], [1, 3], 1⟩, ⟨['0', '-'], [0, 1], 1⟩] := by
  decide

/-- C27 at the two PIs `-0` and `0-` that cover the target `0` at cost 1, which are the PIs
of either function of `twinFunctions` in the joint selection of these two patterns: the
input contains the target, the result of Stage 2 is empty. -/
theorem removeRedundantPIsForStage2_loses_coverage :
    (generateAll 2 2 [1, 2] twinFunctions).map
      (fun g => functionPIsOf [['-', '0'], ['0', '-']] (buildRegistry g) ['F', '1'] [0]) =
      some twinPIs ∧
    (twinPIs.map PI.pattern).Nodup ∧ (∀ pi ∈ twinPIs, 0 < pi.cost) ∧
    coversAll [0] twinPIs ∧
    removeRedundantPIsForStage2 twinPIs [0] = [] ∧
    ¬ coversAll [0] (removeRedundantPIsForStage2 twinPIs [0]) := by
  decide

/-! ## The joint coverage table -/

/-- What the multi-function generator returns for one function: implicants with distinct
patterns, each with exactly the targets that match it, and every target in one of them. -/
theorem generateFor_multi (count n : Nat) (M D : List Nat) (hcount : count ≠ 1)
    (hM : ∀ m ∈ M, m < 2 ^ n ∧ m < 10 ^ 21) (hD : ∀ d ∈ D, d < 2 ^ n ∧ d < 10 ^ 21) :
    ∃ pis, generateFor count M n D = some pis ∧ (pis.map Implicant.pattern).Nodup ∧
      (∀ pi ∈ pis, IsImplicantOf pi.pattern n M D ∧
        ∀ m, m ∈ pi.minterms ↔ (m ∈ M ∧ matchesPattern pi.pattern m n = true)) ∧
      (∀ m ∈ M, ∃ pi ∈ pis, m ∈ pi.minterms) := by
  rcases Nat.eq_zero_or_pos n with h0 | hpos
  · subst h0
    replace hM : ∀ m ∈ M, m < 2 ^ 0 := fun m hm => (hM m hm).1
    replace hD : ∀ d ∈ D, d < 2 ^ 0 := fun d hd => (hD d hd).1
    have hgen := generateQuineMcCluskeyPIs_zero M D hM hD
    by_cases hne : M = []
    · subst hne
      refine ⟨[], ?_, List.nodup_nil, fun pi hpi => absurd hpi (List.not_mem_nil _),
        fun m hm => absurd hm (List.not_mem_nil _)⟩
      unfold generateFor
      rw [if_neg hcount, hgen, if_pos rfl]
      rfl
    · have h0 : 0 ∈ M := mem_zero_of_ne_nil M hM hne
      have hfind : findTruePrimeImplicants [⟨['0'], [0], 0⟩] M = [⟨['0'], [0]⟩] :=
        findTruePrimeImplicants_of_restricted _ M (by
          intro pi hpi
          rw [List.mem_singleton] at hpi
          subst hpi
          exact ⟨by simp, fun m hm => by rw [List.mem_singleton.mp hm]; exact h0⟩)
      refine ⟨[⟨['0'], [0]⟩], ?_, List.nodup_singleton _, ?_, ?_⟩
      · unfold generateFor
        rw [if_neg hcount, hgen, if_neg hne]
        simp only [Option.map_some']
        rw [hfind]
      · intro pi hpi
        rw [List.mem_singleton] at hpi
        subst hpi
        refine ⟨?_, ?_⟩
        · intro m hm _
          have : m = 0 := by simpa using hm
          exact Or.inl (this ▸ h0)
        · intro m
          simp only [List.mem_singleton]
          constructor
          · intro hm
            subst hm
            exact ⟨h0, by decide⟩
          · intro hm
            have := hM m hm.1
            simpa using this
      · intro m hm
        have hm0 : m = 0 := by simpa using hM m hm
        exact ⟨⟨['0'], [0]⟩, List.mem_singleton.mpr rfl, by simp [hm0]⟩
  · obtain ⟨all, hall, hiff, hnd, hfacts⟩ := generateQuineMcCluskeyPIs_spec M D n hpos hM hD
    obtain ⟨all2, hall2, _, hcov⟩ := generateQuineMcCluskeyPIs_covers M D n hM hD
    have hsame : all2 = all := by
      rw [hall] at hall2
      exact (Option.some.inj hall2).symm
    subst hsame
    have hres : findTruePrimeImplicants all2 M =
        all2.map (fun t => (⟨t.pattern, t.minterms⟩ : Implicant)) :=
      findTruePrimeImplicants_of_restricted all2 M
        (fun pi hpi => ⟨(hfacts pi hpi).2.2.1,
          fun m hm => (((hfacts pi hpi).2.2.2 m).mp hm).1⟩)
    refine ⟨findTruePrimeImplicants all2 M, ?_, ?_, ?_, ?_⟩
    · unfold generateFor
      rw [if_neg hcount, hall]
      rfl
    · rw [hres, List.map_map]
      exact hnd
    · intro pi hpi
      rw [hres, List.mem_map] at hpi
      obtain ⟨t, ht, rfl⟩ := hpi
      obtain ⟨h1, _, _, h4⟩ := hfacts t ht
      exact ⟨((hiff t.pattern h1).mp (List.mem_map_of_mem _ ht)).1, h4⟩
    · intro m hm
      obtain ⟨t, ht, htm⟩ := hcov m hm
      exact ⟨⟨t.pattern, t.minterms⟩, by rw [hres]; exact List.mem_map_of_mem _ ht, htm⟩

/-- A property of pattern and minterms that every registered PI has holds for every
registry entry: the entry keeps the minterms of the PI that created it. -/
theorem foldl_registerPI_minterms (P : List Char → List Nat → Prop)
    (S : List (List Char × Implicant)) (hS : ∀ x ∈ S, P x.2.pattern x.2.minterms) :
    ∀ registry : List RegistryEntry, (∀ e ∈ registry, P e.pattern e.minterms) →
      ∀ e ∈ S.foldl (fun registry x => registerPI x.1 registry x.2) registry,
        P e.pattern e.minterms := by
  induction S with
  | nil => intro registry h; exact h
  | cons x S ih =>
    intro registry h
    rw [List.foldl_cons]
    apply ih (fun y hy => hS y (List.mem_cons_of_mem _ hy))
    intro e he
    unfold registerPI at he
    split at he
    · rw [List.mem_map] at he
      obtain ⟨e0, he0, rfl⟩ := he
      split
      · exact h e0 he0
      · exact h e0 he0
    · rcases List.mem_append.mp he with h1 | h1
      · exact h e h1
      · rw [List.mem_singleton] at h1
        subst h1
        exact hS x (List.mem_cons_self _ _)

/-- Writing entries whose value depends on the key only: the keys stay distinct, they are
the old keys and the written ones, and every entry written or overwritten carries the value
of its key. -/
theorem foldl_tableSet_keys {κ ν : Type} [DecidableEq κ] (val : κ → ν) (keys : List κ) :
    ∀ table : List (κ × ν), (table.map Prod.fst).Nodup → (∀ e ∈ table, e.2 = val e.1) →
      ((keys.foldl (fun table k => tableSet table k (val k)) table).map Prod.fst).Nodup ∧
      (∀ k, k ∈ (keys.foldl (fun table k => tableSet table k (val k)) table).map Prod.fst ↔
        (k ∈ table.map Prod.fst ∨ k ∈ keys)) ∧
      (∀ e ∈ keys.foldl (fun table k => tableSet table k (val k)) table, e.2 = val e.1) := by
  induction keys with
  | nil =>
    intro table h1 h2
    refine ⟨h1, ?_, h2⟩
    intro k
    simp
  | cons k keys ih =>
    intro table h1 h2
    rw [List.foldl_cons]
    have hkeys : (tableSet table k (val k)).map Prod.fst =
        if k ∈ table.map Prod.fst then table.map Prod.fst else table.map Prod.fst ++ [k] := by
      unfold tableSet
      by_cases hany : table.any (fun e => decide (e.1 = k)) = true
      · have hin : k ∈ table.map Prod.fst := by
          rw [List.any_eq_true] at hany
          obtain ⟨e, he, hek⟩ := hany
          exact List.mem_map.mpr ⟨e, he, by simpa using hek⟩
        rw [if_pos hany, if_pos hin, List.map_map]
        apply List.map_congr_left
        intro e _
        simp only [Function.comp]
        split
        · next h => exact h.symm
        · rfl
      · have hnot : k ∉ table.map Prod.fst := by
          intro hin
          apply hany
          obtain ⟨e, he, hek⟩ := List.mem_map.mp hin
          rw [List.any_eq_true]
          exact ⟨e, he, by simpa using hek⟩
        rw [if_neg hany, if_neg hnot, List.map_append, List.map_singleton]
    have hnd : ((tableSet table k (val k)).map Prod.fst).Nodup := by
      rw [hkeys]
      split
      · exact h1
      · next hnot =>
        exact List.Nodup.append h1 (List.nodup_singleton _)
          (by
            intro a ha hb
            rw [List.mem_singleton] at hb
            exact hnot (hb ▸ ha))
    have hval : ∀ e ∈ tableSet table k (val k), e.2 = val e.1 := by
      intro e he
      rcases mem_tableSet table k (val k) e he with h | h
      · exact h2 e h
      · rw [h]
    obtain ⟨r1, r2, r3⟩ := ih (tableSet table k (val k)) hnd hval
    refine ⟨r1, ?_, r3⟩
    intro k2
    rw [r2 k2, hkeys, List.mem_cons]
    split
    · next hin =>
      constructor
      · rintro (h | h)
        · exact Or.inl h
        · exact Or.inr (Or.inr h)
      · rintro (h | h | h)
        · exact Or.inl h
        · exact Or.inl (h ▸ hin)
        · exact Or.inr h
    · rw [List.mem_append, List.mem_singleton]
      tauto

/-- The joint coverage table is written key by key, in the order of the pairs of function
name and target. -/
theorem buildJointCoverageTable_eq_foldl (nm : List (List Char × List Nat))
    (registry : List RegistryEntry) :
    buildJointCoverageTable nm registry =
      (nm.flatMap (fun f => f.2.map (fun m => (f.1, m)))).foldl
        (fun table k => tableSet table k
          ((registry.filter
            (fun piInfo => decide (k.1 ∈ piInfo.usedBy) && decide (k.2 ∈ piInfo.minterms))).map
            RegistryEntry.pattern))
        [] := by
  unfold buildJointCoverageTable
  rw [foldl_flatMap]
  congr 1
  funext table f
  rw [List.foldl_map]

/-- Every entry of step 1 is the generation run of a function of the input. -/
theorem generateAll_sources (count n : Nat) (D : List Nat) :
    ∀ (fs : List (List Char × List Nat)) (g : List (List Char × List Implicant)),
      generateAll count n D fs = some g →
      ∀ r ∈ g, ∃ f ∈ fs, r.1 = f.1 ∧ generateFor count f.2 n D = some r.2 := by
  intro fs
  induction fs with
  | nil =>
    intro g hg r hr
    have : g = [] := by
      unfold generateAll at hg
      exact (Option.some.inj hg).symm
    rw [this] at hr
    exact absurd hr (List.not_mem_nil _)
  | cons f fs ih =>
    intro g hg r hr
    obtain ⟨name, M⟩ := f
    unfold generateAll at hg
    cases hfor : generateFor count M n D with
    | none => rw [hfor] at hg; exact absurd hg (by simp)
    | some pis =>
      cases hrest : generateAll count n D fs with
      | none => rw [hfor, hrest] at hg; exact absurd hg (by simp)
      | some others =>
        rw [hfor, hrest] at hg
        have hgeq : g = (name, pis) :: others := (Option.some.inj hg).symm
        rw [hgeq] at hr
        rcases List.mem_cons.mp hr with h | h
        · subst h
          exact ⟨(name, M), List.mem_cons_self _ _, rfl, hfor⟩
        · obtain ⟨f2, hf2, h1, h2⟩ := ih others hrest r h
          exact ⟨f2, List.mem_cons_of_mem _ hf2, h1, h2⟩

/-- The joint coverage table for two or more functions, terms that `parseInt` leaves
unchanged and no target among the don't-cares: step 1 succeeds and the table built from its
registry has exactly one entry per pair of a function and one of its targets; the entry of
the pair `(f, m)` is non-empty, holds no pattern twice, and lists exactly the registry
patterns `p` with `f` in `usedBy` of `p` that `m` matches. -/
theorem buildJointCoverageTable_of_lt (fs : List (List Char × List Nat)) (n : Nat)
    (D : List Nat) (h2 : 2 ≤ fs.length)
    (hM : ∀ f ∈ fs, ∀ m ∈ f.2, m < 2 ^ n ∧ m < 10 ^ 21) (hD : ∀ d ∈ D, d < 2 ^ n ∧ d < 10 ^ 21)
    (hdisj : ∀ f ∈ fs, ∀ m ∈ f.2, m ∉ D) :
    ∃ g, generateAll fs.length n D fs = some g ∧
      ((buildJointCoverageTable fs (buildRegistry g)).map Prod.fst).Nodup ∧
      (∀ name m, (name, m) ∈ (buildJointCoverageTable fs (buildRegistry g)).map Prod.fst ↔
        ∃ f ∈ fs, f.1 = name ∧ m ∈ f.2) ∧
      ∀ entry ∈ buildJointCoverageTable fs (buildRegistry g),
        entry.2 ≠ [] ∧ entry.2.Nodup ∧
        ∀ p, p ∈ entry.2 ↔ ∃ e ∈ buildRegistry g, e.pattern = p ∧ entry.1.1 ∈ e.usedBy ∧
          matchesPattern p entry.1.2 n = true := by
  have hcount : fs.length ≠ 1 := by omega
  obtain ⟨g, hg, hgn, hruns, _⟩ := generateAll_runs fs.length n D hcount hD fs hM
  have hsrc := generateAll_sources fs.length n D fs g hg
  -- the registry
  obtain ⟨r1, r2, r3⟩ := foldl_registerPI_usedBy
    (g.flatMap (fun f => f.2.map (fun pi => (f.1, pi)))) [] [] List.nodup_nil
    (fun p => ⟨fun h => absurd h (List.not_mem_nil _),
      fun h => by obtain ⟨x, hx, _⟩ := h; exact absurd hx (List.not_mem_nil _)⟩)
    (fun e he => absurd he (List.not_mem_nil _))
  have rmin := foldl_registerPI_minterms
    (fun p ms => ∃ f ∈ fs, IsImplicantOf p n f.2 D ∧
      ∀ m, m ∈ ms ↔ (m ∈ f.2 ∧ matchesPattern p m n = true))
    (g.flatMap (fun f => f.2.map (fun pi => (f.1, pi))))
    (by
      intro x hx
      obtain ⟨r, hr, hxr⟩ := List.mem_flatMap.mp hx
      obtain ⟨pi, hpi, rfl⟩ := List.mem_map.mp hxr
      obtain ⟨f, hf, _, hfor⟩ := hsrc r hr
      obtain ⟨pis, hpis, _, hfacts, _⟩ := generateFor_multi fs.length n f.2 D hcount
        (hM f hf) hD
      have : pis = r.2 := by
        rw [hfor] at hpis
        exact (Option.some.inj hpis).symm
      subst this
      exact ⟨f, hf, hfacts pi hpi⟩)
    [] (fun e he => absurd he (List.not_mem_nil _))
  rw [← buildRegistry_eq_foldl] at r1 r2 r3 rmin
  simp only [List.nil_append] at r2 r3
  -- membership of a target in the minterms of an entry
  have hmatch : ∀ e ∈ buildRegistry g, ∀ f ∈ fs, ∀ m ∈ f.2,
      (m ∈ e.minterms ↔ matchesPattern e.pattern m n = true) := by
    intro e he f hf m hm
    obtain ⟨f0, hf0, himp, hiff⟩ := rmin e he
    rw [hiff m]
    constructor
    · exact fun h => h.2
    · intro hmat
      rcases himp m (hM f hf m hm).1 hmat with h | h
      · exact ⟨h, hmat⟩
      · exact absurd h (hdisj f hf m hm)
  -- the table
  obtain ⟨t1, t2, t3⟩ := foldl_tableSet_keys
    (fun k : List Char × Nat => (((buildRegistry g).filter
      (fun piInfo : RegistryEntry =>
        decide (k.1 ∈ piInfo.usedBy) && decide (k.2 ∈ piInfo.minterms))).map
      RegistryEntry.pattern))
    (fs.flatMap (fun f => f.2.map (fun m => (f.1, m)))) [] List.nodup_nil
    (fun e he => absurd he (List.not_mem_nil _))
  rw [← buildJointCoverageTable_eq_foldl] at t1 t2 t3
  have hkey : ∀ name m, (name, m) ∈ fs.flatMap (fun f => f.2.map (fun m => (f.1, m))) ↔
      ∃ f ∈ fs, f.1 = name ∧ m ∈ f.2 := by
    intro name m
    rw [List.mem_flatMap]
    constructor
    · rintro ⟨f, hf, hx⟩
      obtain ⟨m2, hm2, heq⟩ := List.mem_map.mp hx
      have h1 : f.1 = name := congrArg Prod.fst heq
      have h2 : m2 = m := congrArg Prod.snd heq
      exact ⟨f, hf, h1, h2 ▸ hm2⟩
    · rintro ⟨f, hf, h1, hm⟩
      exact ⟨f, hf, List.mem_map.mpr ⟨m, hm, by rw [h1]⟩⟩
  refine ⟨g, hg, t1, ?_, ?_⟩
  · intro name m
    rw [t2, hkey]
    simp
  · intro entry hentry
    have hk : entry.1 ∈ (buildJointCoverageTable fs (buildRegistry g)).map Prod.fst :=
      List.mem_map_of_mem _ hentry
    rw [t2] at hk
    have hk2 : (entry.1.1, entry.1.2) ∈ fs.flatMap (fun f => f.2.map (fun m => (f.1, m))) := by
      rcases hk with h | h
      · exact absurd h (List.not_mem_nil _)
      · exact h
    obtain ⟨f, hf, hname, hm⟩ := (hkey _ _).mp hk2
    have hval := t3 entry hentry
    simp only [] at hval
    have hiff : ∀ p, p ∈ entry.2 ↔ ∃ e ∈ buildRegistry g, e.pattern = p ∧
        entry.1.1 ∈ e.usedBy ∧ matchesPattern p entry.1.2 n = true := by
      intro p
      rw [hval, List.mem_map]
      constructor
      · rintro ⟨e, he, rfl⟩
        obtain ⟨he1, he2⟩ := List.mem_filter.mp he
        simp only [Bool.and_eq_true, decide_eq_true_eq] at he2
        exact ⟨e, he1, rfl, he2.1, (hmatch e he1 f hf _ hm).mp he2.2⟩
      · rintro ⟨e, he, rfl, hu, hmat⟩
        refine ⟨e, List.mem_filter.mpr ⟨he, ?_⟩, rfl⟩
        simp only [Bool.and_eq_true, decide_eq_true_eq]
        exact ⟨hu, (hmatch e he f hf _ hm).mpr hmat⟩
    refine ⟨?_, ?_, hiff⟩
    · -- a generated implicant of the function holds the target
      obtain ⟨pis, hfor, hin⟩ := hruns f hf
      obtain ⟨pis2, hpis2, _, hfacts, hcov⟩ := generateFor_multi fs.length n f.2 D hcount
        (hM f hf) hD
      have hsame : pis2 = pis := by
        rw [hfor] at hpis2
        exact (Option.some.inj hpis2).symm
      subst hsame
      obtain ⟨pi, hpi, hpim⟩ := hcov _ hm
      have hreg : pi.pattern ∈ (buildRegistry g).map RegistryEntry.pattern := by
        rw [r2]
        exact ⟨(f.1, pi), List.mem_flatMap.mpr ⟨(f.1, pis2), hin,
          List.mem_map_of_mem _ hpi⟩, rfl⟩
      obtain ⟨e, he, hep⟩ := List.mem_map.mp hreg
      have hused : entry.1.1 ∈ e.usedBy := by
        rw [r3 e he, ← hname, List.mem_map]
        refine ⟨(f.1, pi), List.mem_filter.mpr ⟨List.mem_flatMap.mpr ⟨(f.1, pis2), hin,
          List.mem_map_of_mem _ hpi⟩, ?_⟩, rfl⟩
        simpa using hep.symm
      have hmat : matchesPattern pi.pattern entry.1.2 n = true :=
        (((hfacts pi hpi).2 _).mp hpim).2
      intro hnil
      have : pi.pattern ∈ entry.2 := (hiff pi.pattern).mpr ⟨e, he, hep, hused, hmat⟩
      rw [hnil] at this
      exact absurd this (List.not_mem_nil _)
    · rw [hval]
      exact (r1.sublist ((List.filter_sublist _).map _))

/-- C29 (joint coverage table) for terms below 1e21 and names other than `__proto__`: for
two or more functions, none of them named `__proto__`, with targets and don't-cares below
`2^n` and below `10^21` and no target among the don't-cares, the normalised map is the
input map, step 1 succeeds on it, and the table built from its registry has exactly one
entry per pair of a function and one of its targets; the entry of the pair `(f, m)` is
non-empty, holds no pattern twice, and lists exactly the registry patterns `p` with `f` in
`usedBy` of `p` that `m` matches. -/
theorem buildJointCoverageTable_spec (fs : List (List Char × List Nat)) (n : Nat)
    (D : List Nat) (h2 : 2 ≤ fs.length) (hproto : ∀ f ∈ fs, f.1 ≠ protoKey)
    (hM : ∀ f ∈ fs, ∀ m ∈ f.2, m < 2 ^ n ∧ m < 10 ^ 21)
    (hD : ∀ d ∈ D, d < 2 ^ n ∧ d < 10 ^ 21)
    (hdisj : ∀ f ∈ fs, ∀ m ∈ f.2, m ∉ D) :
    normalizeMinterms fs = fs ∧
    ∃ g, generateAll (normalizeMinterms fs).length n D (normalizeMinterms fs) = some g ∧
      ((buildJointCoverageTable (normalizeMinterms fs) (buildRegistry g)).map Prod.fst).Nodup ∧
      (∀ name m,
        (name, m) ∈
            (buildJointCoverageTable (normalizeMinterms fs) (buildRegistry g)).map Prod.fst ↔
          ∃ f ∈ fs, f.1 = name ∧ m ∈ f.2) ∧
      ∀ entry ∈ buildJointCoverageTable (normalizeMinterms fs) (buildRegistry g),
        entry.2 ≠ [] ∧ entry.2.Nodup ∧
        ∀ p, p ∈ entry.2 ↔ ∃ e ∈ buildRegistry g, e.pattern = p ∧ entry.1.1 ∈ e.usedBy ∧
          matchesPattern p entry.1.2 n = true := by
  have hnorm := normalizeMinterms_of_lt fs hproto (fun f hf m hm => (hM f hf m hm).2)
  rw [hnorm]
  exact ⟨rfl, buildJointCoverageTable_of_lt fs n D h2 hM hD hdisj⟩

set_option maxRecDepth 100000 in
/-- Instance of C29 for `twinFunctions` with two variables and don't-cares `1`, `2`. -/
theorem buildJointCoverageTable_spec_witness :
    2 ≤ twinFunctions.length ∧ (∀ f ∈ twinFunctions, f.1 ≠ protoKey) ∧
    (∀ f ∈ twinFunctions, ∀ m ∈ f.2, m < 2 ^ 2 ∧ m < 10 ^ 21) ∧
    (∀ d ∈ [1, 2], d < 2 ^ 2 ∧ d < 10 ^ 21) ∧
    (∀ f ∈ twinFunctions, ∀ m ∈ f.2, m ∉ [1, 2]) ∧
    normalizeMinterms twinFunctions = twinFunctions ∧
    ∃ g, generateAll (normalizeMinterms twinFunctions).length 2 [1, 2]
        (normalizeMinterms twinFunctions) = some g ∧
      ((buildJointCoverageTable (normalizeMinterms twinFunctions) (buildRegistry g)).map
        Prod.fst).Nodup ∧
      (∀ name m,
        (name, m) ∈ (buildJointCoverageTable (normalizeMinterms twinFunctions)
            (buildRegistry g)).map Prod.fst ↔
          ∃ f ∈ twinFunctions, f.1 = name ∧ m ∈ f.2) ∧
      ∀ entry ∈ buildJointCoverageTable (normalizeMinterms twinFunctions) (buildRegistry g),
        entry.2 ≠ [] ∧ entry.2.Nodup ∧
        ∀ p, p ∈ entry.2 ↔ ∃ e ∈ buildRegistry g, e.pattern = p ∧ entry.1.1 ∈ e.usedBy ∧
          matchesPattern p entry.1.2 2 = true :=
  ⟨by decide, by decide, by decide, by decide, by decide,
    buildJointCoverageTable_spec twinFunctions 2 [1, 2] (by decide) (by decide) (by decide)
      (by decide) (by decide)⟩

set_option maxRecDepth 100000 in
/-- C29 outside these bounds, on three inputs with targets and don't-cares below `2^n` and
no target among the don't-cares.  With 70 variables, `F1 = [0]`, `F2 = [0, 1]` and the
don't-care 1e21, which is parsed to 1: the registry pattern of 69 zeros and a dash lists
`F2` in `usedBy` and matches the target 1 of `F2`, and the entry of `(F2, 1)` does not hold
it.  With 70 variables and the target 1e21 for `F1` and `F2`: the table has the keys
`(F1, 1)` and `(F2, 1)` and no entry for the target 1e21.  With one variable and three
functions of which the first is stored under `__proto__`: the table has the keys `(b, 1)`
and `(c, 0)`, and no entry for the target 0 of the first function. -/
theorem buildJointCoverageTable_outside_bounds :
    ((∀ d ∈ [exponentTerm], d < 2 ^ 70) ∧
      (∀ f ∈ nestedFunctions, ∀ m ∈ f.2, m < 2 ^ 70 ∧ m ∉ [exponentTerm]) ∧
      (generateAll (normalizeMinterms nestedFunctions).length 70 [exponentTerm]
          (normalizeMinterms nestedFunctions)).map
        (fun g =>
          ((registryGet (buildRegistry g) (List.replicate 69 '0' ++ ['-'])).map
              RegistryEntry.usedBy,
            (buildJointCoverageTable (normalizeMinterms nestedFunctions)
              (buildRegistry g)).lookup (['F', '2'], 1))) =
        some (some [['F', '1'], ['F', '2']], some [toBinary 1 70]) ∧
      matchesPattern (List.replicate 69 '0' ++ ['-']) 1 70 = true ∧
      List.replicate 69 '0' ++ ['-'] ∉ [toBinary 1 70]) ∧
    ((∀ f ∈ exponentTwinFunctions, ∀ m ∈ f.2, m < 2 ^ 70) ∧
      (generateAll (normalizeMinterms exponentTwinFunctions).length 70 []
          (normalizeMinterms exponentTwinFunctions)).map
        (fun g => (buildJointCoverageTable (normalizeMinterms exponentTwinFunctions)
          (buildRegistry g)).map Prod.fst) =
        some [(['F', '1'], 1), (['F', '2'], 1)] ∧
      (['F', '1'], [exponentTerm]) ∈ exponentTwinFunctions) ∧
    ((∀ f ∈ protoFunctions, ∀ m ∈ f.2, m < 2 ^ 1 ∧ m < 10 ^ 21) ∧
      (generateAll (normalizeMinterms protoFunctions).length 1 []
          (normalizeMinterms protoFunctions)).map
        (fun g => (buildJointCoverageTable (normalizeMinterms protoFunctions)
          (buildRegistry g)).map Prod.fst) =
        some [(['b'], 1), (['c'], 0)] ∧
      (protoKey, [0]) ∈ protoFunctions) := by
  refine ⟨⟨by decide, by decide, by decide, by decide, by decide⟩,
    ⟨by decide, by decide, by decide⟩, ⟨by decide, by decide, by decide⟩⟩

/-! ## Branch and bound: the two phases of `backtrackSearchDirect` -/

/-- A selection that holds every pattern of a valid selection is valid. -/
theorem isValidSolution_mono (s1 s2 : List (List Char)) (terms : List (List (List Char)))
    (hsub : ∀ p ∈ s1, p ∈ s2) (h : isValidSolution s1 terms = true) :
    isValidSolution s2 terms = true := by
  rw [isValidSolution_iff] at h ⊢
  intro term hterm
  obtain ⟨p, hp, hps⟩ := h term hterm
  exact ⟨p, hp, hsub p hps⟩

theorem stage1CostOf_nil (registry : List RegistryEntry) : stage1CostOf registry [] = 0 := rfl

theorem stage1CostOf_cons (registry : List RegistryEntry) (p : List Char)
    (s : List (List Char)) :
    stage1CostOf registry (p :: s) = registryCost registry p + stage1CostOf registry s := by
  unfold stage1CostOf
  rw [List.map_cons, List.sum_cons]

theorem stage1CostOf_append (registry : List RegistryEntry) (s1 s2 : List (List Char)) :
    stage1CostOf registry (s1 ++ s2) = stage1CostOf registry s1 + stage1CostOf registry s2 := by
  unfold stage1CostOf
  rw [List.map_append, List.sum_append]

/-- One round of the loop of phase 1 for a pattern that is not in the current solution. -/
theorem findMinCostLoop_cons (terms : List (List (List Char))) (registry : List RegistryEntry)
    (pattern : List Char) (rest cur : List (List Char)) (curCost : Nat) (mc : Option Nat)
    (hnot : pattern ∉ cur) :
    findMinCostLoop terms registry (pattern :: rest) cur curCost mc =
      findMinCostLoop terms registry rest cur curCost
        (if belowMin (curCost + registryCost registry pattern) mc = true then
          (if isValidSolution (cur ++ [pattern]) terms = true then
            some (curCost + registryCost registry pattern)
          else findMinCostLoop terms registry rest (cur ++ [pattern])
            (curCost + registryCost registry pattern) mc)
        else mc) := by
  rw [findMinCostLoop]
  simp only [hnot, not_false_eq_true, if_true]
  congr 1
  by_cases hb : belowMin (curCost + registryCost registry pattern) mc = true
  · simp only [hb, if_true, Bool.not_true, Bool.false_eq_true, if_false]
  · simp only [hb, if_false]
    simp

/-- One round of the loop of phase 2 for a pattern that is not in the current solution. -/
theorem findAllOptimalLoop_cons (terms : List (List (List Char)))
    (registry : List RegistryEntry) (mstar : Option Nat)
    (pattern : List Char) (rest cur : List (List Char)) (curCost : Nat)
    (opt : List (List (List Char))) (hnot : pattern ∉ cur) :
    findAllOptimalLoop terms registry mstar (pattern :: rest) cur curCost opt =
      findAllOptimalLoop terms registry mstar rest cur curCost
        (if aboveMin (curCost + registryCost registry pattern) mstar = true then opt
        else if isValidSolution (cur ++ [pattern]) terms = true then
          (if mstar = some (curCost + registryCost registry pattern) then
            recordOptimal opt (cur ++ [pattern])
          else opt)
        else findAllOptimalLoop terms registry mstar rest (cur ++ [pattern])
          (curCost + registryCost registry pattern) opt) := by
  rw [findAllOptimalLoop]
  simp only [hnot, not_false_eq_true, if_true]
  congr 1
  by_cases hb : aboveMin (curCost + registryCost registry pattern) mstar = true
  · simp only [hb, if_true, Bool.not_true, Bool.false_eq_true, if_false]
  · simp only [hb, if_false]
    simp

/-- Phase 1 of the branch and bound, for one call of the loop: the running minimum never
grows, it ends at or below the cost of every valid extension of the current solution by
patterns of the loop, and it is the old minimum or the cost of such an extension. -/
theorem findMinCostLoop_spec (terms : List (List (List Char)))
    (registry : List RegistryEntry) :
    ∀ (rest cur : List (List Char)) (curCost : Nat) (mc : Option Nat),
      rest.Nodup → (∀ p ∈ rest, p ∉ cur) →
      (∀ v, mc = some v →
        ∃ w, findMinCostLoop terms registry rest cur curCost mc = some w ∧ w ≤ v) ∧
      (∀ s, s.Sublist rest → s ≠ [] → isValidSolution (cur ++ s) terms = true →
        ∃ w, findMinCostLoop terms registry rest cur curCost mc = some w ∧
          w ≤ curCost + stage1CostOf registry s) ∧
      (findMinCostLoop terms registry rest cur curCost mc = mc ∨
        ∃ s, s.Sublist rest ∧ s ≠ [] ∧ isValidSolution (cur ++ s) terms = true ∧
          findMinCostLoop terms registry rest cur curCost mc =
            some (curCost + stage1CostOf registry s)) := by
  intro rest
  induction rest with
  | nil =>
    intro cur curCost mc _ _
    have hres : findMinCostLoop terms registry [] cur curCost mc = mc := by
      rw [findMinCostLoop]
    rw [hres]
    refine ⟨fun v hv => ⟨v, hv, Nat.le_refl _⟩, ?_, Or.inl rfl⟩
    intro s hs hne
    exact absurd (List.eq_nil_of_sublist_nil hs) hne
  | cons pattern rest ih =>
    intro cur curCost mc hnd hdisj
    have hnot : pattern ∉ cur := hdisj pattern (List.mem_cons_self _ _)
    rw [List.nodup_cons] at hnd
    have hdisj1 : ∀ p ∈ rest, p ∉ cur ++ [pattern] := by
      intro p hp hin
      rcases List.mem_append.mp hin with h | h
      · exact hdisj p (List.mem_cons_of_mem _ hp) h
      · rw [List.mem_singleton] at h
        exact hnd.1 (h ▸ hp)
    have hdisj2 : ∀ p ∈ rest, p ∉ cur := fun p hp => hdisj p (List.mem_cons_of_mem _ hp)
    obtain ⟨i1a, i1b, i1c⟩ := ih (cur ++ [pattern]) (curCost + registryCost registry pattern)
      mc hnd.2 hdisj1
    rw [findMinCostLoop_cons terms registry pattern rest cur curCost mc hnot]
    -- the minimum after the round
    have hm1 : ∃ m1, m1 = (if belowMin (curCost + registryCost registry pattern) mc = true then
          (if isValidSolution (cur ++ [pattern]) terms = true then
            some (curCost + registryCost registry pattern)
          else findMinCostLoop terms registry rest (cur ++ [pattern])
            (curCost + registryCost registry pattern) mc)
        else mc) := ⟨_, rfl⟩
    obtain ⟨m1, hm1⟩ := hm1
    rw [← hm1]
    have a1 : ∀ v, mc = some v → ∃ w, m1 = some w ∧ w ≤ v := by
      intro v hv
      rw [hm1]
      split
      · next hb =>
        split
        · refine ⟨_, rfl, ?_⟩
          rw [hv] at hb
          have : curCost + registryCost registry pattern < v := by
            simpa [belowMin] using hb
          omega
        · exact i1a v hv
      · exact ⟨v, hv, Nat.le_refl _⟩
    have b1 : ∀ s, s.Sublist rest → isValidSolution (cur ++ pattern :: s) terms = true →
        ∃ w, m1 = some w ∧ w ≤ curCost + stage1CostOf registry (pattern :: s) := by
      intro s hs hvalid
      rw [hm1, stage1CostOf_cons]
      split
      · next hb =>
        split
        · exact ⟨_, rfl, by omega⟩
        · next hinv =>
          have hne : s ≠ [] := by
            intro h
            rw [h] at hvalid
            exact hinv hvalid
          have hv2 : isValidSolution ((cur ++ [pattern]) ++ s) terms = true := by
            rw [List.append_assoc, List.singleton_append]
            exact hvalid
          obtain ⟨w, hw1, hw2⟩ := i1b s hs hne hv2
          exact ⟨w, hw1, by omega⟩
      · next hb =>
        cases hmc : mc with
        | none => rw [hmc] at hb; exact absurd rfl hb
        | some v =>
          rw [hmc] at hb
          have : ¬ curCost + registryCost registry pattern < v := by
            simpa [belowMin] using hb
          exact ⟨v, rfl, by omega⟩
    have c1 : m1 = mc ∨ ∃ s, s.Sublist rest ∧
        isValidSolution (cur ++ pattern :: s) terms = true ∧
        m1 = some (curCost + stage1CostOf registry (pattern :: s)) := by
      rw [hm1]
      split
      · split
        · next hvalid =>
          exact Or.inr ⟨[], List.nil_sublist _, hvalid, by
            rw [stage1CostOf_cons, stage1CostOf_nil, Nat.add_zero]⟩
        · rcases i1c with h | ⟨s, hs, _, hv, hres⟩
          · exact Or.inl h
          · refine Or.inr ⟨s, hs, ?_, ?_⟩
            · rw [List.append_assoc, List.singleton_append] at hv
              exact hv
            · rw [hres, stage1CostOf_cons, Nat.add_assoc]
      · exact Or.inl rfl
    obtain ⟨i2a, i2b, i2c⟩ := ih cur curCost m1 hnd.2 hdisj2
    refine ⟨?_, ?_, ?_⟩
    · intro v hv
      obtain ⟨v1, hv1, hle1⟩ := a1 v hv
      obtain ⟨w, hw, hle2⟩ := i2a v1 hv1
      exact ⟨w, hw, by omega⟩
    · intro s hs hne hvalid
      rcases List.sublist_cons_iff.mp hs with h | ⟨r, hr, hrs⟩
      · exact i2b s h hne hvalid
      · subst hr
        obtain ⟨v1, hv1, hle1⟩ := b1 r hrs hvalid
        obtain ⟨w, hw, hle2⟩ := i2a v1 hv1
        exact ⟨w, hw, by omega⟩
    · rcases i2c with h | ⟨s, hs, hne, hv, hres⟩
      · rcases c1 with h1 | ⟨s, hs, hv, hres⟩
        · exact Or.inl (h.trans h1)
        · exact Or.inr ⟨pattern :: s, hs.cons₂ _, by simp, hv, h.trans hres⟩
      · exact Or.inr ⟨s, hs.cons _, hne, hv, hres⟩

/-- Recording a solution keeps the recorded ones, adds at most the new one, leaves a
solution with the key of the new one, and never records a solution twice. -/
theorem recordOptimal_spec (opt : List (List (List Char))) (sol : List (List Char)) :
    (∀ x ∈ opt, x ∈ recordOptimal opt sol) ∧
    (∀ x ∈ recordOptimal opt sol, x ∈ opt ∨ x = sol) ∧
    (∃ x ∈ recordOptimal opt sol, stage2Key x = stage2Key sol) ∧
    (opt.Nodup → (recordOptimal opt sol).Nodup) := by
  unfold recordOptimal
  by_cases hany : opt.any (fun s => decide (stage2Key s = stage2Key sol)) = true
  · rw [if_pos hany]
    refine ⟨fun x hx => hx, fun x hx => Or.inl hx, ?_, fun h => h⟩
    rw [List.any_eq_true] at hany
    obtain ⟨x, hx, hk⟩ := hany
    exact ⟨x, hx, by simpa using hk⟩
  · rw [if_neg hany]
    refine ⟨fun x hx => List.mem_append_left _ hx, ?_, ?_, ?_⟩
    · intro x hx
      rcases List.mem_append.mp hx with h | h
      · exact Or.inl h
      · exact Or.inr (List.mem_singleton.mp h)
    · exact ⟨sol, List.mem_append_right _ (List.mem_singleton.mpr rfl), rfl⟩
    · intro hnd
      apply List.Nodup.append hnd (List.nodup_singleton _)
      intro a ha hb
      rw [List.mem_singleton] at hb
      apply hany
      rw [List.any_eq_true]
      exact ⟨a, ha, by rw [hb]; simp⟩

/-- Phase 2, for one call of the loop: recorded solutions stay, none is recorded twice,
and every new one is a valid extension of the current solution whose cost is the bound. -/
theorem findAllOptimalLoop_sound (terms : List (List (List Char)))
    (registry : List RegistryEntry) (mstar : Option Nat) :
    ∀ (rest cur : List (List Char)) (curCost : Nat) (opt : List (List (List Char))),
      rest.Nodup → (∀ p ∈ rest, p ∉ cur) →
      (∀ x ∈ opt, x ∈ findAllOptimalLoop terms registry mstar rest cur curCost opt) ∧
      (opt.Nodup → (findAllOptimalLoop terms registry mstar rest cur curCost opt).Nodup) ∧
      (∀ x ∈ findAllOptimalLoop terms registry mstar rest cur curCost opt, x ∈ opt ∨
        ∃ s, s.Sublist rest ∧ s ≠ [] ∧ x = cur ++ s ∧
          isValidSolution (cur ++ s) terms = true ∧
          mstar = some (curCost + stage1CostOf registry s)) := by
  intro rest
  induction rest with
  | nil =>
    intro cur curCost opt _ _
    have hres : findAllOptimalLoop terms registry mstar [] cur curCost opt = opt := by
      rw [findAllOptimalLoop]
    rw [hres]
    exact ⟨fun x hx => hx, fun h => h, fun x hx => Or.inl hx⟩
  | cons pattern rest ih =>
    intro cur curCost opt hnd hdisj
    have hnot : pattern ∉ cur := hdisj pattern (List.mem_cons_self _ _)
    rw [List.nodup_cons] at hnd
    have hdisj1 : ∀ p ∈ rest, p ∉ cur ++ [pattern] := by
      intro p hp hin
      rcases List.mem_append.mp hin with h | h
      · exact hdisj p (List.mem_cons_of_mem _ hp) h
      · rw [List.mem_singleton] at h
        exact hnd.1 (h ▸ hp)
    have hdisj2 : ∀ p ∈ rest, p ∉ cur := fun p hp => hdisj p (List.mem_cons_of_mem _ hp)
    obtain ⟨i1a, i1b, i1c⟩ := ih (cur ++ [pattern]) (curCost + registryCost registry pattern)
      opt hnd.2 hdisj1
    obtain ⟨ra, rb, rc, rd⟩ := recordOptimal_spec opt (cur ++ [pattern])
    rw [findAllOptimalLoop_cons terms registry mstar pattern rest cur curCost opt hnot]
    have ho1 : ∃ o1, o1 =
        (if aboveMin (curCost + registryCost registry pattern) mstar = true then opt
        else if isValidSolution (cur ++ [pattern]) terms = true then
          (if mstar = some (curCost + registryCost registry pattern) then
            recordOptimal opt (cur ++ [pattern])
          else opt)
        else findAllOptimalLoop terms registry mstar rest (cur ++ [pattern])
          (curCost + registryCost registry pattern) opt) := ⟨_, rfl⟩
    obtain ⟨o1, ho1⟩ := ho1
    rw [← ho1]
    have a1 : ∀ x ∈ opt, x ∈ o1 := by
      intro x hx
      rw [ho1]
      split
      · exact hx
      · split
        · split
          · exact ra x hx
          · exact hx
        · exact i1a x hx
    have b1 : opt.Nodup → o1.Nodup := by
      intro h
      rw [ho1]
      split
      · exact h
      · split
        · split
          · exact rd h
          · exact h
        · exact i1b h
    have c1 : ∀ x ∈ o1, x ∈ opt ∨ ∃ s, s.Sublist rest ∧ x = cur ++ pattern :: s ∧
        isValidSolution (cur ++ pattern :: s) terms = true ∧
        mstar = some (curCost + stage1CostOf registry (pattern :: s)) := by
      intro x hx
      rw [ho1] at hx
      split at hx
      · exact Or.inl hx
      · split at hx
        · next hvalid =>
          split at hx
          · next hcost =>
            rcases rb x hx with h | h
            · exact Or.inl h
            · exact Or.inr ⟨[], List.nil_sublist _, h, hvalid, by
                rw [stage1CostOf_cons, stage1CostOf_nil, Nat.add_zero]; exact hcost⟩
          · exact Or.inl hx
        · rcases i1c x hx with h | ⟨s, hs, _, hxs, hv, hcost⟩
          · exact Or.inl h
          · refine Or.inr ⟨s, hs, ?_, ?_, ?_⟩
            · rw [hxs, List.append_assoc, List.singleton_append]
            · rw [List.append_assoc, List.singleton_append] at hv
              exact hv
            · rw [hcost, stage1CostOf_cons, Nat.add_assoc]
    obtain ⟨i2a, i2b, i2c⟩ := ih cur curCost o1 hnd.2 hdisj2
    refine ⟨fun x hx => i2a x (a1 x hx), fun h => i2b (b1 h), ?_⟩
    intro x hx
    rcases i2c x hx with h | ⟨s, hs, hne, hxs, hv, hcost⟩
    · rcases c1 x h with h1 | ⟨s, hs, hxs, hv, hcost⟩
      · exact Or.inl h1
      · exact Or.inr ⟨pattern :: s, hs.cons₂ _, by simp, hxs, hv, hcost⟩
    · exact Or.inr ⟨s, hs.cons _, hne, hxs, hv, hcost⟩

/-- The Stage-1 cost of a non-empty selection of patterns with positive cost is positive. -/
theorem stage1CostOf_pos (registry : List RegistryEntry) (s : List (List Char))
    (hpos : ∀ p ∈ s, 0 < registryCost registry p) (hne : s ≠ []) :
    0 < stage1CostOf registry s := by
  match s, hne with
  | p :: s, _ =>
    rw [stage1CostOf_cons]
    have := hpos p (List.mem_cons_self _ _)
    omega

/-- Phase 2, for one call of the loop, when the bound is the least cost of a valid
extension and costs are positive: every valid extension at the bound is recorded, up to
the order of its patterns. -/
theorem findAllOptimalLoop_complete (terms : List (List (List Char)))
    (registry : List RegistryEntry) (m : Nat) :
    ∀ (rest cur : List (List Char)) (curCost : Nat) (opt : List (List (List Char))),
      rest.Nodup → (∀ p ∈ rest, p ∉ cur) → (∀ p ∈ rest, 0 < registryCost registry p) →
      (∀ t, t.Sublist rest → t ≠ [] → isValidSolution (cur ++ t) terms = true →
        m ≤ curCost + stage1CostOf registry t) →
      ∀ s, s.Sublist rest → s ≠ [] → isValidSolution (cur ++ s) terms = true →
        curCost + stage1CostOf registry s = m →
        ∃ x ∈ findAllOptimalLoop terms registry (some m) rest cur curCost opt,
          stage2Key x = stage2Key (cur ++ s) := by
  intro rest
  induction rest with
  | nil =>
    intro cur curCost opt _ _ _ _ s hs hne
    exact absurd (List.eq_nil_of_sublist_nil hs) hne
  | cons pattern rest ih =>
    intro cur curCost opt hnd hdisj hpos hmin s hs hne hvalid hcost
    have hnot : pattern ∉ cur := hdisj pattern (List.mem_cons_self _ _)
    have hnd0 := hnd
    rw [List.nodup_cons] at hnd
    have hdisj1 : ∀ p ∈ rest, p ∉ cur ++ [pattern] := by
      intro p hp hin
      rcases List.mem_append.mp hin with h | h
      · exact hdisj p (List.mem_cons_of_mem _ hp) h
      · rw [List.mem_singleton] at h
        exact hnd.1 (h ▸ hp)
    have hdisj2 : ∀ p ∈ rest, p ∉ cur := fun p hp => hdisj p (List.mem_cons_of_mem _ hp)
    have hpos2 : ∀ p ∈ rest, 0 < registryCost registry p :=
      fun p hp => hpos p (List.mem_cons_of_mem _ hp)
    rw [findAllOptimalLoop_cons terms registry (some m) pattern rest cur curCost opt hnot]
    rcases List.sublist_cons_iff.mp hs with h | ⟨r, hr, hrs⟩
    · exact ih cur curCost _ hnd.2 hdisj2 hpos2
        (fun t ht htne hv => hmin t (ht.cons _) htne hv) s h hne hvalid hcost
    · subst hr
      rw [stage1CostOf_cons] at hcost
      have hmono := (findAllOptimalLoop_sound terms registry (some m) rest cur curCost
        (if aboveMin (curCost + registryCost registry pattern) (some m) = true then opt
        else if isValidSolution (cur ++ [pattern]) terms = true then
          (if some m = some (curCost + registryCost registry pattern) then
            recordOptimal opt (cur ++ [pattern])
          else opt)
        else findAllOptimalLoop terms registry (some m) rest (cur ++ [pattern])
          (curCost + registryCost registry pattern) opt) hnd.2 hdisj2).1
      have hab : ¬ aboveMin (curCost + registryCost registry pattern) (some m) = true := by
        simp only [aboveMin, decide_eq_true_eq]
        omega
      rw [if_neg hab] at hmono ⊢
      by_cases hv1 : isValidSolution (cur ++ [pattern]) terms = true
      · rw [if_pos hv1] at hmono ⊢
        have hr0 : r = [] := by
          by_contra hrne
          have h1 := stage1CostOf_pos registry r
            (fun p hp => hpos2 p (hrs.subset hp)) hrne
          have h2 := hmin [pattern] (List.Sublist.cons₂ _ (List.nil_sublist _)) (by simp) hv1
          rw [stage1CostOf_cons, stage1CostOf_nil] at h2
          omega
        subst hr0
        rw [stage1CostOf_nil, Nat.add_zero] at hcost
        rw [if_pos (by rw [hcost])] at hmono ⊢
        obtain ⟨x, hx, hk⟩ := (recordOptimal_spec opt (cur ++ [pattern])).2.2.1
        exact ⟨x, hmono x hx, hk⟩
      · rw [if_neg hv1] at hmono ⊢
        have hrne : r ≠ [] := by
          intro h
          rw [h] at hvalid
          exact hv1 hvalid
        have hv2 : isValidSolution ((cur ++ [pattern]) ++ r) terms = true := by
          rw [List.append_assoc, List.singleton_append]
          exact hvalid
        obtain ⟨x, hx, hk⟩ := ih (cur ++ [pattern]) (curCost + registryCost registry pattern)
          opt hnd.2 hdisj1 hpos2
          (by
            intro t ht htne hv
            have := hmin (pattern :: t) (ht.cons₂ _) (by simp)
              (by rw [List.append_assoc, List.singleton_append] at hv; exact hv)
            rw [stage1CostOf_cons] at this
            omega)
          r hrs hrne hv2 (by omega)
        refine ⟨x, hmono x hx, ?_⟩
        rw [hk, List.append_assoc, List.singleton_append]

/-- The base cost of a registry pattern is the cost of an entry of the registry. -/
theorem registryCost_pos (registry : List RegistryEntry) (hpos : ∀ e ∈ registry, 0 < e.cost)
    (p : List Char) (hp : p ∈ registry.map RegistryEntry.pattern) :
    0 < registryCost registry p := by
  obtain ⟨e, he, hep⟩ := List.mem_map.mp hp
  cases hget : registryGet registry p with
  | none =>
    unfold registryGet at hget
    rw [List.find?_eq_none] at hget
    exact absurd (by simpa using hep) (hget e he)
  | some e2 =>
    rw [registryCost_of_get registry p e2 hget]
    exact hpos e2 (registryGet_some registry p e2 hget).1

/-- What the two phases of the branch and bound compute, for a registry with distinct
patterns over `0`, `1`, `-` and positive costs. -/
theorem backtrackSearchDirect_facts (terms : List (List (List Char)))
    (registry : List RegistryEntry)
    (hnd : (registry.map RegistryEntry.pattern).Nodup)
    (hpat : ∀ e ∈ registry, IsPat e.pattern) (hpos : ∀ e ∈ registry, 0 < e.cost) :
    (∀ s, s.Sublist (registry.map RegistryEntry.pattern) →
      isValidSolution s terms = true →
      ∃ v, findMinCost terms registry (registry.map RegistryEntry.pattern) = some v ∧
        v ≤ stage1CostOf registry s) ∧
    (∀ v, findMinCost terms registry (registry.map RegistryEntry.pattern) = some v →
      ∃ s, s.Sublist (registry.map RegistryEntry.pattern) ∧
        isValidSolution s terms = true ∧ stage1CostOf registry s = v) ∧
    (∀ s, s ∈ backtrackSearchDirect terms registry ↔
      (s.Sublist (registry.map RegistryEntry.pattern) ∧ isValidSolution s terms = true ∧
        findMinCost terms registry (registry.map RegistryEntry.pattern) =
          some (stage1CostOf registry s))) ∧
    (backtrackSearchDirect terms registry).Nodup ∧
    (∀ s1 ∈ backtrackSearchDirect terms registry,
      ∀ s2 ∈ backtrackSearchDirect terms registry, s1.Perm s2 → s1 = s2) ∧
    ((∀ s, s.Sublist (registry.map RegistryEntry.pattern) →
        isValidSolution s terms = false) →
      findMinCost terms registry (registry.map RegistryEntry.pattern) = none ∧
      backtrackSearchDirect terms registry = []) := by
  have hcost := registryCost_pos registry hpos
  have hcomma : ∀ p ∈ registry.map RegistryEntry.pattern, ',' ∉ p := by
    intro p hp
    obtain ⟨e, he, rfl⟩ := List.mem_map.mp hp
    exact not_comma_of_isPat e.pattern (hpat e he)
  have main : (∀ s, s.Sublist (registry.map RegistryEntry.pattern) →
      isValidSolution s terms = true →
      ∃ v, findMinCost terms registry (registry.map RegistryEntry.pattern) = some v ∧
        v ≤ stage1CostOf registry s) ∧
    (∀ v, findMinCost terms registry (registry.map RegistryEntry.pattern) = some v →
      ∃ s, s.Sublist (registry.map RegistryEntry.pattern) ∧
        isValidSolution s terms = true ∧ stage1CostOf registry s = v) ∧
    (∀ s, s ∈ backtrackSearchDirect terms registry ↔
      (s.Sublist (registry.map RegistryEntry.pattern) ∧ isValidSolution s terms = true ∧
        findMinCost terms registry (registry.map RegistryEntry.pattern) =
          some (stage1CostOf registry s))) ∧
    (backtrackSearchDirect terms registry).Nodup := by
    by_cases hv0 : isValidSolution [] terms = true
    · have hmin : findMinCost terms registry (registry.map RegistryEntry.pattern) = some 0 := by
        unfold findMinCost
        rw [if_pos hv0]
      have hres : backtrackSearchDirect terms registry = [[]] := by
        unfold backtrackSearchDirect
        simp only []
        rw [if_pos hv0, hmin, if_pos rfl]
        rfl
      rw [hmin, hres]
      refine ⟨fun s _ _ => ⟨0, rfl, Nat.zero_le _⟩, ?_, ?_, List.nodup_singleton _⟩
      · intro v hv
        exact ⟨[], List.nil_sublist _, hv0, by rw [stage1CostOf_nil]; exact Option.some.inj hv⟩
      · intro s
        rw [List.mem_singleton]
        constructor
        · intro h
          subst h
          exact ⟨List.nil_sublist _, hv0, by rw [stage1CostOf_nil]⟩
        · rintro ⟨hs, _, hc⟩
          by_contra hne
          have := stage1CostOf_pos registry s (fun p hp => hcost p (hs.subset hp)) hne
          have h0 : 0 = stage1CostOf registry s := Option.some.inj hc
          omega
    · have hmin : findMinCost terms registry (registry.map RegistryEntry.pattern) =
          findMinCostLoop terms registry (registry.map RegistryEntry.pattern) [] 0 none := by
        unfold findMinCost
        rw [if_neg hv0]
      have hres : backtrackSearchDirect terms registry =
          findAllOptimalLoop terms registry
            (findMinCost terms registry (registry.map RegistryEntry.pattern))
            (registry.map RegistryEntry.pattern) [] 0 [] := by
        unfold backtrackSearchDirect
        simp only []
        rw [if_neg hv0]
      obtain ⟨_, p1b, p1c⟩ := findMinCostLoop_spec terms registry
        (registry.map RegistryEntry.pattern) [] 0 none hnd (fun p _ => List.not_mem_nil p)
      rw [← hmin] at p1b p1c
      obtain ⟨_, s2b, s2c⟩ := findAllOptimalLoop_sound terms registry
        (findMinCost terms registry (registry.map RegistryEntry.pattern))
        (registry.map RegistryEntry.pattern) [] 0 [] hnd (fun p _ => List.not_mem_nil p)
      rw [← hres] at s2b s2c
      have h1 : ∀ s, s.Sublist (registry.map RegistryEntry.pattern) →
          isValidSolution s terms = true →
          ∃ v, findMinCost terms registry (registry.map RegistryEntry.pattern) = some v ∧
            v ≤ stage1CostOf registry s := by
        intro s hs hv
        have hne : s ≠ [] := by
          intro h
          rw [h] at hv
          exact hv0 hv
        obtain ⟨w, hw, hle⟩ := p1b s hs hne (by rw [List.nil_append]; exact hv)
        exact ⟨w, hw, by omega⟩
      have hsound : ∀ x ∈ backtrackSearchDirect terms registry,
          x.Sublist (registry.map RegistryEntry.pattern) ∧ x ≠ [] ∧
          isValidSolution x terms = true ∧
          findMinCost terms registry (registry.map RegistryEntry.pattern) =
            some (stage1CostOf registry x) := by
        intro x hx
        rcases s2c x hx with h | ⟨s, hs, hne, hxs, hv, hc⟩
        · exact absurd h (List.not_mem_nil _)
        · rw [List.nil_append] at hxs hv
          subst hxs
          exact ⟨hs, hne, hv, by rw [hc, Nat.zero_add]⟩
      refine ⟨h1, ?_, ?_, s2b List.nodup_nil⟩
      · intro v hv
        rcases p1c with h | ⟨s, hs, _, hvalid, hc⟩
        · rw [h] at hv
          exact absurd hv (by simp)
        · rw [List.nil_append] at hvalid
          refine ⟨s, hs, hvalid, ?_⟩
          rw [hc, Nat.zero_add] at hv
          exact Option.some.inj hv
      · intro s
        constructor
        · intro hs
          obtain ⟨a, _, b, c⟩ := hsound s hs
          exact ⟨a, b, c⟩
        · rintro ⟨hs, hv, hc⟩
          have hne : s ≠ [] := by
            intro h
            rw [h] at hv
            exact hv0 hv
          have hcomp := findAllOptimalLoop_complete terms registry (stage1CostOf registry s)
            (registry.map RegistryEntry.pattern) [] 0 [] hnd (fun p _ => List.not_mem_nil p)
            hcost
            (by
              intro t ht _ htv
              rw [List.nil_append] at htv
              obtain ⟨v, hv1, hv2⟩ := h1 t ht htv
              rw [hc] at hv1
              have := Option.some.inj hv1
              omega)
            s hs hne (by rw [List.nil_append]; exact hv) (Nat.zero_add _)
          rw [← hc, ← hres] at hcomp
          obtain ⟨x, hx, hk⟩ := hcomp
          rw [List.nil_append] at hk
          obtain ⟨hxs, hxne, _, _⟩ := hsound x hx
          have := stage2Key_injective (registry.map RegistryEntry.pattern) x s hnd hcomma hxs
            hs hxne hne hk
          rw [← this]
          exact hx
  obtain ⟨m1, m2, m3, m4⟩ := main
  refine ⟨m1, m2, m3, m4, ?_, ?_⟩
  · intro s1 h1 s2 h2 hperm
    exact sublist_eq_of_perm (registry.map RegistryEntry.pattern) s1 s2 hnd
      ((m3 s1).mp h1).1 ((m3 s2).mp h2).1 hperm
  · intro hnone
    have hmin : findMinCost terms registry (registry.map RegistryEntry.pattern) = none := by
      cases h : findMinCost terms registry (registry.map RegistryEntry.pattern) with
      | none => rfl
      | some v =>
        obtain ⟨s, hs, hv, _⟩ := m2 v h
        rw [hnone s hs] at hv
        exact absurd hv (by simp)
    refine ⟨hmin, ?_⟩
    rw [List.eq_nil_iff_forall_not_mem]
    intro x hx
    obtain ⟨hs, hv, _⟩ := (m3 x).mp hx
    rw [hnone x hs] at hv
    exact absurd hv (by simp)

/-- C30 (branch and bound returns exactly the minimum-cost covers): for every list of
coverage terms and every registry with distinct patterns over `0`, `1`, `-` and positive
costs, with "subset" read as a sub-list of the registry patterns and "valid" as holding a
pattern of every term: `minCost` after phase 1 is at most the summed base cost of every
valid subset and is the summed base cost of one; the returned solutions are exactly the
valid subsets whose summed base cost is `minCost`; no solution is returned twice, also not
with its patterns in another order; and without a valid subset `minCost` stays `Infinity`
and no solution is returned. -/
theorem backtrackSearchDirect_exact (terms : List (List (List Char)))
    (registry : List RegistryEntry)
    (hnd : (registry.map RegistryEntry.pattern).Nodup)
    (hpat : ∀ e ∈ registry, IsPat e.pattern) (hpos : ∀ e ∈ registry, 0 < e.cost) :
    (∀ s, s.Sublist (registry.map RegistryEntry.pattern) →
      isValidSolution s terms = true →
      ∃ v, findMinCost terms registry (registry.map RegistryEntry.pattern) = some v ∧
        v ≤ stage1CostOf registry s) ∧
    (∀ v, findMinCost terms registry (registry.map RegistryEntry.pattern) = some v →
      ∃ s, s.Sublist (registry.map RegistryEntry.pattern) ∧
        isValidSolution s terms = true ∧ stage1CostOf registry s = v) ∧
    (∀ s, s ∈ backtrackSearchDirect terms registry ↔
      (s.Sublist (registry.map RegistryEntry.pattern) ∧ isValidSolution s terms = true ∧
        findMinCost terms registry (registry.map RegistryEntry.pattern) =
          some (stage1CostOf registry s))) ∧
    (backtrackSearchDirect terms registry).Nodup ∧
    (∀ s1 ∈ backtrackSearchDirect terms registry,
      ∀ s2 ∈ backtrackSearchDirect terms registry, s1.Perm s2 → s1 = s2) ∧
    ((∀ s, s.Sublist (registry.map RegistryEntry.pattern) →
        isValidSolution s terms = false) →
      findMinCost terms registry (registry.map RegistryEntry.pattern) = none ∧
      backtrackSearchDirect terms registry = []) :=
  backtrackSearchDirect_facts terms registry hnd hpat hpos

set_option maxRecDepth 100000 in
/-- Instance of C30 for the coverage terms and the registry of `cornerFunctions`: the
minimum cost is 2, reached by the four selections of one cheapest pattern per function. -/
theorem backtrackSearchDirect_exact_witness :
    (cornerRegistry.map RegistryEntry.pattern).Nodup ∧
    (∀ e ∈ cornerRegistry, 0 < e.cost) ∧
    findMinCost cornerTerms cornerRegistry (cornerRegistry.map RegistryEntry.pattern) =
      some 2 ∧
    backtrackSearchDirect cornerTerms cornerRegistry =
      [[['-', '1'], ['-', '0']], [['-', '1'], ['0', '-']], [['1', '-'], ['-', '0']],
        [['1', '-'], ['0', '-']]] ∧
    (∀ s, s.Sublist (cornerRegistry.map RegistryEntry.pattern) →
      isValidSolution s cornerTerms = true →
      ∃ v, findMinCost cornerTerms cornerRegistry
          (cornerRegistry.map RegistryEntry.pattern) = some v ∧
        v ≤ stage1CostOf cornerRegistry s) ∧
    (∀ s, s ∈ backtrackSearchDirect cornerTerms cornerRegistry ↔
      (s.Sublist (cornerRegistry.map RegistryEntry.pattern) ∧
        isValidSolution s cornerTerms = true ∧
        findMinCost cornerTerms cornerRegistry (cornerRegistry.map RegistryEntry.pattern) =
          some (stage1CostOf cornerRegistry s))) :=
  ⟨by decide, by decide, by decide, by decide,
    (backtrackSearchDirect_exact cornerTerms cornerRegistry (by decide)
      (by unfold IsPat; decide) (by decide)).1,
    (backtrackSearchDirect_exact cornerTerms cornerRegistry (by decide)
      (by unfold IsPat; decide) (by decide)).2.2.1⟩

/-! ## Functions that are a single cube -/

/-- Every pattern matches some binary string of its length. -/
theorem exists_bin_match (p : List Char) (hp : IsPat p) :
    ∃ s, IsBin s ∧ s.length = p.length ∧ matchChars p s = true := by
  induction p with
  | nil => exact ⟨[], fun c hc => absurd hc (List.not_mem_nil _), rfl, rfl⟩
  | cons a p ih =>
    rw [isPat_cons] at hp
    obtain ⟨s, hs, hlen, hm⟩ := ih hp.2
    rcases hp.1 with h | h | h
    · exact ⟨'0' :: s, isBin_cons.mpr ⟨Or.inl rfl, hs⟩, by simp [hlen],
        (matchChars_cons_cons _ _ _ _).mpr ⟨Or.inr h, hm⟩⟩
    · exact ⟨'1' :: s, isBin_cons.mpr ⟨Or.inr rfl, hs⟩, by simp [hlen],
        (matchChars_cons_cons _ _ _ _).mpr ⟨Or.inr h, hm⟩⟩
    · exact ⟨'0' :: s, isBin_cons.mpr ⟨Or.inl rfl, hs⟩, by simp [hlen],
        (matchChars_cons_cons _ _ _ _).mpr ⟨Or.inl h, hm⟩⟩

/-- A pattern whose binary strings all match another pattern is a specialisation of it. -/
theorem generalises_of_cube_subset (q : List Char) :
    ∀ p : List Char, IsPat q → IsPat p → q.length = p.length →
      (∀ s, IsBin s → s.length = q.length → matchChars q s = true →
        matchChars p s = true) →
      generalisesChars p q = true := by
  induction q with
  | nil =>
    intro p _ _ hlen _
    have : p = [] := List.length_eq_zero.mp hlen.symm
    subst this
    rfl
  | cons a q ih =>
    intro p hq hp hlen hsub
    match p, hp, hlen, hsub with
    | b :: p, hp, hlen, hsub =>
      rw [isPat_cons] at hq hp
      obtain ⟨s0, hs0, hl0, hm0⟩ := exists_bin_match q hq.2
      have hlen2 : q.length = p.length := by simpa using hlen
      -- a binary character that the head of `q` matches
      have hhead : ∃ c, (c = '0' ∨ c = '1') ∧ (a = '-' ∨ a = c) := by
        rcases hq.1 with h | h | h
        · exact ⟨'0', Or.inl rfl, Or.inr h⟩
        · exact ⟨'1', Or.inr rfl, Or.inr h⟩
        · exact ⟨'0', Or.inl rfl, Or.inl h⟩
      obtain ⟨c, hc, hac⟩ := hhead
      have htail : generalisesChars p q = true := by
        apply ih p hq.2 hp.2 hlen2
        intro t ht htl htm
        have := hsub (c :: t) (isBin_cons.mpr ⟨hc, ht⟩) (by simp [htl])
          ((matchChars_cons_cons _ _ _ _).mpr ⟨hac, htm⟩)
        exact ((matchChars_cons_cons _ _ _ _).mp this).2
      rw [generalisesChars_cons_cons]
      refine ⟨?_, htail⟩
      have hat : ∀ c2, (c2 = '0' ∨ c2 = '1') → (a = '-' ∨ a = c2) → (b = '-' ∨ b = c2) := by
        intro c2 hc2 hac2
        have := hsub (c2 :: s0) (isBin_cons.mpr ⟨hc2, hs0⟩) (by simp [hl0])
          ((matchChars_cons_cons _ _ _ _).mpr ⟨hac2, hm0⟩)
        exact ((matchChars_cons_cons _ _ _ _).mp this).1
      rcases hq.1 with h | h | h
      · rcases hat '0' (Or.inl rfl) (Or.inr h) with hb | hb
        · exact Or.inr ⟨hb, Or.inl h⟩
        · exact Or.inl (hb.trans h.symm)
      · rcases hat '1' (Or.inr rfl) (Or.inr h) with hb | hb
        · exact Or.inr ⟨hb, Or.inr h⟩
        · exact Or.inl (hb.trans h.symm)
      · rcases hat '0' (Or.inl rfl) (Or.inl h) with hb | hb
        · exact Or.inl (hb.trans h.symm)
        · rcases hat '1' (Or.inr rfl) (Or.inl h) with hb2 | hb2
          · exact Or.inl (hb2.trans h.symm)
          · rw [hb] at hb2
            exact absurd hb2 (by decide)

/-- For the function whose targets are the cube of `p`, without don't-cares, the
implicants are the specialisations of `p`. -/
theorem isImplicantOf_cube_iff (p q : List Char) (n : Nat) (M : List Nat) (hn : 1 ≤ n)
    (hp : IsPat p) (hlen : p.length = n) (hq : IsPat q) (hqlen : q.length = n)
    (hrange : ∀ m ∈ M, m < 2 ^ n ∧ matchesPattern p m n = true)
    (hall : ∀ m, m < 2 ^ n → matchesPattern p m n = true → m ∈ M) :
    IsImplicantOf q n M [] ↔ generalisesChars p q = true := by
  constructor
  · intro himp
    apply generalises_of_cube_subset q p hq hp (by rw [hqlen, hlen])
    intro s hs hsl hm
    obtain ⟨m, hm1, hm2⟩ := bits_surjective s hs
    rw [hsl, hqlen] at hm1 hm2
    rw [← hm2] at hm ⊢
    rw [← matchesPattern_eq_bits q m n hm1 hn] at hm
    rcases himp m hm1 hm with h | h
    · rw [← matchesPattern_eq_bits p m n hm1 hn]
      exact (hrange m h).2
    · exact absurd h (List.not_mem_nil _)
  · intro hgen m hm hmatch
    left
    apply hall m hm
    rw [matchesPattern_eq_bits _ m n hm hn] at hmatch ⊢
    exact generalisesChars_match p q _ hgen hmatch

/-- The cube of a pattern with at least one variable holds a target. -/
theorem cube_nonempty (p : List Char) (n : Nat) (M : List Nat) (hn : 1 ≤ n)
    (hp : IsPat p) (hlen : p.length = n)
    (hall : ∀ m, m < 2 ^ n → matchesPattern p m n = true → m ∈ M) :
    ∃ m ∈ M, matchesPattern p m n = true := by
  obtain ⟨s, hs, hsl, hm⟩ := exists_bin_match p hp
  obtain ⟨m, hm1, hm2⟩ := bits_surjective s hs
  rw [hsl, hlen] at hm1 hm2
  have hmat : matchesPattern p m n = true := by
    rw [matchesPattern_eq_bits p m n hm1 hn, hm2]
    exact hm
  exact ⟨m, hall m hm1 hmat, hmat⟩

/-- The only prime implicant of the cube of `p` is `p`. -/
theorem isPrimeImplicantOf_cube_iff (p q : List Char) (n : Nat) (M : List Nat) (hn : 1 ≤ n)
    (hp : IsPat p) (hlen : p.length = n) (hqlen : q.length = n)
    (hrange : ∀ m ∈ M, m < 2 ^ n ∧ matchesPattern p m n = true)
    (hall : ∀ m, m < 2 ^ n → matchesPattern p m n = true → m ∈ M) :
    IsPrimeImplicantOf q n M [] ↔ q = p := by
  have hpimp : IsImplicantOf p n M [] :=
    (isImplicantOf_cube_iff p p n M hn hp hlen hp hlen hrange hall).mpr
      (generalisesChars_refl p)
  constructor
  · rintro ⟨himp, hprime, m, hm, hmatch⟩
    have hq : IsPat q := by
      have hmr := (hrange m hm).1
      rw [matchesPattern_eq_bits q m n hmr hn] at hmatch
      exact isPat_of_matchChars q _ (isBin_bits n m) hmatch
    have hgen := (isImplicantOf_cube_iff p q n M hn hp hlen hq hqlen hrange hall).mp himp
    by_contra hne
    exact hprime p ⟨hgen, fun h => hne h.symm⟩ hpimp
  · intro h
    subst h
    refine ⟨hpimp, ?_, cube_nonempty q n M hn hp hlen hall⟩
    rintro g ⟨hgen, hne⟩ hgimp
    obtain ⟨hgpat, hd1, _⟩ := generalisesChars_dashes g q hgen hp
    have hglen : g.length = n := by
      rw [generalisesChars_length g q hgen, hlen]
    have hgen2 := (isImplicantOf_cube_iff q g n M hn hp hlen hgpat hglen hrange hall).mp hgimp
    obtain ⟨_, hd2, heq⟩ := generalisesChars_dashes q g hgen2 hgpat
    exact hne (heq (by omega)).symm

/-- The single-function generator returns one PI for the cube of `p`: the pattern `p`
with the targets. -/
theorem generateOnlyTruePrimeImplicants_cube (p : List Char) (n : Nat) (M : List Nat)
    (hn : 1 ≤ n) (hp : IsPat p) (hlen : p.length = n)
    (hrange : ∀ m ∈ M, m < 2 ^ n ∧ matchesPattern p m n = true)
    (hall : ∀ m, m < 2 ^ n → matchesPattern p m n = true → m ∈ M)
    (hsmall : ∀ m ∈ M, m < 10 ^ 21) :
    ∃ pi, generateOnlyTruePrimeImplicants M n [] = some [pi] ∧ pi.pattern = p ∧
      ∀ m, m ∈ pi.minterms ↔ m ∈ M := by
  obtain ⟨pis, hgen, hiff, hnd, hfacts⟩ := truePrimeImplicants_exact M [] n hn
    (fun m hm => ⟨(hrange m hm).1, hsmall m hm⟩) (fun d hd => absurd hd (List.not_mem_nil _))
  have hpat : pis.map Implicant.pattern = [p] := by
    rw [eq_singleton_iff_of_nodup _ p hnd]
    intro q
    constructor
    · intro hq
      obtain ⟨pi, hpi, rfl⟩ := List.mem_map.mp hq
      have hl := (hfacts pi hpi).1
      exact (isPrimeImplicantOf_cube_iff p pi.pattern n M hn hp hlen hl hrange hall).mp
        ((hiff pi.pattern hl).mp hq)
    · intro hq
      subst hq
      exact (hiff q hlen).mpr
        ((isPrimeImplicantOf_cube_iff q q n M hn hp hlen hlen hrange hall).mpr rfl)
  match pis, hpat, hgen, hfacts with
  | [pi], hpat, hgen, hfacts =>
    have hpp : pi.pattern = p := by simpa using hpat
    refine ⟨pi, hgen, hpp, ?_⟩
    intro m
    rw [(hfacts pi (List.mem_singleton.mpr rfl)).2.2.2 m, hpp]
    constructor
    · exact fun h => h.1
    · exact fun h => ⟨h, (hrange m h).2⟩

/-- The single-function path for one generated PI that contains every target: the PI is
essential and it is the only solution. -/
theorem singleFunctionResult_single (F : List Char) (M : List Nat) (pi : Implicant)
    (hne : M ≠ []) (hcov : ∀ m ∈ M, m ∈ pi.minterms) :
    (findEssentialPIs M (toPrimeImplicants [pi])
      (buildCoverageTable M (toPrimeImplicants [pi]))).essentialPIs = [0] ∧
    (singleFunctionResult F M [pi]).allSolutions =
      [⟨[⟨pi.pattern, pi.minterms, calculateCost pi.pattern⟩], calculateCost pi.pattern⟩] := by
  have hPIs : toPrimeImplicants [pi] = [⟨pi.pattern, pi.minterms, calculateCost pi.pattern⟩] :=
    rfl
  obtain ⟨hE, hN, hU⟩ := findEssentialPIs_spec M (toPrimeImplicants [pi])
  have hcovering : ∀ m ∈ M, coveringIndices (toPrimeImplicants [pi]) m = [0] := by
    intro m hm
    rw [hPIs]
    unfold coveringIndices
    simp [List.enum, List.enumFrom, hcov m hm]
  have hess : (findEssentialPIs M (toPrimeImplicants [pi])
      (buildCoverageTable M (toPrimeImplicants [pi]))).essentialPIs = [0] := by
    rw [eq_singleton_iff_of_nodup _ 0 hN]
    intro i
    rw [hE i]
    constructor
    · rintro ⟨m, hm, hc⟩
      rw [hcovering m hm] at hc
      simpa using hc.symm
    · intro hi
      subst hi
      obtain ⟨m, hm⟩ := List.exists_mem_of_ne_nil M hne
      exact ⟨m, hm, hcovering m hm⟩
  have hrem : M.filter (fun m => decide (m ∉ (findEssentialPIs M (toPrimeImplicants [pi])
      (buildCoverageTable M (toPrimeImplicants [pi]))).usedMinterms)) = [] := by
    rw [List.filter_eq_nil_iff]
    intro m hm
    simp only [decide_eq_true_eq, not_not]
    rw [hU m]
    refine ⟨hm, 0, by rw [hess]; exact List.mem_singleton.mpr rfl,
      ⟨pi.pattern, pi.minterms, calculateCost pi.pattern⟩, ?_, hcov m hm⟩
    rw [hPIs]
    rfl
  refine ⟨hess, ?_⟩
  unfold singleFunctionResult
  simp only []
  rw [hrem, hess]
  have h1 : ¬ (([] : List Nat).length > 0) := by decide
  rw [if_neg h1, if_pos (show ([] : List Cover).length = 0 from rfl), hPIs]
  simp [essentialSolutionOf]

/-- The expression of a solution of one PI is the algebraic form of its pattern. -/
theorem expressionOf_singleton (variableNames : List (List Char)) (pi : PI) :
    expressionOf variableNames [pi] = convertPatternToAlgebraic variableNames pi.pattern := by
  unfold expressionOf
  simp [List.intercalate, List.intersperse]

/-- A pattern of dashes only has the algebraic form `1`. -/
theorem convertPatternToAlgebraic_dashes (variableNames : List (List Char)) (p : List Char)
    (h : ∀ c ∈ p, c = '-') : convertPatternToAlgebraic variableNames p = ['1'] := by
  unfold convertPatternToAlgebraic
  simp only []
  have key : ∀ (l : List Char) (k : Nat), (∀ c ∈ l, c = '-') →
      (l.enumFrom k).foldl
        (fun algebraic e =>
          if e.2 = '1' then algebraic ++ variableName variableNames e.1
          else if e.2 = '0' then
            algebraic ++ variableName variableNames e.1 ++ [Char.ofNat 39]
          else algebraic)
        [] = [] := by
    intro l
    induction l with
    | nil => intro k _; rfl
    | cons c l ih =>
      intro k hl
      have hc : c = '-' := hl c (List.mem_cons_self _ _)
      subst hc
      rw [List.enumFrom_cons, List.foldl_cons]
      simp only []
      rw [if_neg (by decide), if_neg (by decide)]
      exact ih (k + 1) (fun x hx => hl x (List.mem_cons_of_mem _ hx))
  unfold List.enum
  rw [key p 0 h, if_pos rfl]

/-- C22 (a function that is a single cube minimises to that cube) with at least one
variable: for a pattern `p` of length `n` with `1 ≤ n ≤ 8` over `0`, `1`, `-`, targets `M`
that are exactly the integers below `2^n` matching `p`, no don't-cares, and a function name
other than `__proto__`, the generator returns one PI, with pattern `p` and the targets as
minterms; it is essential; and the call on a fresh instance returns exactly one solution,
whose PIs are that PI with cost `calculateCost p`, whose cost is `calculateCost p` and whose
expression is `convertPatternToAlgebraic p` under the default variable names, which is `1`
when `p` holds only `-`. -/
theorem executeMultipleOutput_single_cube (F p : List Char) (n : Nat) (M : List Nat)
    (hF : F ≠ protoKey) (hn : 1 ≤ n) (hn8 : n ≤ 8) (hlen : p.length = n) (hp : IsPat p)
    (hrange : ∀ m ∈ M, m < 2 ^ n ∧ matchesPattern p m n = true)
    (hall : ∀ m, m < 2 ^ n → matchesPattern p m n = true → m ∈ M) :
    ∃ pi res, generateOnlyTruePrimeImplicants M n [] = some [pi] ∧ pi.pattern = p ∧
      (∀ m, m ∈ pi.minterms ↔ m ∈ M) ∧
      (findEssentialPIs M (toPrimeImplicants [pi])
        (buildCoverageTable M (toPrimeImplicants [pi]))).essentialPIs = [0] ∧
      executeOnInstance freshInstance [(F, M)] n [] = some res ∧
      res.1.result.allSolutions =
        [⟨[⟨p, pi.minterms, calculateCost p⟩], calculateCost p⟩] ∧
      res.1.expressions = [convertPatternToAlgebraic (defaultVariables.take n) p] ∧
      ((∀ c ∈ p, c = '-') →
        convertPatternToAlgebraic (defaultVariables.take n) p = ['1']) := by
  have hsmall : ∀ m ∈ M, m < 10 ^ 21 := by
    intro m hm
    have h1 := (hrange m hm).1
    have h2 : 2 ^ n ≤ 2 ^ 8 := Nat.pow_le_pow_right (by norm_num) hn8
    have h3 : (2 : Nat) ^ 8 < 10 ^ 21 := by norm_num
    omega
  obtain ⟨pi, hgen, hpat, hmin⟩ :=
    generateOnlyTruePrimeImplicants_cube p n M hn hp hlen hrange hall hsmall
  obtain ⟨m0, hm0, _⟩ := cube_nonempty p n M hn hp hlen hall
  obtain ⟨hess, hsol⟩ := singleFunctionResult_single F M pi (List.ne_nil_of_mem hm0)
    (fun m hm => (hmin m).mpr hm)
  have hexec := executeMultipleOutput_single [] F M [] n [pi] hF hsmall hgen
  rw [hpat] at hsol
  refine ⟨pi,
    (⟨singleFunctionResult F M [pi],
      (singleFunctionResult F M [pi]).allSolutions.map
        (fun solution => expressionOf (defaultVariables.take n) solution.pis)⟩,
      ⟨defaultVariables.take n, []⟩),
    hgen, hpat, hmin, hess, ?_, hsol, ?_, convertPatternToAlgebraic_dashes _ p⟩
  · unfold executeOnInstance
    simp only []
    unfold freshInstance
    simp only []
    rw [hexec]
    rfl
  · simp only []
    rw [hsol]
    simp only [List.map_cons, List.map_nil]
    rw [expressionOf_singleton]

set_option maxRecDepth 100000 in
/-- Instance of C22 for three variables, `p = --1` and the targets `1, 3, 5, 7`, with the
values of this scenario and of the scenario `p = --` with the targets `0` to `3`. -/
theorem executeMultipleOutput_single_cube_witness :
    (['F'] ≠ protoKey ∧ 1 ≤ 3 ∧ 3 ≤ 8 ∧ ['-', '-', '1'].length = 3 ∧
      (∀ m ∈ [1, 3, 5, 7], m < 2 ^ 3 ∧ matchesPattern ['-', '-', '1'] m 3 = true) ∧
      (∀ m, m < 2 ^ 3 → matchesPattern ['-', '-', '1'] m 3 = true → m ∈ [1, 3, 5, 7])) ∧
    (∃ pi res, generateOnlyTruePrimeImplicants [1, 3, 5, 7] 3 [] = some [pi] ∧
      pi.pattern = ['-', '-', '1'] ∧
      (∀ m, m ∈ pi.minterms ↔ m ∈ [1, 3, 5, 7]) ∧
      (findEssentialPIs [1, 3, 5, 7] (toPrimeImplicants [pi])
        (buildCoverageTable [1, 3, 5, 7] (toPrimeImplicants [pi]))).essentialPIs = [0] ∧
      executeOnInstance freshInstance [(['F'], [1, 3, 5, 7])] 3 [] = some res ∧
      res.1.result.allSolutions =
        [⟨[⟨['-', '-', '1'], pi.minterms, calculateCost ['-', '-', '1']⟩],
          calculateCost ['-', '-', '1']⟩] ∧
      res.1.expressions =
        [convertPatternToAlgebraic (defaultVariables.take 3) ['-', '-', '1']] ∧
      ((∀ c ∈ ['-', '-', '1'], c = '-') →
        convertPatternToAlgebraic (defaultVariables.take 3) ['-', '-', '1'] = ['1'])) ∧
    (executeOnInstance freshInstance [(['F'], [1, 3, 5, 7])] 3 []).map
        (fun r => (r.1.result.allSolutions, r.1.expressions)) =
      some ([⟨[⟨['-', '-', '1'], [1, 3, 5, 7], 1⟩], 1⟩], [['C']]) ∧
    (executeOnInstance freshInstance [(['F'], [0, 1, 2, 3])] 2 []).map
        (fun r => (r.1.result.allSolutions, r.1.expressions)) =
      some ([⟨[⟨['-', '-'], [0, 1, 2, 3], 1⟩], 1⟩], [['1']]) :=
  ⟨⟨by decide, by decide, by decide, by decide, by decide, by decide⟩,
    executeMultipleOutput_single_cube ['F'] ['-', '-', '1'] 3 [1, 3, 5, 7] (by decide)
      (by decide) (by decide) (by decide) (by unfold IsPat; decide) (by decide) (by decide),
    by decide, by decide⟩

set_option maxRecDepth 100000 in
/-- C22 without variables: the pattern of length 0 is matched by the integer `0` only, and
for the function with target `0` the call on a fresh instance returns the PI with the
pattern `0`, of length one, and the expression `X0'`, while the algebraic form of the
pattern of length 0 is `1`. -/
theorem executeMultipleOutput_single_cube_no_variables :
    (∀ m, m < 2 ^ 0 → (m ∈ [0] ↔ matchesPattern [] m 0 = true)) ∧
    generateOnlyTruePrimeImplicants [0] 0 [] = some [⟨['0'], [0]⟩] ∧
    (executeOnInstance freshInstance [(['F'], [0])] 0 []).map
        (fun r => (r.1.result.allSolutions, r.1.expressions)) =
      some ([⟨[⟨['0'], [0], 1⟩], 1⟩], [['X', '0', Char.ofNat 39]]) ∧
    convertPatternToAlgebraic (defaultVariables.take 0) [] = ['1'] := by
  decide

/-! ## Stage 2 keeps a PI -/

/-- Removing the integers of a list from a duplicate-free list. -/
theorem foldl_erase_spec (ms : List Nat) :
    ∀ rem : List Nat, rem.Nodup →
      (ms.foldl (fun remaining m => if m ∈ remaining then remaining.erase m else remaining)
        rem).Nodup ∧
      ∀ x, x ∈ ms.foldl
          (fun remaining m => if m ∈ remaining then remaining.erase m else remaining) rem ↔
        x ∈ rem ∧ x ∉ ms := by
  induction ms with
  | nil => intro rem h; exact ⟨h, fun x => by simp⟩
  | cons m ms ih =>
    intro rem h
    rw [List.foldl_cons]
    by_cases hm : m ∈ rem
    · rw [if_pos hm]
      obtain ⟨h1, h2⟩ := ih (rem.erase m) (h.erase m)
      refine ⟨h1, fun x => ?_⟩
      rw [h2 x, h.mem_erase_iff]
      simp only [List.mem_cons, not_or]
      tauto
    · rw [if_neg hm]
      obtain ⟨h1, h2⟩ := ih rem h
      refine ⟨h1, fun x => ?_⟩
      rw [h2 x]
      simp only [List.mem_cons, not_or]
      constructor
      · rintro ⟨a, b⟩; exact ⟨a, fun hx => hm (hx ▸ a), b⟩
      · rintro ⟨a, _, b⟩; exact ⟨a, b⟩

/-- The best PI of a greedy round covers a remaining target, and there is a best PI as soon
as an unused PI covers a remaining target. -/
theorem greedyBest_spec (rem : List Nat) (unused : List PI) :
    (∀ b, greedyBest rem unused = some b → ∃ m ∈ b.minterms, m ∈ rem) ∧
    ((∃ u ∈ unused, ∃ m ∈ u.minterms, m ∈ rem) → ∃ b, greedyBest rem unused = some b) := by
  have hcnt : ∀ x : PI, 0 < (x.minterms.filter (fun m => decide (m ∈ rem))).length ↔
      ∃ m ∈ x.minterms, m ∈ rem := by
    intro x
    rw [List.length_pos]
    constructor
    · intro h
      obtain ⟨m, hm⟩ := List.exists_mem_of_ne_nil _ h
      rw [List.mem_filter] at hm
      exact ⟨m, hm.1, by simpa using hm.2⟩
    · rintro ⟨m, h1, h2⟩
      exact List.ne_nil_of_mem (List.mem_filter.mpr ⟨h1, by simpa using h2⟩)
  have key : ∀ (l : List PI) (init : Option PI × Nat × Nat),
      (∀ x, init.1 = some x → 0 < (x.minterms.filter (fun m => decide (m ∈ rem))).length) →
      (init.1 = none → init.2.1 = 0 ∧ 0 < init.2.2) →
      (∀ x, (l.foldl
        (fun (best : Option PI × Nat × Nat) pi =>
          if (pi.minterms.filter (fun m => decide (m ∈ rem))).length > 0 then
            if (pi.minterms.filter (fun m => decide (m ∈ rem))).length * best.2.2 >
                best.2.1 * pi.cost then
              (some pi, (pi.minterms.filter (fun m => decide (m ∈ rem))).length, pi.cost)
            else best
          else best) init).1 = some x →
          0 < (x.minterms.filter (fun m => decide (m ∈ rem))).length) ∧
      ((init.1.isSome = true ∨
          ∃ u ∈ l, 0 < (u.minterms.filter (fun m => decide (m ∈ rem))).length) →
        ((l.foldl
        (fun (best : Option PI × Nat × Nat) pi =>
          if (pi.minterms.filter (fun m => decide (m ∈ rem))).length > 0 then
            if (pi.minterms.filter (fun m => decide (m ∈ rem))).length * best.2.2 >
                best.2.1 * pi.cost then
              (some pi, (pi.minterms.filter (fun m => decide (m ∈ rem))).length, pi.cost)
            else best
          else best) init).1).isSome = true) := by
    intro l
    induction l with
    | nil =>
      intro init h1 _
      refine ⟨h1, ?_⟩
      rintro (h | ⟨u, hu, _⟩)
      · exact h
      · exact absurd hu (List.not_mem_nil _)
    | cons a l ih =>
      intro init h1 h2
      rw [List.foldl_cons]
      by_cases ha : (a.minterms.filter (fun m => decide (m ∈ rem))).length > 0
      · rw [if_pos ha]
        by_cases hb : (a.minterms.filter (fun m => decide (m ∈ rem))).length * init.2.2 >
            init.2.1 * a.cost
        · rw [if_pos hb]
          obtain ⟨r1, r2⟩ := ih (some a, (a.minterms.filter (fun m => decide (m ∈ rem))).length,
            a.cost) (fun x hx => by
              simp only [Option.some.injEq] at hx
              subst hx
              exact ha) (fun h => by simp at h)
          exact ⟨r1, fun _ => r2 (Or.inl rfl)⟩
        · rw [if_neg hb]
          obtain ⟨r1, r2⟩ := ih init h1 h2
          refine ⟨r1, fun _ => r2 (Or.inl ?_)⟩
          cases hinit : init.1 with
          | some x => rfl
          | none =>
            obtain ⟨e1, e2⟩ := h2 hinit
            rw [e1, Nat.zero_mul] at hb
            exact absurd (Nat.mul_pos ha e2) hb
      · rw [if_neg ha]
        obtain ⟨r1, r2⟩ := ih init h1 h2
        refine ⟨r1, ?_⟩
        rintro (h | ⟨u, hu, hu2⟩)
        · exact r2 (Or.inl h)
        · rcases List.mem_cons.mp hu with h | h
          · subst h
            exact absurd hu2 ha
          · exact r2 (Or.inr ⟨u, h, hu2⟩)
  obtain ⟨k1, k2⟩ := key unused (none, 0, 1) (fun x hx => by simp at hx)
    (fun _ => ⟨rfl, Nat.one_pos⟩)
  constructor
  · intro b hb
    exact (hcnt b).mp (k1 b hb)
  · rintro ⟨u, hu, hm⟩
    have := k2 (Or.inr ⟨u, hu, (hcnt u).mpr hm⟩)
    exact Option.isSome_iff_exists.mp this

/-- The greedy loop keeps the PIs that are already selected. -/
theorem greedyLoop_subset (rounds : Nat) (sel : List PI) (rem : List Nat) (unused : List PI) :
    ∀ x ∈ sel, x ∈ greedyLoop rounds sel rem unused := by
  induction rounds generalizing sel rem unused with
  | zero => intro y hy; unfold greedyLoop; exact hy
  | succ rounds ih =>
    intro y hy
    unfold greedyLoop
    split
    · split
      · exact ih _ _ _ y (List.mem_append_left _ hy)
      · exact hy
    · exact hy

/-- Unless the greedy loop selects nothing, the PI it selects last covers a remaining
target that no other selected PI covers. -/
theorem greedyLoop_last (rounds : Nat) (sel : List PI) (rem : List Nat) (unused : List PI)
    (hnd : rem.Nodup) (hinv : ∀ m ∈ rem, ∀ s ∈ sel, m ∉ s.minterms) :
    greedyLoop rounds sel rem unused = sel ∨
      ∃ b ∈ greedyLoop rounds sel rem unused, ∃ m ∈ rem, m ∈ b.minterms ∧
        ∀ o ∈ greedyLoop rounds sel rem unused, o ≠ b → m ∉ o.minterms := by
  induction rounds generalizing sel rem unused with
  | zero => left; unfold greedyLoop; rfl
  | succ rounds ih =>
    unfold greedyLoop
    split
    · split
      · rename_i b hb
        obtain ⟨m, hm1, hm2⟩ := (greedyBest_spec rem unused).1 b hb
        obtain ⟨e1, e2⟩ := foldl_erase_spec b.minterms rem hnd
        right
        rcases ih (sel ++ [b]) _ (unused.erase b) e1 (by
          intro x hx s hs
          rw [e2] at hx
          rcases List.mem_append.mp hs with h | h
          · exact hinv x hx.1 s h
          · rw [List.mem_singleton] at h
            subst h
            exact hx.2) with h | ⟨b2, hb2, m2, hm2a, hm2b, hm2c⟩
        · rw [h]
          refine ⟨b, List.mem_append_right _ (List.mem_singleton.mpr rfl), m, hm2, hm1, ?_⟩
          intro o ho hne
          rcases List.mem_append.mp ho with h2 | h2
          · exact hinv m hm2 o h2
          · exact absurd (List.mem_singleton.mp h2) hne
        · exact ⟨b2, hb2, m2, ((e2 m2).mp hm2a).1, hm2b, hm2c⟩
      · left; rfl
    · left; rfl

/-- Every essential PI of step 2 is the only non-redundant PI that covers some target, and
the remaining targets are untouched as long as there is no essential PI. -/
theorem foldl_stage2EssentialStep_unique (NR : List PI) (T : List Nat) (r0 : List Nat)
    (ms : List Nat) (hms : ∀ m ∈ ms, m ∈ T) :
    ∀ st : Stage2Essential,
      (∀ e ∈ st.essentialPIs, ∃ m ∈ T,
        NR.filter (fun pi => decide (m ∈ pi.minterms)) = [e]) →
      (st.essentialPIs = [] → st.remainingMinterms = r0) →
      (∀ e ∈ (ms.foldl (stage2EssentialStep NR T) st).essentialPIs, ∃ m ∈ T,
        NR.filter (fun pi => decide (m ∈ pi.minterms)) = [e]) ∧
      ((ms.foldl (stage2EssentialStep NR T) st).essentialPIs = [] →
        (ms.foldl (stage2EssentialStep NR T) st).remainingMinterms = r0) := by
  induction ms with
  | nil => intro st h1 h2; exact ⟨h1, h2⟩
  | cons m ms ih =>
    intro st h1 h2
    rw [List.foldl_cons]
    apply ih (fun x hx => hms x (List.mem_cons_of_mem _ hx))
    · unfold stage2EssentialStep
      split
      · rename_i e heq
        split
        · intro x hx
          rcases List.mem_append.mp hx with h | h
          · exact h1 x h
          · rw [List.mem_singleton] at h
            subst h
            exact ⟨m, hms m (List.mem_cons_self _ _), heq⟩
        · exact h1
      · exact h1
    · unfold stage2EssentialStep
      split
      · split
        · intro h
          simp at h
        · exact h2
      · exact h2

/-- With no PI selected yet, a round left and an unused PI that covers a remaining target,
the greedy loop selects a PI. -/
theorem greedyLoop_ne_nil (rounds : Nat) (rem : List Nat) (unused : List PI)
    (h : ∃ u ∈ unused, ∃ m ∈ u.minterms, m ∈ rem) :
    greedyLoop (rounds + 1) [] rem unused ≠ [] := by
  obtain ⟨b, hb⟩ := (greedyBest_spec rem unused).2 h
  obtain ⟨u, hu, m, _, hm⟩ := h
  unfold greedyLoop
  rw [if_pos ⟨List.length_pos.mpr (List.ne_nil_of_mem hm),
    List.length_pos.mpr (List.ne_nil_of_mem hu)⟩, hb]
  simp only []
  exact List.ne_nil_of_mem (greedyLoop_subset _ _ _ _ b (by simp))

/-- Stage 2 returns at least one PI when every PI covers a target and step 1 keeps one. -/
theorem removeRedundantPIsForStage2_ne_nil (X : List PI) (T : List Nat)
    (hX : ∀ x ∈ X, ∃ m ∈ x.minterms, m ∈ T)
    (hdom : ∃ x ∈ X, isRedundantAmong X T x = false) :
    removeRedundantPIsForStage2 X T ≠ [] := by
  obtain ⟨x0, hx0, hx0r⟩ := hdom
  unfold removeRedundantPIsForStage2
  split
  · exact List.ne_nil_of_mem hx0
  · simp only []
    have hx0NR : x0 ∈ X.filter (fun pi => !isRedundantAmong X T pi) :=
      List.mem_filter.mpr ⟨hx0, by simp [hx0r]⟩
    obtain ⟨he1, _⟩ := foldl_stage2EssentialStep
      (X.filter (fun pi => !isRedundantAmong X T pi)) T T ⟨[], uniqueOf T⟩
      (fun e he => absurd he (List.not_mem_nil _)) List.nodup_nil
    obtain ⟨he3, he4⟩ := foldl_stage2EssentialStep_unique
      (X.filter (fun pi => !isRedundantAmong X T pi)) T (uniqueOf T) T (fun m hm => hm)
      ⟨[], uniqueOf T⟩ (fun e he => absurd he (List.not_mem_nil _)) (fun _ => rfl)
    generalize (T.foldl (stage2EssentialStep (X.filter (fun pi => !isRedundantAmong X T pi)) T)
      ⟨[], uniqueOf T⟩) = ess at he1 he3 he4
    generalize hNR : X.filter (fun pi => !isRedundantAmong X T pi) = NR at *
    by_cases hess : ess.essentialPIs = []
    · have hrem := he4 hess
      rw [hess, hrem]
      have hun : NR.filter (fun pi =>
          (([] : List PI).find? (fun e => decide (e.pattern = pi.pattern))).isNone) = NR := by
        simp
      rw [hun]
      obtain ⟨k, hk⟩ := Nat.exists_eq_succ_of_ne_zero
        (Nat.pos_iff_ne_zero.mp (List.length_pos.mpr (List.ne_nil_of_mem hx0NR)))
      have hsel : greedyLoop NR.length [] (uniqueOf T) NR ≠ [] := by
        rw [hk]
        apply greedyLoop_ne_nil
        obtain ⟨m, hm1, hm2⟩ := hX x0 hx0
        exact ⟨x0, hx0NR, m, hm1, (mem_uniqueOf T m).mpr hm2⟩
      rcases greedyLoop_last NR.length [] (uniqueOf T) NR (nodup_uniqueOf T)
        (fun m _ s hs => absurd hs (List.not_mem_nil _)) with h | ⟨b, hb, m, hm1, hm2, hm3⟩
      · exact absurd h hsel
      · apply List.ne_nil_of_mem (a := b)
        rw [List.mem_filter]
        refine ⟨hb, ?_⟩
        rw [isNecessaryAmong_iff]
        exact ⟨m, (mem_uniqueOf T m).mp hm1, fun o ho hne =>
          hm3 o ho (fun h => hne (by rw [h]))⟩
    · obtain ⟨e, he⟩ := List.exists_mem_of_ne_nil _ hess
      apply List.ne_nil_of_mem (a := e)
      rw [List.mem_filter]
      refine ⟨greedyLoop_subset _ _ _ _ e he, ?_⟩
      rw [isNecessaryAmong_iff]
      obtain ⟨m, hm, hfil⟩ := he3 e he
      refine ⟨m, hm, fun o ho hne hcov => hne ?_⟩
      have hoNR : o ∈ NR := by
        rcases greedyLoop_mem _ _ _ _ o ho with h | h
        · exact he1 o h
        · exact (List.mem_filter.mp h).1
      have : o ∈ NR.filter (fun pi => decide (m ∈ pi.minterms)) :=
        List.mem_filter.mpr ⟨hoNR, by simpa using hcov⟩
      rw [hfil, List.mem_singleton] at this
      rw [this]

/-! ## Two functions with the same single cube: generation and registry -/

theorem length_specialisations (p : List Char) :
    (specialisations p).length = 3 ^ dashes p := by
  induction p with
  | nil => rfl
  | cons a p ih =>
    rw [dashes_cons]
    unfold specialisations
    by_cases h : a = '-'
    · rw [if_pos h, if_pos h, List.length_flatMap]
      have hc : (List.length ∘ fun t : List Char => ['0' :: t, '1' :: t, '-' :: t]) =
          fun _ => 3 := rfl
      rw [hc, List.map_const', List.sum_replicate, ih, Nat.pow_succ, smul_eq_mul]
    · rw [if_neg h, if_neg h, List.length_map, ih]
      rfl

theorem mem_specialisations (p : List Char) :
    ∀ q, generalisesChars p q = true → q ∈ specialisations p := by
  induction p with
  | nil =>
    intro q h
    cases q with
    | nil => exact List.mem_singleton.mpr rfl
    | cons b q => simp [generalisesChars] at h
  | cons a p ih =>
    intro q h
    cases q with
    | nil => simp [generalisesChars] at h
    | cons b q =>
      rw [generalisesChars_cons_cons] at h
      have hq := ih q h.2
      unfold specialisations
      by_cases ha : a = '-'
      · rw [if_pos ha, List.mem_flatMap]
        refine ⟨q, hq, ?_⟩
        rcases h.1 with h1 | ⟨_, h1 | h1⟩
        · rw [← h1, ha]; simp
        · rw [h1]; simp
        · rw [h1]; simp
      · rw [if_neg ha, List.mem_map]
        refine ⟨q, hq, ?_⟩
        rcases h.1 with h1 | ⟨h1, _⟩
        · rw [h1]
        · exact absurd h1 ha

/-- A duplicate-free list of specialisations of a pattern with at most two dashes has at
most nine entries. -/
theorem length_le_of_specialisations (p : List Char) (l : List (List Char)) (hnd : l.Nodup)
    (hl : ∀ q ∈ l, generalisesChars p q = true) (hd : dashes p ≤ 2) : l.length ≤ 9 := by
  have hsub : l ⊆ specialisations p := fun q hq => mem_specialisations p q (hl q hq)
  have h1 := (List.subperm_of_subset hnd hsub).length_le
  rw [length_specialisations] at h1
  have h2 : 3 ^ dashes p ≤ 3 ^ 2 := Nat.pow_le_pow_right (by decide) hd
  omega

/-- The multi-function generator for at least one variable: the generated patterns are the
implicants that match a target. -/
theorem generateFor_multi_exact (count n : Nat) (M D : List Nat) (hcount : count ≠ 1)
    (hn : 1 ≤ n) (hM : ∀ m ∈ M, m < 2 ^ n ∧ m < 10 ^ 21) (hD : ∀ d ∈ D, d < 2 ^ n ∧ d < 10 ^ 21) :
    ∃ pis, generateFor count M n D = some pis ∧ (pis.map Implicant.pattern).Nodup ∧
      (∀ q : List Char, q.length = n →
        (q ∈ pis.map Implicant.pattern ↔
          (IsImplicantOf q n M D ∧ ∃ m ∈ M, matchesPattern q m n = true))) ∧
      (∀ pi ∈ pis, pi.pattern.length = n ∧
        ∀ m, m ∈ pi.minterms ↔ (m ∈ M ∧ matchesPattern pi.pattern m n = true)) := by
  obtain ⟨all, hall, hiff, hnd, hfacts⟩ := generateQuineMcCluskeyPIs_spec M D n hn hM hD
  have hres : findTruePrimeImplicants all M =
      all.map (fun t => (⟨t.pattern, t.minterms⟩ : Implicant)) :=
    findTruePrimeImplicants_of_restricted all M
      (fun pi hpi => ⟨(hfacts pi hpi).2.2.1,
        fun m hm => (((hfacts pi hpi).2.2.2 m).mp hm).1⟩)
  have hpat : (findTruePrimeImplicants all M).map Implicant.pattern =
      all.map LevelImplicant.pattern := by
    rw [hres, List.map_map]
    rfl
  refine ⟨findTruePrimeImplicants all M, ?_, ?_, ?_, ?_⟩
  · unfold generateFor
    rw [if_neg hcount, hall]
    rfl
  · rw [hpat]
    exact hnd
  · intro q hq
    rw [hpat]
    exact hiff q hq
  · intro pi hpi
    rw [hres, List.mem_map] at hpi
    obtain ⟨t, ht, rfl⟩ := hpi
    obtain ⟨h1, _, _, h4⟩ := hfacts t ht
    exact ⟨h1, h4⟩

/-- In the registrations of one function, a pattern of its PI list occurs once. -/
theorem filter_registrations (name : List Char) (q : List Char) (pis : List Implicant)
    (hnd : (pis.map Implicant.pattern).Nodup) (hq : q ∈ pis.map Implicant.pattern) :
    (((pis.map (fun pi => (name, pi))).filter
      (fun x => decide (x.2.pattern = q))).map Prod.fst) = [name] := by
  induction pis with
  | nil => exact absurd hq (List.not_mem_nil _)
  | cons pi pis ih =>
    rw [List.map_cons, List.nodup_cons] at hnd
    rw [List.map_cons, List.filter_cons]
    by_cases h : pi.pattern = q
    · have hno : (pis.map (fun pi => (name, pi))).filter
          (fun x => decide (x.2.pattern = q)) = [] := by
        rw [List.filter_eq_nil_iff]
        intro x hx
        rw [List.mem_map] at hx
        obtain ⟨y, hy, rfl⟩ := hx
        intro hxq
        apply hnd.1
        rw [h]
        have : y.pattern = q := by simpa using hxq
        rw [← this]
        exact List.mem_map_of_mem _ hy
      simp only [h, decide_True, if_true, hno, List.map_cons, List.map_nil]
    · have hq2 : q ∈ pis.map Implicant.pattern := by
        rcases List.mem_cons.mp hq with h2 | h2
        · exact absurd h2.symm h
        · exact h2
      simp only [h, decide_False, Bool.false_eq_true, if_false]
      exact ih hnd.2 hq2

/-- The generator run and the registry for two functions with the same single cube. -/
theorem twin_registry (a b p : List Char) (n : Nat) (M : List Nat) (hc : IsCubeOf p n M)
    (hsmall : ∀ m ∈ M, m < 10 ^ 21) :
    ∃ g, generateAll 2 n [] [(a, M), (b, M)] = some g ∧
      CubeRegistry a b p n M (buildRegistry g) := by
  obtain ⟨pis, hgen, hnd, hiff, hfacts⟩ := generateFor_multi_exact 2 n M [] (by decide)
    hc.pos (fun m hm => ⟨(hc.range m hm).1, hsmall m hm⟩)
    (fun d hd => absurd hd (List.not_mem_nil _))
  have hgall : generateAll 2 n [] [(a, M), (b, M)] = some [(a, pis), (b, pis)] := by
    simp [generateAll, hgen]
  refine ⟨[(a, pis), (b, pis)], hgall, ?_⟩
  have hflat : ([(a, pis), (b, pis)] : List (List Char × List Implicant)).flatMap
      (fun f => f.2.map (fun pi => (f.1, pi))) =
      pis.map (fun pi => (a, pi)) ++ pis.map (fun pi => (b, pi)) := by
    simp [List.flatMap]
  obtain ⟨r1, r2, r3⟩ := foldl_registerPI_usedBy
    (pis.map (fun pi => (a, pi)) ++ pis.map (fun pi => (b, pi))) [] [] List.nodup_nil
    (fun q => ⟨fun h => absurd h (List.not_mem_nil _),
      fun ⟨_, hx, _⟩ => absurd hx (List.not_mem_nil _)⟩)
    (fun e he => absurd he (List.not_mem_nil _))
  rw [← hflat, ← buildRegistry_eq_foldl] at r1 r2 r3
  simp only [List.nil_append] at r2 r3
  have hmem : ∀ e ∈ buildRegistry [(a, pis), (b, pis)],
      e.pattern ∈ pis.map Implicant.pattern := by
    intro e he
    obtain ⟨x, hx, hxp⟩ := (r2 e.pattern).mp (List.mem_map_of_mem _ he)
    rw [hflat, List.mem_append, List.mem_map, List.mem_map] at hx
    rcases hx with ⟨pi, hpi, rfl⟩ | ⟨pi, hpi, rfl⟩
    · rw [← hxp]; exact List.mem_map_of_mem _ hpi
    · rw [← hxp]; exact List.mem_map_of_mem _ hpi
  have hlenq : ∀ q ∈ pis.map Implicant.pattern, q.length = n := by
    intro q hq
    obtain ⟨pi, hpi, rfl⟩ := List.mem_map.mp hq
    exact (hfacts pi hpi).1
  have hpatq : ∀ q ∈ pis.map Implicant.pattern, IsPat q := by
    intro q hq
    obtain ⟨_, m, hm, hmatch⟩ := (hiff q (hlenq q hq)).mp hq
    rw [matchesPattern_eq_bits q m n (hc.range m hm).1 hc.pos] at hmatch
    exact isPat_of_matchChars q _ (isBin_bits n m) hmatch
  have hcost := (buildRegistry_spec (fun _ => True) [(a, pis), (b, pis)]
    (fun _ _ _ _ => trivial)).2
  have hmin := foldl_registerPI_minterms
    (fun q ms => ∀ m, m ∈ ms ↔ (m ∈ M ∧ matchesPattern q m n = true))
    (pis.map (fun pi => (a, pi)) ++ pis.map (fun pi => (b, pi)))
    (by
      intro x hx
      rw [List.mem_append, List.mem_map, List.mem_map] at hx
      rcases hx with ⟨pi, hpi, rfl⟩ | ⟨pi, hpi, rfl⟩
      · exact (hfacts pi hpi).2
      · exact (hfacts pi hpi).2)
    [] (fun e he => absurd he (List.not_mem_nil _))
  rw [← hflat, ← buildRegistry_eq_foldl] at hmin
  refine ⟨r1, fun e he => hpatq _ (hmem e he), fun e he => hlenq _ (hmem e he), ?_, ?_,
    fun e he => (hcost e he).1, hmin, ?_⟩
  · intro e he
    have hq := hmem e he
    exact (isImplicantOf_cube_iff p e.pattern n M hc.pos hc.isPat hc.length (hpatq _ hq)
      (hlenq _ hq) hc.range hc.all).mp ((hiff _ (hlenq _ hq)).mp hq).1
  · intro e he
    rw [r3 e he, hflat, List.filter_append, List.map_append,
      filter_registrations a e.pattern pis hnd (hmem e he),
      filter_registrations b e.pattern pis hnd (hmem e he)]
    rfl
  · rw [r2 p]
    have hp : p ∈ pis.map Implicant.pattern :=
      (hiff p hc.length).mpr ⟨(isImplicantOf_cube_iff p p n M hc.pos hc.isPat hc.length
        hc.isPat hc.length hc.range hc.all).mpr (generalisesChars_refl p),
        cube_nonempty p n M hc.pos hc.isPat hc.length hc.all⟩
    obtain ⟨pi, hpi, hpp⟩ := List.mem_map.mp hp
    exact ⟨(a, pi), by rw [hflat]; exact List.mem_append_left _ (List.mem_map_of_mem _ hpi),
      hpp⟩

/-! ## Two functions with the same single cube: selections -/

/-- A registered pattern is found by `registryGet`. -/
theorem registryGet_of_mem (registry : List RegistryEntry) (q : List Char)
    (hq : q ∈ registry.map RegistryEntry.pattern) :
    ∃ e, registryGet registry q = some e ∧ e ∈ registry ∧ e.pattern = q := by
  unfold registryGet
  obtain ⟨e0, he0, hpe0⟩ := List.mem_map.mp hq
  cases hfind : registry.find? (fun e => decide (e.pattern = q)) with
  | none =>
    rw [List.find?_eq_none] at hfind
    exact absurd (by simpa using hpe0) (hfind e0 he0)
  | some e =>
    exact ⟨e, rfl, List.mem_of_find?_eq_some hfind, by simpa using List.find?_some hfind⟩

/-- Every specialisation of the cube pattern matches a target. -/
theorem cube_special_nonempty (p q : List Char) (n : Nat) (M : List Nat)
    (hc : IsCubeOf p n M) (hq : IsPat q) (hqlen : q.length = n)
    (hgen : generalisesChars p q = true) : ∃ m ∈ M, matchesPattern q m n = true := by
  apply cube_nonempty q n M hc.pos hq hqlen
  intro m hm hmatch
  apply hc.all m hm
  rw [matchesPattern_eq_bits _ m n hm hc.pos] at hmatch ⊢
  exact generalisesChars_match p q _ hgen hmatch

/-- Validity of a selection of registered patterns against the joint coverage table: every
target matches a selected pattern. -/
theorem isValidSolution_cube (a b p : List Char) (n : Nat) (M : List Nat)
    (registry : List RegistryEntry) (hr : CubeRegistry a b p n M registry)
    (S : List (List Char)) (hS : ∀ q ∈ S, q ∈ registry.map RegistryEntry.pattern) :
    isValidSolution S ((buildJointCoverageTable [(a, M), (b, M)] registry).map Prod.snd) = true ↔
      ∀ m ∈ M, ∃ q ∈ S, matchesPattern q m n = true := by
  rw [isValidSolution_iff, buildJointCoverageTable_eq_foldl]
  obtain ⟨_, k2, k3⟩ := foldl_tableSet_keys
    (fun k : List Char × Nat => (registry.filter
      (fun piInfo : RegistryEntry =>
        decide (k.1 ∈ piInfo.usedBy) && decide (k.2 ∈ piInfo.minterms))).map
      RegistryEntry.pattern)
    (([(a, M), (b, M)] : List (List Char × List Nat)).flatMap
      (fun f => f.2.map (fun m => (f.1, m)))) [] List.nodup_nil
    (fun e he => absurd he (List.not_mem_nil _))
  constructor
  · intro h m hm
    have hkey : (a, m) ∈ (([(a, M), (b, M)] : List (List Char × List Nat)).flatMap
        (fun f => f.2.map (fun m => (f.1, m)))) := by
      rw [List.mem_flatMap]
      exact ⟨(a, M), List.mem_cons_self _ _, List.mem_map_of_mem _ hm⟩
    obtain ⟨entry, hentry, hek⟩ := List.mem_map.mp ((k2 (a, m)).mpr (Or.inr hkey))
    obtain ⟨q, hq1, hq2⟩ := h entry.2 (List.mem_map_of_mem _ hentry)
    refine ⟨q, hq2, ?_⟩
    rw [k3 entry hentry, hek, List.mem_map] at hq1
    obtain ⟨r, hr1, hr2⟩ := hq1
    rw [List.mem_filter] at hr1
    have hm2 : m ∈ r.minterms := by
      have := hr1.2
      simp only [Bool.and_eq_true, decide_eq_true_eq] at this
      exact this.2
    rw [← hr2]
    exact ((hr.minterms r hr1.1 m).mp hm2).2
  · intro h term hterm
    obtain ⟨entry, hentry, rfl⟩ := List.mem_map.mp hterm
    have hk := (k2 entry.1).mp (List.mem_map_of_mem _ hentry)
    rcases hk with hk | hk
    · exact absurd hk (List.not_mem_nil _)
    · rw [List.mem_flatMap] at hk
      obtain ⟨f, hf, hfm⟩ := hk
      obtain ⟨m, hm, hme⟩ := List.mem_map.mp hfm
      have hname : f.1 = a ∨ f.1 = b := by
        rcases List.mem_cons.mp hf with h1 | h1
        · left; rw [h1]
        · right; rw [List.mem_singleton.mp h1]
      have hmM : m ∈ M := by
        rcases List.mem_cons.mp hf with h1 | h1
        · rw [h1] at hm; exact hm
        · rw [List.mem_singleton.mp h1] at hm; exact hm
      obtain ⟨q, hq, hmatch⟩ := h m hmM
      refine ⟨q, ?_, hq⟩
      obtain ⟨r, hr1, hr2⟩ := List.mem_map.mp (hS q hq)
      rw [k3 entry hentry, List.mem_map]
      refine ⟨r, ?_, hr2⟩
      rw [List.mem_filter]
      refine ⟨hr1, ?_⟩
      rw [← hme]
      simp only [Bool.and_eq_true, decide_eq_true_eq]
      refine ⟨?_, (hr.minterms r hr1 m).mpr ⟨hmM, by rw [hr2]; exact hmatch⟩⟩
      rw [hr.usedBy r hr1]
      rcases hname with h1 | h1
      · rw [h1]; exact List.mem_cons_self _ _
      · rw [h1]; exact List.mem_cons_of_mem _ (List.mem_singleton.mpr rfl)

/-- A valid selection of one registered pattern is the cube pattern itself. -/
theorem single_valid_eq (a b p : List Char) (n : Nat) (M : List Nat)
    (registry : List RegistryEntry) (hc : IsCubeOf p n M)
    (hr : CubeRegistry a b p n M registry) (q : List Char)
    (hq : q ∈ registry.map RegistryEntry.pattern)
    (hvalid : ∀ m ∈ M, ∃ q2 ∈ [q], matchesPattern q2 m n = true) : q = p := by
  obtain ⟨e, he, rfl⟩ := List.mem_map.mp hq
  have hgen := hr.special e he
  have hqpat := hr.isPat e he
  have hqlen := hr.length e he
  have hgen2 : generalisesChars e.pattern p = true := by
    apply generalises_of_cube_subset p e.pattern hc.isPat hqpat (by rw [hc.length, hqlen])
    intro s hs hsl hm
    obtain ⟨m, hm1, hm2⟩ := bits_surjective s hs
    rw [hsl, hc.length] at hm1 hm2
    rw [← hm2] at hm ⊢
    rw [← matchesPattern_eq_bits p m n hm1 hc.pos] at hm
    obtain ⟨q2, hq2, hmatch⟩ := hvalid m (hc.all m hm1 hm)
    rw [List.mem_singleton] at hq2
    rw [hq2] at hmatch
    rw [← matchesPattern_eq_bits e.pattern m n hm1 hc.pos]
    exact hmatch
  obtain ⟨_, hd1, _⟩ := generalisesChars_dashes p e.pattern hgen hqpat
  obtain ⟨_, hd2, heq⟩ := generalisesChars_dashes e.pattern p hgen2 hc.isPat
  exact heq (by omega)

/-! ## Two functions with the same single cube: Stage 2 -/

/-- For a selection of registered patterns, both functions get the same PI list: one PI per
selected pattern, with the cost and the targets of the pattern. -/
theorem functionPIsOf_cube (a b p : List Char) (n : Nat) (M : List Nat)
    (registry : List RegistryEntry) (hc : IsCubeOf p n M)
    (hr : CubeRegistry a b p n M registry)
    (S : List (List Char)) (hS : ∀ q ∈ S, q ∈ registry.map RegistryEntry.pattern) :
    ∃ X : List PI, functionPIsOf S registry a M = X ∧ functionPIsOf S registry b M = X ∧
      X.map PI.pattern = S ∧
      ∀ x ∈ X, x.cost = calculateCost x.pattern ∧ x.cost = registryCost registry x.pattern ∧
        IsPat x.pattern ∧ x.pattern.length = n ∧ generalisesChars p x.pattern = true ∧
        ∀ m, m ∈ x.minterms ↔ (m ∈ M ∧ matchesPattern x.pattern m n = true) := by
  have hstep : ∀ name : List Char, name = a ∨ name = b →
      functionPIsOf S registry name M = S.map (fun q => (⟨q,
        (((registryGet registry q).map RegistryEntry.minterms).getD []).filter
          (fun m => decide (m ∈ M)), registryCost registry q⟩ : PI)) := by
    intro name hname
    unfold functionPIsOf
    rw [List.filterMap_eq_map_iff_forall_eq_some]
    intro q hq
    obtain ⟨e, hget, he, hpe⟩ := registryGet_of_mem registry q (hS q hq)
    have hused : name ∈ e.usedBy := by
      rw [hr.usedBy e he]
      rcases hname with h | h
      · rw [h]; exact List.mem_cons_self _ _
      · rw [h]; exact List.mem_cons_of_mem _ (List.mem_singleton.mpr rfl)
    obtain ⟨m, hm, hmatch⟩ := cube_special_nonempty p e.pattern n M hc (hr.isPat e he)
      (hr.length e he) (hr.special e he)
    have hpos : (e.minterms.filter (fun m => decide (m ∈ M))).length > 0 :=
      List.length_pos.mpr (List.ne_nil_of_mem
        (List.mem_filter.mpr ⟨(hr.minterms e he m).mpr ⟨hm, hmatch⟩, by simpa using hm⟩))
    rw [registryCost_of_get registry q e hget, hget]
    simp only [Option.map_some', Option.getD_some]
    rw [if_pos hused, if_pos hpos]
  refine ⟨_, hstep a (Or.inl rfl), hstep b (Or.inr rfl), ?_, ?_⟩
  · rw [List.map_map]
    exact List.map_id _
  · intro x hx
    rw [List.mem_map] at hx
    obtain ⟨q, hq, rfl⟩ := hx
    obtain ⟨e, hget, he, hpe⟩ := registryGet_of_mem registry q (hS q hq)
    simp only [hget, Option.map_some', Option.getD_some]
    rw [registryCost_of_get registry q e hget, ← hpe]
    refine ⟨hr.cost e he, trivial, hr.isPat e he, hr.length e he, hr.special e he, ?_⟩
    intro m
    rw [List.mem_filter, hr.minterms e he m]
    simp only [decide_eq_true_eq]
    tauto

/-- A non-empty list has an element where a natural-number measure is largest. -/
theorem exists_max_measure {α : Type} (f : α → Nat) (l : List α) (hl : l ≠ []) :
    ∃ x ∈ l, ∀ y ∈ l, f y ≤ f x := by
  induction l with
  | nil => exact absurd rfl hl
  | cons a l ih =>
    by_cases h : l = []
    · subst h
      exact ⟨a, List.mem_singleton.mpr rfl, fun y hy => by
        rw [List.mem_singleton.mp hy]⟩
    · obtain ⟨x, hx, hmax⟩ := ih h
      by_cases hle : f a ≤ f x
      · refine ⟨x, List.mem_cons_of_mem _ hx, fun y hy => ?_⟩
        rcases List.mem_cons.mp hy with h1 | h1
        · rw [h1]; exact hle
        · exact hmax y h1
      · refine ⟨a, List.mem_cons_self _ _, fun y hy => ?_⟩
        rcases List.mem_cons.mp hy with h1 | h1
        · rw [h1]
        · exact Nat.le_trans (hmax y h1) (by omega)

/-- Step 1 of Stage 2 keeps a PI with the most dashes when the PIs are specialisations of
the cube pattern with the targets they match. -/
theorem isRedundantAmong_of_max (p : List Char) (n : Nat) (M : List Nat)
    (hc : IsCubeOf p n M) (X : List PI)
    (hX : ∀ x ∈ X, IsPat x.pattern ∧ x.pattern.length = n ∧
      generalisesChars p x.pattern = true ∧
      ∀ m, m ∈ x.minterms ↔ (m ∈ M ∧ matchesPattern x.pattern m n = true))
    (x : PI) (hx : x ∈ X) (hmax : ∀ y ∈ X, dashes y.pattern ≤ dashes x.pattern) :
    isRedundantAmong X M x = false := by
  unfold isRedundantAmong
  rw [List.any_eq_false]
  intro y hy
  by_cases hpat : x.pattern = y.pattern
  · simp [hpat]
  · rw [if_neg hpat]
    simp only [Bool.and_eq_true, List.all_eq_true, decide_eq_true_eq, not_and]
    intro hincl _
    apply hpat
    obtain ⟨hxp, hxl, hxg, hxm⟩ := hX x hx
    obtain ⟨hyp, hyl, _, hym⟩ := hX y hy
    have hgen : generalisesChars y.pattern x.pattern = true := by
      apply generalises_of_cube_subset x.pattern y.pattern hxp hyp (by rw [hxl, hyl])
      intro s hs hsl hm
      obtain ⟨m, hm1, hm2⟩ := bits_surjective s hs
      rw [hsl, hxl] at hm1 hm2
      rw [← hm2] at hm ⊢
      have hmp : matchChars p (bits n m) = true := generalisesChars_match p x.pattern _ hxg hm
      rw [← matchesPattern_eq_bits p m n hm1 hc.pos] at hmp
      rw [← matchesPattern_eq_bits x.pattern m n hm1 hc.pos] at hm
      have hmM := hc.all m hm1 hmp
      have h1 : m ∈ x.minterms.filter (fun m => decide (m ∈ M)) :=
        List.mem_filter.mpr ⟨(hxm m).mpr ⟨hmM, hm⟩, by simpa using hmM⟩
      have h2 := (List.mem_filter.mp (hincl m h1)).1
      rw [← matchesPattern_eq_bits y.pattern m n hm1 hc.pos]
      exact ((hym m).mp h2).2
    obtain ⟨_, hd, heq⟩ := generalisesChars_dashes y.pattern x.pattern hgen hxp
    have := hmax y hy
    exact (heq (by omega)).symm

/-- For a non-empty selection of registered patterns, Stage 2 returns a non-empty list of
PIs of the selection, and each of them costs at least as much as the cube pattern. -/
theorem stage2_cube (a b p : List Char) (n : Nat) (M : List Nat)
    (registry : List RegistryEntry) (hc : IsCubeOf p n M)
    (hr : CubeRegistry a b p n M registry)
    (S : List (List Char)) (hS : ∀ q ∈ S, q ∈ registry.map RegistryEntry.pattern)
    (hne : S ≠ []) :
    ∃ R : List PI, R ≠ [] ∧
      stage2SolutionsOf S [(a, M), (b, M)] registry = tableSet [(a, R)] b R ∧
      (S.length = 1 → R = functionPIsOf S registry a M) ∧
      ∀ r ∈ R, r.cost = calculateCost r.pattern ∧ calculateCost p ≤ r.cost := by
  obtain ⟨X, hXa, hXb, hXp, hXf⟩ := functionPIsOf_cube a b p n M registry hc hr S hS
  have hXne : X ≠ [] := by
    intro h
    rw [h] at hXp
    exact hne hXp.symm
  refine ⟨removeRedundantPIsForStage2 X M, ?_, ?_, ?_, ?_⟩
  · obtain ⟨x, hx, hmax⟩ := exists_max_measure (fun x : PI => dashes x.pattern) X hXne
    apply removeRedundantPIsForStage2_ne_nil
    · intro y hy
      obtain ⟨_, _, hp1, hl1, hg1, hm1⟩ := hXf y hy
      obtain ⟨m, hm, hmatch⟩ := cube_special_nonempty p y.pattern n M hc hp1 hl1 hg1
      exact ⟨m, (hm1 m).mpr ⟨hm, hmatch⟩, hm⟩
    · exact ⟨x, hx, isRedundantAmong_of_max p n M hc X
        (fun y hy => ⟨(hXf y hy).2.2.1, (hXf y hy).2.2.2.1, (hXf y hy).2.2.2.2.1,
          (hXf y hy).2.2.2.2.2⟩) x hx hmax⟩
  · unfold stage2SolutionsOf
    simp only [List.foldl_cons, List.foldl_nil, hXa, hXb]
    rw [if_pos (List.length_pos.mpr hXne), if_pos (List.length_pos.mpr hXne)]
    rfl
  · intro h1
    rw [hXa]
    unfold removeRedundantPIsForStage2
    rw [if_pos]
    rw [← hXp, List.length_map] at h1
    omega
  · intro r hrR
    have hrX := (removeRedundantPIsForStage2_spec X M).1 r hrR
    obtain ⟨h1, _, h3, _, h5, _⟩ := hXf r hrX
    refine ⟨h1, ?_⟩
    rw [h1]
    exact calculateCost_mono p r.pattern h5 h3

/-! ## Two functions with the same Stage-2 result: Stage 3 -/

/-- When two functions have the same non-empty Stage-2 result, the Stage-3 cost is at least
one more than the least cost of a PI of that result. -/
theorem stage3CostOf_twin_lower (a b : List Char) (R : List PI) (c0 : Nat) (hR : R ≠ [])
    (hcost : ∀ r ∈ R, r.cost = calculateCost r.pattern ∧ c0 ≤ r.cost) :
    c0 + 1 ≤ stage3CostOf [(a, R), (b, R)] := by
  unfold stage3CostOf
  simp only [List.foldl_cons, List.foldl_nil]
  rw [← List.foldl_append, foldl_usage_total, Nat.zero_add]
  obtain ⟨_, u2, u3⟩ := foldl_countUsage_counts calculateCost (R ++ R) [] []
    List.nodup_nil (fun u hu => absurd hu (List.not_mem_nil _))
    (fun q => ⟨fun h => absurd h (List.not_mem_nil _), fun h => absurd h (List.not_mem_nil _)⟩)
    (fun pi hpi => by
      rcases List.mem_append.mp hpi with h | h
      · exact (hcost pi h).1
      · exact (hcost pi h).1)
  simp only [List.nil_append] at u2 u3
  obtain ⟨r, hr⟩ := List.exists_mem_of_ne_nil R hR
  have hrU : r.pattern ∈ ((R ++ R).foldl countUsage []).map PIUsage.pattern :=
    (u3 r.pattern).mpr (List.mem_map_of_mem _ (List.mem_append_left _ hr))
  obtain ⟨u, hu, hup⟩ := List.mem_map.mp hrU
  obtain ⟨hb, hcnt⟩ := u2 u hu
  have h1 : 1 ≤ (R.filter (fun x => decide (x.pattern = u.pattern))).length :=
    List.length_pos.mpr (List.ne_nil_of_mem
      (List.mem_filter.mpr ⟨hr, by simpa using hup.symm⟩))
  rw [List.filter_append, List.length_append] at hcnt
  have hterm : c0 + 1 ≤ u.baseCost + (u.usageCount - 1) := by
    have h2 := (hcost r hr).2
    rw [(hcost r hr).1, ← hup, ← hb] at h2
    omega
  exact Nat.le_trans hterm (List.le_sum_of_mem
    (List.mem_map_of_mem (fun u : PIUsage => u.baseCost + (u.usageCount - 1)) hu))

/-- When the Stage-2 result of both functions is the same single PI, the Stage-3 cost is
its cost plus one. -/
theorem stage3CostOf_twin_single (a b : List Char) (pi : PI) :
    stage3CostOf [(a, [pi]), (b, [pi])] = pi.cost + 1 := by
  simp [stage3CostOf, countUsage]

/-! ## Combinations and selections -/

/-- The selection of a combination below `2 ^ length`, read with `Nat.testBit`. -/
theorem selected_eq_testBit {α : Type} (l : List α) (c : Nat) (hlen : l.length ≤ 30)
    (hc : c < 2 ^ l.length) :
    (l.enum.filter (fun e => bitSelected c e.1)).map Prod.snd =
      (l.enum.filter (fun e => Nat.testBit c e.1)).map Prod.snd := by
  unfold List.enum
  rw [enumFrom_filter_congr l 0 (fun i => bitSelected c i) (fun i => Nat.testBit c i)]
  intro i _ hi
  have h1 : (2:Nat) ^ l.length ≤ 2 ^ 32 := Nat.pow_le_pow_right (by norm_num) (by omega)
  exact bitSelected_eq_testBit c i (by omega) (by omega)

/-- Every sub-list is the selection of a combination below `2 ^ length`. -/
theorem exists_combination_of_sublist {α : Type} (l S : List α) (h : S.Sublist l) :
    ∃ c, c < 2 ^ l.length ∧
      ((l.enum.filter (fun e => Nat.testBit c e.1)).map Prod.snd) = S ∧ (S ≠ [] → c ≠ 0) := by
  induction h with
  | slnil => exact ⟨0, by simp, by simp, by simp⟩
  | @cons S l a _ ih =>
    obtain ⟨c, hc, hsel, hne⟩ := ih
    refine ⟨2 * c, ?_, ?_, ?_⟩
    · rw [List.length_cons, pow_succ]; omega
    · unfold List.enum at hsel ⊢
      rw [List.enumFrom_cons, List.filter_cons]
      have h0 : Nat.testBit (2 * c) 0 = false := by
        rw [Nat.testBit_zero]; simp
      simp only [h0, Bool.false_eq_true, if_false]
      have := enumFrom_filter_shift l 0 (fun i => Nat.testBit (2 * c) i)
      simp only [Nat.zero_add] at this
      rw [this, ← hsel]
      congr 1
      apply List.filter_congr
      intro x _
      rw [Nat.testBit_succ]
      simp
    · intro hS
      have := hne hS
      omega
  | @cons₂ S l a _ ih =>
    obtain ⟨c, hc, hsel, _⟩ := ih
    refine ⟨2 * c + 1, ?_, ?_, ?_⟩
    · rw [List.length_cons, pow_succ]; omega
    · unfold List.enum at hsel ⊢
      rw [List.enumFrom_cons, List.filter_cons]
      have h0 : Nat.testBit (2 * c + 1) 0 = true := by
        rw [Nat.testBit_zero]
        have : (2 * c + 1) % 2 = 1 := by omega
        simp [this]
      simp only [h0, if_true, List.map_cons]
      have := enumFrom_filter_shift l 0 (fun i => Nat.testBit (2 * c + 1) i)
      simp only [Nat.zero_add] at this
      rw [this, ← hsel]
      congr 2
      apply List.filter_congr
      intro x _
      rw [Nat.testBit_succ]
      congr 1
      omega
    · intro _; omega

/-- In a duplicate-free list, the element at an index is selected exactly when the bit of
the index is set. -/
theorem mem_selected_iff {α : Type} (l : List α) (hnd : l.Nodup) (c i : Nat)
    (hi : i < l.length) :
    l[i] ∈ (l.enum.filter (fun e => Nat.testBit c e.1)).map Prod.snd ↔
      Nat.testBit c i = true := by
  rw [List.mem_map]
  constructor
  · rintro ⟨⟨j, x⟩, hjx, hx⟩
    rw [List.mem_filter, List.mk_mem_enum_iff_getElem?] at hjx
    simp only at hx
    subst hx
    have hij : i = j := by
      apply List.getElem?_inj hi hnd
      rw [hjx.1]
      exact List.getElem?_eq_getElem hi
    rw [hij]
    exact hjx.2
  · intro h
    exact ⟨(i, l[i]), List.mem_filter.mpr
      ⟨List.mk_mem_enum_iff_getElem?.mpr (List.getElem?_eq_getElem hi), h⟩, rfl⟩

/-- Two combinations below `2 ^ length` with the same selection from a duplicate-free list
are equal. -/
theorem selected_injective {α : Type} (l : List α) (hnd : l.Nodup) (hlen : l.length ≤ 30)
    (c1 c2 : Nat) (h1 : c1 < 2 ^ l.length) (h2 : c2 < 2 ^ l.length)
    (h : (l.enum.filter (fun e => bitSelected c1 e.1)).map Prod.snd =
      (l.enum.filter (fun e => bitSelected c2 e.1)).map Prod.snd) : c1 = c2 := by
  rw [selected_eq_testBit l c1 hlen h1, selected_eq_testBit l c2 hlen h2] at h
  apply Nat.eq_of_testBit_eq
  intro i
  by_cases hi : i < l.length
  · have e1 := mem_selected_iff l hnd c1 i hi
    have e2 := mem_selected_iff l hnd c2 i hi
    rw [h] at e1
    have e3 := e1.symm.trans e2
    cases hb1 : Nat.testBit c1 i <;> cases hb2 : Nat.testBit c2 i <;> simp_all
  · have hle : (2:Nat) ^ l.length ≤ 2 ^ i := Nat.pow_le_pow_right (by norm_num) (by omega)
    rw [Nat.testBit_lt_two_pow (lt_of_lt_of_le h1 hle),
      Nat.testBit_lt_two_pow (lt_of_lt_of_le h2 hle)]

/-! ## The exhaustive search with a single best selection -/

/-- A round whose selection is worse than the selection `S0` (Stage-3 cost `C0`, `k0`
patterns) keeps the state worse than `S0` as long as `S0` has not been met. -/
theorem exhaustiveStep_other_before (patrickTerms : List (List (List Char)))
    (P : List (List Char)) (nm : List (List Char × List Nat)) (registry : List RegistryEntry)
    (st : JointSearch) (c C0 k0 : Nat)
    (hS : isValidSolution ((P.enum.filter (fun e => bitSelected c e.1)).map Prod.snd)
        patrickTerms = true →
      C0 < stage3CostOf (stage2SolutionsOf
          ((P.enum.filter (fun e => bitSelected c e.1)).map Prod.snd) nm registry) ∨
      (C0 = stage3CostOf (stage2SolutionsOf
          ((P.enum.filter (fun e => bitSelected c e.1)).map Prod.snd) nm registry) ∧
        k0 < ((P.enum.filter (fun e => bitSelected c e.1)).map Prod.snd).length))
    (hB : st.minCost = none ∨ ∃ v k, st.minCost = some v ∧ st.minPICount = some k ∧
      (C0 < v ∨ (C0 = v ∧ k0 < k))) :
    (exhaustiveStep patrickTerms P nm registry st c).minCost = none ∨
      ∃ v k, (exhaustiveStep patrickTerms P nm registry st c).minCost = some v ∧
        (exhaustiveStep patrickTerms P nm registry st c).minPICount = some k ∧
        (C0 < v ∨ (C0 = v ∧ k0 < k)) := by
  unfold exhaustiveStep
  simp only []
  generalize (P.enum.filter (fun e => bitSelected c e.1)).map Prod.snd = S at hS ⊢
  by_cases hv : isValidSolution S patrickTerms = true
  · rw [if_neg (by simp [hv])]
    split_ifs
    · exact hB
    · exact hB
    · exact Or.inr ⟨_, _, rfl, rfl, hS hv⟩
    · exact hB
    · exact hB
  · rw [if_pos (by simpa using hv)]
    exact hB

/-- A round whose selection is worse than `S0` leaves the state alone once `S0` is the
recorded optimum. -/
theorem exhaustiveStep_other_after (patrickTerms : List (List (List Char)))
    (P : List (List Char)) (nm : List (List Char × List Nat)) (registry : List RegistryEntry)
    (st : JointSearch) (c C0 : Nat) (S0 : List (List Char))
    (hS : isValidSolution ((P.enum.filter (fun e => bitSelected c e.1)).map Prod.snd)
        patrickTerms = true →
      C0 < stage3CostOf (stage2SolutionsOf
          ((P.enum.filter (fun e => bitSelected c e.1)).map Prod.snd) nm registry) ∨
      (C0 = stage3CostOf (stage2SolutionsOf
          ((P.enum.filter (fun e => bitSelected c e.1)).map Prod.snd) nm registry) ∧
        S0.length < ((P.enum.filter (fun e => bitSelected c e.1)).map Prod.snd).length))
    (hA : st.minCost = some C0 ∧ st.minPICount = some S0.length ∧
      st.optimalSolutions = [S0]) :
    (exhaustiveStep patrickTerms P nm registry st c).minCost = some C0 ∧
      (exhaustiveStep patrickTerms P nm registry st c).minPICount = some S0.length ∧
      (exhaustiveStep patrickTerms P nm registry st c).optimalSolutions = [S0] := by
  unfold exhaustiveStep
  simp only []
  generalize (P.enum.filter (fun e => bitSelected c e.1)).map Prod.snd = S at hS ⊢
  obtain ⟨hA1, hA2, hA3⟩ := hA
  by_cases hv : isValidSolution S patrickTerms = true
  · rw [if_neg (by simp [hv])]
    have hfin : (calculateThreeStagesCost st.cache S nm registry).1 =
        stage3CostOf (stage2SolutionsOf S nm registry) := rfl
    split_ifs with h1 h2 h3 h4
    · exact ⟨hA1, hA2, hA3⟩
    · exact ⟨hA1, hA2, hA3⟩
    · exfalso
      rw [hA1, hA2, hfin] at h3
      simp only [belowMin, decide_eq_true_eq, Option.some.injEq] at h3
      rcases hS hv with h | ⟨_, h⟩ <;> omega
    · exfalso
      rw [hA1, hA2, hfin] at h4
      simp only [Option.some.injEq] at h4
      rw [hA1, hfin] at h2
      simp only [aboveMin, decide_eq_true_eq] at h2
      rcases hS hv with h | ⟨_, h⟩ <;> omega
    · exact ⟨hA1, hA2, hA3⟩
  · rw [if_pos (by simpa using hv)]
    exact ⟨hA1, hA2, hA3⟩

/-- The round of `S0` records it as the only optimum when the state before is worse. -/
theorem exhaustiveStep_self (patrickTerms : List (List (List Char)))
    (P : List (List Char)) (nm : List (List Char × List Nat)) (registry : List RegistryEntry)
    (st : JointSearch) (c C0 : Nat) (S0 : List (List Char))
    (hsel : (P.enum.filter (fun e => bitSelected c e.1)).map Prod.snd = S0)
    (hvalid : isValidSolution S0 patrickTerms = true)
    (hstage1 : (S0.map (registryCost registry)).foldl (fun a b => a + b) 0 ≤ C0)
    (hC0 : stage3CostOf (stage2SolutionsOf S0 nm registry) = C0)
    (hB : st.minCost = none ∨ ∃ v k, st.minCost = some v ∧ st.minPICount = some k ∧
      (C0 < v ∨ (C0 = v ∧ S0.length < k))) :
    (exhaustiveStep patrickTerms P nm registry st c).minCost = some C0 ∧
      (exhaustiveStep patrickTerms P nm registry st c).minPICount = some S0.length ∧
      (exhaustiveStep patrickTerms P nm registry st c).optimalSolutions = [S0] := by
  unfold exhaustiveStep
  simp only []
  rw [hsel, if_neg (by simp [hvalid])]
  have hfin : (calculateThreeStagesCost st.cache S0 nm registry).1 = C0 := hC0
  rw [hfin]
  have h1 : aboveMin ((S0.map (registryCost registry)).foldl (fun a b => a + b) 0)
      st.minCost = false := by
    rcases hB with h | ⟨v, k, h, _, h3⟩
    · rw [h]; rfl
    · rw [h]
      simp only [aboveMin, decide_eq_false_iff_not]
      omega
  have h2 : aboveMin C0 st.minCost = false := by
    rcases hB with h | ⟨v, k, h, _, h3⟩
    · rw [h]; rfl
    · rw [h]
      simp only [aboveMin, decide_eq_false_iff_not]
      omega
  have h3 : belowMin C0 st.minCost = true ∨
      (st.minCost = some C0 ∧ belowMin S0.length st.minPICount = true) := by
    rcases hB with h | ⟨v, k, h, hk, h3 | ⟨h3, h4⟩⟩
    · left; rw [h]; rfl
    · left; rw [h]; simpa [belowMin] using h3
    · right
      rw [h, hk, h3]
      exact ⟨rfl, by simpa [belowMin] using h4⟩
  rw [h1, h2]
  simp only [Bool.false_eq_true, if_false]
  rw [if_pos h3]
  exact ⟨rfl, rfl, rfl⟩

/-- The exhaustive search returns the selection `S0` alone when `S0` is valid, is not cut
off by its Stage-1 cost, and every other valid selection has a higher Stage-3 cost or the
same Stage-3 cost with more patterns. -/
theorem solveWithExhaustiveSearch_unique (cache : Stage2Cache)
    (patrickTerms : List (List (List Char))) (registry : List RegistryEntry)
    (nm : List (List Char × List Nat)) (S0 : List (List Char)) (C0 : Nat)
    (hnd : (registry.map RegistryEntry.pattern).Nodup) (hlen : registry.length ≤ 30)
    (hS0 : S0.Sublist (registry.map RegistryEntry.pattern)) (hne : S0 ≠ [])
    (hvalid : isValidSolution S0 patrickTerms = true)
    (hstage1 : (S0.map (registryCost registry)).foldl (fun a b => a + b) 0 ≤ C0)
    (hC0 : stage3CostOf (stage2SolutionsOf S0 nm registry) = C0)
    (hothers : ∀ S : List (List Char), S.Sublist (registry.map RegistryEntry.pattern) →
      S ≠ [] → S ≠ S0 → isValidSolution S patrickTerms = true →
      C0 < stage3CostOf (stage2SolutionsOf S nm registry) ∨
        (C0 = stage3CostOf (stage2SolutionsOf S nm registry) ∧ S0.length < S.length)) :
    (solveWithExhaustiveSearch cache patrickTerms registry nm).1 = [S0] := by
  unfold solveWithExhaustiveSearch
  simp only []
  generalize hP : registry.map RegistryEntry.pattern = P at hnd hS0 hothers ⊢
  have hPlen : P.length ≤ 30 := by rw [← hP, List.length_map]; exact hlen
  obtain ⟨c0, hc0, hsel0, hc0ne⟩ := exists_combination_of_sublist P S0 hS0
  rw [← selected_eq_testBit P c0 hPlen hc0] at hsel0
  have hother : ∀ c, c ≠ 0 → c < 2 ^ P.length → c ≠ c0 →
      isValidSolution ((P.enum.filter (fun e => bitSelected c e.1)).map Prod.snd)
        patrickTerms = true →
      C0 < stage3CostOf (stage2SolutionsOf
          ((P.enum.filter (fun e => bitSelected c e.1)).map Prod.snd) nm registry) ∨
      (C0 = stage3CostOf (stage2SolutionsOf
          ((P.enum.filter (fun e => bitSelected c e.1)).map Prod.snd) nm registry) ∧
        S0.length < ((P.enum.filter (fun e => bitSelected c e.1)).map Prod.snd).length) := by
    intro c h0 hc hcne
    apply hothers _ (selected_sublist P c) (selected_ne_nil P c hPlen hc h0)
    intro heq
    exact hcne (selected_injective P hnd hPlen c c0 hc hc0 (heq.trans hsel0.symm))
  have hafter : ∀ (cs : List Nat) (st : JointSearch),
      (∀ c ∈ cs, c ≠ 0 ∧ c < 2 ^ P.length ∧ c ≠ c0) →
      (st.minCost = some C0 ∧ st.minPICount = some S0.length ∧
        st.optimalSolutions = [S0]) →
      (cs.foldl (exhaustiveStep patrickTerms P nm registry) st).optimalSolutions = [S0] := by
    intro cs
    induction cs with
    | nil => intro st _ h; exact h.2.2
    | cons c cs ih =>
      intro st hcs h
      rw [List.foldl_cons]
      obtain ⟨h0, hc, hcne⟩ := hcs c (List.mem_cons_self _ _)
      exact ih _ (fun x hx => hcs x (List.mem_cons_of_mem _ hx))
        (exhaustiveStep_other_after patrickTerms P nm registry st c C0 S0
          (hother c h0 hc hcne) h)
  have hbefore : ∀ (cs : List Nat) (st : JointSearch), cs.Nodup →
      (∀ c ∈ cs, c ≠ 0 ∧ c < 2 ^ P.length) → c0 ∈ cs →
      (st.minCost = none ∨ ∃ v k, st.minCost = some v ∧ st.minPICount = some k ∧
        (C0 < v ∨ (C0 = v ∧ S0.length < k))) →
      (cs.foldl (exhaustiveStep patrickTerms P nm registry) st).optimalSolutions = [S0] := by
    intro cs
    induction cs with
    | nil => intro st _ _ hmem; exact absurd hmem (List.not_mem_nil _)
    | cons c cs ih =>
      intro st hcnd hcs hmem h
      rw [List.foldl_cons]
      rw [List.nodup_cons] at hcnd
      obtain ⟨h0, hc⟩ := hcs c (List.mem_cons_self _ _)
      by_cases hcc : c = c0
      · subst hcc
        apply hafter cs _ (fun x hx => ⟨(hcs x (List.mem_cons_of_mem _ hx)).1,
          (hcs x (List.mem_cons_of_mem _ hx)).2, fun hxc => hcnd.1 (hxc ▸ hx)⟩)
        exact exhaustiveStep_self patrickTerms P nm registry st c C0 S0 hsel0 hvalid hstage1
          hC0 h
      · have hmem2 : c0 ∈ cs := by
          rcases List.mem_cons.mp hmem with h1 | h1
          · exact absurd h1.symm hcc
          · exact h1
        exact ih _ hcnd.2 (fun x hx => hcs x (List.mem_cons_of_mem _ hx)) hmem2
          (exhaustiveStep_other_before patrickTerms P nm registry st c C0 S0.length
            (hother c h0 hc hcc) h)
  have hpow : 0 < 2 ^ P.length := Nat.two_pow_pos _
  apply hbefore _ _ (List.nodup_range' 1 (2 ^ P.length - 1))
  · intro c hc
    rw [List.mem_range'_1] at hc
    omega
  · rw [List.mem_range'_1]
    have := hc0ne hne
    omega
  · exact Or.inl rfl

/-! ## Two functions with the same single cube: the joint solution -/

theorem tableSet_twin {ν : Type} (a b : List Char) (hab : a ≠ b) (R : ν) :
    tableSet [(a, R)] b R = [(a, R), (b, R)] := by
  simp [tableSet, hab]

/-- The base cost of the registered cube pattern. -/
theorem registryCost_cube (a b p : List Char) (n : Nat) (M : List Nat)
    (registry : List RegistryEntry) (hr : CubeRegistry a b p n M registry) :
    registryCost registry p = calculateCost p := by
  obtain ⟨e, hget, he, hpe⟩ := registryGet_of_mem registry p hr.top
  rw [registryCost_of_get registry p e hget, hr.cost e he, hpe]

/-- The PI list of both functions for the selection of the cube pattern alone. -/
theorem functionPIsOf_top (a b p : List Char) (n : Nat) (M : List Nat)
    (registry : List RegistryEntry) (hc : IsCubeOf p n M)
    (hr : CubeRegistry a b p n M registry) :
    ∃ pi : PI, functionPIsOf [p] registry a M = [pi] ∧
      functionPIsOf [p] registry b M = [pi] ∧ pi.pattern = p ∧
      pi.cost = calculateCost p ∧ ∀ m, m ∈ pi.minterms ↔ m ∈ M := by
  obtain ⟨X, hXa, hXb, hXp, hXf⟩ := functionPIsOf_cube a b p n M registry hc hr [p]
    (fun q hq => by rw [List.mem_singleton.mp hq]; exact hr.top)
  match X, hXa, hXb, hXp, hXf with
  | [pi], hXa, hXb, hXp, hXf =>
    have hpp : pi.pattern = p := by simpa using hXp
    obtain ⟨h1, _, _, _, _, h6⟩ := hXf pi (List.mem_singleton.mpr rfl)
    refine ⟨pi, hXa, hXb, hpp, by rw [h1, hpp], fun m => ?_⟩
    rw [h6 m, hpp]
    exact ⟨fun h => h.1, fun h => ⟨h, (hc.range m h).2⟩⟩

/-- The Stage-2 result of the selection of the cube pattern alone. -/
theorem stage2SolutionsOf_top (a b p : List Char) (hab : a ≠ b) (M : List Nat)
    (registry : List RegistryEntry) (pi : PI)
    (ha : functionPIsOf [p] registry a M = [pi])
    (hb : functionPIsOf [p] registry b M = [pi]) :
    stage2SolutionsOf [p] [(a, M), (b, M)] registry = [(a, [pi]), (b, [pi])] := by
  unfold stage2SolutionsOf
  simp only [List.foldl_cons, List.foldl_nil, ha, hb]
  rw [if_pos (by simp), if_pos (by simp)]
  have hR : removeRedundantPIsForStage2 [pi] M = [pi] := by
    unfold removeRedundantPIsForStage2
    rw [if_pos (by simp)]
  rw [hR]
  exact tableSet_twin a b hab [pi]

/-- The exhaustive search returns the cube pattern alone. -/
theorem solveJointPatrickMethod_cube (cache : Stage2Cache) (a b p : List Char) (hab : a ≠ b)
    (n : Nat) (M : List Nat) (registry : List RegistryEntry) (hc : IsCubeOf p n M)
    (hr : CubeRegistry a b p n M registry) (h20 : registry.length ≤ 20) :
    (solveJointPatrickMethod cache (buildJointCoverageTable [(a, M), (b, M)] registry)
      registry [(a, M), (b, M)]).1 = [[p]] := by
  unfold solveJointPatrickMethod
  simp only []
  rw [if_pos h20]
  obtain ⟨pi, hpa, hpb, hpp, hpc, _⟩ := functionPIsOf_top a b p n M registry hc hr
  apply solveWithExhaustiveSearch_unique cache _ registry _ [p] (calculateCost p + 1)
    hr.nodup (by omega) (List.singleton_sublist.mpr hr.top) (by simp)
  · rw [isValidSolution_cube a b p n M registry hr [p]
      (fun q hq => by rw [List.mem_singleton.mp hq]; exact hr.top)]
    intro m hm
    exact ⟨p, List.mem_singleton.mpr rfl, (hc.range m hm).2⟩
  · simp only [List.map_cons, List.map_nil, List.foldl_cons, List.foldl_nil, Nat.zero_add]
    rw [registryCost_cube a b p n M registry hr]
    omega
  · rw [stage2SolutionsOf_top a b p hab M registry pi hpa hpb, stage3CostOf_twin_single,
      hpc]
  · intro S hS hne hneq hvalid
    have hmem : ∀ q ∈ S, q ∈ registry.map RegistryEntry.pattern := fun q hq => hS.subset hq
    obtain ⟨R, hR, hst, _, hRf⟩ := stage2_cube a b p n M registry hc hr S hmem hne
    rw [hst, tableSet_twin a b hab R]
    have hlow := stage3CostOf_twin_lower a b R (calculateCost p) hR hRf
    have hlen2 : 2 ≤ S.length := by
      match S, hne, hneq, hvalid, hmem with
      | [q], _, hneq, hvalid, hmem =>
        exfalso
        apply hneq
        rw [isValidSolution_cube a b p n M registry hr [q] hmem] at hvalid
        rw [single_valid_eq a b p n M registry hc hr q
          (hmem q (List.mem_singleton.mpr rfl)) hvalid]
      | _ :: _ :: _, _, _, _, _ => simp
    simp only [List.length_singleton]
    omega

/-- The solutions of the multi-function path are the function entries of the system
solution of the first joint solution whose name does not start with an underscore. -/
theorem multiFunctionResult_solutions (cache : Stage2Cache)
    (nm : List (List Char × List Nat)) (functionPIs : List (List Char × List Implicant))
    (sol : List (List Char)) (rest : List (List (List Char)))
    (hjoint : (solveJointPatrickMethod cache
      (buildJointCoverageTable nm (buildRegistry functionPIs)) (buildRegistry functionPIs)
      nm).1 = sol :: rest) :
    (multiFunctionResult cache nm functionPIs).1.solutions =
      (systemSolutionOf (solveJointPatrickMethod cache
        (buildJointCoverageTable nm (buildRegistry functionPIs)) (buildRegistry functionPIs)
        nm).2 (buildRegistry functionPIs) nm sol).1.functions.filter
        (fun e => !startsWithUnderscore e.1) := by
  unfold multiFunctionResult
  simp only []
  rw [hjoint]
  obtain ⟨more, hmore⟩ := foldl_systemStep_first (buildRegistry functionPIs) nm sol rest
    (solveJointPatrickMethod cache
      (buildJointCoverageTable nm (buildRegistry functionPIs)) (buildRegistry functionPIs)
      nm).2
  rw [hmore]

/-- C23 (two identical single-cube functions), for at least one variable and targets below
1e21: when `p` is a pattern of length `n ≥ 1` over `0`, `1`, `-` with at most two dashes and
`M` lists exactly the integers below `2^n` that match `p`, all of them below `10^21`, the
call for `F1` and `F2` with targets `M` and no don't-cares, on any cache, normalises the
map to itself, registers `p` with `usedBy = [F1, F2]`, finds the one joint solution `[p]`,
gives each function the one PI `p` with the targets `M`, and reports the shared cost
`calculateCost p + 1`, the individual total `2 * calculateCost p` and the savings
`calculateCost p - 1`. -/
theorem executeMultipleOutput_twin_cube (cache : Stage2Cache) (p : List Char) (n : Nat)
    (M : List Nat) (hn : 1 ≤ n) (hlen : p.length = n) (hp : IsPat p) (hd : dashes p ≤ 2)
    (hrange : ∀ m ∈ M, m < 2 ^ n ∧ matchesPattern p m n = true)
    (hall : ∀ m, m < 2 ^ n → matchesPattern p m n = true → m ∈ M)
    (hsmall : ∀ m ∈ M, m < 10 ^ 21) :
    ∃ g res pi,
      normalizeMinterms [(['F', '1'], M), (['F', '2'], M)] =
        [(['F', '1'], M), (['F', '2'], M)] ∧
      generateAll 2 n [] [(['F', '1'], M), (['F', '2'], M)] = some g ∧
      (registryGet (buildRegistry g) p).map RegistryEntry.usedBy =
        some [['F', '1'], ['F', '2']] ∧
      (solveJointPatrickMethod cache
        (buildJointCoverageTable [(['F', '1'], M), (['F', '2'], M)] (buildRegistry g))
        (buildRegistry g) [(['F', '1'], M), (['F', '2'], M)]).1 = [[p]] ∧
      executeMultipleOutput cache [(['F', '1'], M), (['F', '2'], M)] n [] = some res ∧
      pi.pattern = p ∧ pi.cost = calculateCost p ∧ (∀ m, m ∈ pi.minterms ↔ m ∈ M) ∧
      res.1.solutions =
        [(['F', '1'], ⟨[pi], calculateCost p⟩), (['F', '2'], ⟨[pi], calculateCost p⟩)] ∧
      res.1.sharedOptimizedCost = calculateCost p + 1 ∧
      res.1.totalIndividualCost = 2 * calculateCost p ∧
      res.1.savings = (calculateCost p : Int) - 1 := by
  have hc : IsCubeOf p n M := ⟨hn, hlen, hp, hrange, hall⟩
  have hab : (['F', '1'] : List Char) ≠ ['F', '2'] := by decide
  obtain ⟨g, hg, hr⟩ := twin_registry ['F', '1'] ['F', '2'] p n M hc hsmall
  have h9 : (buildRegistry g).length ≤ 9 := by
    have := length_le_of_specialisations p ((buildRegistry g).map RegistryEntry.pattern)
      hr.nodup (fun q hq => by
        obtain ⟨e, he, rfl⟩ := List.mem_map.mp hq
        exact hr.special e he) hd
    rwa [List.length_map] at this
  have hjoint := solveJointPatrickMethod_cube cache ['F', '1'] ['F', '2'] p hab n M
    (buildRegistry g) hc hr (by omega)
  obtain ⟨pi, hpa, hpb, hpp, hpc, hpm⟩ :=
    functionPIsOf_top ['F', '1'] ['F', '2'] p n M (buildRegistry g) hc hr
  have hst := stage2SolutionsOf_top ['F', '1'] ['F', '2'] p hab M (buildRegistry g) pi hpa hpb
  have hnames : (([(['F', '1'], M), (['F', '2'], M)] : List (List Char × List Nat)).map
      Prod.fst).Nodup := by
    simp only [List.map_cons, List.map_nil]
    decide
  have hcache := (solveJointPatrickMethod_small cache
    (buildJointCoverageTable [(['F', '1'], M), (['F', '2'], M)] (buildRegistry g))
    (buildRegistry g) [(['F', '1'], M), (['F', '2'], M)] hr.nodup hr.isPat (by omega)
    [p] (by rw [hjoint]; exact List.mem_singleton.mpr rfl)).2
  obtain ⟨htot, hshared, hsav⟩ := multiFunctionResult_of_cons cache
    [(['F', '1'], M), (['F', '2'], M)] g [p] [] hnames
    (fun f hf => by
      rcases List.mem_cons.mp hf with h | h
      · rw [h]; rfl
      · rw [List.mem_singleton.mp h]; rfl)
    hjoint (Or.inl hcache)
  have hsol := multiFunctionResult_solutions cache [(['F', '1'], M), (['F', '2'], M)] g [p] []
    hjoint
  rw [systemSolutionOf_functions _ (buildRegistry g) [p] _ hnames (Or.inl hcache)] at hsol
  have hR : removeRedundantPIsForStage2 [pi] M = [pi] := by
    unfold removeRedundantPIsForStage2
    rw [if_pos (by simp)]
  simp only [List.filter_cons, List.filter_nil, hpa, hpb, List.length_singleton,
    gt_iff_lt, Nat.lt_one_iff, Nat.zero_lt_one, decide_True, if_true, List.map_cons,
    List.map_nil, hR, List.foldl_cons, List.foldl_nil, Nat.zero_add, hpc] at hsol
  rw [hst] at htot hshared
  rw [stage3CostOf_twin_single, hpc] at hshared
  have htot2 : (multiFunctionResult cache [(['F', '1'], M), (['F', '2'], M)]
      g).1.totalIndividualCost = 2 * calculateCost p := by
    rw [htot]
    simp only [List.flatMap_cons, List.flatMap_nil, List.append_nil, List.singleton_append,
      List.map_cons, List.map_nil, List.sum_cons, List.sum_nil, hpc]
    omega
  have hnorm : normalizeMinterms [(['F', '1'], M), (['F', '2'], M)] =
      [(['F', '1'], M), (['F', '2'], M)] :=
    normalizeMinterms_of_lt _
      (fun f hf => by
        rcases List.mem_cons.mp hf with h | h
        · rw [h]; show (['F', '1'] : List Char) ≠ protoKey; decide
        · rw [List.mem_singleton.mp h]; show (['F', '2'] : List Char) ≠ protoKey; decide)
      (fun f hf m hm => by
        rcases List.mem_cons.mp hf with h | h
        · rw [h] at hm; exact hsmall m hm
        · rw [List.mem_singleton.mp h] at hm; exact hsmall m hm)
  have hexec : executeMultipleOutput cache [(['F', '1'], M), (['F', '2'], M)] n [] =
      some (multiFunctionResult cache [(['F', '1'], M), (['F', '2'], M)] g) := by
    unfold executeMultipleOutput
    rw [hnorm]
    exact executeNormalized_multi cache _ n [] g (Nat.le_refl 2) hg
  refine ⟨g, multiFunctionResult cache [(['F', '1'], M), (['F', '2'], M)] g, pi, hnorm, hg, ?_,
    hjoint, hexec, hpp, hpc, hpm, ?_, hshared, htot2, ?_⟩
  · obtain ⟨e, hget, he, _⟩ := registryGet_of_mem (buildRegistry g) p hr.top
    rw [hget, Option.map_some', hr.usedBy e he]
  · rw [hsol]
    rfl
  · rw [hsav, htot2, hshared]
    push_cast
    ring

set_option maxRecDepth 100000 in
/-- Instance of C23 for Scenario C: two variables, `p = 0-` of cost 1 and the targets
`0, 1`, on an empty cache: shared cost 2, individual total 2, savings 0. -/
theorem executeMultipleOutput_twin_cube_witness :
    (1 ≤ 2 ∧ ['0', '-'].length = 2 ∧ dashes ['0', '-'] ≤ 2 ∧ calculateCost ['0', '-'] = 1 ∧
      (∀ m ∈ [0, 1], m < 2 ^ 2 ∧ matchesPattern ['0', '-'] m 2 = true) ∧
      (∀ m, m < 2 ^ 2 → matchesPattern ['0', '-'] m 2 = true → m ∈ [0, 1]) ∧
      (∀ m ∈ [0, 1], m < 10 ^ 21)) ∧
    ∃ g res pi,
      normalizeMinterms [(['F', '1'], [0, 1]), (['F', '2'], [0, 1])] =
        [(['F', '1'], [0, 1]), (['F', '2'], [0, 1])] ∧
      generateAll 2 2 [] [(['F', '1'], [0, 1]), (['F', '2'], [0, 1])] = some g ∧
      (registryGet (buildRegistry g) ['0', '-']).map RegistryEntry.usedBy =
        some [['F', '1'], ['F', '2']] ∧
      (solveJointPatrickMethod []
        (buildJointCoverageTable [(['F', '1'], [0, 1]), (['F', '2'], [0, 1])]
          (buildRegistry g))
        (buildRegistry g) [(['F', '1'], [0, 1]), (['F', '2'], [0, 1])]).1 = [[['0', '-']]] ∧
      executeMultipleOutput [] [(['F', '1'], [0, 1]), (['F', '2'], [0, 1])] 2 [] = some res ∧
      pi.pattern = ['0', '-'] ∧ pi.cost = calculateCost ['0', '-'] ∧
      (∀ m, m ∈ pi.minterms ↔ m ∈ [0, 1]) ∧
      res.1.solutions =
        [(['F', '1'], ⟨[pi], calculateCost ['0', '-']⟩),
          (['F', '2'], ⟨[pi], calculateCost ['0', '-']⟩)] ∧
      res.1.sharedOptimizedCost = calculateCost ['0', '-'] + 1 ∧
      res.1.totalIndividualCost = 2 * calculateCost ['0', '-'] ∧
      res.1.savings = (calculateCost ['0', '-'] : Int) - 1 :=
  ⟨⟨by decide, by decide, by decide, by decide, by decide, by decide, by decide⟩,
    executeMultipleOutput_twin_cube [] ['0', '-'] 2 [0, 1] (by decide) (by decide)
      (by unfold IsPat; decide) (by decide) (by decide) (by decide) (by decide)⟩

set_option maxRecDepth 100000 in
/-- Without variables: the pattern of length 0 has no dash and is matched by the integer
`0` only, and for `F1` and `F2` with the target `0` the registry holds no entry for that
pattern; the one joint solution is the pattern `0`, of length one, and each function gets
the PI with the pattern `0`. -/
theorem executeMultipleOutput_twin_cube_at_zero :
    (dashes [] ≤ 2 ∧ ∀ m, m < 2 ^ 0 → (m ∈ [0] ↔ matchesPattern [] m 0 = true)) ∧
    (generateAll 2 0 [] [(['F', '1'], [0]), (['F', '2'], [0])]).map
        (fun g => (registryGet (buildRegistry g) []).map RegistryEntry.usedBy) =
      some none ∧
    (generateAll 2 0 [] [(['F', '1'], [0]), (['F', '2'], [0])]).map
        (fun g => (solveJointPatrickMethod []
          (buildJointCoverageTable [(['F', '1'], [0]), (['F', '2'], [0])] (buildRegistry g))
          (buildRegistry g) [(['F', '1'], [0]), (['F', '2'], [0])]).1) =
      some [[['0']]] ∧
    (executeMultipleOutput [] [(['F', '1'], [0]), (['F', '2'], [0])] 0 []).map
        (fun r => r.1.solutions) =
      some [(['F', '1'], ⟨[⟨['0'], [0], 1⟩], 1⟩), (['F', '2'], ⟨[⟨['0'], [0], 1⟩], 1⟩)] := by
  refine ⟨by decide, by decide, by decide, by decide⟩

/-! ## The cache does not steer the exhaustive search -/

/-- A round of the exhaustive search computes `minCost`, `minPICount` and the solution
list from those three fields and the combination; the cache of the state is not read. -/
theorem exhaustiveStep_state (patrickTerms : List (List (List Char)))
    (P : List (List Char)) (nm : List (List Char × List Nat)) (registry : List RegistryEntry)
    (st1 st2 : JointSearch) (c : Nat) (h1 : st1.minCost = st2.minCost)
    (h2 : st1.minPICount = st2.minPICount)
    (h3 : st1.optimalSolutions = st2.optimalSolutions) :
    (exhaustiveStep patrickTerms P nm registry st1 c).minCost =
        (exhaustiveStep patrickTerms P nm registry st2 c).minCost ∧
      (exhaustiveStep patrickTerms P nm registry st1 c).minPICount =
        (exhaustiveStep patrickTerms P nm registry st2 c).minPICount ∧
      (exhaustiveStep patrickTerms P nm registry st1 c).optimalSolutions =
        (exhaustiveStep patrickTerms P nm registry st2 c).optimalSolutions := by
  obtain ⟨a1, b1, o1, d1⟩ := st1
  obtain ⟨a2, b2, o2, d2⟩ := st2
  simp only at h1 h2 h3
  subst h1 h2 h3
  unfold exhaustiveStep
  simp only []
  have hfin : ∀ S : List (List Char), (calculateThreeStagesCost d1 S nm registry).1 =
      (calculateThreeStagesCost d2 S nm registry).1 := fun _ => rfl
  rw [hfin]
  split_ifs <;> exact ⟨rfl, rfl, rfl⟩

theorem foldl_exhaustiveStep_state (patrickTerms : List (List (List Char)))
    (P : List (List Char)) (nm : List (List Char × List Nat)) (registry : List RegistryEntry)
    (cs : List Nat) :
    ∀ st1 st2 : JointSearch, st1.minCost = st2.minCost →
      st1.minPICount = st2.minPICount → st1.optimalSolutions = st2.optimalSolutions →
      (cs.foldl (exhaustiveStep patrickTerms P nm registry) st1).optimalSolutions =
        (cs.foldl (exhaustiveStep patrickTerms P nm registry) st2).optimalSolutions := by
  induction cs with
  | nil => intro st1 st2 _ _ h3; exact h3
  | cons c cs ih =>
    intro st1 st2 h1 h2 h3
    rw [List.foldl_cons, List.foldl_cons]
    obtain ⟨e1, e2, e3⟩ := exhaustiveStep_state patrickTerms P nm registry st1 st2 c h1 h2 h3
    exact ih _ _ e1 e2 e3

/-- The joint solutions do not depend on the cache the search starts with. -/
theorem solveJointPatrickMethod_solutions_cache (cache : Stage2Cache)
    (table : List ((List Char × Nat) × List (List Char))) (registry : List RegistryEntry)
    (nm : List (List Char × List Nat)) :
    (solveJointPatrickMethod cache table registry nm).1 =
      (solveJointPatrickMethod [] table registry nm).1 := by
  unfold solveJointPatrickMethod
  simp only []
  split
  · unfold solveWithExhaustiveSearch
    simp only []
    exact foldl_exhaustiveStep_state _ _ nm registry _ _ _ rfl rfl rfl
  · rfl

/-- The result of the multi-function path, read off the first joint solution. -/
theorem multiFunctionResult_of_first (cache : Stage2Cache)
    (nm : List (List Char × List Nat)) (functionPIs : List (List Char × List Implicant))
    (sol : List (List Char)) (rest : List (List (List Char)))
    (hjoint : (solveJointPatrickMethod cache
      (buildJointCoverageTable nm (buildRegistry functionPIs)) (buildRegistry functionPIs)
      nm).1 = sol :: rest) :
    (multiFunctionResult cache nm functionPIs).1 =
      ⟨(systemSolutionOf (solveJointPatrickMethod cache
          (buildJointCoverageTable nm (buildRegistry functionPIs))
          (buildRegistry functionPIs) nm).2 (buildRegistry functionPIs) nm
          sol).1.functions.filter (fun e => !startsWithUnderscore e.1),
        [],
        ((systemSolutionOf (solveJointPatrickMethod cache
          (buildJointCoverageTable nm (buildRegistry functionPIs))
          (buildRegistry functionPIs) nm).2 (buildRegistry functionPIs) nm
          sol).1.functions.filter (fun e => !startsWithUnderscore e.1)).foldl
          (fun sum e => sum + e.2.cost) 0,
        stage3CostOf (stage2SolutionsOf sol nm (buildRegistry functionPIs)),
        ((((systemSolutionOf (solveJointPatrickMethod cache
          (buildJointCoverageTable nm (buildRegistry functionPIs))
          (buildRegistry functionPIs) nm).2 (buildRegistry functionPIs) nm
          sol).1.functions.filter (fun e => !startsWithUnderscore e.1)).foldl
          (fun sum e => sum + e.2.cost) 0 : Nat) : Int) -
          ((stage3CostOf (stage2SolutionsOf sol nm (buildRegistry functionPIs)) : Nat) :
            Int)⟩ := by
  unfold multiFunctionResult
  simp only []
  rw [hjoint]
  obtain ⟨more, hmore⟩ := foldl_systemStep_first (buildRegistry functionPIs) nm sol rest
    (solveJointPatrickMethod cache
      (buildJointCoverageTable nm (buildRegistry functionPIs)) (buildRegistry functionPIs)
      nm).2
  rw [hmore]
  rfl

/-- With at most 20 registered patterns, the result of the multi-function path does not
depend on the cache of the instance. -/
theorem multiFunctionResult_cache (cache : Stage2Cache)
    (nm : List (List Char × List Nat)) (functionPIs : List (List Char × List Implicant))
    (hnames : (nm.map Prod.fst).Nodup)
    (hpat : ∀ e ∈ buildRegistry functionPIs, IsPat e.pattern)
    (h20 : (buildRegistry functionPIs).length ≤ 20) :
    (multiFunctionResult cache nm functionPIs).1 =
      (multiFunctionResult [] nm functionPIs).1 := by
  have hnd := (buildRegistry_spec (fun _ => True) functionPIs (fun _ _ _ _ => trivial)).1
  have hsame := solveJointPatrickMethod_solutions_cache cache
    (buildJointCoverageTable nm (buildRegistry functionPIs)) (buildRegistry functionPIs) nm
  cases hj : (solveJointPatrickMethod [] (buildJointCoverageTable nm
      (buildRegistry functionPIs)) (buildRegistry functionPIs) nm).1 with
  | nil =>
    rw [multiFunctionResult_of_nil cache nm functionPIs (hsame.trans hj),
      multiFunctionResult_of_nil [] nm functionPIs hj]
  | cons sol rest =>
    have hc1 := (solveJointPatrickMethod_small cache _ (buildRegistry functionPIs) nm hnd hpat
      h20 sol (by rw [hsame, hj]; exact List.mem_cons_self _ _)).2
    have hc2 := (solveJointPatrickMethod_small [] _ (buildRegistry functionPIs) nm hnd hpat
      h20 sol (by rw [hj]; exact List.mem_cons_self _ _)).2
    rw [multiFunctionResult_of_first cache nm functionPIs sol rest (hsame.trans hj),
      multiFunctionResult_of_first [] nm functionPIs sol rest hj,
      systemSolutionOf_functions _ (buildRegistry functionPIs) sol nm hnames (Or.inl hc1),
      systemSolutionOf_functions _ (buildRegistry functionPIs) sol nm hnames (Or.inl hc2)]

/-! ## Calls on an instance that has served earlier calls -/

/-- After the normalisation the returned object does not depend on the cache of the
instance, for one function and for several functions with at most 20 registered
patterns. -/
theorem executeNormalized_result_cache (cache : Stage2Cache)
    (fs : List (List Char × List Nat)) (n : Nat) (D : List Nat)
    (hnames : (fs.map Prod.fst).Nodup)
    (hM : ∀ f ∈ fs, ∀ m ∈ f.2, m < 2 ^ n ∧ m < 10 ^ 21) (hD : ∀ d ∈ D, d < 2 ^ n ∧ d < 10 ^ 21)
    (h20 : 2 ≤ fs.length → ∀ g, generateAll fs.length n D fs = some g →
      (buildRegistry g).length ≤ 20) :
    (executeNormalized cache fs n D).map Prod.fst =
      (executeNormalized [] fs n D).map Prod.fst := by
  match fs, hnames, hM, h20 with
  | [], _, _, _ =>
    have h1 : ∀ c : Stage2Cache, executeNormalized c [] n D =
        some (multiFunctionResult c [] []) := fun _ => rfl
    rw [h1 cache, h1 []]
    simp only [Option.map_some']
    rw [multiFunctionResult_cache cache [] [] List.nodup_nil
      (fun e he => absurd he (List.not_mem_nil _)) (by decide)]
  | [(F, M)], _, _, _ =>
    unfold executeNormalized
    cases hgen : generateFor 1 M n D with
    | none => simp [generateAll, hgen]
    | some pis => simp [generateAll, hgen]
  | f1 :: f2 :: rest, hnames, hM, h20 =>
    have h2 : 2 ≤ (f1 :: f2 :: rest).length := by simp
    obtain ⟨g, hg, hgpat⟩ := generateAll_spec (f1 :: f2 :: rest).length n D (by
      simp only [List.length_cons]; omega) hD (f1 :: f2 :: rest) hM
    rw [executeNormalized_multi cache _ n D g h2 hg,
      executeNormalized_multi [] _ n D g h2 hg]
    simp only [Option.map_some']
    rw [multiFunctionResult_cache cache _ g hnames
      (fun e he => ((buildRegistry_spec IsPat g hgpat).2 e he).2) (h20 h2 g hg)]

/-- The returned object does not depend on the cache of the instance, for targets and
don't-cares below `2^n`, one function and several functions whose registry, built from the
normalised map, holds at most 20 patterns. -/
theorem executeMultipleOutput_result_cache (cache : Stage2Cache)
    (fs : List (List Char × List Nat)) (n : Nat) (D : List Nat)
    (hnames : (fs.map Prod.fst).Nodup)
    (hM : ∀ f ∈ fs, ∀ m ∈ f.2, m < 2 ^ n) (hD : ∀ d ∈ D, d < 2 ^ n)
    (h20 : 2 ≤ (normalizeMinterms fs).length →
      ∀ g, generateAll (normalizeMinterms fs).length n D (normalizeMinterms fs) = some g →
        (buildRegistry g).length ≤ 20) :
    (executeMultipleOutput cache fs n D).map Prod.fst =
      (executeMultipleOutput [] fs n D).map Prod.fst := by
  rw [executeMultipleOutput_eq, executeMultipleOutput_eq]
  refine executeNormalized_result_cache cache (normalizeMinterms fs) n (D.map parseDecimal)
    (normalizeMinterms_nodup fs hnames) (normalizeMinterms_range fs n hM)
    (map_parseDecimal_range D n hD) ?_
  intro h2 g hg
  rw [← generateAll_parse_dontCares] at hg
  exact h20 h2 g hg

/-- C21 (calls on a used instance), as far as it holds: for function names that are
pairwise distinct, targets and don't-cares below `2^n`, and at most 20 registered patterns
when the normalised map holds two or more functions, the returned object (solutions with
their PIs and costs, `totalIndividualCost`, `sharedOptimizedCost`, `savings`) on an
instance in any state equals the one on a fresh instance; and so do the expressions of the
single-function path when the variable names of the instance are empty or are the default
names for `n` variables. -/
theorem executeOnInstance_state_independent (inst : Instance)
    (fs : List (List Char × List Nat)) (n : Nat) (D : List Nat)
    (hnames : (fs.map Prod.fst).Nodup)
    (hM : ∀ f ∈ fs, ∀ m ∈ f.2, m < 2 ^ n) (hD : ∀ d ∈ D, d < 2 ^ n)
    (h20 : 2 ≤ (normalizeMinterms fs).length →
      ∀ g, generateAll (normalizeMinterms fs).length n D (normalizeMinterms fs) = some g →
        (buildRegistry g).length ≤ 20) :
    (executeOnInstance inst fs n D).map (fun r => r.1.result) =
        (executeOnInstance freshInstance fs n D).map (fun r => r.1.result) ∧
      (variablesAfter inst.variableNames n = defaultVariables.take n →
        (executeOnInstance inst fs n D).map Prod.fst =
          (executeOnInstance freshInstance fs n D).map Prod.fst) := by
  have hres := executeMultipleOutput_result_cache inst.stage2Cache fs n D hnames hM hD h20
  have hfresh : freshInstance.stage2Cache = [] := rfl
  have hcomp : ∀ (vars : List (List Char)) (c : Stage2Cache),
      ((executeMultipleOutput c fs n D).map
        (fun r => ((⟨r.1, r.1.allSolutions.map
          (fun solution => expressionOf vars solution.pis)⟩ : Response),
          (⟨vars, r.2⟩ : Instance)))).map Prod.fst =
      ((executeMultipleOutput c fs n D).map Prod.fst).map
        (fun res => (⟨res, res.allSolutions.map
          (fun solution => expressionOf vars solution.pis)⟩ : Response)) := by
    intro vars c
    rw [Option.map_map, Option.map_map]
    rfl
  constructor
  · have h1 : ∀ i : Instance, (executeOnInstance i fs n D).map (fun r => r.1.result) =
        (executeMultipleOutput i.stage2Cache fs n D).map Prod.fst := by
      intro i
      unfold executeOnInstance
      simp only []
      rw [Option.map_map]
      rfl
    rw [h1, h1, hfresh, hres]
  · intro hvars
    have hv2 : variablesAfter freshInstance.variableNames n = defaultVariables.take n := rfl
    unfold executeOnInstance
    simp only []
    rw [hvars, hv2, hcomp, hcomp, hfresh, hres]

set_option maxRecDepth 100000 in
/-- Instance of C21 for `usedInstance`, whose cache holds an entry under the key of the
joint solution, and the functions `F1` and `F2` with the targets `0`, `1` on two
variables. -/
theorem executeOnInstance_state_independent_witness :
    ((sharedFunctions.map Prod.fst).Nodup ∧
      (∀ f ∈ sharedFunctions, ∀ m ∈ f.2, m < 2 ^ 2) ∧
      variablesAfter usedInstance.variableNames 2 = defaultVariables.take 2) ∧
    ((executeOnInstance usedInstance sharedFunctions 2 []).map (fun r => r.1.result) =
        (executeOnInstance freshInstance sharedFunctions 2 []).map (fun r => r.1.result) ∧
      (variablesAfter usedInstance.variableNames 2 = defaultVariables.take 2 →
        (executeOnInstance usedInstance sharedFunctions 2 []).map Prod.fst =
          (executeOnInstance freshInstance sharedFunctions 2 []).map Prod.fst)) :=
  ⟨⟨by decide, by decide, by decide⟩,
    executeOnInstance_state_independent usedInstance sharedFunctions 2 [] (by decide)
      (by decide) (by decide)
      (fun _ g h => by
        have hall : (generateAll (normalizeMinterms sharedFunctions).length 2 []
            (normalizeMinterms sharedFunctions)).all
            (fun l => decide ((buildRegistry l).length ≤ 20)) = true := by
          decide
        rw [h] at hall
        simpa using hall)⟩

set_option maxRecDepth 1000000 in
/-- C21 on two pairs of calls.  Variable names: after the call for `F` with target `0` on
one variable, the call for `F` with target `1` on two variables returns the expression
`A'X1` on the same instance and `A'B` on a fresh one.  Cache: after the call for
`sevenTargetFunctions` with don't-care `7`, the call for `eightTargetFunctions` on the
same instance returns for each function the PI `---` with the targets `0` to `6`, and on
a fresh instance the PI `---` with the targets `0` to `7`. -/
theorem executeOnInstance_state_carries_over :
    (((executeOnInstance freshInstance [(['F'], [0])] 1 []).bind
        (fun r1 => executeOnInstance r1.2 [(['F'], [1])] 2 [])).map
        (fun r => r.1.expressions) = some [['A', Char.ofNat 39, 'X', '1']] ∧
      (executeOnInstance freshInstance [(['F'], [1])] 2 []).map
        (fun r => r.1.expressions) = some [['A', Char.ofNat 39, 'B']]) ∧
    (((executeOnInstance freshInstance sevenTargetFunctions 3 [7]).bind
        (fun r1 => executeOnInstance r1.2 eightTargetFunctions 3 [])).map
        (fun r => r.1.result.solutions) =
      some [(['F', '1'], ⟨[⟨['-', '-', '-'], [0, 1, 2, 3, 4, 5, 6], 1⟩], 1⟩),
        (['F', '2'], ⟨[⟨['-', '-', '-'], [0, 1, 2, 3, 4, 5, 6], 1⟩], 1⟩)] ∧
      (executeOnInstance freshInstance eightTargetFunctions 3 []).map
        (fun r => r.1.result.solutions) =
      some [(['F', '1'], ⟨[⟨['-', '-', '-'], [0, 1, 2, 3, 4, 5, 6, 7], 1⟩], 1⟩),
        (['F', '2'], ⟨[⟨['-', '-', '-'], [0, 1, 2, 3, 4, 5, 6, 7], 1⟩], 1⟩)]) := by
  constructor
  · constructor <;> decide
  · constructor <;> decide!

/-! ## Ties of the exhaustive solver -/

/-- C31 as the solver behaves: with at most 20 candidates, all solutions returned by
`findAllMinimalCovers` have the same total cost, and every non-empty covering sub-list of
the candidates whose total cost is the minimum over all such sub-lists is returned, whatever
its number of PIs: the number of PIs is not compared. -/
theorem findAllMinimalCovers_ties_by_cost (T : List Nat) (candidates : List PI)
    (hlen : candidates.length ≤ 20) :
    (∀ sol1 ∈ findAllMinimalCovers T candidates, ∀ sol2 ∈ findAllMinimalCovers T candidates,
        sol1.cost = sol2.cost) ∧
    (∀ S : List PI, S.Sublist candidates → S ≠ [] → coversAll T S →
      (∀ S2 : List PI, S2.Sublist candidates → S2 ≠ [] → coversAll T S2 →
        totalCostOf S ≤ totalCostOf S2) →
      ∃ sol ∈ findAllMinimalCovers T candidates, sol.pis = S ∧ sol.cost = totalCostOf S) := by
  have h30 : candidates.length ≤ 30 := by omega
  refine ⟨(minimalCovers_optimal T candidates h30).1, ?_⟩
  intro S hS hne hcov hmin
  obtain ⟨c, hc, hsel, hc0⟩ := exists_mask_of_sublist candidates S hS
  have hch : chosen candidates c = S := by
    rw [chosen_eq_testBit candidates c h30 hc]; exact hsel
  rcases findAllMinimalCovers_eq T candidates with ⟨hno, _⟩ | ⟨m, ⟨c1, hc1, hv1, hcost1⟩, hle, heq⟩
  · exact absurd (hch ▸ hcov) (hno c ((mem_combinations _ _).mpr ⟨hc0 hne, hc⟩))
  · obtain ⟨h10, h1lt⟩ := (mem_combinations _ _).mp hc1
    have hm : totalCostOf (chosen candidates c) = m := by
      apply le_antisymm
      · rw [hch, ← hcost1]
        exact hmin _ (chosen_sublist candidates c1)
          (chosen_ne_nil candidates c1 h30 h1lt h10) hv1
      · exact hle c ((mem_combinations _ _).mpr ⟨hc0 hne, hc⟩) (hch ▸ hcov)
    refine ⟨⟨chosen candidates c, totalCostOf (chosen candidates c)⟩, ?_, hch, by rw [hch]⟩
    rw [heq, List.mem_map]
    refine ⟨c, List.mem_filter.mpr ⟨(mem_combinations _ _).mpr ⟨hc0 hne, hc⟩, ?_⟩, rfl⟩
    simp only [Bool.and_eq_true, decide_eq_true_eq]
    exact ⟨hch ▸ hcov, hm⟩

/-- Instance of the amended C31 for the targets 0 and 1 and `tieCandidates`. -/
theorem findAllMinimalCovers_ties_by_cost_witness :
    tieCandidates.length ≤ 20 ∧
    (∀ sol1 ∈ findAllMinimalCovers [0, 1] tieCandidates,
      ∀ sol2 ∈ findAllMinimalCovers [0, 1] tieCandidates, sol1.cost = sol2.cost) ∧
    (∀ S : List PI, S.Sublist tieCandidates → S ≠ [] → coversAll [0, 1] S →
      (∀ S2 : List PI, S2.Sublist tieCandidates → S2 ≠ [] → coversAll [0, 1] S2 →
        totalCostOf S ≤ totalCostOf S2) →
      ∃ sol ∈ findAllMinimalCovers [0, 1] tieCandidates,
        sol.pis = S ∧ sol.cost = totalCostOf S) :=
  ⟨by decide, findAllMinimalCovers_ties_by_cost [0, 1] tieCandidates (by decide)⟩

set_option maxRecDepth 100000 in
/-- Counterexample to C31: for the targets 0 and 1 and the three candidates of
`tieCandidates`, the solver returns the one-PI cover and the two-PI cover, both of total
cost 2, so the returned solutions do not have the same number of PIs. -/
theorem findAllMinimalCovers_mixed_counts :
    tieCandidates.length ≤ 20 ∧
    findAllMinimalCovers [0, 1] tieCandidates =
      [⟨[⟨['0', '-'], [0, 1], 2⟩], 2⟩,
        ⟨[⟨['0', '0'], [0], 1⟩, ⟨['0', '1'], [1], 1⟩], 2⟩] ∧
    (findAllMinimalCovers [0, 1] tieCandidates).map (fun sol => sol.pis.length) = [1, 2] := by
  decide

/-! ## The minterms satisfied by the essential PIs -/

/-- Marking the targets of one PI keeps the set of used minterms free of duplicates. -/
theorem nodup_foldl_mark (M ms used : List Nat) (h : used.Nodup) :
    (ms.foldl (fun used m => if m ∈ M then setAdd used m else used) used).Nodup := by
  induction ms generalizing used with
  | nil => exact h
  | cons m ms ih =>
    rw [List.foldl_cons]
    apply ih
    split_ifs
    · exact nodup_setAdd used m h
    · exact h

/-- One round of `findEssentialPIs` keeps the set of used minterms free of duplicates. -/
theorem nodup_essentialStep (M : List Nat) (PIs : List PI) (table : List (Nat × List Nat))
    (st : EssentialState) (m : Nat) (h : st.usedMinterms.Nodup) :
    (essentialStep M PIs table st m).usedMinterms.Nodup := by
  unfold essentialStep
  split
  · split_ifs
    · exact h
    · split
      · exact nodup_foldl_mark M _ _ h
      · exact h
  · exact h

/-- The used minterms of `findEssentialPIs` are a set. -/
theorem nodup_usedMinterms (M : List Nat) (PIs : List PI) (table : List (Nat × List Nat))
    (ms : List Nat) (st : EssentialState) (h : st.usedMinterms.Nodup) :
    (ms.foldl (essentialStep M PIs table) st).usedMinterms.Nodup := by
  induction ms generalizing st with
  | nil => exact h
  | cons m ms ih =>
    rw [List.foldl_cons]
    exact ih _ (nodup_essentialStep M PIs table st m h)

/-- C32 (minterms satisfied by the essentials): after `buildCoverageTable`, the
`coveredMinterms` returned by `findEssentialPIs` hold no duplicate and hold exactly the
targets that belong to the minterms list of an essential PI, and the remaining minterms
that the caller computes are exactly the targets that belong to the minterms list of no
essential PI. -/
theorem findEssentialPIs_covered_exact (M : List Nat) (PIs : List PI) :
    (findEssentialPIs M PIs (buildCoverageTable M PIs)).usedMinterms.Nodup ∧
    (∀ m, m ∈ (findEssentialPIs M PIs (buildCoverageTable M PIs)).usedMinterms ↔
      m ∈ M ∧ ∃ i ∈ (findEssentialPIs M PIs (buildCoverageTable M PIs)).essentialPIs,
        ∃ pi, PIs[i]? = some pi ∧ m ∈ pi.minterms) ∧
    (∀ m, m ∈ M.filter (fun m => decide
          (m ∉ (findEssentialPIs M PIs (buildCoverageTable M PIs)).usedMinterms)) ↔
      m ∈ M ∧ ¬ ∃ i ∈ (findEssentialPIs M PIs (buildCoverageTable M PIs)).essentialPIs,
        ∃ pi, PIs[i]? = some pi ∧ m ∈ pi.minterms) := by
  obtain ⟨_, _, hU⟩ := findEssentialPIs_spec M PIs
  refine ⟨nodup_usedMinterms M PIs _ M ⟨[], []⟩ List.nodup_nil, hU, ?_⟩
  intro m
  rw [List.mem_filter, decide_eq_true_eq, hU m]
  constructor
  · rintro ⟨hm, hno⟩
    exact ⟨hm, fun h => hno ⟨hm, h⟩⟩
  · rintro ⟨hm, hno⟩
    exact ⟨hm, fun h => hno h.2⟩

/-! ## Combining the essential PIs with the minimal covers -/

/-- The last combination number selects every candidate. -/
theorem chosen_all (avail : List PI) : chosen avail (2 ^ avail.length - 1) = avail := by
  unfold chosen
  have hall : ∀ e ∈ avail.enum, bitSelected (2 ^ avail.length - 1) e.1 = true := by
    intro e he
    have hlt : e.1 < avail.length := by
      have := List.mem_enum_iff_getElem?.mp he
      exact (List.getElem?_eq_some_iff.mp this).1
    unfold bitSelected
    rw [Nat.testBit_mod_two_pow, Nat.testBit_two_pow_sub_one]
    have h1 : e.1 % 32 < 32 := Nat.mod_lt _ (by decide)
    have h2 : e.1 % 32 ≤ e.1 := Nat.mod_le _ _
    simp only [Bool.and_eq_true, decide_eq_true_eq]
    omega
  rw [List.filter_eq_self.mpr hall, List.enum_map_snd]

/-- The solver returns a cover whenever the candidates together cover the targets and
there is a target. -/
theorem findAllMinimalCovers_of_coversAll (T : List Nat) (avail : List PI) (hT : T ≠ [])
    (hcov : coversAll T avail) : findAllMinimalCovers T avail ≠ [] := by
  have havne : avail ≠ [] := by
    obtain ⟨m, hm⟩ := List.exists_mem_of_ne_nil _ hT
    obtain ⟨P, hP, _⟩ := hcov m hm
    exact List.ne_nil_of_mem hP
  have hk : 1 ≤ avail.length := List.length_pos.mpr havne
  have h2 : 2 ≤ 2 ^ avail.length := by
    calc 2 = 2 ^ 1 := rfl
      _ ≤ 2 ^ avail.length := Nat.pow_le_pow_right (by decide) hk
  exact findAllMinimalCovers_ne_nil T avail (2 ^ avail.length - 1) (by omega) (by omega)
    (by rw [chosen_all]; exact hcov)

/-- The list `allSolutions` of the single-function path, for any list of generated PIs: the
essential PIs alone when no minterm remains or the solver finds no cover, and otherwise one
solution per minimal cover, the essential PIs followed by the PIs of the cover. -/
theorem singleFunctionResult_allSolutions (F : List Char) (M : List Nat)
    (pis : List Implicant) :
    (singleFunctionResult F M pis).allSolutions =
      if remainingMinterms M pis = [] ∨
          findAllMinimalCovers (remainingMinterms M pis) (nonEssentialPIs M pis) = [] then
        [⟨essentialSolution M pis, totalCostOf (essentialSolution M pis)⟩]
      else
        (findAllMinimalCovers (remainingMinterms M pis) (nonEssentialPIs M pis)).map
          (fun cover => ⟨essentialSolution M pis ++ cover.pis,
            totalCostOf (essentialSolution M pis ++ cover.pis)⟩) := by
  unfold remainingMinterms nonEssentialPIs essentialSolution
  generalize hess : findEssentialPIs M (toPrimeImplicants pis)
    (buildCoverageTable M (toPrimeImplicants pis)) = ess
  have hessSol : ∀ P ∈ essentialSolutionOf (toPrimeImplicants pis) ess.essentialPIs,
      P ∈ toPrimeImplicants pis := by
    intro P hP
    obtain ⟨i, _, hi⟩ := (mem_essentialSolutionOf _ _ P).mp hP
    exact List.getElem?_mem hi
  have havail : ∀ P ∈ availablePIsOf (toPrimeImplicants pis) ess.essentialPIs,
      P ∈ toPrimeImplicants pis := by
    intro P hP
    obtain ⟨i, _, hi⟩ := (mem_availablePIsOf _ _ P).mp hP
    exact List.getElem?_mem hi
  have hfinal : ∀ finalSolutions : List (List PI),
      (∀ solution ∈ finalSolutions, ∀ P ∈ solution, P ∈ toPrimeImplicants pis) →
      finalSolutions.map (fun solution =>
        (⟨solution.map (fun pi => ⟨pi.pattern, pi.minterms, calculateCost pi.pattern⟩),
          solution.foldl (fun sum pi => sum + calculateCost pi.pattern) 0⟩ :
            FunctionSolution)) =
      finalSolutions.map (fun solution => ⟨solution, totalCostOf solution⟩) := by
    intro finalSolutions h
    apply List.map_congr_left
    intro solution hs
    exact convert_solution pis solution (h solution hs)
  have hres : (singleFunctionResult F M pis).allSolutions =
      (if (if (M.filter (fun m => decide (m ∉ ess.usedMinterms))).length > 0 then
            findAllMinimalCovers (M.filter (fun m => decide (m ∉ ess.usedMinterms)))
              (availablePIsOf (toPrimeImplicants pis) ess.essentialPIs)
          else []).length = 0 then
        [essentialSolutionOf (toPrimeImplicants pis) ess.essentialPIs]
      else
        (if (M.filter (fun m => decide (m ∉ ess.usedMinterms))).length > 0 then
            findAllMinimalCovers (M.filter (fun m => decide (m ∉ ess.usedMinterms)))
              (availablePIsOf (toPrimeImplicants pis) ess.essentialPIs)
          else []).map (fun cover =>
            essentialSolutionOf (toPrimeImplicants pis) ess.essentialPIs ++ cover.pis)).map
        (fun solution =>
          (⟨solution.map (fun pi => ⟨pi.pattern, pi.minterms, calculateCost pi.pattern⟩),
            solution.foldl (fun sum pi => sum + calculateCost pi.pattern) 0⟩ :
              FunctionSolution)) := by
    unfold singleFunctionResult
    simp only []
    rw [hess]
    split
    · simp only []
    · rename_i heq
      simp only []
      rw [heq]
  rw [hres]
  by_cases hrem : M.filter (fun m => decide (m ∉ ess.usedMinterms)) = []
  · rw [hrem]
    simp only [List.length_nil, gt_iff_lt, lt_self_iff_false, if_false, if_true, true_or]
    exact hfinal _ (by
      intro solution hs P hP
      rw [List.mem_singleton] at hs
      rw [hs] at hP
      exact hessSol P hP)
  · have hlen : (M.filter (fun m => decide (m ∉ ess.usedMinterms))).length > 0 :=
      List.length_pos.mpr hrem
    rw [if_pos hlen]
    by_cases hcov : findAllMinimalCovers (M.filter (fun m => decide (m ∉ ess.usedMinterms)))
        (availablePIsOf (toPrimeImplicants pis) ess.essentialPIs) = []
    · rw [hcov]
      simp only [List.length_nil, if_true, or_true]
      exact hfinal _ (by
        intro solution hs P hP
        rw [List.mem_singleton] at hs
        rw [hs] at hP
        exact hessSol P hP)
    · rw [if_neg (by rw [List.length_eq_zero]; exact hcov), if_neg (by tauto)]
      rw [hfinal _ (by
        intro solution hs P hP
        rw [List.mem_map] at hs
        obtain ⟨cover, hc, rfl⟩ := hs
        obtain ⟨c, _, _, _, rfl, _⟩ := mem_findAllMinimalCovers _ _ cover hc
        rcases List.mem_append.mp hP with h | h
        · exact hessSol P h
        · exact havail P ((chosen_sublist _ c).subset h)), List.map_map]
      rfl

/-- The essential PIs cover every target exactly when no minterm remains for the solver. -/
theorem essentialSolution_covers_iff (M : List Nat) (pis : List Implicant) :
    coversAll M (essentialSolution M pis) ↔ remainingMinterms M pis = [] := by
  obtain ⟨_, _, hU⟩ := findEssentialPIs_spec M (toPrimeImplicants pis)
  unfold essentialSolution remainingMinterms
  rw [List.filter_eq_nil_iff]
  constructor
  · intro h m hm
    obtain ⟨P, hP, hmP⟩ := h m hm
    obtain ⟨i, hi, hget⟩ := (mem_essentialSolutionOf _ _ P).mp hP
    simp only [decide_eq_true_eq, not_not]
    exact (hU m).mpr ⟨hm, i, hi, P, hget, hmP⟩
  · intro h m hm
    have := h m hm
    simp only [decide_eq_true_eq, not_not] at this
    obtain ⟨_, i, hi, P, hget, hmP⟩ := (hU m).mp this
    exact ⟨P, (mem_essentialSolutionOf _ _ P).mpr ⟨i, hi, hget⟩, hmP⟩

/-- The PIs that are not essential cover the minterms that remain, when the generated PIs
cover every target. -/
theorem nonEssentialPIs_cover_remaining (M : List Nat) (pis : List Implicant)
    (hcov : ∀ m ∈ M, ∃ pi ∈ pis, m ∈ pi.minterms) :
    coversAll (remainingMinterms M pis) (nonEssentialPIs M pis) := by
  obtain ⟨_, _, hU⟩ := findEssentialPIs_spec M (toPrimeImplicants pis)
  unfold remainingMinterms nonEssentialPIs
  intro m hm
  rw [List.mem_filter] at hm
  obtain ⟨hmM, hmu⟩ := hm
  have hmu2 : m ∉ (findEssentialPIs M (toPrimeImplicants pis)
      (buildCoverageTable M (toPrimeImplicants pis))).usedMinterms := by simpa using hmu
  obtain ⟨pi, hpi, hmpi⟩ := hcov m hmM
  have hP : (⟨pi.pattern, pi.minterms, calculateCost pi.pattern⟩ : PI) ∈ toPrimeImplicants pis :=
    (mem_toPrimeImplicants pis _).mpr ⟨pi, hpi, rfl⟩
  obtain ⟨i, hi, hget⟩ := List.mem_iff_getElem.mp hP
  have hget2 : (toPrimeImplicants pis)[i]? =
      some ⟨pi.pattern, pi.minterms, calculateCost pi.pattern⟩ := by
    rw [List.getElem?_eq_getElem hi, hget]
  refine ⟨_, (mem_availablePIsOf _ _ _).mpr ⟨i, ?_, hget2⟩, hmpi⟩
  intro hiess
  exact hmu2 ((hU m).mpr ⟨hmM, i, hiess, _, hget2, hmpi⟩)

/-- The solutions of the single-function path after the normalisation, for terms that
`parseInt` leaves unchanged: the essential PIs alone when they cover every target,
otherwise one solution per minimal cover, the essential PIs followed by the PIs of the
cover. -/
theorem executeNormalized_essentials_then_covers (cache : Stage2Cache) (F : List Char)
    (M D : List Nat) (n : Nat) (hM : ∀ m ∈ M, m < 2 ^ n ∧ m < 10 ^ 21)
    (hD : ∀ d ∈ D, d < 2 ^ n ∧ d < 10 ^ 21) :
    ∃ pis res, generateOnlyTruePrimeImplicants M n D = some pis ∧
      executeNormalized cache [(F, M)] n D = some (res, cache) ∧
      (coversAll M (essentialSolution M pis) →
        res.allSolutions =
          [⟨essentialSolution M pis, totalCostOf (essentialSolution M pis)⟩]) ∧
      (¬ coversAll M (essentialSolution M pis) →
        findAllMinimalCovers (remainingMinterms M pis) (nonEssentialPIs M pis) ≠ [] ∧
        res.allSolutions =
          (findAllMinimalCovers (remainingMinterms M pis) (nonEssentialPIs M pis)).map
            (fun cover => ⟨essentialSolution M pis ++ cover.pis,
              totalCostOf (essentialSolution M pis ++ cover.pis)⟩)) := by
  obtain ⟨pis, hgen, hpc⟩ := generateOnlyTruePrimeImplicants_primeCover M D n hM hD
  refine ⟨pis, _, hgen, executeNormalized_single cache F M D n pis hgen, ?_, ?_⟩
  · intro hcov
    rw [singleFunctionResult_allSolutions,
      if_pos (Or.inl ((essentialSolution_covers_iff M pis).mp hcov))]
  · intro hcov
    have hrem : remainingMinterms M pis ≠ [] :=
      fun h => hcov ((essentialSolution_covers_iff M pis).mpr h)
    have hne := findAllMinimalCovers_of_coversAll (remainingMinterms M pis)
      (nonEssentialPIs M pis) hrem (nonEssentialPIs_cover_remaining M pis hpc.covers)
    refine ⟨hne, ?_⟩
    rw [singleFunctionResult_allSolutions, if_neg (by tauto)]

/-- C33 (essentials alone when nothing remains): for targets and don't-cares below `2^n`
and one function whose name is not `__proto__`, so that the single-function path is taken,
with `T` the normalised targets and `pis` the PIs generated for them,
`executeMultipleOutput` returns in `allSolutions` exactly one solution, the essential PIs
in the order `findEssentialPIs` found them, when the essential PIs cover every target;
otherwise the solver returns at least one minimal cover and `allSolutions` holds, in the
order of the covers, one solution per minimal cover: the essential PIs followed by the PIs
of the cover. -/
theorem executeMultipleOutput_essentials_then_covers (cache : Stage2Cache) (F : List Char)
    (M D : List Nat) (n : Nat) (hF : F ≠ protoKey) (hM : ∀ m ∈ M, m < 2 ^ n)
    (hD : ∀ d ∈ D, d < 2 ^ n) :
    ∃ T pis res, normalizeMinterms [(F, M)] = [(F, T)] ∧
      generateOnlyTruePrimeImplicants T n D = some pis ∧
      executeMultipleOutput cache [(F, M)] n D = some (res, cache) ∧
      (coversAll T (essentialSolution T pis) →
        res.allSolutions =
          [⟨essentialSolution T pis, totalCostOf (essentialSolution T pis)⟩]) ∧
      (¬ coversAll T (essentialSolution T pis) →
        findAllMinimalCovers (remainingMinterms T pis) (nonEssentialPIs T pis) ≠ [] ∧
        res.allSolutions =
          (findAllMinimalCovers (remainingMinterms T pis) (nonEssentialPIs T pis)).map
            (fun cover => ⟨essentialSolution T pis ++ cover.pis,
              totalCostOf (essentialSolution T pis ++ cover.pis)⟩)) := by
  have hnorm := normalizeMinterms_single F M hF
  have hT : ∀ m ∈ M.map parseDecimal, m < 2 ^ n ∧ m < 10 ^ 21 := by
    intro m hm
    obtain ⟨x, hx, rfl⟩ := List.mem_map.1 hm
    exact ⟨Nat.lt_of_le_of_lt (parseDecimal_le x) (hM x hx), parseDecimal_lt x⟩
  obtain ⟨pis, res, hgen, hexec, h1, h2⟩ := executeNormalized_essentials_then_covers cache F
    (M.map parseDecimal) (D.map parseDecimal) n hT (map_parseDecimal_range D n hD)
  rw [← generateOnlyTruePrimeImplicants_parse_dontCares] at hgen
  refine ⟨M.map parseDecimal, pis, res, hnorm, hgen, ?_, h1, h2⟩
  rw [executeMultipleOutput_eq, hnorm]
  exact hexec

/-- Instance of C33 for the function of three variables with the targets 0, 1, 2, 5, 6, 7,
which has no essential PI. -/
theorem executeMultipleOutput_essentials_then_covers_witness :
    ['F'] ≠ protoKey ∧ (∀ m ∈ [0, 1, 2, 5, 6, 7], m < 2 ^ 3) ∧
    (∀ d ∈ ([] : List Nat), d < 2 ^ 3) ∧
    ∃ T pis res, normalizeMinterms [(['F'], [0, 1, 2, 5, 6, 7])] = [(['F'], T)] ∧
      generateOnlyTruePrimeImplicants T 3 [] = some pis ∧
      executeMultipleOutput [] [(['F'], [0, 1, 2, 5, 6, 7])] 3 [] = some (res, []) ∧
      (coversAll T (essentialSolution T pis) →
        res.allSolutions =
          [⟨essentialSolution T pis, totalCostOf (essentialSolution T pis)⟩]) ∧
      (¬ coversAll T (essentialSolution T pis) →
        findAllMinimalCovers (remainingMinterms T pis) (nonEssentialPIs T pis) ≠ [] ∧
        res.allSolutions =
          (findAllMinimalCovers (remainingMinterms T pis) (nonEssentialPIs T pis)).map
            (fun cover => ⟨essentialSolution T pis ++ cover.pis,
              totalCostOf (essentialSolution T pis ++ cover.pis)⟩)) :=
  ⟨by decide, by decide, by decide,
    executeMultipleOutput_essentials_then_covers [] ['F'] [0, 1, 2, 5, 6, 7] [] 3
      (by decide) (by decide) (by decide)⟩

/-! ## No primality filter in `findTruePrimeImplicants` -/

/-- C34 as the code behaves: `findTruePrimeImplicants` applies no primality filter.  Every
implicant of `allImplicants` that has a target among its minterms is returned, restricted
to the targets, whatever other implicants the list holds; and the returned patterns are
those of all implicants that have a target among their minterms, in the order of
`allImplicants`. -/
theorem findTruePrimeImplicants_keeps_covering (allImplicants : List LevelImplicant)
    (minterms : List Nat) (implicant : LevelImplicant)
    (himp : implicant ∈ allImplicants)
    (hcov : ∃ m ∈ implicant.minterms, m ∈ minterms) :
    (⟨implicant.pattern, implicant.minterms.filter (fun m => decide (m ∈ minterms))⟩ :
        Implicant) ∈ findTruePrimeImplicants allImplicants minterms ∧
    (findTruePrimeImplicants allImplicants minterms).map Implicant.pattern =
      (allImplicants.filter (fun t => t.minterms.any (fun m => decide (m ∈ minterms)))).map
        LevelImplicant.pattern := by
  have hkeep : ∀ t : LevelImplicant,
      decide ((t.minterms.filter (fun m => decide (m ∈ minterms))).length > 0) =
        t.minterms.any (fun m => decide (m ∈ minterms)) := by
    intro t
    rw [Bool.eq_iff_iff]
    simp only [gt_iff_lt, decide_eq_true_eq, List.length_pos, List.any_eq_true]
    constructor
    · intro h
      obtain ⟨m, hm⟩ := List.exists_mem_of_ne_nil _ h
      rw [List.mem_filter] at hm
      exact ⟨m, hm.1, by simpa using hm.2⟩
    · rintro ⟨m, hm, hmM⟩
      exact List.ne_nil_of_mem (List.mem_filter.mpr ⟨hm, by simpa using hmM⟩)
  refine ⟨?_, ?_⟩
  · rw [findTruePrimeImplicants_eq, List.mem_map]
    refine ⟨implicant, List.mem_filter.mpr ⟨himp, ?_⟩, rfl⟩
    rw [hkeep implicant, List.any_eq_true]
    obtain ⟨m, hm, hmM⟩ := hcov
    exact ⟨m, hm, by simpa using hmM⟩
  · rw [findTruePrimeImplicants_eq, List.map_map]
    have hfun : (fun t => decide
        ((t.minterms.filter (fun m => decide (m ∈ minterms))).length > 0)) =
        (fun t : LevelImplicant => t.minterms.any (fun m => decide (m ∈ minterms))) :=
      funext hkeep
    rw [hfun]
    rfl

/-- Instance of the amended C34: among the implicants of the function of one variable with
the targets 0 and 1, the pattern `0` is returned although the list holds the more general
pattern `-` with both minterms. -/
theorem findTruePrimeImplicants_keeps_covering_witness :
    (⟨['0'], [0], 0⟩ : LevelImplicant) ∈
      ([⟨['0'], [0], 0⟩, ⟨['1'], [1], 0⟩, ⟨['-'], [0, 1], 1⟩] : List LevelImplicant) ∧
    (∃ m ∈ [0], m ∈ [0, 1]) ∧
    (⟨['0'], [0].filter (fun m => decide (m ∈ [0, 1]))⟩ : Implicant) ∈
      findTruePrimeImplicants [⟨['0'], [0], 0⟩, ⟨['1'], [1], 0⟩, ⟨['-'], [0, 1], 1⟩]
        [0, 1] ∧
    (findTruePrimeImplicants [⟨['0'], [0], 0⟩, ⟨['1'], [1], 0⟩, ⟨['-'], [0, 1], 1⟩]
        [0, 1]).map Implicant.pattern =
      (([⟨['0'], [0], 0⟩, ⟨['1'], [1], 0⟩, ⟨['-'], [0, 1], 1⟩] :
          List LevelImplicant).filter
        (fun t => t.minterms.any (fun m => decide (m ∈ [0, 1])))).map
        LevelImplicant.pattern :=
  ⟨by decide, by decide,
    findTruePrimeImplicants_keeps_covering
      [⟨['0'], [0], 0⟩, ⟨['1'], [1], 0⟩, ⟨['-'], [0, 1], 1⟩] [0, 1]
      ⟨['0'], [0], 0⟩ (by decide) (by decide)⟩

set_option maxRecDepth 100000 in
/-- Counterexample to C34: for the function of one variable with the targets 0 and 1 the
all-levels generator yields the implicants `0`, `1` and `-`, and `findTruePrimeImplicants`
returns all three, although `-` is more general than `0` and holds its minterm. -/
theorem findTruePrimeImplicants_returns_contained :
    generateQuineMcCluskeyPIs [0, 1] 1 [] =
      some [⟨['0'], [0], 0⟩, ⟨['1'], [1], 0⟩, ⟨['-'], [0, 1], 1⟩] ∧
    findTruePrimeImplicants [⟨['0'], [0], 0⟩, ⟨['1'], [1], 0⟩, ⟨['-'], [0, 1], 1⟩] [0, 1] =
      [⟨['0'], [0]⟩, ⟨['1'], [1]⟩, ⟨['-'], [0, 1]⟩] ∧
    isMoreGeneral ['-'] ['0'] = true ∧ (∀ m ∈ [0], m ∈ [0, 1]) := by
  decide

/-! ## The pattern order `isMoreGeneral` -/

theorem isMoreGeneralLoop_cons (a b : Char) (p q : List Char) (f : Bool) :
    isMoreGeneralLoop (a :: p) (b :: q) f =
      if a = '-' ∧ b ≠ '-' then isMoreGeneralLoop p q true
      else if a ≠ '-' ∧ b = '-' then false
      else if a ≠ b then false
      else isMoreGeneralLoop p q f := by
  rw [isMoreGeneralLoop]

/-- A pattern that `isMoreGeneral` accepts has more dashes than the other one. -/
theorem isMoreGeneralLoop_dashes (p : List Char) :
    ∀ (q : List Char) (f : Bool), p.length = q.length → isMoreGeneralLoop p q f = true →
      dashes q ≤ dashes p ∧ (f = false → dashes q < dashes p) := by
  induction p with
  | nil =>
    intro q f hl h
    cases q with
    | nil =>
      simp only [isMoreGeneralLoop] at h
      exact ⟨le_refl _, fun hf => by rw [hf] at h; exact Bool.noConfusion h⟩
    | cons b q => simp at hl
  | cons a p ih =>
    intro q f hl h
    cases q with
    | nil => simp at hl
    | cons b q =>
      have hl2 : p.length = q.length := by simpa using hl
      rw [isMoreGeneralLoop_cons] at h
      rw [dashes_cons, dashes_cons]
      split_ifs at h with h1 h2 h3
      · obtain ⟨hle, _⟩ := ih q true hl2 h
        rw [if_pos h1.1, if_neg h1.2]
        exact ⟨by omega, fun _ => by omega⟩
      · obtain ⟨hle, hlt⟩ := ih q f hl2 h
        have hab : a = b := not_not.mp h3
        subst hab
        exact ⟨by omega, fun hf => by have := hlt hf; omega⟩

/-- On patterns, `isMoreGeneral` holds exactly for the proper generalisations. -/
theorem isMoreGeneralLoop_iff (p : List Char) :
    ∀ (q : List Char) (f : Bool), p.length = q.length → IsPat q →
      (isMoreGeneralLoop p q f = true ↔
        generalisesChars p q = true ∧ (f = true ∨ p ≠ q)) := by
  induction p with
  | nil =>
    intro q f hl _
    cases q with
    | nil => simp [isMoreGeneralLoop, generalisesChars]
    | cons b q => simp at hl
  | cons a p ih =>
    intro q f hl hq
    cases q with
    | nil => simp at hl
    | cons b q =>
      have hl2 : p.length = q.length := by simpa using hl
      rw [isPat_cons] at hq
      rw [isMoreGeneralLoop_cons, generalisesChars_cons_cons]
      split_ifs with h1 h2 h3
      · rw [ih q true hl2 hq.2]
        have hb : b = '0' ∨ b = '1' := by
          rcases hq.1 with h | h | h
          · exact Or.inl h
          · exact Or.inr h
          · exact absurd h h1.2
        have hne : a :: p ≠ b :: q := by
          intro e
          injection e with e1 _
          exact h1.2 (e1 ▸ h1.1)
        constructor
        · rintro ⟨hg, _⟩
          exact ⟨⟨Or.inr ⟨h1.1, hb⟩, hg⟩, Or.inr hne⟩
        · rintro ⟨⟨_, hg⟩, _⟩
          exact ⟨hg, Or.inl rfl⟩
      · constructor
        · intro h; exact h.elim
        · rintro ⟨⟨hab, _⟩, _⟩
          rcases hab with hab | ⟨ha, _⟩
          · exact absurd (hab.trans h2.2) h2.1
          · exact absurd ha h2.1
      · constructor
        · intro h; exact h.elim
        · rintro ⟨⟨hab, _⟩, _⟩
          rcases hab with hab | ⟨ha, hb⟩
          · exact absurd hab h3
          · apply h1
            refine ⟨ha, ?_⟩
            rcases hb with h | h <;> rw [h] <;> decide
      · have hab : a = b := not_not.mp h3
        subst hab
        rw [ih q f hl2 hq.2]
        constructor
        · rintro ⟨hg, hf⟩
          refine ⟨⟨Or.inl rfl, hg⟩, ?_⟩
          rcases hf with hf | hf
          · exact Or.inl hf
          · exact Or.inr (fun e => hf (List.cons.inj e).2)
        · rintro ⟨⟨_, hg⟩, hf⟩
          refine ⟨hg, ?_⟩
          rcases hf with hf | hf
          · exact Or.inl hf
          · exact Or.inr (fun e => hf (by rw [e]))

/-- On a pattern `q`, `isMoreGeneral(p, q)` says that `p` is a proper generalisation. -/
theorem isMoreGeneral_iff (p q : List Char) (hq : IsPat q) :
    isMoreGeneral p q = true ↔ IsGeneralisation p q := by
  unfold isMoreGeneral IsGeneralisation
  by_cases hl : p.length = q.length
  · rw [if_neg (by simpa using hl), isMoreGeneralLoop_iff p q false hl hq]
    simp
  · rw [if_pos hl]
    constructor
    · intro h; exact Bool.noConfusion h
    · rintro ⟨hg, _⟩
      exact absurd (generalisesChars_length p q hg) hl

/-- What `isMoreGeneral` accepts: equal lengths and more dashes on the left. -/
theorem isMoreGeneral_dashes (p q : List Char) (h : isMoreGeneral p q = true) :
    p.length = q.length ∧ dashes q < dashes p := by
  unfold isMoreGeneral at h
  by_cases hl : p.length = q.length
  · rw [if_neg (by simpa using hl)] at h
    exact ⟨hl, (isMoreGeneralLoop_dashes p q false hl h).2 rfl⟩
  · rw [if_pos hl] at h
    exact Bool.noConfusion h

/-- C39 (cost is monotone under generalisation): when `isMoreGeneral(p, q)` holds, the two
strings have the same length, `p` has more `-` characters, and
`calculateCost(p) ≤ calculateCost(q)`; and when `q` is a pattern over `0`, `1`, `-`, `p` is
obtained from `q` by replacing one or more literals with `-`. -/
theorem calculateCost_le_of_isMoreGeneral (p q : List Char)
    (h : isMoreGeneral p q = true) :
    calculateCost p ≤ calculateCost q ∧ p.length = q.length ∧ dashes q < dashes p ∧
    (IsPat q → IsGeneralisation p q) := by
  obtain ⟨hl, hd⟩ := isMoreGeneral_dashes p q h
  refine ⟨?_, hl, hd, fun hq => (isMoreGeneral_iff p q hq).mp h⟩
  have h1 := dashes_le_length p
  have h2 := dashes_le_length q
  rw [calculateCost_eq, calculateCost_eq, hl]
  split <;> split <;> omega

/-- Instance of C39: `1--` generalises `1-0`, at cost 1 against cost 3. -/
theorem calculateCost_le_of_isMoreGeneral_witness :
    isMoreGeneral ['1', '-', '-'] ['1', '-', '0'] = true ∧
    calculateCost ['1', '-', '-'] ≤ calculateCost ['1', '-', '0'] ∧
    ['1', '-', '-'].length = ['1', '-', '0'].length ∧
    dashes ['1', '-', '0'] < dashes ['1', '-', '-'] ∧
    (IsPat ['1', '-', '0'] → IsGeneralisation ['1', '-', '-'] ['1', '-', '0']) :=
  ⟨by decide, calculateCost_le_of_isMoreGeneral ['1', '-', '-'] ['1', '-', '0'] (by decide)⟩

/-! ## Termination of the level loops -/

/-- Every round of the all-levels loop adds at most one level. -/
theorem allLevelsLoop_length (fuel : Nat) :
    ∀ (L : List Term) (k : Nat) (acc r : List (List Term)),
      allLevelsLoop fuel L k acc = some r → r.length + 1 ≤ acc.length + fuel := by
  induction fuel with
  | zero =>
    intro L k acc r h
    simp [allLevelsLoop] at h
  | succ fuel ih =>
    intro L k acc r h
    unfold allLevelsLoop at h
    simp only [] at h
    split_ifs at h with h1 h2
    · injection h with h
      rw [← h]; omega
    · have := ih _ _ _ _ h
      rw [List.length_append, List.length_singleton] at this
      omega
    · injection h with h
      rw [← h]; omega

/-- Termination of the level loops on terms that `parseInt` leaves unchanged. -/
theorem level_loops_terminate_of_lt (M D : List Nat) (n : Nat) (hM : ∀ m ∈ M, m < 2 ^ n ∧ m < 10 ^ 21)
    (hD : ∀ d ∈ D, d < 2 ^ n ∧ d < 10 ^ 21) :
    (∃ allImplicants, truePILoop (n + 1) (initialLevel M n D) 0 [] = some allImplicants) ∧
    (∃ allLevels,
      allLevelsLoop (n + 1) (initialLevel M n D) 0 [initialLevel M n D] = some allLevels ∧
      allLevels.length ≤ n + 1) := by
  have hlevels : ∀ allLevels,
      allLevelsLoop (n + 1) (initialLevel M n D) 0 [initialLevel M n D] = some allLevels →
      allLevels.length ≤ n + 1 := by
    intro allLevels h
    have := allLevelsLoop_length (n + 1) _ _ _ _ h
    rw [List.length_singleton] at this
    omega
  rcases Nat.eq_zero_or_pos n with h0 | hpos
  · subst h0
    rw [initialLevel_zero M D (fun m hm => (hM m hm).1) (fun d hd => (hD d hd).1)] at hlevels ⊢
    by_cases hU : M ++ D = []
    · rw [if_pos hU] at hlevels ⊢
      exact ⟨⟨[], rfl⟩, ⟨[[]], rfl, hlevels _ rfl⟩⟩
    · rw [if_neg hU] at hlevels ⊢
      have h1 : truePILoop (0 + 1) [(⟨['0'], [0], 0⟩ : Term)] 0 [] =
          some [⟨['0'], [0], 0⟩] := by decide
      have h2 : allLevelsLoop (0 + 1) [(⟨['0'], [0], 0⟩ : Term)] 0 [[⟨['0'], [0], 0⟩]] =
          some [[⟨['0'], [0], 0⟩]] := by decide
      exact ⟨⟨_, h1⟩, ⟨_, h2, hlevels _ h2⟩⟩
  · have hU : ∀ m ∈ M ++ D, m < 2 ^ n ∧ m < 10 ^ 21 := by
      intro m hm
      rcases List.mem_append.mp hm with h | h
      · exact hM m h
      · exact hD m h
    have inv := LevelInv.initial M D n hpos hU
    obtain ⟨out, hout, _⟩ := truePILoop_spec n (M ++ D) (n + 1) 0 (initialLevel M n D) []
      inv (by omega) (fun _ => by omega)
    obtain ⟨more, hmore, _⟩ := allLevelsLoop_spec n (M ++ D) (n + 1) 0 (initialLevel M n D)
      [initialLevel M n D] inv (by omega) (fun _ => by omega)
    exact ⟨⟨_, hout⟩, ⟨_, hmore, hlevels _ hmore⟩⟩

/-- C40 (prime-implicant generation terminates): for targets and don't-cares below `2^n`
the level loop of `generateOnlyTruePrimeImplicants` and the level loop of
`generateQuineMcCluskeyPIs` both end within `n + 1` rounds, one round per level, and the
all-levels loop ends with at most `n + 1` levels. -/
theorem level_loops_terminate (M D : List Nat) (n : Nat) (hM : ∀ m ∈ M, m < 2 ^ n)
    (hD : ∀ d ∈ D, d < 2 ^ n) :
    (∃ allImplicants, truePILoop (n + 1) (initialLevel M n D) 0 [] = some allImplicants) ∧
    (∃ allLevels,
      allLevelsLoop (n + 1) (initialLevel M n D) 0 [initialLevel M n D] = some allLevels ∧
      allLevels.length ≤ n + 1) := by
  rw [initialLevel_parse M D n]
  exact level_loops_terminate_of_lt (M.map parseDecimal) (D.map parseDecimal) n
    (map_parseDecimal_range M n hM) (map_parseDecimal_range D n hD)

/-- Instance of C40 for two variables: targets 1 and 3, don't-care 0. -/
theorem level_loops_terminate_witness :
    (∀ m ∈ demoTargets, m < 2 ^ 2) ∧ (∀ d ∈ [0], d < 2 ^ 2) ∧
    (∃ allImplicants,
      truePILoop (2 + 1) (initialLevel demoTargets 2 [0]) 0 [] = some allImplicants) ∧
    (∃ allLevels,
      allLevelsLoop (2 + 1) (initialLevel demoTargets 2 [0]) 0
        [initialLevel demoTargets 2 [0]] = some allLevels ∧
      allLevels.length ≤ 2 + 1) :=
  ⟨by decide, by decide, level_loops_terminate demoTargets [0] 2 (by decide) (by decide)⟩

/-! ## The earlier single-function entry point -/

/-- Without a `cost` on the candidates the solver records nothing for a non-empty target
list: every round leaves the initial state. -/
theorem foldl_coverStepWithoutCost (T : List Nat) (avail : List PI) (hT : T ≠ [])
    (cs : List Nat) :
    cs.foldl (coverStepWithoutCost T avail) ⟨none, []⟩ = ⟨none, []⟩ := by
  induction cs with
  | nil => rfl
  | cons c cs ih =>
    rw [List.foldl_cons]
    have hstep : coverStepWithoutCost T avail ⟨none, []⟩ c = ⟨none, []⟩ := by
      unfold coverStepWithoutCost
      simp only []
      by_cases h1 : (T.all fun m =>
          decide (m ∈ (selectCombination T avail c).coveredMinterms)) = true
      · have h2 : ¬ (selectCombination T avail c).selectedPIs.length = 0 := by
          intro h2
          rw [selectCombination_selectedPIs, List.length_eq_zero] at h2
          have hv := (selectCombination_valid T avail c).mp h1
          rw [h2] at hv
          obtain ⟨m, hm⟩ := List.exists_mem_of_ne_nil _ hT
          obtain ⟨P, hP, _⟩ := hv m hm
          exact List.not_mem_nil _ hP
        rw [if_pos h1, if_neg h2]
      · rw [if_neg h1]
    rw [hstep, ih]

/-- Called with candidates that have no `cost`, `findAllMinimalCovers` returns no cover
for a non-empty target list. -/
theorem findAllMinimalCoversWithoutCost_eq_nil (T : List Nat) (avail : List PI)
    (hT : T ≠ []) : findAllMinimalCoversWithoutCost T avail = [] := by
  unfold findAllMinimalCoversWithoutCost
  simp only []
  rw [foldl_coverStepWithoutCost T avail hT]

set_option maxRecDepth 100000 in
/-- C35 fails on the function of two variables with the target 0 and the don't-cares 1 and
2: the generator yields the PIs `0-` and `-0`, none is essential, the solver records no
cover because the candidates carry no cost, and the solution returned for `F` holds no PI
at all, so the target 0 belongs to no PI of the solution. -/
theorem executeSingleFunctionOptimization_uncovered :
    generateTruePrimeImplicantsForSingleFunction [0] 2 [1, 2] =
      some [⟨['0', '-'], [0]⟩, ⟨['-', '0'], [0]⟩] ∧
    executeSingleFunctionOptimization [(['F'], [0])] 2 [1, 2] = some [(['F'], ⟨[], 0⟩)] ∧
    ¬ ∃ pi ∈ ([] : List PI), 0 ∈ pi.minterms := by
  decide

/-! ## The levels held by the level loops -/

/-- Every level of the level loops satisfies the level invariant. -/
theorem levelAt_inv (M D : List Nat) (n : Nat) (hn : 1 ≤ n)
    (hU : ∀ m ∈ M ++ D, m < 2 ^ n ∧ m < 10 ^ 21) (k : Nat) :
    LevelInv n (M ++ D) k (levelAt M n D k) := by
  induction k with
  | zero => exact LevelInv.initial M D n hn hU
  | succ k ih => exact ih.next

/-- The minterms list of every term of every level is in ascending order. -/
theorem levelAt_sorted (M D : List Nat) (n : Nat) (k : Nat) :
    ∀ t ∈ levelAt M n D k, t.minterms.Sorted (fun a b => a ≤ b) := by
  cases k with
  | zero =>
    intro t ht
    unfold levelAt initialLevel at ht
    rw [List.mem_map] at ht
    obtain ⟨term, _, rfl⟩ := ht
    exact List.sorted_singleton term
  | succ k =>
    intro t ht
    unfold levelAt at ht
    obtain ⟨p, _, _, hmin, _⟩ := combineLevel_term k _ t ht
    rw [hmin]
    exact sorted_sortNumeric _

/-- The list `cubeMinterms` is strictly ascending. -/
theorem cubeMinterms_sorted (n : Nat) (p : List Char) :
    (cubeMinterms n p).Sorted (fun a b => a < b) := by
  unfold cubeMinterms
  exact (List.sorted_lt_range _).filter _

theorem mem_cubeMinterms (n : Nat) (p : List Char) (m : Nat) :
    m ∈ cubeMinterms n p ↔ (m < 2 ^ n ∧ matchChars p (bits n m) = true) := by
  unfold cubeMinterms
  rw [List.mem_filter, List.mem_range]

/-- A duplicate-free ascending list that holds exactly the integers of a cube is the list
`cubeMinterms` of that cube. -/
theorem eq_cubeMinterms (n : Nat) (p : List Char) (ms : List Nat) (hnd : ms.Nodup)
    (hs : ms.Sorted (fun a b => a ≤ b))
    (hmem : ∀ m, m ∈ ms ↔ (m < 2 ^ n ∧ matchChars p (bits n m) = true)) :
    ms = cubeMinterms n p := by
  have hperm : ms.Perm (cubeMinterms n p) := by
    rw [List.perm_ext_iff_of_nodup hnd (cubeMinterms_sorted n p).nodup]
    intro m
    rw [hmem, mem_cubeMinterms]
  exact List.eq_of_perm_of_sorted hperm hs ((cubeMinterms_sorted n p).imp (fun h => le_of_lt h))

/-! ## The number of integers of a cube -/

theorem matchChars_append_singleton (p : List Char) :
    ∀ (s : List Char) (c x : Char), p.length = s.length →
      matchChars (p ++ [c]) (s ++ [x]) = (matchChars p s && (c == '-' || c == x)) := by
  induction p with
  | nil =>
    intro s c x hl
    cases s with
    | nil => simp [matchChars]
    | cons b s => simp at hl
  | cons a p ih =>
    intro s c x hl
    cases s with
    | nil => simp at hl
    | cons b s =>
      have hl2 : p.length = s.length := by simpa using hl
      have e1 : matchChars (a :: (p ++ [c])) (b :: (s ++ [x])) =
          ((a == '-' || a == b) && matchChars (p ++ [c]) (s ++ [x])) := rfl
      have e2 : matchChars (a :: p) (b :: s) = ((a == '-' || a == b) && matchChars p s) := rfl
      rw [List.cons_append, List.cons_append, e1, e2, ih s c x hl2, Bool.and_assoc]

theorem dashes_append_singleton (p : List Char) (c : Char) :
    dashes (p ++ [c]) = dashes p + (if c = '-' then 1 else 0) := by
  unfold dashes
  rw [List.count_append, List.count_singleton]
  by_cases hc : c = '-'
  · simp [hc]
  · have : ¬ ('-' = c) := fun h => hc h.symm
    simp [hc, this]

theorem countP_range_double (f : Nat → Bool) (N : Nat) :
    (List.range (2 * N)).countP f =
      (List.range N).countP (fun j => f (2 * j)) +
        (List.range N).countP (fun j => f (2 * j + 1)) := by
  induction N with
  | zero => simp
  | succ N ih =>
    have h2 : 2 * (N + 1) = 2 * N + 1 + 1 := by ring
    rw [h2, List.range_succ, List.range_succ, List.countP_append, List.countP_append, ih,
      List.range_succ, List.countP_append, List.countP_append]
    simp only [List.countP_singleton]
    omega

theorem countP_and_const (g : Nat → Bool) (b : Bool) (l : List Nat) :
    l.countP (fun j => g j && b) = if b = true then l.countP g else 0 := by
  cases b with
  | true => simp
  | false => simp

/-- A pattern of length `n` with `k` dashes is matched by `2^k` integers below `2^n`. -/
theorem countP_matchChars (n : Nat) :
    ∀ p : List Char, p.length = n → IsPat p →
      (List.range (2 ^ n)).countP (fun m => matchChars p (bits n m)) = 2 ^ dashes p := by
  induction n with
  | zero =>
    intro p hl _
    rw [List.length_eq_zero] at hl
    subst hl
    rfl
  | succ n ih =>
    intro p hl hp
    rcases List.eq_nil_or_concat p with h | ⟨q, c, h⟩
    · rw [h] at hl; simp at hl
    · rw [List.concat_eq_append] at h
      subst h
      have hlq : q.length = n := by simpa using hl
      have hpq : IsPat q := fun x hx => hp x (List.mem_append_left _ hx)
      have hc : c = '0' ∨ c = '1' ∨ c = '-' := hp c (by simp)
      have hpow : 2 ^ (n + 1) = 2 * 2 ^ n := by ring
      rw [hpow, countP_range_double]
      have heven : (fun j => matchChars (q ++ [c]) (bits (n + 1) (2 * j))) =
          (fun j => matchChars q (bits n j) && (c == '-' || c == '0')) := by
        funext j
        have h1 : bits (n + 1) (2 * j) = bits n j ++ ['0'] := by
          rw [bits]
          have e1 : 2 * j / 2 = j := by omega
          have e2 : ¬ (2 * j % 2 = 1) := by omega
          rw [e1, if_neg e2]
        rw [h1, matchChars_append_singleton q _ c '0' (by rw [length_bits, hlq])]
      have hodd : (fun j => matchChars (q ++ [c]) (bits (n + 1) (2 * j + 1))) =
          (fun j => matchChars q (bits n j) && (c == '-' || c == '1')) := by
        funext j
        have h1 : bits (n + 1) (2 * j + 1) = bits n j ++ ['1'] := by
          rw [bits]
          have e1 : (2 * j + 1) / 2 = j := by omega
          have e2 : (2 * j + 1) % 2 = 1 := by omega
          rw [e1, if_pos e2]
        rw [h1, matchChars_append_singleton q _ c '1' (by rw [length_bits, hlq])]
      rw [heven, hodd, countP_and_const, countP_and_const, ih q hlq hpq,
        dashes_append_singleton]
      rcases hc with hc | hc | hc <;> subst hc <;> simp [pow_succ]
      omega

/-- The list `cubeMinterms` of a pattern with `k` dashes holds `2^k` integers. -/
theorem length_cubeMinterms (n : Nat) (p : List Char) (hl : p.length = n) (hp : IsPat p) :
    (cubeMinterms n p).length = 2 ^ dashes p := by
  unfold cubeMinterms
  rw [← List.countP_eq_length_filter]
  exact countP_matchChars n p hl hp

/-! ## What the three level loops collect -/

/-- The all-levels loop, started on level `k`, appends the following levels one by one. -/
theorem allLevelsLoop_levels (M D : List Nat) (n : Nat) (fuel : Nat) :
    ∀ (k : Nat) (acc r : List (List Term)),
      allLevelsLoop fuel (levelAt M n D k) k acc = some r →
      ∃ j, r = acc ++ (List.range j).map (fun i => levelAt M n D (k + 1 + i)) := by
  induction fuel with
  | zero =>
    intro k acc r h
    simp [allLevelsLoop] at h
  | succ fuel ih =>
    intro k acc r h
    unfold allLevelsLoop at h
    simp only [] at h
    have hnext : (combineLevel k (levelAt M n D k)).nextLevel = levelAt M n D (k + 1) := rfl
    rw [hnext] at h
    split_ifs at h with h1 h2
    · injection h with h
      exact ⟨0, by simp [h]⟩
    · obtain ⟨j, hj⟩ := ih (k + 1) _ r h
      refine ⟨j + 1, ?_⟩
      rw [hj, List.range_succ_eq_map, List.map_cons, List.map_map, List.append_assoc,
        List.singleton_append]
      congr 2
      apply List.map_congr_left
      intro i _
      simp only [Function.comp]
      congr 1
      omega
    · injection h with h
      exact ⟨0, by simp [h]⟩

/-- The loop of the earlier single-function generator collects the terms of the levels that
the all-levels loop collects. -/
theorem singleFunctionLoop_eq (fuel : Nat) :
    ∀ (L : List Term) (k : Nat) (accL r : List (List Term)) (acc : List Term),
      allLevelsLoop fuel L k accL = some r →
      ∃ more, r = accL ++ more ∧ singleFunctionLoop fuel L k acc = some (acc ++ more.flatten) := by
  induction fuel with
  | zero =>
    intro L k accL r acc h
    simp [allLevelsLoop] at h
  | succ fuel ih =>
    intro L k accL r acc h
    unfold allLevelsLoop at h
    unfold singleFunctionLoop
    simp only [] at h ⊢
    split_ifs at h ⊢ with h1 h2
    · injection h with h
      exact ⟨[], by simp [h], by simp⟩
    · obtain ⟨more, hr, hs⟩ := ih _ (k + 1) _ r (acc ++ (combineLevel k L).nextLevel) h
      refine ⟨(combineLevel k L).nextLevel :: more, ?_, ?_⟩
      · rw [hr, List.append_assoc, List.singleton_append]
      · rw [hs, List.flatten_cons, List.append_assoc]
    · injection h with h
      exact ⟨[], by simp [h], by simp⟩

/-- The loop of the current single-function generator, started on level `k`, appends the
unused terms of the following levels one level after the other. -/
theorem truePILoop_levels (M D : List Nat) (n : Nat) (fuel : Nat) :
    ∀ (k : Nat) (acc r : List Term),
      truePILoop fuel (levelAt M n D k) k acc = some r →
      ∃ j, r = acc ++ ((List.range j).map (fun i => unusedAt M n D (k + i))).flatten := by
  induction fuel with
  | zero =>
    intro k acc r h
    simp [truePILoop] at h
  | succ fuel ih =>
    intro k acc r h
    unfold truePILoop at h
    simp only [] at h
    have hnext : (combineLevel k (levelAt M n D k)).nextLevel = levelAt M n D (k + 1) := rfl
    have hunused : unusedTerms (levelAt M n D k)
        (combineLevel k (levelAt M n D k)).usedIndices = unusedAt M n D k := rfl
    rw [hnext, hunused] at h
    split_ifs at h with h1 h2
    · injection h with h
      refine ⟨1, ?_⟩
      have e : List.range 1 = [0] := rfl
      rw [← h, e, List.map_cons, List.map_nil, List.flatten_cons, List.flatten_nil,
        List.append_nil, Nat.add_zero]
    · obtain ⟨j, hj⟩ := ih (k + 1) _ r h
      refine ⟨j + 1, ?_⟩
      have hmap : (List.range j).map (fun i => unusedAt M n D (k + 1 + i)) =
          (List.range j).map ((fun i => unusedAt M n D (k + i)) ∘ Nat.succ) := by
        apply List.map_congr_left
        intro i _
        show unusedAt M n D (k + 1 + i) = unusedAt M n D (k + (i + 1))
        rw [Nat.add_assoc, Nat.add_comm 1 i]
      rw [hj, hmap, List.range_succ_eq_map, List.map_cons, List.map_map, List.flatten_cons,
        List.append_assoc, Nat.add_zero]
    · injection h with h
      exact ⟨0, by simp [h]⟩

/-! ## The level invariant of the generators -/

/-- The terms of one level of the level loops, for at least one variable. -/
theorem levelAt_terms (M D : List Nat) (n : Nat) (hn : 1 ≤ n)
    (hM : ∀ m ∈ M, m < 2 ^ n ∧ m < 10 ^ 21) (hD : ∀ d ∈ D, d < 2 ^ n ∧ d < 10 ^ 21) (k : Nat) :
    ((levelAt M n D k).map Term.binary).Nodup ∧
    ∀ t ∈ levelAt M n D k,
      t.binary.length = n ∧ IsPat t.binary ∧ dashes t.binary = k ∧
      t.minterms = cubeMinterms n t.binary ∧ t.minterms.length = 2 ^ k ∧
      ∀ m ∈ t.minterms, m ∈ M ∨ m ∈ D := by
  have hU : ∀ m ∈ M ++ D, m < 2 ^ n ∧ m < 10 ^ 21 := by
    intro m hm
    rcases List.mem_append.mp hm with h | h
    · exact hM m h
    · exact hD m h
  have inv := levelAt_inv M D n hn hU k
  refine ⟨inv.nodup, ?_⟩
  intro t ht
  obtain ⟨hl, hp, hd, hc⟩ := (inv.mem_iff t.binary).mp (List.mem_map_of_mem Term.binary ht)
  have heq : t.minterms = cubeMinterms n t.binary :=
    eq_cubeMinterms n t.binary t.minterms (inv.minterms_nodup t ht)
      (levelAt_sorted M D n k t ht) (inv.minterms_iff t ht)
  refine ⟨hl, hp, hd, heq, ?_, ?_⟩
  · rw [heq, length_cubeMinterms n t.binary hl hp, hd]
  · intro m hm
    obtain ⟨hlt, hmatch⟩ := (inv.minterms_iff t ht m).mp hm
    exact List.mem_append.mp (hc m hlt hmatch)

/-- The three level loops run through the levels `levelAt`: the all-levels loop returns the
levels 0 to `j`, the loop of the earlier single-function generator their terms, and the
loop of the current single-function generator the unused terms of the levels it visits. -/
theorem level_loops_hold_levels (M D : List Nat) (n : Nat) (hn : 1 ≤ n)
    (hM : ∀ m ∈ M, m < 2 ^ n ∧ m < 10 ^ 21) (hD : ∀ d ∈ D, d < 2 ^ n ∧ d < 10 ^ 21) :
    (∃ j, allLevelsLoop (maxBinaryLength (initialLevel M n D) + 1) (initialLevel M n D) 0
        [initialLevel M n D] = some ((List.range (j + 1)).map (levelAt M n D))) ∧
    (∃ j, singleFunctionLoop (maxBinaryLength (initialLevel M n D) + 1) (initialLevel M n D) 0
        (initialLevel M n D) = some ((List.range (j + 1)).map (levelAt M n D)).flatten) ∧
    (∃ j, truePILoop (maxBinaryLength (initialLevel M n D) + 1) (initialLevel M n D) 0 [] =
        some ((List.range j).map (unusedAt M n D)).flatten) := by
  have hU : ∀ m ∈ M ++ D, m < 2 ^ n ∧ m < 10 ^ 21 := by
    intro m hm
    rcases List.mem_append.mp hm with h | h
    · exact hM m h
    · exact hD m h
  have h0 : initialLevel M n D = levelAt M n D 0 := rfl
  obtain ⟨levels, hlevels, _⟩ := allLevelsLoop_initial M D n hn hU
  obtain ⟨out, hout, _⟩ := truePILoop_initial M D n hn hU
  have hshift : ∀ j, [levelAt M n D 0] ++
      (List.range j).map (fun i => levelAt M n D (0 + 1 + i)) =
      (List.range (j + 1)).map (levelAt M n D) := by
    intro j
    rw [List.range_succ_eq_map, List.map_cons, List.map_map, List.singleton_append]
    congr 1
    apply List.map_congr_left
    intro i _
    simp only [Function.comp]
    congr 1
    omega
  refine ⟨?_, ?_, ?_⟩
  · have h := hlevels
    nth_rewrite 2 [h0] at h
    obtain ⟨j, hj⟩ := allLevelsLoop_levels M D n _ 0 _ levels h
    rw [h0, hshift j] at hj
    exact ⟨j, by rw [hlevels, hj]⟩
  · obtain ⟨more, hr, hs⟩ := singleFunctionLoop_eq _ _ 0 _ levels (initialLevel M n D) hlevels
    have h := hlevels
    nth_rewrite 2 [h0] at h
    obtain ⟨j, hj⟩ := allLevelsLoop_levels M D n _ 0 _ levels h
    rw [hr] at hj
    have hmore : more = (List.range j).map (fun i => levelAt M n D (0 + 1 + i)) :=
      List.append_cancel_left hj
    refine ⟨j, ?_⟩
    rw [hs, ← hshift j, List.flatten_append, ← hmore, ← h0]
    simp
  · have h := hout
    nth_rewrite 2 [h0] at h
    obtain ⟨j, hj⟩ := truePILoop_levels M D n _ 0 _ out h
    refine ⟨j, ?_⟩
    rw [hout, hj, List.nil_append]
    congr 2
    apply List.map_congr_left
    intro i _
    rw [Nat.zero_add]

/-- C36 with at least one variable and terms below 1e21: for `1 ≤ n` and targets and
don't-cares below `2^n` and below `10^21`, the patterns of level `k` are pairwise distinct,
and every term of level `k` has a pattern of length `n` over `0`, `1`, `-` with exactly `k`
dashes and a minterms list that is the ascending list of the integers below `2^n` matching
the pattern, `2^k` in number, each a target or a don't-care.  These levels are what the
three generators hold: the all-levels loop returns the levels 0 to `j`, the loop of the
earlier single-function generator their terms, and the loop of the current single-function
generator the unused terms of the levels it visits. -/
theorem generators_level_invariant (M D : List Nat) (n : Nat) (hn : 1 ≤ n)
    (hM : ∀ m ∈ M, m < 2 ^ n ∧ m < 10 ^ 21) (hD : ∀ d ∈ D, d < 2 ^ n ∧ d < 10 ^ 21) :
    (∀ k, ((levelAt M n D k).map Term.binary).Nodup ∧
      ∀ t ∈ levelAt M n D k,
        t.binary.length = n ∧ IsPat t.binary ∧ dashes t.binary = k ∧
        t.minterms = cubeMinterms n t.binary ∧ t.minterms.length = 2 ^ k ∧
        ∀ m ∈ t.minterms, m ∈ M ∨ m ∈ D) ∧
    (∃ j, allLevelsLoop (maxBinaryLength (initialLevel M n D) + 1) (initialLevel M n D) 0
        [initialLevel M n D] = some ((List.range (j + 1)).map (levelAt M n D))) ∧
    (∃ j, singleFunctionLoop (maxBinaryLength (initialLevel M n D) + 1) (initialLevel M n D) 0
        (initialLevel M n D) = some ((List.range (j + 1)).map (levelAt M n D)).flatten) ∧
    (∃ j, truePILoop (maxBinaryLength (initialLevel M n D) + 1) (initialLevel M n D) 0 [] =
        some ((List.range j).map (unusedAt M n D)).flatten) :=
  ⟨fun k => levelAt_terms M D n hn hM hD k, level_loops_hold_levels M D n hn hM hD⟩

/-- Instance of the amended C36 for two variables: targets 1 and 3, don't-care 0. -/
theorem generators_level_invariant_witness :
    1 ≤ 2 ∧ (∀ m ∈ demoTargets, m < 2 ^ 2 ∧ m < 10 ^ 21) ∧
    (∀ d ∈ [0], d < 2 ^ 2 ∧ d < 10 ^ 21) ∧
    (∀ k, ((levelAt demoTargets 2 [0] k).map Term.binary).Nodup ∧
      ∀ t ∈ levelAt demoTargets 2 [0] k,
        t.binary.length = 2 ∧ IsPat t.binary ∧ dashes t.binary = k ∧
        t.minterms = cubeMinterms 2 t.binary ∧ t.minterms.length = 2 ^ k ∧
        ∀ m ∈ t.minterms, m ∈ demoTargets ∨ m ∈ [0]) ∧
    (∃ j, allLevelsLoop (maxBinaryLength (initialLevel demoTargets 2 [0]) + 1)
        (initialLevel demoTargets 2 [0]) 0 [initialLevel demoTargets 2 [0]] =
          some ((List.range (j + 1)).map (levelAt demoTargets 2 [0]))) ∧
    (∃ j, singleFunctionLoop (maxBinaryLength (initialLevel demoTargets 2 [0]) + 1)
        (initialLevel demoTargets 2 [0]) 0 (initialLevel demoTargets 2 [0]) =
          some ((List.range (j + 1)).map (levelAt demoTargets 2 [0])).flatten) ∧
    (∃ j, truePILoop (maxBinaryLength (initialLevel demoTargets 2 [0]) + 1)
        (initialLevel demoTargets 2 [0]) 0 [] =
          some ((List.range j).map (unusedAt demoTargets 2 [0])).flatten) :=
  ⟨by decide, by decide, by decide,
    generators_level_invariant demoTargets [0] 2 (by decide) (by decide) (by decide)⟩

set_option maxRecDepth 100000 in
/-- Without variables: for `n = 0` and the target 0, which is below `2^0`, level 0 of the
three generators holds the term with the pattern `0`, whose length is one and not `n`. -/
theorem generators_level_at_zero :
    (∀ m ∈ [0], m < 2 ^ 0) ∧
    levelAt [0] 0 [] 0 = [⟨['0'], [0], 0⟩] ∧
    allLevelsLoop (maxBinaryLength (initialLevel [0] 0 []) + 1) (initialLevel [0] 0 []) 0
      [initialLevel [0] 0 []] = some [[⟨['0'], [0], 0⟩]] ∧
    singleFunctionLoop (maxBinaryLength (initialLevel [0] 0 []) + 1) (initialLevel [0] 0 []) 0
      (initialLevel [0] 0 []) = some [⟨['0'], [0], 0⟩] ∧
    truePILoop (maxBinaryLength (initialLevel [0] 0 []) + 1) (initialLevel [0] 0 []) 0 [] =
      some [⟨['0'], [0], 0⟩] ∧
    (['0'] : List Char).length ≠ 0 := by
  decide

/-! ## The two single-function generators hold the same terms -/

/-- A level with one term combines nothing. -/
theorem combineLevel_singleton (k : Nat) (t : Term) : combineLevel k [t] = ⟨[], []⟩ := by
  rfl

/-- The terms collected by the current loop are, in order, among the terms of the levels
that the all-levels loop collects from the same level on. -/
theorem truePILoop_sublist (fuel : Nat) :
    ∀ (L : List Term) (k : Nat) (acc out : List Term) (accL levels : List (List Term)),
      truePILoop fuel L k acc = some out → allLevelsLoop fuel L k accL = some levels →
      ∃ X Y, out = acc ++ X ∧ levels = accL ++ Y ∧ X.Sublist (L ++ Y.flatten) := by
  induction fuel with
  | zero =>
    intro L k acc out accL levels h
    simp [truePILoop] at h
  | succ fuel ih =>
    intro L k acc out accL levels h1 h2
    unfold truePILoop at h1
    unfold allLevelsLoop at h2
    simp only [] at h1 h2
    by_cases hL1 : L.length > 1
    · have hL0 : L.length > 0 := by omega
      rw [if_pos hL0] at h1
      rw [if_pos hL1] at h2
      by_cases hN : (combineLevel k L).nextLevel.length = 0
      · rw [if_pos hN] at h1 h2
        injection h1 with h1
        injection h2 with h2
        refine ⟨_, [], h1.symm, by simp [h2], ?_⟩
        simpa using unusedTerms_sublist L _
      · rw [if_neg hN] at h1 h2
        obtain ⟨X, Y, hX, hY, hsub⟩ := ih _ _ _ out _ levels h1 h2
        refine ⟨unusedTerms L (combineLevel k L).usedIndices ++ X,
          (combineLevel k L).nextLevel :: Y, ?_, ?_, ?_⟩
        · rw [hX, List.append_assoc]
        · rw [hY, List.append_assoc, List.singleton_append]
        · rw [List.flatten_cons]
          exact (unusedTerms_sublist L _).append hsub
    · rw [if_neg hL1] at h2
      injection h2 with h2
      by_cases hL0 : L.length > 0
      · rw [if_pos hL0] at h1
        obtain ⟨t, ht⟩ : ∃ t, L = [t] := by
          cases L with
          | nil => simp at hL0
          | cons t L =>
            cases L with
            | nil => exact ⟨t, rfl⟩
            | cons t2 L => simp at hL1
        subst ht
        rw [combineLevel_singleton] at h1
        simp only [List.length_nil, if_true] at h1
        injection h1 with h1
        refine ⟨_, [], h1.symm, by simp [h2], ?_⟩
        simpa using unusedTerms_sublist [t] _
      · rw [if_neg hL0] at h1
        injection h1 with h1
        exact ⟨[], [], by simp [h1], by simp [h2], List.nil_sublist _⟩

/-- Two sub-lists of a duplicate-free list that hold the same elements are equal. -/
theorem sublist_eq_of_mem_iff {α : Type} :
    ∀ (l l1 l2 : List α), l.Nodup → l1.Sublist l → l2.Sublist l →
      (∀ x, x ∈ l1 ↔ x ∈ l2) → l1 = l2 := by
  intro l
  induction l with
  | nil =>
    intro l1 l2 _ h1 h2 _
    rw [List.sublist_nil.mp h1, List.sublist_nil.mp h2]
  | cons a l ih =>
    intro l1 l2 hnd h1 h2 hmem
    rw [List.nodup_cons] at hnd
    rcases List.sublist_cons_iff.mp h1 with s1 | ⟨r1, e1, s1⟩ <;>
      rcases List.sublist_cons_iff.mp h2 with s2 | ⟨r2, e2, s2⟩
    · exact ih l1 l2 hnd.2 s1 s2 hmem
    · exfalso
      have : a ∈ l1 := (hmem a).mpr (by rw [e2]; exact List.mem_cons_self _ _)
      exact hnd.1 (s1.subset this)
    · exfalso
      have : a ∈ l2 := (hmem a).mp (by rw [e1]; exact List.mem_cons_self _ _)
      exact hnd.1 (s2.subset this)
    · rw [e1, e2]
      congr 1
      apply ih r1 r2 hnd.2 s1 s2
      intro x
      constructor
      · intro hx
        have hxa : x ≠ a := fun e => hnd.1 (e ▸ s1.subset hx)
        have := (hmem x).mp (by rw [e1]; exact List.mem_cons_of_mem _ hx)
        rw [e2] at this
        rcases List.mem_cons.mp this with h | h
        · exact absurd h hxa
        · exact h
      · intro hx
        have hxa : x ≠ a := fun e => hnd.1 (e ▸ s2.subset hx)
        have := (hmem x).mpr (by rw [e2]; exact List.mem_cons_of_mem _ hx)
        rw [e1] at this
        rcases List.mem_cons.mp this with h | h
        · exact absurd h hxa
        · exact h

theorem filterMap_ite_eq_map_filter {α β : Type} (l : List α) (p : α → Bool) (f : α → β) :
    l.filterMap (fun x => if p x = true then some (f x) else none) = (l.filter p).map f := by
  induction l with
  | nil => rfl
  | cons a l ih =>
    by_cases h : p a = true <;> simp [List.filterMap_cons, List.filter_cons, h, ih]

/-- The test of the earlier generator keeps, among the terms of all levels, exactly the
terms that the current generator collects, when they cover a target. -/
theorem absorbed_keep_iff (M : List Nat) (n : Nat) (U : List Nat) (all out : List Term)
    (hndA : (all.map Term.binary).Nodup)
    (hsoundA : ∀ t ∈ all, t.binary.length = n ∧ IsPat t.binary ∧ CubeIn n U t.binary ∧
      (∀ m, m ∈ t.minterms ↔ (m < 2 ^ n ∧ matchChars t.binary (bits n m) = true)))
    (hcomplA : ∀ p : List Char, p.length = n → IsPat p → CubeIn n U p →
      p ∈ all.map Term.binary)
    (hsub : out.Sublist all)
    (hsoundO : ∀ t ∈ out, ∀ q, IsGeneralisation q t.binary → ¬ CubeIn n U q)
    (hcomplO : ∀ p : List Char, p.length = n → IsPat p → CubeIn n U p →
      (∀ q, IsGeneralisation q p → ¬ CubeIn n U q) → p ∈ out.map Term.binary)
    (e : Nat × Term) (he : e ∈ all.enum) :
    ((!(all.enum.any (absorbedBy M e))) = true ∧
        (e.2.minterms.filter (fun m => decide (m ∈ M))).length > 0) ↔
      (e.2 ∈ out ∧ (e.2.minterms.filter (fun m => decide (m ∈ M))).length > 0) := by
  have het : e.2 ∈ all := mem_of_mem_enum all e he
  obtain ⟨hl, hp, hc, hmin⟩ := hsoundA e.2 het
  constructor
  · rintro ⟨hprime, hcov⟩
    refine ⟨?_, hcov⟩
    have hno : ∀ o ∈ all.enum, absorbedBy M e o = false := by
      intro o ho
      have h := hprime
      rw [Bool.not_eq_true', List.any_eq_false] at h
      simpa using h o ho
    have hprimeT : ∀ q, IsGeneralisation q e.2.binary → ¬ CubeIn n U q := by
      intro q hq hcq
      obtain ⟨hpq, _, _⟩ := generalisesChars_dashes q e.2.binary hq.1 hp
      have hlq : q.length = n := by rw [generalisesChars_length q e.2.binary hq.1, hl]
      have hqmem := hcomplA q hlq hpq hcq
      rw [mem_binary_iff_enum] at hqmem
      obtain ⟨o, ho, hob⟩ := hqmem
      have hoall : o.2 ∈ all := mem_of_mem_enum all o ho
      have hne : o.1 ≠ e.1 := by
        intro hEq
        have h1 := List.mem_enum_iff_getElem?.mp ho
        have h2 := List.mem_enum_iff_getElem?.mp he
        rw [hEq, h2] at h1
        injection h1 with h1
        exact hq.2 (by rw [← hob, ← h1])
      have habs : absorbedBy M e o = true := by
        unfold absorbedBy
        simp only [Bool.and_eq_true, decide_eq_true_eq, List.all_eq_true]
        refine ⟨⟨hne, ?_⟩, ?_, ?_⟩
        · rw [hob]; exact (isMoreGeneral_iff q e.2.binary hp).mpr hq
        · obtain ⟨m, hm⟩ := List.exists_mem_of_ne_nil _ (List.length_pos.mp hcov)
          rw [List.mem_filter] at hm
          apply List.length_pos.mpr
          apply List.ne_nil_of_mem (a := m)
          rw [List.mem_filter]
          refine ⟨?_, hm.2⟩
          obtain ⟨hlt, hmatch⟩ := (hmin m).mp hm.1
          rw [((hsoundA o.2 hoall).2.2.2 m), hob]
          exact ⟨hlt, generalisesChars_match q e.2.binary _ hq.1 hmatch⟩
        · intro m hm
          rw [List.mem_filter] at hm ⊢
          refine ⟨?_, hm.2⟩
          obtain ⟨hlt, hmatch⟩ := (hmin m).mp hm.1
          rw [((hsoundA o.2 hoall).2.2.2 m), hob]
          exact ⟨hlt, generalisesChars_match q e.2.binary _ hq.1 hmatch⟩
      rw [hno o ho] at habs
      exact Bool.noConfusion habs
    have hmem := hcomplO e.2.binary hl hp hc hprimeT
    rw [List.mem_map] at hmem
    obtain ⟨t2, ht2, hb⟩ := hmem
    have : t2 = e.2 := List.inj_on_of_nodup_map hndA (hsub.subset ht2) het hb
    rw [← this]
    exact ht2
  · rintro ⟨hout, hcov⟩
    refine ⟨?_, hcov⟩
    rw [Bool.not_eq_true', List.any_eq_false]
    intro o ho habs
    unfold absorbedBy at habs
    simp only [Bool.and_eq_true, decide_eq_true_eq] at habs
    have hgen := (isMoreGeneral_iff o.2.binary e.2.binary hp).mp habs.1.2
    exact hsoundO e.2 hout _ hgen (hsoundA o.2 (mem_of_mem_enum all o ho)).2.2.1

/-- The final filters of the two single-function generators return the same list. -/
theorem collectPrimeAmong_eq (M : List Nat) (n : Nat) (U : List Nat) (all out : List Term)
    (hndA : (all.map Term.binary).Nodup)
    (hsoundA : ∀ t ∈ all, t.binary.length = n ∧ IsPat t.binary ∧ CubeIn n U t.binary ∧
      (∀ m, m ∈ t.minterms ↔ (m < 2 ^ n ∧ matchChars t.binary (bits n m) = true)))
    (hcomplA : ∀ p : List Char, p.length = n → IsPat p → CubeIn n U p →
      p ∈ all.map Term.binary)
    (hsub : out.Sublist all)
    (hsoundO : ∀ t ∈ out, ∀ q, IsGeneralisation q t.binary → ¬ CubeIn n U q)
    (hcomplO : ∀ p : List Char, p.length = n → IsPat p → CubeIn n U p →
      (∀ q, IsGeneralisation q p → ¬ CubeIn n U q) → p ∈ out.map Term.binary) :
    collectPrimeAmong M all = collectTruePIs M out := by
  have hkeep := absorbed_keep_iff M n U all out hndA hsoundA hcomplA hsub hsoundO hcomplO
  have hndO : (out.map Term.binary).Nodup := (hsub.map Term.binary).nodup hndA
  have hndAll : all.Nodup := List.Nodup.of_map Term.binary hndA
  rw [collectTruePIs_eq M out hndO]
  unfold collectPrimeAmong
  have hcongr : all.enum.filterMap (fun implicant =>
      let isPrime := !(all.enum.any (absorbedBy M implicant))
      let coveredMinterms := implicant.2.minterms.filter (fun m => decide (m ∈ M))
      if isPrime ∧ coveredMinterms.length > 0 then
        some (⟨implicant.2.binary, coveredMinterms⟩ : Implicant)
      else none) =
      all.enum.filterMap ((fun t : Term =>
        if (decide (t ∈ out) &&
            decide ((t.minterms.filter (fun m => decide (m ∈ M))).length > 0)) = true then
          some (⟨t.binary, t.minterms.filter (fun m => decide (m ∈ M))⟩ : Implicant)
        else none) ∘ Prod.snd) := by
    apply List.filterMap_congr
    intro e he
    simp only [Function.comp]
    by_cases h : e.2 ∈ out ∧ (e.2.minterms.filter (fun m => decide (m ∈ M))).length > 0
    · rw [if_pos ((hkeep e he).mpr h), if_pos (by simpa using h)]
    · rw [if_neg (fun h2 => h ((hkeep e he).mp h2)), if_neg (by simpa using h)]
  rw [hcongr, ← List.filterMap_map, List.enum_map_snd, filterMap_ite_eq_map_filter]
  congr 1
  apply sublist_eq_of_mem_iff all _ _ hndAll (List.filter_sublist _)
    ((List.filter_sublist _).trans hsub)
  intro t
  rw [List.mem_filter, List.mem_filter]
  simp only [Bool.and_eq_true, decide_eq_true_eq]
  constructor
  · rintro ⟨_, h1, h2⟩
    exact ⟨h1, h2⟩
  · rintro ⟨h1, h2⟩
    exact ⟨hsub.subset h1, h1, h2⟩

/-- The two single-function generators agree for at least one variable: on the levels of
terms that `parseInt` leaves unchanged, and for any list `T` of targets in the final
filter. -/
theorem generators_agree_pos (T M D : List Nat) (n : Nat) (hn : 1 ≤ n)
    (hM : ∀ m ∈ M, m < 2 ^ n ∧ m < 10 ^ 21) (hD : ∀ d ∈ D, d < 2 ^ n ∧ d < 10 ^ 21) :
    ∃ pis,
      (truePILoop (maxBinaryLength (initialLevel M n D) + 1) (initialLevel M n D) 0 []).map
          (collectTruePIs T) = some pis ∧
      (singleFunctionLoop (maxBinaryLength (initialLevel M n D) + 1) (initialLevel M n D) 0
          (initialLevel M n D)).map (collectPrimeAmong T) = some pis := by
  have hU : ∀ m ∈ M ++ D, m < 2 ^ n ∧ m < 10 ^ 21 := by
    intro m hm
    rcases List.mem_append.mp hm with h | h
    · exact hM m h
    · exact hD m h
  obtain ⟨levels, hlevels, hndL, hsoundL, hcomplL⟩ := allLevelsLoop_initial M D n hn hU
  obtain ⟨out, hout, _, hsoundO, hcomplO⟩ := truePILoop_initial M D n hn hU
  obtain ⟨X, Y, hX, hY, hsub⟩ := truePILoop_sublist _ _ 0 [] out [initialLevel M n D] levels
    hout hlevels
  obtain ⟨more, hr, hs⟩ := singleFunctionLoop_eq _ _ 0 [initialLevel M n D] levels
    (initialLevel M n D) hlevels
  have hall : initialLevel M n D ++ more.flatten = levels.flatten := by
    rw [hr]; simp
  have hsub2 : out.Sublist levels.flatten := by
    rw [hX, hY, List.nil_append]
    simpa using hsub
  refine ⟨collectTruePIs T out, ?_, ?_⟩
  · rw [hout, Option.map_some']
  · rw [hs, Option.map_some', hall]
    congr 1
    exact collectPrimeAmong_eq T n (M ++ D) levels.flatten out hndL
      (fun t ht => by
        obtain ⟨h1, h2, h3, h4, _⟩ := hsoundL t ht
        exact ⟨h1, h2, h3, h4⟩)
      hcomplL hsub2
      (fun t ht => (hsoundO t ht).2.2.2.1)
      hcomplO

/-- The earlier single-function generator without variables, on terms that are all 0. -/
theorem singleFunctionLoop_zero (T M D : List Nat) (hM : ∀ m ∈ M, m < 2 ^ 0)
    (hD : ∀ d ∈ D, d < 2 ^ 0) :
    (truePILoop (maxBinaryLength (initialLevel M 0 D) + 1) (initialLevel M 0 D) 0 []).map
        (collectTruePIs T) =
      (singleFunctionLoop (maxBinaryLength (initialLevel M 0 D) + 1) (initialLevel M 0 D) 0
        (initialLevel M 0 D)).map (collectPrimeAmong T) := by
  rw [initialLevel_zero M D hM hD]
  by_cases hU : M ++ D = []
  · rw [if_pos hU]
    rfl
  · rw [if_neg hU]
    have hloop : singleFunctionLoop (maxBinaryLength [(⟨['0'], [0], 0⟩ : Term)] + 1)
        [(⟨['0'], [0], 0⟩ : Term)] 0 [⟨['0'], [0], 0⟩] = some [⟨['0'], [0], 0⟩] := by decide
    have hloop2 : truePILoop (maxBinaryLength [(⟨['0'], [0], 0⟩ : Term)] + 1)
        [(⟨['0'], [0], 0⟩ : Term)] 0 [] = some [⟨['0'], [0], 0⟩] := by decide
    rw [hloop, hloop2, Option.map_some', Option.map_some']
    by_cases h0 : 0 ∈ T
    · simp [collectPrimeAmong, collectTruePIs, absorbedBy, h0, List.enum, List.enumFrom, setAdd]
    · simp [collectPrimeAmong, collectTruePIs, absorbedBy, h0, List.enum, List.enumFrom, setAdd]

/-- The two single-function generators agree on terms that `parseInt` leaves unchanged,
for any list `T` of targets in the final filter. -/
theorem generators_agree_of_lt (T M D : List Nat) (n : Nat)
    (hM : ∀ m ∈ M, m < 2 ^ n ∧ m < 10 ^ 21) (hD : ∀ d ∈ D, d < 2 ^ n ∧ d < 10 ^ 21) :
    ∃ pis,
      (truePILoop (maxBinaryLength (initialLevel M n D) + 1) (initialLevel M n D) 0 []).map
          (collectTruePIs T) = some pis ∧
      (singleFunctionLoop (maxBinaryLength (initialLevel M n D) + 1) (initialLevel M n D) 0
          (initialLevel M n D)).map (collectPrimeAmong T) = some pis := by
  rcases Nat.eq_zero_or_pos n with h0 | hpos
  · subst h0
    have hM0 : ∀ m ∈ M, m < 2 ^ 0 := fun m hm => (hM m hm).1
    have hD0 : ∀ d ∈ D, d < 2 ^ 0 := fun d hd => (hD d hd).1
    have heq := singleFunctionLoop_zero T M D hM0 hD0
    have hsome : ∃ out, truePILoop (maxBinaryLength (initialLevel M 0 D) + 1)
        (initialLevel M 0 D) 0 [] = some out := by
      rw [initialLevel_zero M D hM0 hD0]
      by_cases hU : M ++ D = []
      · rw [if_pos hU]; exact ⟨_, rfl⟩
      · rw [if_neg hU]; exact ⟨[⟨['0'], [0], 0⟩], by decide⟩
    obtain ⟨out, hout⟩ := hsome
    refine ⟨collectTruePIs T out, ?_, ?_⟩
    · rw [hout, Option.map_some']
    · rw [← heq, hout, Option.map_some']
  · exact generators_agree_pos T M D n hpos hM hD

/-- C37 (the earlier and the current single-function generator agree): for every number
of variables `n` and all targets and don't-cares below `2^n`, both
`generateTruePrimeImplicantsForSingleFunction(M, n, D)` and
`generateOnlyTruePrimeImplicants(M, n, D)` return a list, and it is the same list of
`{pattern, minterms}` entries in the same order. -/
theorem single_function_generators_agree (M D : List Nat) (n : Nat)
    (hM : ∀ m ∈ M, m < 2 ^ n) (hD : ∀ d ∈ D, d < 2 ^ n) :
    ∃ pis, generateOnlyTruePrimeImplicants M n D = some pis ∧
      generateTruePrimeImplicantsForSingleFunction M n D = some pis := by
  unfold generateOnlyTruePrimeImplicants generateTruePrimeImplicantsForSingleFunction
  simp only []
  rw [initialLevel_parse M D n]
  exact generators_agree_of_lt M (M.map parseDecimal) (D.map parseDecimal) n
    (map_parseDecimal_range M n hM) (map_parseDecimal_range D n hD)

/-- Instance of C37 for two variables: targets 1 and 3, don't-care 0. -/
theorem single_function_generators_agree_witness :
    (∀ m ∈ demoTargets, m < 2 ^ 2) ∧ (∀ d ∈ [0], d < 2 ^ 2) ∧
    ∃ pis, generateOnlyTruePrimeImplicants demoTargets 2 [0] = some pis ∧
      generateTruePrimeImplicantsForSingleFunction demoTargets 2 [0] = some pis :=
  ⟨by decide, by decide,
    single_function_generators_agree demoTargets [0] 2 (by decide) (by decide)⟩

/-! ## The strings built by `convertPatternToMinterms` -/

theorem binaryValue_append_singleton (s : List Char) (c : Char) :
    binaryValue (s ++ [c]) = 2 * binaryValue s + (if c = '1' then 1 else 0) := by
  unfold binaryValue
  rw [List.foldl_append]
  rfl

/-- The fixed-width expansion of an integer denotes the integer. -/
theorem binaryValue_bits (n : Nat) : ∀ m, m < 2 ^ n → binaryValue (bits n m) = m := by
  induction n with
  | zero =>
    intro m hm
    have : m = 0 := by simpa using hm
    subst this
    rfl
  | succ n ih =>
    intro m hm
    have hlt : m < 2 * 2 ^ n := by rw [pow_succ] at hm; omega
    rw [bits, binaryValue_append_singleton, ih (m / 2) (Nat.div_lt_of_lt_mul hlt)]
    rcases Nat.mod_two_eq_zero_or_one m with h | h
    · simp only [h]
      simp only [Nat.zero_ne_one, if_false]
      have : ('0' : Char) ≠ '1' := by decide
      rw [if_neg this]
      omega
    · simp only [h, if_true]
      omega

/-- A binary string is the fixed-width expansion of the integer it denotes. -/
theorem bits_binaryValue (s : List Char) (hs : IsBin s) :
    binaryValue s < 2 ^ s.length ∧ bits s.length (binaryValue s) = s := by
  obtain ⟨m, hm, hb⟩ := bits_surjective s hs
  have : binaryValue s = m := by
    conv_lhs => rw [← hb]
    exact binaryValue_bits s.length m hm
  rw [this]
  exact ⟨hm, hb⟩

theorem foldl_binaryValue_zeros (s : List Char) :
    binaryValue (s.dropWhile (fun c => decide (c = '0'))) = binaryValue s := by
  induction s with
  | nil => rfl
  | cons c t ih =>
    rw [List.dropWhile_cons]
    by_cases hc : c = '0'
    · rw [if_pos (by simpa using hc), ih]
      subst hc
      unfold binaryValue
      rw [List.foldl_cons]
      rfl
    · rw [if_neg (by simpa using hc)]

/-- On at most 53 digits `parseInt` is exact. -/
theorem parseBinary_of_short (s : List Char) (h : s.length ≤ 53) :
    parseBinary s = binaryValue s := by
  have hlen : (s.dropWhile (fun c => decide (c = '0'))).length ≤ 53 :=
    le_trans (List.dropWhile_sublist _).length_le h
  unfold parseBinary
  simp only []
  rw [List.drop_eq_nil_of_le hlen, List.take_of_length_le hlen]
  simp only [List.length_nil, if_true]
  exact foldl_binaryValue_zeros s

theorem replaceAt_append (pre t : List Char) (c b : Char) :
    replaceAt (pre ++ c :: t) pre.length b = pre ++ b :: t := by
  unfold replaceAt
  rw [List.take_left, List.drop_append]
  simp

/-- The fold of `fillPattern` over the free positions of the rest of the pattern fills
them from left to right. -/
theorem foldl_replaceAt (combo : Nat) (p : List Char) :
    ∀ (pre : List Char) (i : Nat),
      ((((p.enumFrom pre.length).filter (fun e => decide (e.2 = '-'))).map Prod.fst).enumFrom
          i).foldl
        (fun binaryStr e => replaceAt binaryStr e.2 (comboBit combo e.1)) (pre ++ p) =
      pre ++ fillDashes (comboBit combo) i p := by
  induction p with
  | nil => intro pre i; simp [fillDashes]
  | cons c t ih =>
    intro pre i
    rw [List.enumFrom_cons, List.filter_cons]
    by_cases hc : c = '-'
    · subst hc
      have hlen : (pre ++ [comboBit combo i]).length = pre.length + 1 := by simp
      rw [if_pos (by simp), List.map_cons, List.enumFrom_cons, List.foldl_cons]
      simp only []
      rw [replaceAt_append, fillDashes, if_pos rfl]
      have h := ih (pre ++ [comboBit combo i]) (i + 1)
      rw [hlen] at h
      simp only [List.append_assoc, List.singleton_append] at h
      exact h
    · rw [if_neg (by simpa using hc), fillDashes, if_neg hc]
      have hlen : (pre ++ [c]).length = pre.length + 1 := by simp
      have h := ih (pre ++ [c]) i
      rw [hlen] at h
      simp only [List.append_assoc, List.singleton_append] at h
      exact h

/-- The string that `convertPatternToMinterms` builds for one `combo`. -/
theorem fillPattern_eq (p : List Char) (combo : Nat) :
    fillPattern p ((p.enum.filter (fun e => decide (e.2 = '-'))).map Prod.fst) combo =
      fillDashes (comboBit combo) 0 p := by
  unfold fillPattern
  have h := foldl_replaceAt combo p [] 0
  simpa [List.enum] using h

/-! ## Filling the free positions of a pattern -/

theorem fillDashes_cons (bit : Nat → Char) (i : Nat) (c : Char) (t : List Char) :
    fillDashes bit i (c :: t) =
      if c = '-' then bit i :: fillDashes bit (i + 1) t else c :: fillDashes bit i t := by
  rw [fillDashes]

theorem length_fillDashes (bit : Nat → Char) (p : List Char) :
    ∀ i, (fillDashes bit i p).length = p.length := by
  induction p with
  | nil => intro i; rfl
  | cons c t ih =>
    intro i
    rw [fillDashes_cons]
    split_ifs <;> simp [ih]

theorem isBin_fillDashes (bit : Nat → Char) (hbit : ∀ j, bit j = '0' ∨ bit j = '1')
    (p : List Char) (hp : IsPat p) : ∀ i, IsBin (fillDashes bit i p) := by
  induction p with
  | nil => intro i x hx; simp [fillDashes] at hx
  | cons c t ih =>
    intro i
    rw [isPat_cons] at hp
    rw [fillDashes_cons]
    split_ifs with hc
    · rw [isBin_cons]; exact ⟨hbit i, ih hp.2 (i + 1)⟩
    · rw [isBin_cons]
      refine ⟨?_, ih hp.2 i⟩
      rcases hp.1 with h | h | h
      · exact Or.inl h
      · exact Or.inr h
      · exact absurd h hc

theorem matchChars_fillDashes (bit : Nat → Char) (p : List Char) :
    ∀ i, matchChars p (fillDashes bit i p) = true := by
  induction p with
  | nil => intro i; rfl
  | cons c t ih =>
    intro i
    rw [fillDashes_cons]
    split_ifs with hc
    · rw [matchChars_cons_cons]; exact ⟨Or.inl hc, ih (i + 1)⟩
    · rw [matchChars_cons_cons]; exact ⟨Or.inr rfl, ih i⟩

/-- Only the digits for the free positions matter. -/
theorem fillDashes_congr (f g : Nat → Char) (p : List Char) :
    ∀ i, (∀ j, j < dashes p → f (i + j) = g (i + j)) →
      fillDashes f i p = fillDashes g i p := by
  induction p with
  | nil => intro i _; rfl
  | cons c t ih =>
    intro i h
    rw [dashes_cons] at h
    rw [fillDashes_cons, fillDashes_cons]
    by_cases hc : c = '-'
    · rw [if_pos hc] at h
      rw [if_pos hc, if_pos hc]
      have h0 := h 0 (by omega)
      rw [Nat.add_zero] at h0
      rw [h0, ih (i + 1) (fun j hj => by
        have := h (j + 1) (by omega)
        rw [Nat.add_assoc, Nat.add_comm 1 j]
        exact this)]
    · rw [if_neg hc] at h
      rw [if_neg hc, if_neg hc, ih i (fun j hj => h j (by omega))]

/-- Equal fillings come from equal digits at the free positions. -/
theorem fillDashes_inj (f g : Nat → Char) (p : List Char) :
    ∀ i, fillDashes f i p = fillDashes g i p →
      ∀ j, j < dashes p → f (i + j) = g (i + j) := by
  induction p with
  | nil => intro i _ j hj; simp [dashes] at hj
  | cons c t ih =>
    intro i h j hj
    rw [dashes_cons] at hj
    rw [fillDashes_cons, fillDashes_cons] at h
    by_cases hc : c = '-'
    · rw [if_pos hc] at hj
      rw [if_pos hc, if_pos hc] at h
      injection h with h1 h2
      cases j with
      | zero => rw [Nat.add_zero]; exact h1
      | succ j =>
        have := ih (i + 1) h2 j (by omega)
        rw [Nat.add_assoc, Nat.add_comm 1 j] at this
        exact this
    · rw [if_neg hc] at hj
      rw [if_neg hc, if_neg hc] at h
      injection h with _ h2
      exact ih i h2 j (by omega)

/-- Every binary string that matches a pattern is a filling of the pattern, by the digits
of a number below `2^k` for `k` free positions. -/
theorem exists_fill (p : List Char) (hp : IsPat p) :
    ∀ s : List Char, IsBin s → s.length = p.length → matchChars p s = true →
      ∃ c, c < 2 ^ dashes p ∧ ∀ (bit : Nat → Char) (i : Nat),
        (∀ j, j < dashes p → bit (i + j) = if Nat.testBit c j then '1' else '0') →
        fillDashes bit i p = s := by
  induction p with
  | nil =>
    intro s _ hl _
    have : s = [] := List.length_eq_zero.mp hl
    subst this
    exact ⟨0, by simp [dashes], fun _ _ _ => rfl⟩
  | cons a t ih =>
    intro s hs hl hm
    rw [isPat_cons] at hp
    cases s with
    | nil => simp at hl
    | cons x s =>
      rw [isBin_cons] at hs
      rw [matchChars_cons_cons] at hm
      have hl2 : s.length = t.length := by simpa using hl
      obtain ⟨c, hc, hfill⟩ := ih hp.2 s hs.2 hl2 hm.2
      by_cases ha : a = '-'
      · refine ⟨2 * c + (if x = '1' then 1 else 0), ?_, ?_⟩
        · rw [dashes_cons, if_pos ha, pow_succ]
          split_ifs <;> omega
        · intro bit i hbit
          rw [dashes_cons, if_pos ha] at hbit
          rw [fillDashes_cons, if_pos ha]
          have h0 := hbit 0 (by omega)
          rw [Nat.add_zero, Nat.testBit_zero] at h0
          have hx : bit i = x := by
            rw [h0]
            rcases hs.1 with hx | hx
            · subst hx; simp
            · subst hx; simp; omega
          rw [hx]
          congr 1
          apply hfill bit (i + 1)
          intro j hj
          have := hbit (j + 1) (by omega)
          rw [Nat.testBit_succ] at this
          have hdiv : (2 * c + (if x = '1' then 1 else 0)) / 2 = c := by
            split_ifs <;> omega
          rw [hdiv] at this
          rw [Nat.add_assoc, Nat.add_comm 1 j]
          exact this
      · refine ⟨c, by rw [dashes_cons, if_neg ha]; simpa using hc, ?_⟩
        intro bit i hbit
        rw [dashes_cons, if_neg ha] at hbit
        rw [fillDashes_cons, if_neg ha]
        have hax : a = x := by
          rcases hm.1 with h | h
          · exact absurd h ha
          · exact h
        rw [hax]
        congr 1
        exact hfill bit i (fun j hj => hbit j (by omega))

/-! ## The list returned by `convertPatternToMinterms` -/

theorem length_dashPositions (p : List Char) (s : Nat) :
    (((p.enumFrom s).filter (fun e => decide (e.2 = '-'))).map Prod.fst).length = dashes p := by
  induction p generalizing s with
  | nil => rfl
  | cons c t ih =>
    rw [List.enumFrom_cons, List.filter_cons, dashes_cons]
    by_cases hc : c = '-'
    · rw [if_pos (by simpa using hc), if_pos hc, List.map_cons, List.length_cons, ih]
    · rw [if_neg (by simpa using hc), if_neg hc, ih]; rfl

theorem comboBit_eq (c j : Nat) (hc : c < 2 ^ 32) (hj : j < 32) :
    comboBit c j = if Nat.testBit c j then '1' else '0' := by
  unfold comboBit
  rw [bitSelected_eq_testBit c j hc hj]

theorem comboBit_bin (c j : Nat) : comboBit c j = '0' ∨ comboBit c j = '1' := by
  unfold comboBit
  split_ifs
  · exact Or.inr rfl
  · exact Or.inl rfl

/-- For a pattern over `0`, `1`, `-` of 1 to 53 characters with fewer than 32 free
positions, `convertPatternToMinterms` returns the ascending list of the integers that match
the pattern. -/
theorem convertPatternToMinterms_eq (p : List Char) (hp : IsPat p) (hne : p ≠ [])
    (hd : dashes p < 32) (h53 : p.length ≤ 53) :
    convertPatternToMinterms p = some (cubeMinterms p.length p) := by
  have hlenpos : ((p.enum.filter (fun e => decide (e.2 = '-'))).map Prod.fst).length =
      dashes p := length_dashPositions p 0
  unfold convertPatternToMinterms
  simp only []
  rw [hlenpos, if_neg (by
    intro h
    rcases h with h | h
    · omega
    · exact hne h)]
  congr 1
  have hfun : (fun combo => parseBinary (fillPattern p
      ((p.enum.filter (fun e => decide (e.2 = '-'))).map Prod.fst) combo)) =
      (fun combo => binaryValue (fillDashes (comboBit combo) 0 p)) := by
    funext combo
    rw [fillPattern_eq, parseBinary_of_short _ (by rw [length_fillDashes]; exact h53)]
  rw [hfun]
  have hpow : 2 ^ dashes p ≤ 2 ^ 32 := Nat.pow_le_pow_right (by decide) (by omega)
  have hbin : ∀ combo, IsBin (fillDashes (comboBit combo) 0 p) :=
    fun combo => isBin_fillDashes _ (comboBit_bin combo) p hp 0
  have hlen : ∀ combo, (fillDashes (comboBit combo) 0 p).length = p.length :=
    fun combo => length_fillDashes _ p 0
  apply eq_cubeMinterms
  · apply nodup_sortNumeric
    apply List.Nodup.map_on _ (List.nodup_range _)
    intro c1 h1 c2 h2 hEq
    rw [List.mem_range] at h1 h2
    have hs : fillDashes (comboBit c1) 0 p = fillDashes (comboBit c2) 0 p := by
      have e1 := (bits_binaryValue _ (hbin c1)).2
      have e2 := (bits_binaryValue _ (hbin c2)).2
      rw [hlen] at e1 e2
      rw [← e1, ← e2, hEq]
    have hbits := fillDashes_inj _ _ p 0 hs
    apply Nat.eq_of_testBit_eq
    intro j
    by_cases hj : j < dashes p
    · have := hbits j hj
      rw [Nat.zero_add, comboBit_eq c1 j (by omega) (by omega),
        comboBit_eq c2 j (by omega) (by omega)] at this
      by_cases t1 : Nat.testBit c1 j = true <;> by_cases t2 : Nat.testBit c2 j = true
      · rw [t1, t2]
      · rw [if_pos t1, if_neg t2] at this; exact absurd this (by decide)
      · rw [if_neg t1, if_pos t2] at this; exact absurd this (by decide)
      · rw [Bool.not_eq_true] at t1 t2; rw [t1, t2]
    · have hle : dashes p ≤ j := by omega
      have hp2 : 2 ^ dashes p ≤ 2 ^ j := Nat.pow_le_pow_right (by decide) hle
      rw [Nat.testBit_lt_two_pow (by omega), Nat.testBit_lt_two_pow (by omega)]
  · exact sorted_sortNumeric _
  · intro m
    rw [mem_sortNumeric, List.mem_map]
    constructor
    · rintro ⟨combo, _, rfl⟩
      obtain ⟨hlt, hb⟩ := bits_binaryValue _ (hbin combo)
      rw [hlen] at hlt hb
      refine ⟨hlt, ?_⟩
      rw [hb]
      exact matchChars_fillDashes _ p 0
    · rintro ⟨hlt, hmatch⟩
      obtain ⟨c, hc, hfill⟩ := exists_fill p hp (bits p.length m) (isBin_bits _ _)
        (length_bits _ _) hmatch
      refine ⟨c, List.mem_range.mpr hc, ?_⟩
      rw [hfill (comboBit c) 0 (fun j hj => by
        rw [Nat.zero_add]
        exact comboBit_eq c j (by omega) (by omega))]
      exact binaryValue_bits p.length m hlt

/-! ## Combination and the cubes of the operands -/

/-- Two patterns that combine and hold no dash where they differ have the same number of
dashes and match no common string. -/
theorem Combines.apart {b1 b2 c : List Char} (h : Combines b1 b2 c)
    (hdiff : ∀ i : Nat, b1[i]? ≠ b2[i]? → b1[i]? ≠ some '-' ∧ b2[i]? ≠ some '-') :
    dashes b1 = dashes b2 ∧
      ∀ s, matchChars b1 s = true → matchChars b2 s = true → False := by
  induction h with
  | here a b t hab =>
    have h0 := hdiff 0 (by simpa using hab)
    have ha : a ≠ '-' := by simpa using h0.1
    have hb : b ≠ '-' := by simpa using h0.2
    refine ⟨by rw [dashes_cons, dashes_cons, if_neg ha, if_neg hb], ?_⟩
    intro s h1 h2
    cases s with
    | nil =>
      rw [matchChars_nil_right_cons] at h1
      exact ha h1.1
    | cons x s =>
      rw [matchChars_cons_cons] at h1 h2
      rcases h1.1 with e1 | e1
      · exact ha e1
      · rcases h2.1 with e2 | e2
        · exact hb e2
        · exact hab (e1.trans e2.symm)
  | there a t1 t2 t _ ih =>
    obtain ⟨hd, hno⟩ := ih (fun i hi => by
      have := hdiff (i + 1) (by simpa using hi)
      simpa using this)
    refine ⟨by rw [dashes_cons, dashes_cons, hd], ?_⟩
    intro s h1 h2
    cases s with
    | nil =>
      rw [matchChars_nil_right_cons] at h1 h2
      exact hno [] h1.2 h2.2
    | cons x s =>
      rw [matchChars_cons_cons] at h1 h2
      exact hno s h1.2 h2.2

/-- C38 within the range of the Number type: for patterns `a`, `b` over `0`, `1`, `-` of
one length of at most 53 characters, with fewer than 31 dashes, that differ in exactly one
position `i`, holding `0` in one and `1` in the other, `combineBinaryTerms(a, b)` returns a
pattern `c`, the three calls of `convertPatternToMinterms` return lists, the list for `c`
is a rearrangement of the list for `a` followed by the list for `b`, these two lists have
no common element, and `isMoreGeneral(c, a)` and `isMoreGeneral(c, b)` hold. -/
theorem combine_unites_cubes (a b : List Char) (ha : IsPat a) (hb : IsPat b)
    (hlen : a.length = b.length) (h53 : a.length ≤ 53) (hd : dashes a < 31)
    (i : Nat) (hi : i < a.length)
    (hdiff : (a[i]? = some '0' ∧ b[i]? = some '1') ∨ (a[i]? = some '1' ∧ b[i]? = some '0'))
    (hsame : ∀ j : Nat, j ≠ i → a[j]? = b[j]?) :
    ∃ c A B C, combineBinaryTerms a b = some c ∧
      convertPatternToMinterms a = some A ∧ convertPatternToMinterms b = some B ∧
      convertPatternToMinterms c = some C ∧
      C.Perm (A ++ B) ∧ (∀ m ∈ A, m ∉ B) ∧
      isMoreGeneral c a = true ∧ isMoreGeneral c b = true := by
  have hne : a[i]? ≠ b[i]? := by
    rcases hdiff with ⟨h1, h2⟩ | ⟨h1, h2⟩ <;> rw [h1, h2] <;> decide
  have hcomb : Combines a b (a.set i '-') := exists_combines a b hlen i hi hne hsame
  have hdiffAll : ∀ j : Nat, a[j]? ≠ b[j]? → a[j]? ≠ some '-' ∧ b[j]? ≠ some '-' := by
    intro j hj
    by_cases hji : j = i
    · subst hji
      rcases hdiff with ⟨h1, h2⟩ | ⟨h1, h2⟩ <;> rw [h1, h2] <;> decide
    · exact absurd (hsame j hji) hj
  obtain ⟨hdeq, hdisj⟩ := hcomb.apart hdiffAll
  obtain ⟨hpc, hdc, _, hg1, hg2, hmatch⟩ := hcomb.spec ha hb hdeq
  have hlc : (a.set i '-').length = a.length := by simp
  have hane : a ≠ [] := by intro e; rw [e] at hi; simp at hi
  have hbne : b ≠ [] := by intro e; rw [e] at hlen; exact hane (List.length_eq_zero.mp hlen)
  have hcne : a.set i '-' ≠ [] := by
    intro e
    have := congrArg List.length e
    rw [hlc] at this
    exact hane (List.length_eq_zero.mp this)
  have hA := convertPatternToMinterms_eq a ha hane (by omega) h53
  have hB := convertPatternToMinterms_eq b hb hbne (by omega) (by omega)
  have hC := convertPatternToMinterms_eq (a.set i '-') hpc hcne (by omega) (by omega)
  rw [hlc] at hC
  rw [← hlen] at hB
  have hAB : ∀ m ∈ cubeMinterms a.length a, m ∉ cubeMinterms a.length b := by
    intro m hmA hmB
    rw [mem_cubeMinterms] at hmA hmB
    exact hdisj _ hmA.2 hmB.2
  refine ⟨a.set i '-', _, _, _, (combineBinaryTerms_eq_some a b _).mpr hcomb, hA, hB, hC,
    ?_, hAB, ?_, ?_⟩
  · rw [List.perm_ext_iff_of_nodup (cubeMinterms_sorted _ _).nodup
      (List.nodup_append.mpr ⟨(cubeMinterms_sorted _ _).nodup, (cubeMinterms_sorted _ _).nodup,
        fun m h1 h2 => hAB m h1 h2⟩)]
    intro m
    rw [List.mem_append, mem_cubeMinterms, mem_cubeMinterms, mem_cubeMinterms]
    constructor
    · rintro ⟨hlt, hm⟩
      rcases (hmatch _ (isBin_bits _ _) (by rw [length_bits, hlc])).mp hm with h | h
      · exact Or.inl ⟨hlt, h⟩
      · exact Or.inr ⟨hlt, h⟩
    · rintro (⟨hlt, h⟩ | ⟨hlt, h⟩)
      · exact ⟨hlt, (hmatch _ (isBin_bits _ _) (by rw [length_bits, hlc])).mpr (Or.inl h)⟩
      · exact ⟨hlt, (hmatch _ (isBin_bits _ _) (by rw [length_bits, hlc])).mpr (Or.inr h)⟩
  · rw [isMoreGeneral_iff _ a ha]
    exact ⟨hg1, fun e => by rw [e] at hdc; omega⟩
  · rw [isMoreGeneral_iff _ b hb]
    exact ⟨hg2, fun e => by rw [e] at hdc; omega⟩

/-- Instance of the amended C38: the patterns `0-0` and `0-1` combine to `0--`. -/
theorem combine_unites_cubes_witness :
    IsPat ['0', '-', '0'] ∧ IsPat ['0', '-', '1'] ∧
    ['0', '-', '0'].length = ['0', '-', '1'].length ∧ ['0', '-', '0'].length ≤ 53 ∧
    dashes ['0', '-', '0'] < 31 ∧ 2 < ['0', '-', '0'].length ∧
    ((['0', '-', '0'][2]? = some '0' ∧ ['0', '-', '1'][2]? = some '1') ∨
      (['0', '-', '0'][2]? = some '1' ∧ ['0', '-', '1'][2]? = some '0')) ∧
    (∀ j : Nat, j ≠ 2 → ['0', '-', '0'][j]? = ['0', '-', '1'][j]?) ∧
    ∃ c A B C, combineBinaryTerms ['0', '-', '0'] ['0', '-', '1'] = some c ∧
      convertPatternToMinterms ['0', '-', '0'] = some A ∧
      convertPatternToMinterms ['0', '-', '1'] = some B ∧
      convertPatternToMinterms c = some C ∧
      C.Perm (A ++ B) ∧ (∀ m ∈ A, m ∉ B) ∧
      isMoreGeneral c ['0', '-', '0'] = true ∧ isMoreGeneral c ['0', '-', '1'] = true :=
  have hpa : IsPat ['0', '-', '0'] := by unfold IsPat; decide
  have hpb : IsPat ['0', '-', '1'] := by unfold IsPat; decide
  have hsame : ∀ j : Nat, j ≠ 2 → ['0', '-', '0'][j]? = ['0', '-', '1'][j]? := by
    intro j hj
    match j with
    | 0 => rfl
    | 1 => rfl
    | 2 => exact absurd rfl hj
    | j + 3 => rfl
  ⟨hpa, hpb, by decide, by decide, by decide, by decide, by decide, hsame,
    combine_unites_cubes ['0', '-', '0'] ['0', '-', '1'] hpa hpb (by decide) (by decide)
      (by decide) 2 (by decide) (by decide) hsame⟩

set_option maxRecDepth 1000000 in
/-- Counterexample to C38, beyond 53 characters: the patterns of 54 characters for `2^53`
and `2^53 + 1` differ in the last position only, `0` against `1`, and
`convertPatternToMinterms` returns the same integer `2^53` for both, so the two lists are
not disjoint; and beyond 31 free positions: the patterns `0` and `1` followed by 31 dashes
combine to the pattern of 32 dashes, for which `convertPatternToMinterms` returns no
list. -/
theorem combine_cubes_overlap :
    longPatternEven.length = longPatternOdd.length ∧
    combineBinaryTerms longPatternEven longPatternOdd =
      some ('1' :: (List.replicate 52 '0' ++ ['-'])) ∧
    convertPatternToMinterms longPatternEven = some [9007199254740992] ∧
    convertPatternToMinterms longPatternOdd = some [9007199254740992] ∧
    convertPatternToMinterms ('1' :: (List.replicate 52 '0' ++ ['-'])) =
      some [9007199254740992, 9007199254740992] ∧
    combineBinaryTerms wideCubeZero wideCubeOne = some (List.replicate 32 '-') ∧
    convertPatternToMinterms (List.replicate 32 '-') = none := by
  decide

/-! ## Terms from 1e21 on -/

theorem exponentTerm_lt : exponentTerm < 2 ^ 70 := by decide

/-- The integers below `2^70` that match the binary expansion of 1e21 are 1e21 alone. -/
theorem exponentTerm_cube :
    ∀ m, m < 2 ^ 70 → matchesPattern (toBinary exponentTerm 70) m 70 = true →
      m ∈ [exponentTerm] := by
  intro m hm hmatch
  rw [matchesPattern_eq_bits _ m 70 hm (by decide),
    toBinary_eq_bits exponentTerm 70 exponentTerm_lt (by decide)] at hmatch
  have := matchChars_bin_eq (bits 70 exponentTerm) (bits 70 m) (isBin_bits 70 exponentTerm)
    (by rw [length_bits, length_bits]) hmatch
  rw [← bits_injective 70 exponentTerm m exponentTerm_lt hm this]
  exact List.mem_singleton.mpr rfl

set_option maxRecDepth 100000 in
/-- The binary expansion of 1e21 is a prime implicant of the function of 70 variables with
the single target 1e21. -/
theorem exponentTerm_prime :
    IsPrimeImplicantOf (toBinary exponentTerm 70) 70 [exponentTerm] [] :=
  (isPrimeImplicantOf_cube_iff (toBinary exponentTerm 70) (toBinary exponentTerm 70) 70
    [exponentTerm] (by decide) (by unfold IsPat; decide) (by decide) (by decide) (by decide)
    exponentTerm_cube).mpr rfl

set_option maxRecDepth 100000 in
/-- The pattern of 69 zeros and a dash matches 1, which is neither the target 0 nor the
don't-care 1e21. -/
theorem not_implicant_of_parsed_dontCare :
    ¬ IsImplicantOf (List.replicate 69 '0' ++ ['-']) 70 [0] [exponentTerm] := by
  intro h
  have h1 := h 1 (by decide) (by decide)
  revert h1
  decide

set_option maxRecDepth 100000 in
/-- C1 outside the bound, with 70 variables.  For the target 1e21, which is below `2^70`,
the only solution holds the PI of 69 zeros and a one with the minterm 1: the target matches
no pattern of the solution, and 1 matches one without being a target.  For the target 0 and
the don't-care 1e21 the only solution holds the PI of 69 zeros and a dash, which matches 1,
neither a target nor a don't-care. -/
theorem executeMultipleOutput_single_outside_bounds :
    (exponentTerm < 2 ^ 70 ∧
      (executeMultipleOutput [] [(['F'], [exponentTerm])] 70 []).map
          (fun r => r.1.allSolutions) =
        some [⟨[⟨toBinary 1 70, [1], 71⟩], 71⟩] ∧
      matchesPattern (toBinary 1 70) exponentTerm 70 = false ∧
      matchesPattern (toBinary 1 70) 1 70 = true ∧ 1 ∉ [exponentTerm]) ∧
    ((executeMultipleOutput [] [(['F'], [0])] 70 [exponentTerm]).map
          (fun r => r.1.allSolutions) =
        some [⟨[⟨List.replicate 69 '0' ++ ['-'], [0], 70⟩], 70⟩] ∧
      matchesPattern (List.replicate 69 '0' ++ ['-']) 1 70 = true ∧
      1 ∉ [0] ∧ 1 ∉ [exponentTerm]) := by
  refine ⟨⟨by decide, by decide, by decide, by decide, by decide⟩,
    ⟨by decide, by decide, by decide, by decide⟩⟩

set_option maxRecDepth 100000 in
/-- C3 outside the bounds.  Without variables the generator returns the pattern `0` of
length one and not the empty pattern, which is a prime implicant.  With 70 variables and
the target 1e21 it returns no PI, although the binary expansion of 1e21 is a prime
implicant that matches the target.  With 70 variables, the target 0 and the don't-care 1e21
it returns the pattern of 69 zeros and a dash, which is not an implicant. -/
theorem generateOnlyTruePrimeImplicants_outside_bounds :
    (generateOnlyTruePrimeImplicants [0] 0 [] = some [⟨['0'], [0]⟩] ∧
      ([] : List Char).length = 0 ∧
      IsPrimeImplicantOf [] 0 [0] [] ∧
      ([] : List Char) ∉ ([⟨['0'], [0]⟩] : List Implicant).map Implicant.pattern) ∧
    (exponentTerm < 2 ^ 70 ∧
      generateOnlyTruePrimeImplicants [exponentTerm] 70 [] = some [] ∧
      (toBinary exponentTerm 70).length = 70 ∧
      IsPrimeImplicantOf (toBinary exponentTerm 70) 70 [exponentTerm] []) ∧
    (generateOnlyTruePrimeImplicants [0] 70 [exponentTerm] =
        some [⟨List.replicate 69 '0' ++ ['-'], [0]⟩] ∧
      ¬ IsImplicantOf (List.replicate 69 '0' ++ ['-']) 70 [0] [exponentTerm]) :=
  ⟨generateOnlyTruePrimeImplicants_at_zero,
    ⟨by decide, by decide, by decide, exponentTerm_prime⟩,
    ⟨by decide, not_implicant_of_parsed_dontCare⟩⟩

set_option maxRecDepth 100000 in
/-- C4 at 70 variables and the target 1e21, which is below `2^70`: both generators return
no PI at all, so the target is in no minterms list. -/
theorem generators_miss_exponent_target :
    exponentTerm < 2 ^ 70 ∧
    generateOnlyTruePrimeImplicants [exponentTerm] 70 [] = some [] ∧
    generateQuineMcCluskeyPIs [exponentTerm] 70 [] = some [] ∧
    findTruePrimeImplicants [] [exponentTerm] = [] := by
  refine ⟨by decide, by decide, by decide, by decide⟩

set_option maxRecDepth 100000 in
/-- C16 outside the bounds.  Without variables the output holds the pattern `0` of length
one and not the empty pattern, which is an implicant that matches the target.  With 70
variables and the target 1e21 the output is empty, although the binary expansion of 1e21 is
an implicant that matches the target.  With 70 variables, the target 0 and the don't-care
1e21 the output holds the pattern of 69 zeros and a dash, which is not an implicant. -/
theorem findTruePrimeImplicants_outside_bounds :
    ((generateQuineMcCluskeyPIs [0] 0 []).map (fun all => findTruePrimeImplicants all [0]) =
        some [⟨['0'], [0]⟩] ∧
      ([] : List Char).length = 0 ∧
      IsImplicantOf [] 0 [0] [] ∧ (∃ m ∈ [0], matchesPattern [] m 0 = true) ∧
      ([] : List Char) ∉ ([⟨['0'], [0]⟩] : List Implicant).map Implicant.pattern) ∧
    (exponentTerm < 2 ^ 70 ∧
      (generateQuineMcCluskeyPIs [exponentTerm] 70 []).map
          (fun all => findTruePrimeImplicants all [exponentTerm]) = some [] ∧
      (toBinary exponentTerm 70).length = 70 ∧
      IsImplicantOf (toBinary exponentTerm 70) 70 [exponentTerm] [] ∧
      matchesPattern (toBinary exponentTerm 70) exponentTerm 70 = true) ∧
    ((generateQuineMcCluskeyPIs [0] 70 [exponentTerm]).map
          (fun all => (findTruePrimeImplicants all [0]).map Implicant.pattern) =
        some [toBinary 0 70, List.replicate 69 '0' ++ ['-']] ∧
      ¬ IsImplicantOf (List.replicate 69 '0' ++ ['-']) 70 [0] [exponentTerm]) :=
  ⟨findTruePrimeImplicants_at_zero,
    ⟨by decide, by decide, by decide, exponentTerm_prime.1, by decide⟩,
    ⟨by decide, not_implicant_of_parsed_dontCare⟩⟩

set_option maxRecDepth 100000 in
/-- C36 outside the bounds.  Without variables level 0 holds the pattern `0`, whose length
is one and not `n`.  With 70 variables and the target 1e21, or the don't-care 1e21, level 0
holds the term of 69 zeros and a one with the minterm 1, which is neither a target nor a
don't-care. -/
theorem generators_level_outside_bounds :
    ((∀ m ∈ [0], m < 2 ^ 0) ∧
      levelAt [0] 0 [] 0 = [⟨['0'], [0], 0⟩] ∧
      allLevelsLoop (maxBinaryLength (initialLevel [0] 0 []) + 1) (initialLevel [0] 0 []) 0
        [initialLevel [0] 0 []] = some [[⟨['0'], [0], 0⟩]] ∧
      singleFunctionLoop (maxBinaryLength (initialLevel [0] 0 []) + 1)
        (initialLevel [0] 0 []) 0 (initialLevel [0] 0 []) = some [⟨['0'], [0], 0⟩] ∧
      truePILoop (maxBinaryLength (initialLevel [0] 0 []) + 1) (initialLevel [0] 0 []) 0 [] =
        some [⟨['0'], [0], 0⟩] ∧
      (['0'] : List Char).length ≠ 0) ∧
    (exponentTerm < 2 ^ 70 ∧
      levelAt [exponentTerm] 70 [] 0 = [⟨toBinary 1 70, [1], 0⟩] ∧
      initialLevel [exponentTerm] 70 [] = [⟨toBinary 1 70, [1], 0⟩] ∧
      1 ∉ [exponentTerm] ++ []) ∧
    (levelAt [] 70 [exponentTerm] 0 = [⟨toBinary 1 70, [1], 0⟩] ∧
      initialLevel [] 70 [exponentTerm] = [⟨toBinary 1 70, [1], 0⟩] ∧
      1 ∉ [] ++ [exponentTerm]) :=
  ⟨generators_level_at_zero,
    ⟨by decide, by decide, by decide, by decide⟩, ⟨by decide, by decide, by decide⟩⟩

set_option maxRecDepth 100000 in
/-- C23 outside the bounds.  Without variables the registry holds no entry for the pattern
of length 0, and the joint solution and both functions hold the pattern `0` of length one.
With 70 variables and `p` the binary expansion of 1e21, which has no dash and is matched by
1e21 alone: the normalised map gives both functions the target 1, the registry holds no
entry for `p`, and both functions get the PI of 69 zeros and a one. -/
theorem executeMultipleOutput_twin_cube_outside_bounds :
    ((dashes [] ≤ 2 ∧ ∀ m, m < 2 ^ 0 → (m ∈ [0] ↔ matchesPattern [] m 0 = true)) ∧
      (generateAll 2 0 [] [(['F', '1'], [0]), (['F', '2'], [0])]).map
          (fun g => (registryGet (buildRegistry g) []).map RegistryEntry.usedBy) =
        some none ∧
      (generateAll 2 0 [] [(['F', '1'], [0]), (['F', '2'], [0])]).map
          (fun g => (solveJointPatrickMethod []
            (buildJointCoverageTable [(['F', '1'], [0]), (['F', '2'], [0])] (buildRegistry g))
            (buildRegistry g) [(['F', '1'], [0]), (['F', '2'], [0])]).1) =
        some [[['0']]] ∧
      (executeMultipleOutput [] [(['F', '1'], [0]), (['F', '2'], [0])] 0 []).map
          (fun r => r.1.solutions) =
        some [(['F', '1'], ⟨[⟨['0'], [0], 1⟩], 1⟩), (['F', '2'], ⟨[⟨['0'], [0], 1⟩], 1⟩)]) ∧
    ((toBinary exponentTerm 70).length = 70 ∧ dashes (toBinary exponentTerm 70) ≤ 2 ∧
      (∀ m ∈ [exponentTerm], m < 2 ^ 70 ∧
        matchesPattern (toBinary exponentTerm 70) m 70 = true) ∧
      (∀ m, m < 2 ^ 70 → matchesPattern (toBinary exponentTerm 70) m 70 = true →
        m ∈ [exponentTerm]) ∧
      normalizeMinterms exponentTwinFunctions = [(['F', '1'], [1]), (['F', '2'], [1])] ∧
      (generateAll 2 70 [] (normalizeMinterms exponentTwinFunctions)).map
          (fun g => (registryGet (buildRegistry g) (toBinary exponentTerm 70)).map
            RegistryEntry.usedBy) = some none ∧
      (executeMultipleOutput [] exponentTwinFunctions 70 []).map (fun r => r.1.solutions) =
        some [(['F', '1'], ⟨[⟨toBinary 1 70, [1], 71⟩], 71⟩),
          (['F', '2'], ⟨[⟨toBinary 1 70, [1], 71⟩], 71⟩)]) :=
  ⟨executeMultipleOutput_twin_cube_at_zero,
    ⟨by decide, by decide, by decide, exponentTerm_cube, by decide, by decide, by decide⟩⟩

end PatrickMethod
